import Mathlib

/-!
# Sparse sets of integers: a shallow embedding of `sparse_sets.h`

The header defines three sets over the integers `[0, size)`:
`bounded_set` (packed bitmap, live scanning cursor), `unordered_sparse_set`
(dense array plus a table of addresses into it) and `sparse_set` (packed
bitmap plus a lazily built ascending sequence).

Conventions of the embedding.
* `std::size_t` is the 64 bit unsigned type and `unsigned` the 32 bit one
  (`unsigned_bits = 64`, `unsigned_bits_log2 = 6`, mask `63`).  Values are
  natural numbers; where the source computes in a narrower type the
  reduction modulo `2 ^ 32` or `2 ^ 64` is written out.
* `std::vector` is a `List`.  An access outside the vector is undefined
  behaviour in the source; the embedded operation then returns `none`.
* An address `&m_dense[k]` is the slot number `k`, `nullptr` is `none`.
-/

namespace bits

/-- Table `bval` of `bits::lsb`: lowest set bit of a non-zero nibble. -/
def bval : List Nat := [0, 0, 1, 0, 2, 0, 1, 0, 3, 0, 1, 0, 2, 0, 1, 0]

/-- Table `bcount` of `bits::count_bits`: number of set bits of a nibble. -/
def bcount : List Nat := [0, 1, 1, 2, 1, 2, 2, 3, 1, 2, 2, 3, 2, 3, 3, 4]

/-- One `case` of the `switch` in `bits::lsb`: when the low `w` bits of `x`
are all zero, add `w` to `r` and shift `x` right by `w`. -/
def lsb_step (active : Bool) (mask w : Nat) (p : Nat × Nat) : Nat × Nat :=
  if active && (p.2 &&& mask == 0) then (p.1 + w, p.2 >>> w) else p

/-- `bits::lsb<T>(x)` for a type `T` of `sz = sizeof(T)` bytes.  The `switch`
falls through, so `case 8` runs all four steps, `case 4` the last three,
and so on; a size with no `case` label runs none. -/
def lsb (sz : Nat) (x : Nat) : Int :=
  if x = 0 then -1
  else
    let p0 : Nat × Nat := (0, x)
    let p1 := lsb_step (sz == 8) 0xFFFFFFFF 32 p0
    let p2 := lsb_step (sz == 8 || sz == 4) 0x0000FFFF 16 p1
    let p3 := lsb_step (sz == 8 || sz == 4 || sz == 2) 0x000000FF 8 p2
    let p4 := lsb_step (sz == 8 || sz == 4 || sz == 2 || sz == 1) 0x0000000F 4 p3
    (p4.1 : Int) + (bval.getD (p4.2 &&& 0xF) 0 : Nat)

/-- The `while (x != 0)` loop of `bits::count_bits`, with the running
`count`.  The first argument bounds the number of iterations; every
iteration makes `x` smaller, so `x` itself is always enough. -/
def count_bits_loop : Nat → Nat → Nat → Nat
  | 0, _, count => count
  | fuel + 1, x, count =>
    if x = 0 then count
    else count_bits_loop fuel (x >>> 4) ((count + bcount.getD (x &&& 0xF) 0) % 2 ^ 32)

/-- `bits::count_bits(x)`; the counter is an `unsigned`. -/
def count_bits (x : Nat) : Nat := count_bits_loop x x 0

end bits

/-- Conversion of the `int` returned by `bits::lsb` to `unsigned`. -/
def int_to_unsigned (v : Int) : Nat := (v % 2 ^ 32).toNat

/-- `static_cast<std::size_t>(-1)`. -/
def EmptyIndex : Nat := 2 ^ 64 - 1

/-- `std::numeric_limits<std::size_t>::digits`. -/
def unsigned_bits : Nat := 64

/-- The constant `unsigned_bits_log2` for 64 bit words. -/
def unsigned_bits_log2 : Nat := 6

/-- The constant `unsigned_bits_log2_mask`, `0xFFFFFFFF >> (32 - 6)`. -/
def unsigned_bits_log2_mask : Nat := 0xFFFFFFFF >>> (32 - unsigned_bits_log2)

/-- Bitwise complement of a `std::size_t`. -/
def bit_not (x : Nat) : Nat := (2 ^ 64 - 1) ^^^ x

/-- Number of bitmap words for the stored capacity `m_size`:
`(m_size + unsigned_bits - 1) / unsigned_bits`, evaluated in `unsigned`. -/
def word_count (m_size : Nat) : Nat :=
  ((m_size + unsigned_bits) % 2 ^ 32 + 2 ^ 32 - 1) % 2 ^ 32 / unsigned_bits

/-- `std::vector::resize` on a vector of words: truncate, or pad with `0`. -/
def vector_resize (v : List Nat) (n : Nat) : List Nat :=
  v.take n ++ List.replicate (n - v.length) 0

/-- Bit `p % 64` of word `p / 64` of a bitmap (`false` outside of it). -/
def bit_at (a : List Nat) (p : Nat) : Bool :=
  (a.getD (p / unsigned_bits) 0).testBit (p % unsigned_bits)

/-- All set bits of a bitmap as positions `64 * word + bit`, ascending. -/
def set_bits (a : List Nat) : List Nat :=
  (List.range (unsigned_bits * a.length)).filter (bit_at a)

/-- Class `bounded_set`: the 32 bit `m_size` and the bitmap `m_bit_array`. -/
structure bounded_set where
  m_size : Nat
  m_bit_array : List Nat
deriving DecidableEq, Repr

namespace bounded_set

/-- Constructor `bounded_set(std::size_t size)`. -/
def new (size : Nat) : bounded_set :=
  let m := size % 2 ^ 32
  { m_size := m, m_bit_array := List.replicate (word_count m) 0 }

/-- Member `resize(std::size_t size)`. -/
def resize (s : bounded_set) (size : Nat) : bounded_set :=
  let m := size % 2 ^ 32
  { m_size := m, m_bit_array := vector_resize s.m_bit_array (word_count m) }

/-- Member `insert(std::size_t i)`. -/
def insert (s : bounded_set) (i : Nat) : Option (bounded_set × Bool) :=
  match s.m_bit_array[i >>> unsigned_bits_log2]? with
  | none => none
  | some x =>
    let v := x ||| (1 <<< (i &&& unsigned_bits_log2_mask))
    some ({ s with m_bit_array := s.m_bit_array.set (i >>> unsigned_bits_log2) v }, x != v)

/-- Member `erase(std::size_t i)`. -/
def erase (s : bounded_set) (i : Nat) : Option bounded_set :=
  match s.m_bit_array[i >>> unsigned_bits_log2]? with
  | none => none
  | some x =>
    let v := x &&& bit_not (1 <<< (i &&& unsigned_bits_log2_mask))
    some { s with m_bit_array := s.m_bit_array.set (i >>> unsigned_bits_log2) v }

/-- Member `test(std::size_t i)`. -/
def test (s : bounded_set) (i : Nat) : Option Bool :=
  match s.m_bit_array[i >>> unsigned_bits_log2]? with
  | none => none
  | some x => some ((x >>> (i &&& unsigned_bits_log2_mask)) &&& 1 != 0)

/-- Member `empty()`. -/
def empty (s : bounded_set) : Bool :=
  s.m_bit_array.all (fun x => x == 0)

/-- Member `clear()`. -/
def clear (s : bounded_set) : bounded_set :=
  { s with m_bit_array := s.m_bit_array.map (fun _ => 0) }

/-- Member `size()`. -/
def size (s : bounded_set) : Nat := s.m_size

/-- Member `count()`; the accumulator is a `std::size_t`. -/
def count (s : bounded_set) : Nat :=
  s.m_bit_array.foldl (fun count x => (count + bits.count_bits x) % 2 ^ 64) 0

/-- Nested type `bounded_set::iterator`.  The pointer `m_bit_array` is the
vector it points into (`none` for `nullptr`). -/
structure iterator where
  m_size : Nat
  m_bit_array_size : Nat
  m_bit_array : Option (List Nat)
  m_slot_index : Nat
  m_current_slot : Nat
  m_bit_index : Nat
  m_last_bit : Nat
deriving DecidableEq, Repr

namespace iterator

/-- Read of `m_bit_array[k]` through the stored pointer. -/
def read (it : iterator) (k : Nat) : Option Nat :=
  match it.m_bit_array with
  | none => none
  | some a => a[k]?

/-- Private member `iterator::test()`. -/
def test (it : iterator) : Option Bool :=
  match it.read it.m_slot_index with
  | none => none
  | some w => some ((w >>> it.m_bit_index) &&& 1 != 0)

/-- The inner `while` of `iterator::next()`: load slots until a non-zero one
or the end of the bitmap.  The first argument bounds the iterations; the
caller passes the number of slots from `m_slot_index` on. -/
def next_skip : Nat → iterator → Option iterator
  | 0, it => some it
  | fuel + 1, it =>
    if it.m_slot_index < it.m_bit_array_size then
      match it.read it.m_slot_index with
      | none => none
      | some w =>
        if w = 0 then
          next_skip fuel { it with m_current_slot := w,
                                   m_slot_index := (it.m_slot_index + 1) % 2 ^ 64 }
        else some { it with m_current_slot := w }
    else some it

/-- The three assignments that turn a cursor into the end sentinel. -/
def to_end (it : iterator) : iterator :=
  { it with m_slot_index := EmptyIndex, m_bit_index := 0, m_current_slot := 0 }

/-- Tail of `iterator::next()`: skip to the lowest set bit of the current
slot value. -/
def to_lsb (it : iterator) : iterator :=
  let shift := int_to_unsigned (bits.lsb 8 it.m_current_slot)
  { it with m_current_slot := it.m_current_slot >>> shift,
            m_bit_index := (it.m_bit_index + shift) % 2 ^ 32 }

/-- Private member `iterator::next()`, with the cursor after the call. -/
def next (it0 : iterator) : Option (iterator × Bool) :=
  let it := { it0 with m_current_slot := it0.m_current_slot >>> 1 }
  if it.m_current_slot = 0 then
    let it := { it with m_bit_index := 0, m_slot_index := (it.m_slot_index + 1) % 2 ^ 64 }
    match next_skip (it.m_bit_array_size - it.m_slot_index) it with
    | none => none
    | some it =>
      if it.m_current_slot = 0 then some (to_end it, false)
      else some (to_lsb it, true)
  else
    let it := { it with m_bit_index := (it.m_bit_index + 1) % 2 ^ 32 }
    if it.m_slot_index = (it.m_bit_array_size + 2 ^ 64 - 1) % 2 ^ 64
        ∧ it.m_bit_index > it.m_last_bit then
      some (to_end it, false)
    else some (to_lsb it, true)

/-- Member initialisers shared by the two constructors that take a bitmap. -/
def init (size : Nat) (bit_array : List Nat) (slot bit : Nat) : iterator :=
  { m_size := size, m_bit_array_size := bit_array.length,
    m_bit_array := if size ≠ 0 then some bit_array else none,
    m_slot_index := slot, m_current_slot := 0, m_bit_index := bit,
    m_last_bit := ((size + 2 ^ 32 - 1) % 2 ^ 32) &&& unsigned_bits_log2_mask }

/-- Constructor `iterator(unsigned size, const std::vector<base_type>&)`. -/
def first (size : Nat) (bit_array : List Nat) : Option iterator :=
  let it := init size bit_array 0 0
  if size ≠ 0 then
    match it.read 0 with
    | none => none
    | some w =>
      let it := { it with m_current_slot := w }
      match it.test with
      | none => none
      | some true => some it
      | some false => (next it).map (fun r => r.1)
  else some it

/-- Private constructor `iterator(unsigned size, const std::vector<base_type>&,
std::size_t pos)`. -/
def at_pos (size : Nat) (bit_array : List Nat) (pos : Nat) : Option iterator :=
  let it := init size bit_array (pos >>> unsigned_bits_log2) (pos &&& unsigned_bits_log2_mask)
  let loaded : Option iterator :=
    if pos < size then
      match it.read it.m_slot_index with
      | none => none
      | some w => some { it with m_current_slot := w >>> it.m_bit_index }
    else some it
  match loaded with
  | none => none
  | some it =>
    match it.test with
    | none => none
    | some true => some it
    | some false => (next it).map (fun r => r.1)

/-- Default constructor `iterator()`, the end sentinel.  The source leaves
`m_bit_array_size` without an initial value; no comparison reads it. -/
def empty : iterator :=
  { m_size := 0, m_bit_array_size := 0, m_bit_array := none, m_slot_index := EmptyIndex,
    m_current_slot := 0, m_bit_index := 0, m_last_bit := 0 }

/-- The cursor standing on position `p` of the bitmap `a` of a set of stored
capacity `size`: slot `p / 64`, bit `p % 64`, and the slot value shifted
down to that bit. -/
def on_key (size : Nat) (a : List Nat) (p : Nat) : iterator :=
  { m_size := size, m_bit_array_size := a.length, m_bit_array := some a,
    m_slot_index := p / 64, m_current_slot := a.getD (p / 64) 0 >>> (p % 64),
    m_bit_index := p % 64,
    m_last_bit := ((size + 2 ^ 32 - 1) % 2 ^ 32) &&& unsigned_bits_log2_mask }

/-- The cursor `next()` leaves behind when it runs off the bitmap `a`. -/
def past_end (size : Nat) (a : List Nat) : iterator :=
  { m_size := size, m_bit_array_size := a.length, m_bit_array := some a,
    m_slot_index := EmptyIndex, m_current_slot := 0, m_bit_index := 0,
    m_last_bit := ((size + 2 ^ 32 - 1) % 2 ^ 32) &&& unsigned_bits_log2_mask }

/-- The cursor standing on the first element of an ascending list of
positions of the bitmap `a`, past the end when the list is empty. -/
def at_front (size : Nat) (a : List Nat) (l : List Nat) : iterator :=
  match l with
  | [] => past_end size a
  | q :: _ => on_key size a q

/-- Member `operator*()`; the result is an `unsigned`. -/
def deref (it : iterator) : Nat :=
  ((it.m_slot_index <<< unsigned_bits_log2) % 2 ^ 64 + it.m_bit_index) % 2 ^ 64 % 2 ^ 32

/-- Member `operator++()`. -/
def incr (it : iterator) : Option iterator := (next it).map (fun r => r.1)

/-- Member `operator==`. -/
def eq (x y : iterator) : Bool :=
  x.m_slot_index == y.m_slot_index && x.m_bit_index == y.m_bit_index

/-- Member `operator!=`. -/
def ne (x y : iterator) : Bool :=
  x.m_slot_index != y.m_slot_index || x.m_bit_index != y.m_bit_index

/-- The cursor after `n` applications of `operator++`. -/
def incr_n : Nat → iterator → Option iterator
  | 0, it => some it
  | n + 1, it => (incr it).bind (incr_n n)

/-- The driver loop `for (it = first; it != stop; ++it) use(*it)`: the keys
it visits, or `none` when `steps` increments do not reach `stop`. -/
def visit : Nat → iterator → iterator → Option (List Nat)
  | 0, it, stop => if ne it stop then none else some []
  | steps + 1, it, stop =>
    if ne it stop then
      match incr it with
      | none => none
      | some it1 => (visit steps it1 stop).map (fun l => deref it :: l)
    else some []

end iterator

/-- Member `begin()`. -/
def begin_ (s : bounded_set) : Option iterator := iterator.first s.m_size s.m_bit_array

/-- Member `end()`. -/
def end_ (_s : bounded_set) : iterator := iterator.empty

/-- Member `lower_bound(std::size_t i)`. -/
def lower_bound (s : bounded_set) (i : Nat) : Option iterator :=
  iterator.at_pos s.m_size s.m_bit_array i

/-- Member `upper_bound(std::size_t i)`. -/
def upper_bound (s : bounded_set) (i : Nat) : Option iterator :=
  if (i + 1) % 2 ^ 64 ≥ s.m_size then some iterator.empty
  else iterator.at_pos s.m_size s.m_bit_array ((i + 1) % 2 ^ 64)

/-- Member `find(unsigned i)`; the parameter is 32 bits wide. -/
def find (s : bounded_set) (i0 : Nat) : Option iterator :=
  let i := i0 % 2 ^ 32
  match test s i with
  | none => none
  | some true => iterator.at_pos s.m_size s.m_bit_array i
  | some false => some iterator.empty

/-- The keys visited by `for (it = begin(); it != end(); ++it)`. -/
def iterate (steps : Nat) (s : bounded_set) : Option (List Nat) :=
  match begin_ s with
  | none => none
  | some it => iterator.visit steps it (end_ s)

/-- States reachable from `bounded_set(N)` by `insert`, `erase` and `clear`
with keys below `N`. -/
inductive Reachable (N : Nat) : bounded_set → Prop
  | init : Reachable N (new N)
  | insert {s s1 : bounded_set} {i : Nat} {b : Bool} :
      Reachable N s → i < N → insert s i = some (s1, b) → Reachable N s1
  | erase {s s1 : bounded_set} {i : Nat} :
      Reachable N s → i < N → erase s i = some s1 → Reachable N s1
  | clear {s : bounded_set} : Reachable N s → Reachable N (clear s)

/-- A set of capacity `N`: `m_size` and the length of the bitmap are what the
constructor and `resize` make them for the argument `N`, and every word is a
`std::size_t` value. -/
def HasCapacity (N : Nat) (s : bounded_set) : Prop :=
  s.m_size = N % 2 ^ 32 ∧ s.m_bit_array.length = word_count s.m_size ∧
    ∀ w ∈ s.m_bit_array, w < 2 ^ 64

/-- The keys below `N` for which `test` answers `true`, ascending. -/
def members (N : Nat) (s : bounded_set) : List Nat :=
  (List.range N).filter (fun i => test s i == some true)

end bounded_set


/-- Class `unordered_sparse_set`.  `m_sparse[e]` is `nullptr` (`none`) or the
address of a slot of `m_dense` (`some slot`).  `m_dense_capacity` is the
storage `m_dense.reserve` has obtained: `push_back` on a full vector moves
the elements and leaves every stored address dangling. -/
structure unordered_sparse_set where
  m_sparse : List (Option Nat)
  m_dense : List Nat
  m_dense_capacity : Nat
deriving DecidableEq, Repr

namespace unordered_sparse_set

/-- Constructor `unordered_sparse_set(std::size_t size)`; `reserve(size)`
on the empty vector guarantees storage for `size` elements. -/
def new (size : Nat) : unordered_sparse_set :=
  { m_sparse := List.replicate size none, m_dense := [], m_dense_capacity := size }

/-- Member `resize(std::size_t size)`: `m_sparse.resize` keeps the entries
below `size` as they are, `reserve` enlarges the storage when needed and
`m_dense.clear()` drops every element. -/
def resize (s : unordered_sparse_set) (size : Nat) : unordered_sparse_set :=
  { m_sparse := s.m_sparse.take size ++ List.replicate (size - s.m_sparse.length) none,
    m_dense := [],
    m_dense_capacity := max s.m_dense_capacity size }

/-- Member `test(std::size_t i)`. -/
def test (s : unordered_sparse_set) (i : Nat) : Option Bool :=
  match s.m_sparse[i]? with
  | none => none
  | some p => some (p != none)

/-- Member `insert(std::size_t i)`.  When `m_dense` is full the `push_back`
reallocates, which the slot-number model of addresses cannot follow: the
embedding stops there with `none`. -/
def insert (s : unordered_sparse_set) (i : Nat) : Option (unordered_sparse_set × Bool) :=
  match s.m_sparse[i]? with
  | none => none
  | some (some _) => some (s, false)
  | some none =>
    if s.m_dense.length < s.m_dense_capacity then
      let dense := s.m_dense ++ [i]
      some ({ s with m_dense := dense,
                     m_sparse := s.m_sparse.set i (some (dense.length - 1)) }, true)
    else none

/-- Member `erase(std::size_t i)`. -/
def erase (s : unordered_sparse_set) (i : Nat) : Option unordered_sparse_set :=
  match s.m_sparse[i]? with
  | none => none
  | some none => some s
  | some (some v) =>
    match s.m_dense.getLast?, s.m_dense[v]? with
    | some p_index, some at_v =>
      if at_v ≠ p_index then
        if p_index < s.m_sparse.length then
          some { s with m_dense := (s.m_dense.set v p_index).dropLast,
                        m_sparse := ((s.m_sparse.set p_index (some v)).set i none) }
        else none
      else
        some { s with m_dense := s.m_dense.dropLast, m_sparse := s.m_sparse.set i none }
    | _, _ => none

/-- Member `clear()`. -/
def clear (s : unordered_sparse_set) : unordered_sparse_set :=
  { s with m_sparse := s.m_sparse.map (fun _ => none), m_dense := [] }

/-- Member `size()`. -/
def size (s : unordered_sparse_set) : Nat := s.m_sparse.length

/-- Member `count()`. -/
def count (s : unordered_sparse_set) : Nat := s.m_dense.length

/-- Member `empty()`. -/
def empty (s : unordered_sparse_set) : Bool := s.m_dense.isEmpty

/-- The elements between `begin()` and `end()`: the iterators are those of
`m_dense`. -/
def iterate (s : unordered_sparse_set) : List Nat := s.m_dense

/-- Back-reference consistency for capacity `N`: the table has `N` entries,
`m_dense` has storage for `N` elements, every stored address is the slot
holding that key, and every slot holds a key whose entry is its address. -/
def Consistent (N : Nat) (s : unordered_sparse_set) : Prop :=
  s.m_sparse.length = N ∧ N ≤ s.m_dense_capacity ∧
  (∀ e slot : Nat, s.m_sparse[e]? = some (some slot) → s.m_dense[slot]? = some e) ∧
  (∀ slot e : Nat, s.m_dense[slot]? = some e → s.m_sparse[e]? = some (some slot))

/-- States reachable from `unordered_sparse_set(N)` by `insert`, `erase` and
`clear` with keys below `N`. -/
inductive Reachable (N : Nat) : unordered_sparse_set → Prop
  | init : Reachable N (new N)
  | insert {s s1 : unordered_sparse_set} {i : Nat} {b : Bool} :
      Reachable N s → i < N → insert s i = some (s1, b) → Reachable N s1
  | erase {s s1 : unordered_sparse_set} {i : Nat} :
      Reachable N s → i < N → erase s i = some s1 → Reachable N s1
  | clear {s : unordered_sparse_set} : Reachable N s → Reachable N (clear s)

end unordered_sparse_set

/-- Class `sparse_set`: bitmap, cached sequence `m_sequence` and the flag
`m_iterator_present`. -/
structure sparse_set where
  m_size : Nat
  m_bit_array : List Nat
  m_sequence : List Nat
  m_iterator_present : Bool
deriving DecidableEq, Repr

namespace sparse_set

/-- The `do ... while (true)` of `create_iteration_sequence` on one non-zero
word `x`, `bit` being the `unsigned` position counter.  The first argument
bounds the iterations (`x` shrinks every time round); `none` when it is
used up, which is also where the source would shift by `lsb(0)`. -/
def emit_word : Nat → Nat → Nat → List Nat → Option (List Nat)
  | 0, _, _, _ => none
  | fuel + 1, x, bit, seq =>
    let p := int_to_unsigned (bits.lsb 8 x)
    let bit := (bit + p) % 2 ^ 32
    let x := x >>> p
    let seq := seq ++ [bit]
    if x = 1 then some seq
    else emit_word fuel (x >>> 1) ((bit + 1) % 2 ^ 32) seq

/-- The `for (auto x : m_bit_array)` of `create_iteration_sequence`, from
the word at position counter `k` on. -/
def emit_words : List Nat → Nat → List Nat → Option (List Nat)
  | [], _, seq => some seq
  | x :: rest, k, seq =>
    let here := if x ≠ 0 then emit_word x x (k % 2 ^ 32) seq else some seq
    match here with
    | none => none
    | some seq1 => emit_words rest ((k + unsigned_bits) % 2 ^ 64) seq1

/-- Private member `create_iteration_sequence()`; the `reserve` changes no
element.  Elements are appended to whatever `m_sequence` holds. -/
def create_iteration_sequence (s : sparse_set) : Option sparse_set :=
  match emit_words s.m_bit_array 0 s.m_sequence with
  | none => none
  | some seq => some { s with m_sequence := seq }

/-- Constructor `sparse_set(std::size_t size)`. -/
def new (size : Nat) : sparse_set :=
  let m := size % 2 ^ 32
  { m_size := m, m_bit_array := List.replicate (word_count m) 0, m_sequence := [],
    m_iterator_present := false }

/-- The block `if (m_iterator_present) { m_iterator_present = false;
m_sequence.clear(); }` shared by the mutating members. -/
def drop_sequence (s : sparse_set) : sparse_set :=
  if s.m_iterator_present then { s with m_iterator_present := false, m_sequence := [] } else s

/-- Member `swap(sparse_set& s)`: the two objects after the call. -/
def swap (a b : sparse_set) : sparse_set × sparse_set := (b, a)

/-- Member `resize(std::size_t size)`. -/
def resize (s : sparse_set) (size : Nat) : sparse_set :=
  let m := size % 2 ^ 32
  drop_sequence { s with m_size := m, m_bit_array := vector_resize s.m_bit_array (word_count m) }

/-- Member `insert(value_type i)`. -/
def insert (s0 : sparse_set) (i : Nat) : Option (sparse_set × Bool) :=
  let s := drop_sequence s0
  match s.m_bit_array[i >>> unsigned_bits_log2]? with
  | none => none
  | some x =>
    let v := x ||| (1 <<< (i &&& unsigned_bits_log2_mask))
    some ({ s with m_bit_array := s.m_bit_array.set (i >>> unsigned_bits_log2) v }, x != v)

/-- Member `erase(value_type i)`. -/
def erase (s : sparse_set) (i : Nat) : Option sparse_set :=
  match s.m_bit_array[i >>> unsigned_bits_log2]? with
  | none => none
  | some x =>
    let v := x &&& bit_not (1 <<< (i &&& unsigned_bits_log2_mask))
    some (drop_sequence { s with m_bit_array := s.m_bit_array.set (i >>> unsigned_bits_log2) v })

/-- Member `test(std::size_t i)`. -/
def test (s : sparse_set) (i : Nat) : Option Bool :=
  match s.m_bit_array[i >>> unsigned_bits_log2]? with
  | none => none
  | some x => some ((x >>> (i &&& unsigned_bits_log2_mask)) &&& 1 != 0)

/-- Member `empty()`. -/
def empty (s : sparse_set) : Bool :=
  s.m_bit_array.all (fun x => x == 0)

/-- Member `clear()`. -/
def clear (s0 : sparse_set) : sparse_set :=
  let s := drop_sequence s0
  { s with m_bit_array := s.m_bit_array.map (fun _ => 0) }

/-- Member `size()`. -/
def size (s : sparse_set) : Nat := s.m_size

/-- Member `count()`. -/
def count (s : sparse_set) : Nat :=
  if s.m_iterator_present then s.m_sequence.length
  else s.m_bit_array.foldl (fun count x => (count + bits.count_bits x) % 2 ^ 64) 0

/-- The block `if (!m_iterator_present) { create_iteration_sequence();
m_iterator_present = true; }` at the head of `begin`, `end`, `rbegin` and
`rend`. -/
def ensure_sequence (s : sparse_set) : Option sparse_set :=
  if s.m_iterator_present then some s
  else
    match create_iteration_sequence s with
    | none => none
    | some s1 => some { s1 with m_iterator_present := true }

/-- Member `begin()`: the object after the call and the returned position
in `m_sequence`. -/
def begin_ (s : sparse_set) : Option (sparse_set × Nat) :=
  (ensure_sequence s).map (fun s1 => (s1, 0))

/-- Member `end()`: the object after the call and the returned position in
`m_sequence`. -/
def end_ (s : sparse_set) : Option (sparse_set × Nat) :=
  (ensure_sequence s).map (fun s1 => (s1, s1.m_sequence.length))

/-- Member `rbegin()`: the object after the call and the returned reverse
position (number of elements before the one it designates, from the back). -/
def rbegin_ (s : sparse_set) : Option (sparse_set × Nat) :=
  (ensure_sequence s).map (fun s1 => (s1, 0))

/-- Member `rend()`: the object after the call and the returned reverse
position. -/
def rend_ (s : sparse_set) : Option (sparse_set × Nat) :=
  (ensure_sequence s).map (fun s1 => (s1, s1.m_sequence.length))

/-- The elements of `m_sequence` from position `first` up to `last`. -/
def between (s : sparse_set) (first last : Nat) : List Nat :=
  (s.m_sequence.drop first).take (last - first)

/-- The keys visited by `for (it = begin(), stop = end(); it != stop; ++it)`
and the object afterwards. -/
def iterate (s : sparse_set) : Option (sparse_set × List Nat) :=
  match begin_ s with
  | none => none
  | some (s1, first) =>
    match end_ s1 with
    | none => none
    | some (s2, last) => some (s2, between s2 first last)

/-- States reachable from `sparse_set(N)` by `insert`, `erase`, `clear`,
`begin` and `end` with keys below `N`. -/
inductive Reachable (N : Nat) : sparse_set → Prop
  | init : Reachable N (new N)
  | insert {s s1 : sparse_set} {i : Nat} {b : Bool} :
      Reachable N s → i < N → insert s i = some (s1, b) → Reachable N s1
  | erase {s s1 : sparse_set} {i : Nat} :
      Reachable N s → i < N → erase s i = some s1 → Reachable N s1
  | clear {s : sparse_set} : Reachable N s → Reachable N (clear s)
  | begin_ {s s1 : sparse_set} {pos : Nat} :
      Reachable N s → begin_ s = some (s1, pos) → Reachable N s1
  | end_ {s s1 : sparse_set} {pos : Nat} :
      Reachable N s → end_ s = some (s1, pos) → Reachable N s1

/-- A call of a public member of `sparse_set` (`swap` apart, which involves
a second object). -/
inductive call where
  | insert (i : Nat)
  | erase (i : Nat)
  | clear
  | resize (size : Nat)
  | test (i : Nat)
  | count
  | empty
  | begin_
  | end_
  | rbegin
  | rend
  | lower_bound (i : Nat)
  | upper_bound (i : Nat)
deriving DecidableEq, Repr

/-- The object after a call.  `test`, `count`, `empty`, `lower_bound` and
`upper_bound` are `const` members whose bodies assign no member, `mutable`
ones included; `test` still reads the bitmap at the key. -/
def after (s : sparse_set) : call → Option sparse_set
  | .insert i => (insert s i).map (fun r => r.1)
  | .erase i => erase s i
  | .clear => some (clear s)
  | .resize size => some (resize s size)
  | .test i => (test s i).map (fun _ => s)
  | .count => some s
  | .empty => some s
  | .begin_ => (begin_ s).map (fun r => r.1)
  | .end_ => (end_ s).map (fun r => r.1)
  | .rbegin => (rbegin_ s).map (fun r => r.1)
  | .rend => (rend_ s).map (fun r => r.1)
  | .lower_bound _ => some s
  | .upper_bound _ => some s

/-- States reachable from `sparse_set(N)`, for any `N`, by calls of the
public members, `swap` being with another reachable object. -/
inductive ReachableAny : sparse_set → Prop
  | init (N : Nat) : ReachableAny (new N)
  | call {s s1 : sparse_set} (c : call) : ReachableAny s → after s c = some s1 → ReachableAny s1
  | swap_this {a b : sparse_set} : ReachableAny a → ReachableAny b → ReachableAny (swap a b).1
  | swap_other {a b : sparse_set} : ReachableAny a → ReachableAny b → ReachableAny (swap a b).2

/-- A set of capacity `N`: `m_size` and the length of the bitmap are what the
constructor and `resize` make them for the argument `N`, and every word is a
`std::size_t` value. -/
def HasCapacity (N : Nat) (s : sparse_set) : Prop :=
  s.m_size = N % 2 ^ 32 ∧ s.m_bit_array.length = word_count s.m_size ∧
    ∀ w ∈ s.m_bit_array, w < 2 ^ 64

/-- The keys below `N` for which `test` answers `true`, ascending. -/
def members (N : Nat) (s : sparse_set) : List Nat :=
  (List.range N).filter (fun i => test s i == some true)

end sparse_set

/-- Reference scan for `lsb`, in the words of the spec ("a naive bit-by-bit
scan"): look at the bits `i`, `i + 1`, ... of `x`, `k` of them, and return
the index of the first that is set, `-1` ("none") when none is. -/
def naive_lsb_from : Nat → Nat → Nat → Int
  | 0, _, _ => -1
  | k + 1, i, x => if x.testBit i then (i : Int) else naive_lsb_from k (i + 1) x

/-- Reference for `lsb` on a word of `width` bits, following the spec. -/
def naive_lsb (width x : Nat) : Int := naive_lsb_from width 0 x

/-- Reference for `popcount` on a word of `width` bits, in the words of the
spec ("a naive bit-by-bit reference"): add the lowest bit and go on with the
word shifted right by one, `width` times. -/
def naive_count_bits : Nat → Nat → Nat
  | 0, _ => 0
  | width + 1, x => x % 2 + naive_count_bits width (x / 2)

/-- The loop of `std::lower_bound(first, last, val)` from `<algorithm>` on a
vector of `std::size_t`, as the standard library implements it: bisection on
the length `len` of the range that starts at position `first`.  The first
argument bounds the iterations; `len` is enough, it shrinks every time
round. -/
def std_lower_bound_loop : Nat → List Nat → Nat → Nat → Nat → Option Nat
  | 0, _, first, len, _ => if len = 0 then some first else none
  | fuel + 1, v, first, len, val =>
    if len = 0 then some first
    else
      let half := len >>> 1
      match v[first + half]? with
      | none => none
      | some x =>
        if x < val then std_lower_bound_loop fuel v (first + half + 1) (len - half - 1) val
        else std_lower_bound_loop fuel v first half val

/-- The loop of `std::upper_bound(first, last, val)`: the same bisection with
the comparison `val < *middle`. -/
def std_upper_bound_loop : Nat → List Nat → Nat → Nat → Nat → Option Nat
  | 0, _, first, len, _ => if len = 0 then some first else none
  | fuel + 1, v, first, len, val =>
    if len = 0 then some first
    else
      let half := len >>> 1
      match v[first + half]? with
      | none => none
      | some x =>
        if val < x then std_upper_bound_loop fuel v first half val
        else std_upper_bound_loop fuel v (first + half + 1) (len - half - 1) val

/-- Member `sparse_set::lower_bound(value_type i)`:
`std::lower_bound(m_sequence.begin(), m_sequence.end(), i)`, the returned
iterator as a position in `m_sequence`.  The cache is read as it is. -/
def sparse_set.lower_bound (s : sparse_set) (i : Nat) : Option Nat :=
  std_lower_bound_loop s.m_sequence.length s.m_sequence 0 s.m_sequence.length i

/-- Member `sparse_set::upper_bound(value_type i)`:
`std::upper_bound(m_sequence.begin(), m_sequence.end(), i)`. -/
def sparse_set.upper_bound (s : sparse_set) (i : Nat) : Option Nat :=
  std_upper_bound_loop s.m_sequence.length s.m_sequence 0 s.m_sequence.length i

/-- The member functions that `bounded_set`, `sparse_set` and
`unordered_sparse_set` have in common, as one record, so that a driver that
`sparse_set_tests.cpp` repeats word for word for each class is written
once. -/
structure set_ops (σ : Type) where
  new : Nat → σ
  insert : σ → Nat → Option (σ × Bool)
  erase : σ → Nat → Option σ
  clear : σ → σ
  test : σ → Nat → Option Bool
  count : σ → Nat
  empty : σ → Bool

/-- The members of `bounded_set`. -/
def bounded_set.ops : set_ops bounded_set :=
  { new := bounded_set.new, insert := bounded_set.insert, erase := bounded_set.erase,
    clear := bounded_set.clear, test := bounded_set.test, count := bounded_set.count,
    empty := bounded_set.empty }

/-- The members of `sparse_set`. -/
def sparse_set.ops : set_ops sparse_set :=
  { new := sparse_set.new, insert := sparse_set.insert, erase := sparse_set.erase,
    clear := sparse_set.clear, test := sparse_set.test, count := sparse_set.count,
    empty := sparse_set.empty }

/-- The members of `unordered_sparse_set`. -/
def unordered_sparse_set.ops : set_ops unordered_sparse_set :=
  { new := unordered_sparse_set.new, insert := unordered_sparse_set.insert,
    erase := unordered_sparse_set.erase, clear := unordered_sparse_set.clear,
    test := unordered_sparse_set.test, count := unordered_sparse_set.count,
    empty := unordered_sparse_set.empty }

/-- A call of `insert`, `erase`, `clear`, `test`, `count` or `empty`. -/
inductive set_call where
  | insert (i : Nat)
  | erase (i : Nat)
  | clear
  | test (i : Nat)
  | count
  | empty
deriving DecidableEq, Repr

/-- What such a call returns: a `bool`, a `std::size_t`, or nothing for the
`void` members. -/
inductive set_result where
  | flag (b : Bool)
  | number (n : Nat)
  | nothing
deriving DecidableEq, Repr

/-- The key of a call, when it has one, is below `N`. -/
def set_call.InRange (N : Nat) : set_call → Prop
  | .insert i => i < N
  | .erase i => i < N
  | .test i => i < N
  | _ => True

/-- One call on an object: the object afterwards and the returned value. -/
def set_ops.apply {σ : Type} (ops : set_ops σ) (s : σ) : set_call → Option (σ × set_result)
  | .insert i => (ops.insert s i).map (fun r => (r.1, set_result.flag r.2))
  | .erase i => (ops.erase s i).map (fun s1 => (s1, set_result.nothing))
  | .clear => some (ops.clear s, set_result.nothing)
  | .test i => (ops.test s i).map (fun b => (s, set_result.flag b))
  | .count => some (s, set_result.number (ops.count s))
  | .empty => some (s, set_result.flag (ops.empty s))

/-- A sequence of calls on an object, in order: the object at the end and
the returned values. -/
def set_ops.run {σ : Type} (ops : set_ops σ) : σ → List set_call → Option (σ × List set_result)
  | s, [] => some (s, [])
  | s, c :: cs =>
    match ops.apply s c with
    | none => none
    | some (s1, r) => (set_ops.run ops s1 cs).map (fun p => (p.1, r :: p.2))

/-- What the callers rely on, for capacity `N` and the states `Inv`
describes: `test` answers for every key below `N`, `insert` and `erase`
change the answer for their key only and `insert` reports whether the key was
absent, `clear` and the constructor leave no key, `count` is the number of
keys that test `true` and `empty` says whether there is none. -/
structure set_ops.Sound {σ : Type} (ops : set_ops σ) (N : Nat) (Inv : σ → Prop) : Prop where
  new_inv : Inv (ops.new N)
  new_test : ∀ i, i < N → ops.test (ops.new N) i = some false
  test_some : ∀ s i, Inv s → i < N → ∃ b, ops.test s i = some b
  insert_spec : ∀ s i, Inv s → i < N → ∃ s1 b, ops.insert s i = some (s1, b) ∧ Inv s1 ∧
    ops.test s i = some (!b) ∧ ops.test s1 i = some true ∧
    ∀ j, j < N → j ≠ i → ops.test s1 j = ops.test s j
  erase_spec : ∀ s i, Inv s → i < N → ∃ s1, ops.erase s i = some s1 ∧ Inv s1 ∧
    ops.test s1 i = some false ∧ ∀ j, j < N → j ≠ i → ops.test s1 j = ops.test s j
  clear_spec : ∀ s, Inv s → Inv (ops.clear s) ∧ ∀ i, i < N → ops.test (ops.clear s) i = some false
  count_spec : ∀ s, Inv s →
    ops.count s = ((List.range N).filter (fun i => ops.test s i == some true)).length
  empty_spec : ∀ s, Inv s → (ops.empty s = true ↔ ∀ i, i < N → ops.test s i ≠ some true)

/-- Conversion of a `std::size_t` to the `int` a function returns. -/
def size_t_to_int (c : Nat) : Int := (((c + 2 ^ 31) % 2 ^ 32 : Nat) : Int) - 2 ^ 31

/-- The loop `for (unsigned i = 3; i <= n; i += 2) test_set.insert(i);` of
the `Eratosthenes_*` functions, from the value `i` on.  The first argument
bounds the iterations. -/
def insert_odds {σ : Type} (ops : set_ops σ) : Nat → Nat → Nat → σ → Option σ
  | 0, n, i, s => if i ≤ n then none else some s
  | fuel + 1, n, i, s =>
    if i ≤ n then
      match ops.insert s i with
      | none => none
      | some (s1, _) => insert_odds ops fuel n ((i + 2) % 2 ^ 32) s1
    else some s

/-- The loop `for (unsigned j = i + i; j <= n; j += i) test_set.erase(j);`
from the value `j` on. -/
def erase_multiples {σ : Type} (ops : set_ops σ) : Nat → Nat → Nat → Nat → σ → Option σ
  | 0, n, _, j, s => if j ≤ n then none else some s
  | fuel + 1, n, i, j, s =>
    if j ≤ n then
      match ops.erase s j with
      | none => none
      | some s1 => erase_multiples ops fuel n i ((j + i) % 2 ^ 32) s1
    else some s

/-- The loop `for (unsigned i = 3; i*i <= n; i += 2) if (test_set.test(i))
...` from the value `i` on; `i*i` is an `unsigned` product. -/
def sieve_loop {σ : Type} (ops : set_ops σ) : Nat → Nat → Nat → σ → Option σ
  | 0, n, i, s => if (i * i) % 2 ^ 32 ≤ n then none else some s
  | fuel + 1, n, i, s =>
    if (i * i) % 2 ^ 32 ≤ n then
      match ops.test s i with
      | none => none
      | some true =>
        match erase_multiples ops n n i ((i + i) % 2 ^ 32) s with
        | none => none
        | some s1 => sieve_loop ops fuel n ((i + 2) % 2 ^ 32) s1
      | some false => sieve_loop ops fuel n ((i + 2) % 2 ^ 32) s
    else some s

/-- The body the functions `Eratosthenes_Bounded_Set`,
`Eratosthenes_Unordered_Sparse_Set` and `Eratosthenes_Sparse_Set` share, for
the parameter `unsigned n`; each loop gets `n` as its bound.  `none` when a
call reads outside its vector or a loop does not end. -/
def Eratosthenes {σ : Type} (ops : set_ops σ) (n0 : Nat) : Option Int :=
  let n := n0 % 2 ^ 32
  match ops.insert (ops.new ((n + 1) % 2 ^ 32)) 2 with
  | none => none
  | some (s1, _) =>
    match insert_odds ops n n 3 s1 with
    | none => none
    | some s2 =>
      match sieve_loop ops n n 3 s2 with
      | none => none
      | some s3 => some (size_t_to_int (ops.count s3))

/-- Function `Eratosthenes_Bounded_Set(unsigned n)` of the test driver. -/
def Eratosthenes_Bounded_Set (n : Nat) : Option Int := Eratosthenes bounded_set.ops n

/-- Function `Eratosthenes_Unordered_Sparse_Set(unsigned n)`. -/
def Eratosthenes_Unordered_Sparse_Set (n : Nat) : Option Int :=
  Eratosthenes unordered_sparse_set.ops n

/-- Function `Eratosthenes_Sparse_Set(unsigned n)`. -/
def Eratosthenes_Sparse_Set (n : Nat) : Option Int := Eratosthenes sparse_set.ops n

/-- The keys left in the sieve when the outer loop of `Eratosthenes_*`
stands at `i`: `2` and the odd numbers from `3` on that have no divisor `d`
with `3 ≤ d < i` other than themselves. -/
def sieve_survivor (i m : Nat) : Prop :=
  2 ≤ m ∧ (m = 2 ∨ m % 2 = 1) ∧ ∀ d, 3 ≤ d → d < i → d ∣ m → d = m

/-- Member `unordered_sparse_set::lower_bound(value_type i)`:
`std::lower_bound(m_dense.begin(), m_dense.end(), i)`, the returned iterator
as a position in `m_dense`. -/
def unordered_sparse_set.lower_bound (s : unordered_sparse_set) (i : Nat) : Option Nat :=
  std_lower_bound_loop s.m_dense.length s.m_dense 0 s.m_dense.length i

/-- Member `unordered_sparse_set::upper_bound(value_type i)`:
`std::upper_bound(m_dense.begin(), m_dense.end(), i)`. -/
def unordered_sparse_set.upper_bound (s : unordered_sparse_set) (i : Nat) : Option Nat :=
  std_upper_bound_loop s.m_dense.length s.m_dense 0 s.m_dense.length i

/-- Default constructor `bounded_set()`: `m_size(0), m_bit_array(0)`. -/
def bounded_set.new_default : bounded_set := { m_size := 0, m_bit_array := [] }

/-! ## Words and bit positions -/

theorem shift_log2 (i : Nat) : i >>> unsigned_bits_log2 = i / 64 := by
  simp [unsigned_bits_log2, Nat.shiftRight_eq_div_pow]

theorem mask_log2 (i : Nat) : i &&& unsigned_bits_log2_mask = i % 64 := by
  have h : unsigned_bits_log2_mask = 2 ^ 6 - 1 := by decide
  rw [h, Nat.and_pow_two_sub_one_eq_mod]

theorem bit_read (x b : Nat) : ((x >>> b) &&& 1 != 0) = x.testBit b := by
  simp [Nat.testBit, Nat.and_comm]

theorem testBit_set_bit (x b j : Nat) :
    (x ||| (1 <<< b)).testBit j = (x.testBit j || decide (b = j)) := by
  rw [Nat.testBit_or, Nat.one_shiftLeft, Nat.testBit_two_pow]

theorem testBit_clear_bit (x b j : Nat) (hj : j < 64) :
    (x &&& bit_not (1 <<< b)).testBit j = (x.testBit j && !decide (b = j)) := by
  rw [Nat.testBit_and, bit_not, Nat.testBit_xor, Nat.one_shiftLeft, Nat.testBit_two_pow,
    Nat.testBit_two_pow_sub_one]
  simp [hj]

theorem set_bit_ne_iff (x b : Nat) : (x != (x ||| (1 <<< b))) = !x.testBit b := by
  by_cases h : x.testBit b = true
  · have : x ||| (1 <<< b) = x := by
      apply Nat.eq_of_testBit_eq
      intro j
      rw [testBit_set_bit]
      by_cases hj : b = j
      · subst hj; simp [h]
      · simp [hj]
    simp [this, h]
  · have hne : x ≠ (x ||| (1 <<< b)) := by
      intro heq
      apply h
      have := testBit_set_bit x b b
      rw [← heq] at this
      simpa using this
    simp [hne, h]

theorem set_bit_lt (x b : Nat) (hx : x < 2 ^ 64) (hb : b < 64) : x ||| (1 <<< b) < 2 ^ 64 := by
  apply Nat.or_lt_two_pow hx
  rw [Nat.one_shiftLeft]
  exact Nat.pow_lt_pow_right (by norm_num) hb

theorem clear_bit_lt (x b : Nat) (hx : x < 2 ^ 64) : x &&& bit_not (1 <<< b) < 2 ^ 64 :=
  lt_of_le_of_lt Nat.and_le_left hx

theorem word_count_eq (m : Nat) (h : m + 63 < 2 ^ 32) : word_count m = (m + 63) / 64 := by
  unfold word_count unsigned_bits
  omega

theorem word_index_lt (N i : Nat) (hN : N + 63 < 2 ^ 32) (hi : i < N) :
    i / 64 < word_count (N % 2 ^ 32) := by
  rw [Nat.mod_eq_of_lt (by omega), word_count_eq N hN]
  omega

theorem word_count_lt (m : Nat) : word_count m < 2 ^ 26 := by
  unfold word_count unsigned_bits
  omega

theorem bit_at_of_lt (a : List Nat) (p : Nat) (h : p / 64 < a.length) :
    a[p / 64]? = some (a[p / 64]) ∧ bit_at a p = (a[p / 64]).testBit (p % 64) := by
  refine ⟨List.getElem?_eq_getElem h, ?_⟩
  simp [bit_at, unsigned_bits, List.getD_eq_getElem?_getD, List.getElem?_eq_getElem h]

theorem bit_at_of_ge (a : List Nat) (p : Nat) (h : a.length ≤ p / 64) : bit_at a p = false := by
  simp [bit_at, unsigned_bits, List.getD_eq_getElem?_getD, List.getElem?_eq_none h]

theorem bit_at_set (a : List Nat) (k v p : Nat) (hk : k < a.length) :
    bit_at (a.set k v) p = if p / 64 = k then v.testBit (p % 64) else bit_at a p := by
  unfold bit_at unsigned_bits
  rw [List.getD_eq_getElem?_getD, List.getD_eq_getElem?_getD, List.getElem?_set]
  by_cases h : k = p / 64
  · subst h; simp [hk]
  · have h2 : ¬ p / 64 = k := fun e => h e.symm
    simp [h, h2]

theorem div_mod_64_inj (i j : Nat) (h1 : i / 64 = j / 64) (h2 : i % 64 = j % 64) : i = j := by
  omega

theorem bit_at_insert (a : List Nat) (i j : Nat) (hi : i / 64 < a.length) :
    bit_at (a.set (i / 64) (a[i / 64] ||| (1 <<< (i % 64)))) j
      = (decide (j = i) || bit_at a j) := by
  rw [bit_at_set a _ _ _ hi]
  by_cases h : j / 64 = i / 64
  · rw [if_pos h, testBit_set_bit]
    have hj : j / 64 < a.length := h ▸ hi
    rw [(bit_at_of_lt a j hj).2]
    simp only [h]
    by_cases hb : i % 64 = j % 64
    · have : j = i := div_mod_64_inj j i h hb.symm
      simp [this]
    · have : ¬ j = i := fun e => hb (by rw [e])
      simp [hb, this]
  · rw [if_neg h]
    have : ¬ j = i := fun e => h (by rw [e])
    simp [this]

theorem bit_at_erase (a : List Nat) (i j : Nat) (hi : i / 64 < a.length) :
    bit_at (a.set (i / 64) (a[i / 64] &&& bit_not (1 <<< (i % 64)))) j
      = (!decide (j = i) && bit_at a j) := by
  rw [bit_at_set a _ _ _ hi]
  by_cases h : j / 64 = i / 64
  · rw [if_pos h, testBit_clear_bit _ _ _ (Nat.mod_lt _ (by norm_num))]
    have hj : j / 64 < a.length := h ▸ hi
    rw [(bit_at_of_lt a j hj).2]
    simp only [h]
    by_cases hb : i % 64 = j % 64
    · have : j = i := div_mod_64_inj j i h hb.symm
      simp [this]
    · have : ¬ j = i := fun e => hb (by rw [e])
      simp [hb, this, Bool.and_comm]
  · rw [if_neg h]
    have : ¬ j = i := fun e => h (by rw [e])
    simp [this]

theorem list_set_self {α : Type} (a : List α) (k : Nat) (h : k < a.length) :
    a.set k a[k] = a := by
  apply List.ext_getElem?
  intro n
  rw [List.getElem?_set]
  by_cases hk : k = n
  · subst hk; simp [h]
  · simp [hk]

theorem words_set_lt (a : List Nat) (k v : Nat) (ha : ∀ w ∈ a, w < 2 ^ 64) (hv : v < 2 ^ 64) :
    ∀ w ∈ a.set k v, w < 2 ^ 64 := by
  intro w hw
  rcases List.mem_or_eq_of_mem_set hw with h | h
  · exact ha w h
  · exact h ▸ hv

theorem erase_absent_word (x b : Nat) (hx : x < 2 ^ 64) (h : x.testBit b = false) :
    x &&& bit_not (1 <<< b) = x := by
  apply Nat.eq_of_testBit_eq
  intro j
  by_cases hj : j < 64
  · rw [testBit_clear_bit _ _ _ hj]
    by_cases hb : b = j
    · subst hb; simp [h]
    · simp [hb]
  · have hle : 2 ^ 64 ≤ 2 ^ j := Nat.pow_le_pow_right (by norm_num) (by omega)
    rw [Nat.testBit_lt_two_pow (lt_of_lt_of_le (clear_bit_lt x b hx) hle),
      Nat.testBit_lt_two_pow (lt_of_lt_of_le hx hle)]

theorem bs_test_eq (s : bounded_set) (i : Nat) :
    s.test i = if i / 64 < s.m_bit_array.length then some (bit_at s.m_bit_array i) else none := by
  unfold bounded_set.test
  rw [shift_log2, mask_log2]
  by_cases h : i / 64 < s.m_bit_array.length
  · rw [if_pos h, (bit_at_of_lt _ _ h).1, (bit_at_of_lt _ _ h).2]
    simp only [bit_read]
  · rw [if_neg h, List.getElem?_eq_none (by omega)]

theorem bs_insert_eq (s : bounded_set) (i : Nat) (h : i / 64 < s.m_bit_array.length) :
    s.insert i = some (⟨s.m_size,
        s.m_bit_array.set (i / 64) (s.m_bit_array[i / 64] ||| (1 <<< (i % 64)))⟩,
      !bit_at s.m_bit_array i) := by
  unfold bounded_set.insert
  rw [shift_log2, mask_log2, (bit_at_of_lt _ _ h).1, (bit_at_of_lt _ _ h).2]
  simp only [set_bit_ne_iff]

theorem bs_erase_eq (s : bounded_set) (i : Nat) (h : i / 64 < s.m_bit_array.length) :
    s.erase i = some ⟨s.m_size,
        s.m_bit_array.set (i / 64) (s.m_bit_array[i / 64] &&& bit_not (1 <<< (i % 64)))⟩ := by
  unfold bounded_set.erase
  rw [shift_log2, mask_log2, (bit_at_of_lt _ _ h).1]

theorem bs_insert_none (s : bounded_set) (i : Nat) (h : s.m_bit_array.length ≤ i / 64) :
    s.insert i = none := by
  unfold bounded_set.insert
  rw [shift_log2, List.getElem?_eq_none h]

theorem bs_erase_none (s : bounded_set) (i : Nat) (h : s.m_bit_array.length ≤ i / 64) :
    s.erase i = none := by
  unfold bounded_set.erase
  rw [shift_log2, List.getElem?_eq_none h]

theorem drop_sequence_bits (s : sparse_set) :
    (sparse_set.drop_sequence s).m_bit_array = s.m_bit_array ∧ (sparse_set.drop_sequence s).m_size = s.m_size := by
  unfold sparse_set.drop_sequence
  split <;> simp

theorem drop_sequence_flag (s : sparse_set) : (sparse_set.drop_sequence s).m_iterator_present = false := by
  unfold sparse_set.drop_sequence
  split
  · rfl
  · simpa using ‹¬ s.m_iterator_present = true›

theorem ss_test_eq (s : sparse_set) (i : Nat) :
    s.test i = if i / 64 < s.m_bit_array.length then some (bit_at s.m_bit_array i) else none := by
  unfold sparse_set.test
  rw [shift_log2, mask_log2]
  by_cases h : i / 64 < s.m_bit_array.length
  · rw [if_pos h, (bit_at_of_lt _ _ h).1, (bit_at_of_lt _ _ h).2]
    simp only [bit_read]
  · rw [if_neg h, List.getElem?_eq_none (by omega)]

theorem ss_insert_eq (s : sparse_set) (i : Nat) (h : i / 64 < s.m_bit_array.length) :
    s.insert i = some (⟨s.m_size,
        s.m_bit_array.set (i / 64) (s.m_bit_array[i / 64] ||| (1 <<< (i % 64))),
        (sparse_set.drop_sequence s).m_sequence, false⟩,
      !bit_at s.m_bit_array i) := by
  unfold sparse_set.insert
  simp only [(drop_sequence_bits s).1, (drop_sequence_bits s).2, drop_sequence_flag]
  rw [shift_log2, mask_log2, (bit_at_of_lt _ _ h).1, (bit_at_of_lt _ _ h).2]
  simp only [set_bit_ne_iff]

theorem ss_erase_eq (s : sparse_set) (i : Nat) (h : i / 64 < s.m_bit_array.length) :
    s.erase i = some (sparse_set.drop_sequence ⟨s.m_size,
        s.m_bit_array.set (i / 64) (s.m_bit_array[i / 64] &&& bit_not (1 <<< (i % 64))),
        s.m_sequence, s.m_iterator_present⟩) := by
  unfold sparse_set.erase
  rw [shift_log2, mask_log2, (bit_at_of_lt _ _ h).1]

theorem ss_insert_none (s : sparse_set) (i : Nat) (h : s.m_bit_array.length ≤ i / 64) :
    s.insert i = none := by
  unfold sparse_set.insert
  simp only [shift_log2, (drop_sequence_bits s).1, List.getElem?_eq_none h]

theorem ss_erase_none (s : sparse_set) (i : Nat) (h : s.m_bit_array.length ≤ i / 64) :
    s.erase i = none := by
  unfold sparse_set.erase
  rw [shift_log2, List.getElem?_eq_none h]

/-! ## C1, C2: `insert` and `erase` on the two bitmap sets -/

/-- C1 (as amended): for a `bounded_set` and a `sparse_set` of capacity
`N ≤ 2 ^ 32 - 64` and every key `i < N`, `insert(i)` returns `true` exactly
when `test(i)` was `false` before, the set keeps capacity `N`, and afterwards
`test(j)` holds for a key `j < N` iff `j = i` or `test(j)` held before. -/
theorem C1_insert_sets_exactly_one_bit (N i : Nat) (hN : N + 63 < 2 ^ 32) (hi : i < N)
    (s : bounded_set) (hs : s.HasCapacity N) (t : sparse_set) (ht : t.HasCapacity N) :
    (∃ s1, s.insert i = some (s1, s.test i == some false) ∧ s1.HasCapacity N ∧
      ∀ j, j < N → s1.test j = some (decide (j = i) || s.test j == some true)) ∧
    (∃ t1, t.insert i = some (t1, t.test i == some false) ∧ t1.HasCapacity N ∧
      ∀ j, j < N → t1.test j = some (decide (j = i) || t.test j == some true)) := by
  have hlen_s : ∀ j, j < N → j / 64 < s.m_bit_array.length := fun j hj => by
    rw [hs.2.1, hs.1]; exact word_index_lt N j hN hj
  have hlen_t : ∀ j, j < N → j / 64 < t.m_bit_array.length := fun j hj => by
    rw [ht.2.1, ht.1]; exact word_index_lt N j hN hj
  constructor
  · refine ⟨⟨s.m_size, s.m_bit_array.set (i / 64) (s.m_bit_array[i / 64]?.getD 0 ||| (1 <<< (i % 64)))⟩,
      ?_, ?_, ?_⟩ <;> rw [List.getElem?_eq_getElem (hlen_s i hi)] <;> simp only [Option.getD_some]
    · rw [bs_insert_eq s i (hlen_s i hi), bs_test_eq, if_pos (hlen_s i hi)]
      congr 2
      cases bit_at s.m_bit_array i <;> rfl
    · exact ⟨hs.1, by simpa using hs.2.1,
        words_set_lt _ _ _ hs.2.2 (set_bit_lt _ _ (hs.2.2 _ (List.getElem_mem _))
          (Nat.mod_lt _ (by norm_num)))⟩
    · intro j hj
      rw [bs_test_eq, bs_test_eq, if_pos (hlen_s j hj),
        if_pos (by simpa using hlen_s j hj)]
      simp only [bit_at_insert _ i j (hlen_s i hi)]
      cases bit_at s.m_bit_array j <;> simp
  · refine ⟨⟨t.m_size, t.m_bit_array.set (i / 64) (t.m_bit_array[i / 64]?.getD 0 ||| (1 <<< (i % 64))),
      (sparse_set.drop_sequence t).m_sequence, false⟩,
      ?_, ?_, ?_⟩ <;> rw [List.getElem?_eq_getElem (hlen_t i hi)] <;> simp only [Option.getD_some]
    · rw [ss_insert_eq t i (hlen_t i hi), ss_test_eq, if_pos (hlen_t i hi)]
      congr 2
      cases bit_at t.m_bit_array i <;> rfl
    · exact ⟨ht.1, by simpa using ht.2.1,
        words_set_lt _ _ _ ht.2.2 (set_bit_lt _ _ (ht.2.2 _ (List.getElem_mem _))
          (Nat.mod_lt _ (by norm_num)))⟩
    · intro j hj
      rw [ss_test_eq, ss_test_eq, if_pos (hlen_t j hj),
        if_pos (by simpa using hlen_t j hj)]
      simp only [bit_at_insert _ i j (hlen_t i hi)]
      cases bit_at t.m_bit_array j <;> simp

/-- Witness for C1: capacity 100, key 70, on the freshly constructed sets. -/
theorem C1_insert_sets_exactly_one_bit_witness :
    (∃ s1, (bounded_set.new 100).insert 70
        = some (s1, (bounded_set.new 100).test 70 == some false) ∧ s1.HasCapacity 100 ∧
      ∀ j, j < 100 → s1.test j
        = some (decide (j = 70) || (bounded_set.new 100).test j == some true)) ∧
    (∃ t1, (sparse_set.new 100).insert 70
        = some (t1, (sparse_set.new 100).test 70 == some false) ∧ t1.HasCapacity 100 ∧
      ∀ j, j < 100 → t1.test j
        = some (decide (j = 70) || (sparse_set.new 100).test j == some true)) :=
  C1_insert_sets_exactly_one_bit 100 70 (by decide) (by decide)
    (bounded_set.new 100) ⟨by decide, by decide, by decide⟩
    (sparse_set.new 100) ⟨by decide, by decide, by decide⟩

/-- C1 as stated fails: the sets constructed for capacity `2 ^ 32` (stored
capacity `0`) and for capacity `2 ^ 32 - 1` (stored capacity `2 ^ 32 - 1`)
have an empty bitmap, so `insert(0)` indexes outside of it. -/
theorem C1_insert_outside_bitmap :
    ((bounded_set.new 4294967296).HasCapacity 4294967296 ∧
      (bounded_set.new 4294967296).insert 0 = none ∧
      (sparse_set.new 4294967296).insert 0 = none) ∧
    ((bounded_set.new 4294967295).HasCapacity 4294967295 ∧
      (bounded_set.new 4294967295).size = 4294967295 ∧
      (bounded_set.new 4294967295).m_bit_array = [] ∧
      (bounded_set.new 4294967295).insert 0 = none ∧
      (sparse_set.new 4294967295).insert 0 = none) := by
  refine ⟨⟨⟨by decide, by decide, by decide⟩, by decide, by decide⟩,
    ⟨by decide, by decide, by decide⟩, by decide, by decide, by decide, by decide⟩

/-- C2 (as amended): for a `bounded_set` and a `sparse_set` of capacity
`N ≤ 2 ^ 32 - 64` and every key `i < N`, `erase(i)` keeps capacity `N`,
afterwards `test(j)` holds for a key `j < N` iff `j ≠ i` and `test(j)` held
before, and when `i` was absent the bitmap is unchanged. -/
theorem C2_erase_clears_exactly_one_bit (N i : Nat) (hN : N + 63 < 2 ^ 32) (hi : i < N)
    (s : bounded_set) (hs : s.HasCapacity N) (t : sparse_set) (ht : t.HasCapacity N) :
    (∃ s1, s.erase i = some s1 ∧ s1.HasCapacity N ∧
      (∀ j, j < N → s1.test j = some (!decide (j = i) && s.test j == some true)) ∧
      (s.test i = some false → s1.m_bit_array = s.m_bit_array)) ∧
    (∃ t1, t.erase i = some t1 ∧ t1.HasCapacity N ∧
      (∀ j, j < N → t1.test j = some (!decide (j = i) && t.test j == some true)) ∧
      (t.test i = some false → t1.m_bit_array = t.m_bit_array)) := by
  have hlen_s : ∀ j, j < N → j / 64 < s.m_bit_array.length := fun j hj => by
    rw [hs.2.1, hs.1]; exact word_index_lt N j hN hj
  have hlen_t : ∀ j, j < N → j / 64 < t.m_bit_array.length := fun j hj => by
    rw [ht.2.1, ht.1]; exact word_index_lt N j hN hj
  constructor
  · refine ⟨_, bs_erase_eq s i (hlen_s i hi), ?_, ?_, ?_⟩
    · exact ⟨hs.1, by simpa using hs.2.1,
        words_set_lt _ _ _ hs.2.2 (clear_bit_lt _ _ (hs.2.2 _ (List.getElem_mem _)))⟩
    · intro j hj
      rw [bs_test_eq, bs_test_eq, if_pos (hlen_s j hj),
        if_pos (by simpa using hlen_s j hj)]
      simp only [bit_at_erase _ i j (hlen_s i hi)]
      cases bit_at s.m_bit_array j <;> simp
    · intro habs
      rw [bs_test_eq, if_pos (hlen_s i hi), (bit_at_of_lt _ _ (hlen_s i hi)).2] at habs
      simp only [erase_absent_word _ _ (hs.2.2 _ (List.getElem_mem _)) (Option.some.inj habs)]
      exact list_set_self _ _ _
  · refine ⟨_, ss_erase_eq t i (hlen_t i hi), ?_, ?_, ?_⟩
    · refine ⟨?_, ?_, ?_⟩
      · rw [(drop_sequence_bits _).2]; exact ht.1
      · rw [(drop_sequence_bits _).1, (drop_sequence_bits _).2]
        simpa using ht.2.1
      · rw [(drop_sequence_bits _).1]
        exact words_set_lt _ _ _ ht.2.2 (clear_bit_lt _ _ (ht.2.2 _ (List.getElem_mem _)))
    · intro j hj
      rw [ss_test_eq, ss_test_eq, if_pos (hlen_t j hj),
        (drop_sequence_bits _).1, if_pos (by simpa using hlen_t j hj)]
      simp only [bit_at_erase _ i j (hlen_t i hi)]
      cases bit_at t.m_bit_array j <;> simp
    · intro habs
      rw [ss_test_eq, if_pos (hlen_t i hi), (bit_at_of_lt _ _ (hlen_t i hi)).2] at habs
      rw [(drop_sequence_bits _).1]
      simp only [erase_absent_word _ _ (ht.2.2 _ (List.getElem_mem _)) (Option.some.inj habs)]
      exact list_set_self _ _ _

/-- Witness for C2: capacity 100, key 70, on the sets holding the key 70. -/
theorem C2_erase_clears_exactly_one_bit_witness :
    (∃ s1, (bounded_set.mk 100 [0, 64]).erase 70 = some s1 ∧ s1.HasCapacity 100 ∧
      (∀ j, j < 100 → s1.test j
        = some (!decide (j = 70) && (bounded_set.mk 100 [0, 64]).test j == some true)) ∧
      ((bounded_set.mk 100 [0, 64]).test 70 = some false →
        s1.m_bit_array = (bounded_set.mk 100 [0, 64]).m_bit_array)) ∧
    (∃ t1, (sparse_set.mk 100 [0, 64] [70] true).erase 70 = some t1 ∧ t1.HasCapacity 100 ∧
      (∀ j, j < 100 → t1.test j
        = some (!decide (j = 70) && (sparse_set.mk 100 [0, 64] [70] true).test j == some true)) ∧
      ((sparse_set.mk 100 [0, 64] [70] true).test 70 = some false →
        t1.m_bit_array = (sparse_set.mk 100 [0, 64] [70] true).m_bit_array)) :=
  C2_erase_clears_exactly_one_bit 100 70 (by decide) (by decide)
    (bounded_set.mk 100 [0, 64]) ⟨by decide, by decide, by decide⟩
    (sparse_set.mk 100 [0, 64] [70] true) ⟨by decide, by decide, by decide⟩

/-- C2 as stated fails: the sets constructed for capacity `2 ^ 32` (stored
capacity `0`) and for capacity `2 ^ 32 - 1` have an empty bitmap, so
`erase(0)` indexes outside of it. -/
theorem C2_erase_outside_bitmap :
    ((bounded_set.new 4294967296).HasCapacity 4294967296 ∧
      (bounded_set.new 4294967296).erase 0 = none ∧
      (sparse_set.new 4294967296).erase 0 = none) ∧
    ((bounded_set.new 4294967295).HasCapacity 4294967295 ∧
      (bounded_set.new 4294967295).size = 4294967295 ∧
      (bounded_set.new 4294967295).m_bit_array = [] ∧
      (bounded_set.new 4294967295).erase 0 = none ∧
      (sparse_set.new 4294967295).erase 0 = none) := by
  refine ⟨⟨⟨by decide, by decide, by decide⟩, by decide, by decide⟩,
    ⟨by decide, by decide, by decide⟩, by decide, by decide, by decide, by decide⟩

/-! ## The dense/sparse pair of `unordered_sparse_set` -/

theorem index_lt_of_some {α : Type} (l : List α) (k : Nat) (a : α) (h : l[k]? = some a) :
    k < l.length := by
  rcases List.getElem?_eq_some_iff.mp h with ⟨h1, _⟩
  exact h1

theorem us_slot_unique (N : Nat) (s : unordered_sparse_set) (hs : s.Consistent N)
    (a b e : Nat) (ha : s.m_dense[a]? = some e) (hb : s.m_dense[b]? = some e) : a = b := by
  have h1 := hs.2.2.2 a e ha
  have h2 := hs.2.2.2 b e hb
  rw [h1] at h2
  exact Option.some.inj (Option.some.inj h2)

theorem us_dense_nodup (N : Nat) (s : unordered_sparse_set) (hs : s.Consistent N) :
    s.m_dense.Nodup := by
  rw [List.nodup_iff_getElem?_ne_getElem?]
  intro a b hab hb heq
  rw [List.getElem?_eq_getElem hb] at heq
  have := us_slot_unique N s hs a b _ heq (List.getElem?_eq_getElem hb)
  omega

theorem us_mem_dense_iff (N : Nat) (s : unordered_sparse_set) (hs : s.Consistent N) (e : Nat) :
    e ∈ s.m_dense ↔ ∃ slot, s.m_sparse[e]? = some (some slot) := by
  rw [List.mem_iff_getElem?]
  constructor
  · rintro ⟨n, hn⟩
    exact ⟨n, hs.2.2.2 n e hn⟩
  · rintro ⟨n, hn⟩
    exact ⟨n, hs.2.2.1 e n hn⟩

theorem us_dense_length_lt (N : Nat) (s : unordered_sparse_set) (hs : s.Consistent N)
    (i : Nat) (hi : i < N) (habs : s.m_sparse[i]? = some none) : s.m_dense.length < N := by
  have hsub : s.m_dense.toFinset ⊆ (Finset.range N).erase i := by
    intro e he
    rw [List.mem_toFinset, us_mem_dense_iff N s hs] at he
    rcases he with ⟨slot, hslot⟩
    rw [Finset.mem_erase, Finset.mem_range]
    constructor
    · intro hei
      rw [hei, habs] at hslot
      cases hslot
    · have := index_lt_of_some _ _ _ hslot
      rw [hs.1] at this
      exact this
  have hcard := Finset.card_le_card hsub
  rw [List.toFinset_card_of_nodup (us_dense_nodup N s hs),
    Finset.card_erase_of_mem (Finset.mem_range.mpr hi), Finset.card_range] at hcard
  omega

theorem us_test_eq (s : unordered_sparse_set) (i : Nat) :
    s.test i = (s.m_sparse[i]?).map (fun p => p != none) := by
  unfold unordered_sparse_set.test
  cases s.m_sparse[i]? <;> rfl

theorem us_test_true_iff (s : unordered_sparse_set) (i : Nat) :
    s.test i = some true ↔ ∃ slot, s.m_sparse[i]? = some (some slot) := by
  rw [us_test_eq]
  rcases h : s.m_sparse[i]? with _ | _ | slot <;> simp

theorem us_test_false_iff (s : unordered_sparse_set) (i : Nat) :
    s.test i = some false ↔ s.m_sparse[i]? = some none := by
  rw [us_test_eq]
  rcases h : s.m_sparse[i]? with _ | _ | slot <;> simp

theorem us_insert_present (s : unordered_sparse_set) (i slot : Nat)
    (h : s.m_sparse[i]? = some (some slot)) : s.insert i = some (s, false) := by
  simp only [unordered_sparse_set.insert, h]

theorem us_insert_absent (s : unordered_sparse_set) (i : Nat)
    (h : s.m_sparse[i]? = some none) (hcap : s.m_dense.length < s.m_dense_capacity) :
    s.insert i = some (⟨s.m_sparse.set i (some s.m_dense.length), s.m_dense ++ [i],
      s.m_dense_capacity⟩, true) := by
  simp only [unordered_sparse_set.insert, h, if_pos hcap, List.length_append, List.length_singleton,
    Nat.add_sub_cancel]

theorem us_insert_consistent (N : Nat) (s : unordered_sparse_set) (hs : s.Consistent N)
    (i : Nat) (h : s.m_sparse[i]? = some none) :
    unordered_sparse_set.Consistent N ⟨s.m_sparse.set i (some s.m_dense.length),
      s.m_dense ++ [i], s.m_dense_capacity⟩ := by
  have hiN : i < s.m_sparse.length := index_lt_of_some _ _ _ h
  refine ⟨by simpa using hs.1, hs.2.1, ?_, ?_⟩
  · intro e slot he
    simp only [List.getElem?_set] at he
    by_cases hie : i = e
    · rw [if_pos hie, if_pos hiN] at he
      have : slot = s.m_dense.length := (Option.some.inj (Option.some.inj he)).symm
      subst this
      subst hie
      exact List.getElem?_concat_length _ _
    · rw [if_neg hie] at he
      have h1 := hs.2.2.1 e slot he
      show (s.m_dense ++ [i])[slot]? = some e
      rw [List.getElem?_append_left (index_lt_of_some _ _ _ h1)]
      exact h1
  · intro slot e he
    show (s.m_sparse.set i (some s.m_dense.length))[e]? = some (some slot)
    change (s.m_dense ++ [i])[slot]? = some e at he
    rw [List.getElem?_append] at he
    by_cases hlt : slot < s.m_dense.length
    · rw [if_pos hlt] at he
      have h1 := hs.2.2.2 slot e he
      have hne : i ≠ e := by
        intro hie
        rw [hie, h1] at h
        cases h
      rw [List.getElem?_set, if_neg hne]
      exact h1
    · rw [if_neg hlt] at he
      have h0 : slot - s.m_dense.length = 0 := by
        have := index_lt_of_some _ _ _ he
        simp at this
        omega
      rw [h0] at he
      have hie : i = e := by simpa using he
      have hslot : slot = s.m_dense.length := by omega
      rw [List.getElem?_set, if_pos hie, if_pos hiN, hslot]

/-- C3: for an `unordered_sparse_set` of capacity `N` whose back-reference
invariant holds and every key `i < N`, `test(i)` has a value; if `i` is
present `insert(i)` returns `false` and changes nothing; if `i` is absent it
returns `true`, `m_dense` is the old one with `i` appended, `m_sparse[i]` is
the address of that new last slot, every other entry of `m_sparse` is
unchanged, `test(i)` is `true` afterwards and the invariant still holds. -/
theorem C3_unordered_insert (N i : Nat) (hi : i < N) (s : unordered_sparse_set)
    (hs : s.Consistent N) :
    (s.test i = some true ∨ s.test i = some false) ∧
    (s.test i = some true → s.insert i = some (s, false)) ∧
    (s.test i = some false → ∃ s1, s.insert i = some (s1, true) ∧
      s1.m_dense = s.m_dense ++ [i] ∧
      s1.m_sparse[i]? = some (some (s1.m_dense.length - 1)) ∧
      (∀ j, j ≠ i → s1.m_sparse[j]? = s.m_sparse[j]?) ∧
      s1.test i = some true ∧ s1.Consistent N) := by
  have hiN : i < s.m_sparse.length := by rw [hs.1]; exact hi
  refine ⟨?_, ?_, ?_⟩
  · rw [us_test_eq, List.getElem?_eq_getElem hiN]
    cases s.m_sparse[i] <;> simp
  · intro h
    rcases (us_test_true_iff s i).mp h with ⟨slot, hslot⟩
    exact us_insert_present s i slot hslot
  · intro h
    have habs := (us_test_false_iff s i).mp h
    have hcap : s.m_dense.length < s.m_dense_capacity :=
      lt_of_lt_of_le (us_dense_length_lt N s hs i hi habs) hs.2.1
    refine ⟨_, us_insert_absent s i habs hcap, rfl, ?_, ?_, ?_, us_insert_consistent N s hs i habs⟩
    · simp [List.getElem?_set, hiN]
    · intro j hj
      simp [List.getElem?_set, Ne.symm hj]
    · rw [us_test_true_iff]
      exact ⟨s.m_dense.length, by simp [List.getElem?_set, hiN]⟩

/-- Witness for C3: capacity 5, the set holding 3 and 1, key 4. -/
theorem C3_unordered_insert_witness :
    ((unordered_sparse_set.mk [none, some 1, none, some 0, none] [3, 1] 5).test 4 = some true ∨
      (unordered_sparse_set.mk [none, some 1, none, some 0, none] [3, 1] 5).test 4 = some false) ∧
    ((unordered_sparse_set.mk [none, some 1, none, some 0, none] [3, 1] 5).test 4 = some true →
      (unordered_sparse_set.mk [none, some 1, none, some 0, none] [3, 1] 5).insert 4
        = some (unordered_sparse_set.mk [none, some 1, none, some 0, none] [3, 1] 5, false)) ∧
    ((unordered_sparse_set.mk [none, some 1, none, some 0, none] [3, 1] 5).test 4 = some false →
      ∃ s1, (unordered_sparse_set.mk [none, some 1, none, some 0, none] [3, 1] 5).insert 4
          = some (s1, true) ∧
        s1.m_dense = [3, 1] ++ [4] ∧
        s1.m_sparse[4]? = some (some (s1.m_dense.length - 1)) ∧
        (∀ j, j ≠ 4 → s1.m_sparse[j]? = [none, some 1, none, some 0, none][j]?) ∧
        s1.test 4 = some true ∧ s1.Consistent 5) :=
  C3_unordered_insert 5 4 (by decide)
    (unordered_sparse_set.mk [none, some 1, none, some 0, none] [3, 1] 5)
    ⟨by decide, by decide, by
      intro e slot h
      have he : e < 5 := index_lt_of_some _ _ _ h
      interval_cases e <;> simp at h <;> subst h <;> rfl, by
      intro slot e h
      have hslot : slot < 2 := index_lt_of_some _ _ _ h
      interval_cases slot <;> simp at h <;> subst h <;> rfl⟩

theorem us_last_slot (N : Nat) (s : unordered_sparse_set) (hs : s.Consistent N) (i v : Nat)
    (h : s.m_sparse[i]? = some (some v)) :
    s.m_dense[v]? = some i ∧ v < s.m_dense.length ∧
    ∃ last, s.m_dense.getLast? = some last ∧ s.m_dense[s.m_dense.length - 1]? = some last ∧
      s.m_sparse[last]? = some (some (s.m_dense.length - 1)) ∧ last < s.m_sparse.length ∧
      (i = last ↔ v = s.m_dense.length - 1) := by
  have hv := hs.2.2.1 i v h
  have hvL := index_lt_of_some _ _ _ hv
  have hL : s.m_dense.length - 1 < s.m_dense.length := by omega
  refine ⟨hv, hvL, s.m_dense[s.m_dense.length - 1], ?_, List.getElem?_eq_getElem hL, ?_, ?_, ?_⟩
  · rw [List.getLast?_eq_getElem?, List.getElem?_eq_getElem hL]
  · exact hs.2.2.2 _ _ (List.getElem?_eq_getElem hL)
  · exact index_lt_of_some _ _ _ (hs.2.2.2 _ _ (List.getElem?_eq_getElem hL))
  · constructor
    · intro heq
      have h2 := hs.2.2.2 _ _ (List.getElem?_eq_getElem hL)
      rw [← heq, h] at h2
      exact Option.some.inj (Option.some.inj h2)
    · intro heq
      have h2 : s.m_dense[v]? = some (s.m_dense[s.m_dense.length - 1]) := by
        rw [heq]; exact List.getElem?_eq_getElem hL
      rw [hv] at h2
      exact Option.some.inj h2

theorem us_erase_absent (s : unordered_sparse_set) (i : Nat) (h : s.m_sparse[i]? = some none) :
    s.erase i = some s := by
  simp only [unordered_sparse_set.erase, h]

theorem us_erase_present (N : Nat) (s : unordered_sparse_set) (hs : s.Consistent N) (i v : Nat)
    (h : s.m_sparse[i]? = some (some v)) :
    ∃ last, s.m_dense[s.m_dense.length - 1]? = some last ∧
      s.erase i = some (if i ≠ last then
          ⟨(s.m_sparse.set last (some v)).set i none, (s.m_dense.set v last).dropLast,
            s.m_dense_capacity⟩
        else ⟨s.m_sparse.set i none, s.m_dense.dropLast, s.m_dense_capacity⟩) := by
  rcases us_last_slot N s hs i v h with ⟨hv, _, last, hlast, hlast2, _, hlastN, _⟩
  refine ⟨last, hlast2, ?_⟩
  simp only [unordered_sparse_set.erase, h, hlast, hv]
  by_cases hil : i = last
  · simp [hil]
  · simp [hil, hlastN]

theorem us_erase_consistent (N : Nat) (s : unordered_sparse_set) (hs : s.Consistent N)
    (i v : Nat) (h : s.m_sparse[i]? = some (some v)) (s1 : unordered_sparse_set)
    (he : s.erase i = some s1) : s1.Consistent N := by
  rcases us_last_slot N s hs i v h with ⟨hv, hvL, last, _, hlast2, hSlast, hlastN, hiff⟩
  rcases us_erase_present N s hs i v h with ⟨last1, hl1, herase⟩
  have hll : last1 = last := by rw [hlast2] at hl1; exact (Option.some.inj hl1).symm
  subst hll
  rw [herase] at he
  have hiN : i < s.m_sparse.length := index_lt_of_some _ _ _ h
  by_cases hil : i = last1
  · rw [if_neg (by simpa using hil)] at he
    have hs1 := (Option.some.inj he).symm
    subst hs1
    have hvl : v = s.m_dense.length - 1 := hiff.mp hil
    refine ⟨by simpa using hs.1, hs.2.1, ?_, ?_⟩
    · intro e slot hes
      simp only [List.getElem?_set] at hes
      by_cases hie : i = e
      · rw [if_pos hie, if_pos hiN] at hes; cases hes
      · rw [if_neg hie] at hes
        have h1 := hs.2.2.1 e slot hes
        have hne : slot ≠ s.m_dense.length - 1 := by
          intro heq
          rw [heq, hlast2] at h1
          exact hie (hil.trans (Option.some.inj h1))
        have := index_lt_of_some _ _ _ h1
        show s.m_dense.dropLast[slot]? = some e
        rw [List.getElem?_dropLast, if_pos (by omega)]
        exact h1
    · intro slot e hes
      change s.m_dense.dropLast[slot]? = some e at hes
      rw [List.getElem?_dropLast] at hes
      by_cases hlt : slot < s.m_dense.length - 1
      · rw [if_pos hlt] at hes
        have h1 := hs.2.2.2 slot e hes
        have hne : i ≠ e := by
          intro hie
          rw [← hie, h] at h1
          have : v = slot := Option.some.inj (Option.some.inj h1)
          omega
        show (s.m_sparse.set i none)[e]? = some (some slot)
        rw [List.getElem?_set, if_neg hne]
        exact h1
      · rw [if_neg hlt] at hes; cases hes
  · rw [if_pos hil] at he
    have hs1 := (Option.some.inj he).symm
    subst hs1
    have hvl : v ≠ s.m_dense.length - 1 := fun e => hil (hiff.mpr e)
    have hlen : (s.m_sparse.set last1 (some v)).length = s.m_sparse.length := by simp
    refine ⟨by simpa using hs.1, hs.2.1, ?_, ?_⟩
    · intro e slot hes
      simp only [List.getElem?_set, hlen] at hes
      show ((s.m_dense.set v last1).dropLast)[slot]? = some e
      rw [List.getElem?_dropLast, List.length_set, List.getElem?_set]
      by_cases hie : i = e
      · rw [if_pos hie, if_pos hiN] at hes; cases hes
      · rw [if_neg hie] at hes
        by_cases hle : last1 = e
        · rw [if_pos hle, if_pos hlastN] at hes
          have hsv : v = slot := Option.some.inj (Option.some.inj hes)
          rw [if_pos (by omega), if_pos hsv, if_pos hvL, hle]
        · rw [if_neg hle] at hes
          have h1 := hs.2.2.1 e slot hes
          have hne1 : slot ≠ s.m_dense.length - 1 := by
            intro heq
            rw [heq, hlast2] at h1
            exact hle (Option.some.inj h1)
          have hne2 : ¬ v = slot := by
            intro heq
            rw [← heq, hv] at h1
            exact hie (Option.some.inj h1)
          have := index_lt_of_some _ _ _ h1
          rw [if_pos (by omega), if_neg hne2]
          exact h1
    · intro slot e hes
      change ((s.m_dense.set v last1).dropLast)[slot]? = some e at hes
      rw [List.getElem?_dropLast, List.length_set, List.getElem?_set] at hes
      show ((s.m_sparse.set last1 (some v)).set i none)[e]? = some (some slot)
      rw [List.getElem?_set, List.getElem?_set]
      by_cases hlt : slot < s.m_dense.length - 1
      · rw [if_pos hlt] at hes
        by_cases hvs : v = slot
        · rw [if_pos hvs, if_pos hvL] at hes
          have hle : last1 = e := Option.some.inj hes
          rw [if_neg (by rw [← hle]; exact hil), if_pos hle, if_pos hlastN, hvs]
        · rw [if_neg hvs] at hes
          have h1 := hs.2.2.2 slot e hes
          have hne1 : ¬ i = e := by
            intro hie
            rw [← hie, h] at h1
            exact hvs (Option.some.inj (Option.some.inj h1))
          have hne2 : ¬ last1 = e := by
            intro hle
            rw [← hle, hSlast] at h1
            have : s.m_dense.length - 1 = slot := Option.some.inj (Option.some.inj h1)
            omega
          rw [if_neg hne1, if_neg hne2]
          exact h1
      · rw [if_neg hlt] at hes; cases hes

theorem us_new_consistent (N : Nat) : (unordered_sparse_set.new N).Consistent N := by
  refine ⟨by simp [unordered_sparse_set.new], by simp [unordered_sparse_set.new], ?_, ?_⟩
  · intro e slot h
    simp only [unordered_sparse_set.new, List.getElem?_replicate] at h
    split at h <;> cases h
  · intro slot e h
    simp [unordered_sparse_set.new] at h

theorem us_clear_consistent (N : Nat) (s : unordered_sparse_set) (hs : s.Consistent N) :
    s.clear.Consistent N := by
  refine ⟨by simpa [unordered_sparse_set.clear] using hs.1, hs.2.1, ?_, ?_⟩
  · intro e slot h
    simp only [unordered_sparse_set.clear, List.getElem?_map] at h
    cases hh : s.m_sparse[e]? <;> rw [hh] at h <;> cases h
  · intro slot e h
    simp [unordered_sparse_set.clear] at h

theorem us_sparse_cases (s : unordered_sparse_set) (i : Nat) (hi : i < s.m_sparse.length) :
    s.m_sparse[i]? = some none ∨ ∃ v, s.m_sparse[i]? = some (some v) := by
  rw [List.getElem?_eq_getElem hi]
  cases s.m_sparse[i]
  · exact Or.inl rfl
  · exact Or.inr ⟨_, rfl⟩

theorem us_reachable_consistent (N : Nat) (s : unordered_sparse_set)
    (h : unordered_sparse_set.Reachable N s) : s.Consistent N := by
  induction h with
  | init => exact us_new_consistent N
  | @insert s s1 i b _ hi hins ih =>
    rcases us_sparse_cases s i (by rw [ih.1]; exact hi) with habs | ⟨v, hv⟩
    · have hcap : s.m_dense.length < s.m_dense_capacity :=
        lt_of_lt_of_le (us_dense_length_lt N s ih i hi habs) ih.2.1
      rw [us_insert_absent s i habs hcap] at hins
      have := (Prod.mk.inj (Option.some.inj hins)).1
      rw [← this]
      exact us_insert_consistent N s ih i habs
    · rw [us_insert_present s i v hv] at hins
      have := (Prod.mk.inj (Option.some.inj hins)).1
      rw [← this]
      exact ih
  | @erase s s1 i _ hi her ih =>
    rcases us_sparse_cases s i (by rw [ih.1]; exact hi) with habs | ⟨v, hv⟩
    · rw [us_erase_absent s i habs] at her
      rw [← Option.some.inj her]
      exact ih
    · exact us_erase_consistent N s ih i v hv s1 her
  | clear _ ih => exact us_clear_consistent N _ ih

/-- C4: for an `unordered_sparse_set` of capacity `N` whose back-reference
invariant holds and every key `i < N`: if `i` is absent `erase(i)` changes
nothing; if `i` is present then after `erase(i)` `test(i)` is `false`,
`test(j)` is unchanged for every key `j ≠ i`, `count()` is exactly one less
than before, and the invariant still holds. -/
theorem C4_unordered_erase (N i : Nat) (hi : i < N) (s : unordered_sparse_set)
    (hs : s.Consistent N) :
    (s.test i = some false → s.erase i = some s) ∧
    (s.test i = some true → ∃ s1, s.erase i = some s1 ∧ s1.test i = some false ∧
      (∀ j, j ≠ i → s1.test j = s.test j) ∧ s1.count + 1 = s.count ∧ s1.Consistent N) := by
  have hiN : i < s.m_sparse.length := by rw [hs.1]; exact hi
  constructor
  · intro h
    exact us_erase_absent s i ((us_test_false_iff s i).mp h)
  · intro h
    rcases (us_test_true_iff s i).mp h with ⟨v, hv⟩
    rcases us_last_slot N s hs i v hv with ⟨_, hvL, last, _, hlast2, hSlast, hlastN, _⟩
    rcases us_erase_present N s hs i v hv with ⟨last1, hl1, herase⟩
    have hll : last1 = last := by rw [hlast2] at hl1; exact (Option.some.inj hl1).symm
    subst hll
    refine ⟨_, herase, ?_, ?_, ?_, us_erase_consistent N s hs i v hv _ herase⟩
    · rw [us_test_false_iff]
      by_cases hil : i = last1
      · rw [if_neg (by simpa using hil)]
        simp [List.getElem?_set, hiN]
      · rw [if_pos hil]
        simp [List.getElem?_set, hiN]
    · intro j hj
      rw [us_test_eq, us_test_eq]
      by_cases hil : i = last1
      · rw [if_neg (by simpa using hil)]
        simp [List.getElem?_set, Ne.symm hj]
      · rw [if_pos hil]
        show Option.map _ ((s.m_sparse.set last1 (some v)).set i none)[j]? = _
        rw [List.getElem?_set, if_neg (Ne.symm hj), List.getElem?_set]
        by_cases hlj : last1 = j
        · rw [if_pos hlj, if_pos hlastN, ← hlj, hSlast]
          rfl
        · rw [if_neg hlj]
    · by_cases hil : i = last1
      · rw [if_neg (by simpa using hil)]
        simp only [unordered_sparse_set.count, List.length_dropLast]
        omega
      · rw [if_pos hil]
        simp only [unordered_sparse_set.count, List.length_dropLast, List.length_set]
        omega

/-- Witness for C4: capacity 5, the set holding 3, 1 and 4, key 3. -/
theorem C4_unordered_erase_witness :
    ((unordered_sparse_set.mk [none, some 1, none, some 0, some 2] [3, 1, 4] 5).test 3
        = some false →
      (unordered_sparse_set.mk [none, some 1, none, some 0, some 2] [3, 1, 4] 5).erase 3
        = some (unordered_sparse_set.mk [none, some 1, none, some 0, some 2] [3, 1, 4] 5)) ∧
    ((unordered_sparse_set.mk [none, some 1, none, some 0, some 2] [3, 1, 4] 5).test 3
        = some true →
      ∃ s1, (unordered_sparse_set.mk [none, some 1, none, some 0, some 2] [3, 1, 4] 5).erase 3
          = some s1 ∧ s1.test 3 = some false ∧
        (∀ j, j ≠ 3 → s1.test j
          = (unordered_sparse_set.mk [none, some 1, none, some 0, some 2] [3, 1, 4] 5).test j) ∧
        s1.count + 1
          = (unordered_sparse_set.mk [none, some 1, none, some 0, some 2] [3, 1, 4] 5).count ∧
        s1.Consistent 5) :=
  C4_unordered_erase 5 3 (by decide)
    (unordered_sparse_set.mk [none, some 1, none, some 0, some 2] [3, 1, 4] 5)
    ⟨by decide, by decide, by
      intro e slot h
      have he : e < 5 := index_lt_of_some _ _ _ h
      interval_cases e <;> simp at h <;> subst h <;> rfl, by
      intro slot e h
      have hslot : slot < 3 := index_lt_of_some _ _ _ h
      interval_cases slot <;> simp at h <;> subst h <;> rfl⟩

/-- C5: in every state reachable from `unordered_sparse_set(N)` by `insert`,
`erase` and `clear` with keys below `N`, for every key `e < N`: `m_sparse[e]`
is the address of slot `slot` iff `slot` is a slot of `m_dense` holding `e`;
a key occupies at most one slot; and `m_sparse[e]` is `nullptr` iff `e`
occurs nowhere in `m_dense`. -/
theorem C5_back_reference_invariant (N : Nat) (s : unordered_sparse_set)
    (h : unordered_sparse_set.Reachable N s) (e : Nat) (he : e < N) :
    (∀ slot, s.m_sparse[e]? = some (some slot)
      ↔ (slot < s.m_dense.length ∧ s.m_dense[slot]? = some e)) ∧
    (∀ a b : Nat, s.m_dense[a]? = some e → s.m_dense[b]? = some e → a = b) ∧
    (s.m_sparse[e]? = some none ↔ e ∉ s.m_dense) := by
  have hs := us_reachable_consistent N s h
  refine ⟨?_, ?_, ?_⟩
  · intro slot
    constructor
    · intro h1
      exact ⟨index_lt_of_some _ _ _ (hs.2.2.1 e slot h1), hs.2.2.1 e slot h1⟩
    · intro h1
      exact hs.2.2.2 slot e h1.2
  · intro a b ha hb
    exact us_slot_unique N s hs a b e ha hb
  · rw [us_mem_dense_iff N s hs]
    constructor
    · rintro h1 ⟨slot, h2⟩
      rw [h1] at h2
      cases h2
    · intro h1
      rcases us_sparse_cases s e (by rw [hs.1]; exact he) with h2 | ⟨v, h2⟩
      · exact h2
      · exact absurd ⟨v, h2⟩ h1

/-- Witness for C5: the state after `insert(3)`, `insert(1)`, `insert(4)`,
`erase(3)` on a set of capacity 5, key 4. -/
theorem C5_back_reference_invariant_witness :
    (∀ slot, (unordered_sparse_set.mk [none, some 1, none, none, some 0] [4, 1] 5).m_sparse[4]?
        = some (some slot)
      ↔ (slot < (unordered_sparse_set.mk [none, some 1, none, none, some 0] [4, 1] 5).m_dense.length
        ∧ (unordered_sparse_set.mk [none, some 1, none, none, some 0] [4, 1] 5).m_dense[slot]?
          = some 4)) ∧
    (∀ a b : Nat, (unordered_sparse_set.mk [none, some 1, none, none, some 0] [4, 1] 5).m_dense[a]?
        = some 4 →
      (unordered_sparse_set.mk [none, some 1, none, none, some 0] [4, 1] 5).m_dense[b]? = some 4 →
      a = b) ∧
    ((unordered_sparse_set.mk [none, some 1, none, none, some 0] [4, 1] 5).m_sparse[4]? = some none
      ↔ 4 ∉ (unordered_sparse_set.mk [none, some 1, none, none, some 0] [4, 1] 5).m_dense) :=
  C5_back_reference_invariant 5
    (unordered_sparse_set.mk [none, some 1, none, none, some 0] [4, 1] 5)
    (unordered_sparse_set.Reachable.erase (i := 3)
      (unordered_sparse_set.Reachable.insert (i := 4) (b := true)
        (unordered_sparse_set.Reachable.insert (i := 1) (b := true)
          (unordered_sparse_set.Reachable.insert (i := 3) (b := true)
            unordered_sparse_set.Reachable.init (by decide) rfl)
          (by decide) rfl)
        (by decide) rfl)
      (by decide) rfl)
    4 (by decide)

theorem us_mem_iterate_iff (N : Nat) (s : unordered_sparse_set) (hs : s.Consistent N) (i : Nat) :
    i ∈ s.iterate ↔ s.test i = some true := by
  rw [us_test_true_iff]
  exact us_mem_dense_iff N s hs i

/-- C7: in every state reachable from `unordered_sparse_set(N)` by `insert`,
`erase` and `clear` with keys below `N`, the sequence from `begin()` to
`end()` has no duplicates, holds a key exactly when `test` answers `true`
for it (each such key exactly once), and `count()` is the number of keys
`i < N` with `test(i) == true`. -/
theorem C7_unordered_iteration (N : Nat) (s : unordered_sparse_set)
    (h : unordered_sparse_set.Reachable N s) :
    s.iterate.Nodup ∧ (∀ i, i ∈ s.iterate ↔ s.test i = some true) ∧
    (∀ i, s.test i = some true → s.iterate.count i = 1) ∧
    s.count = ((List.range N).filter (fun i => s.test i == some true)).length := by
  have hs := us_reachable_consistent N s h
  have hnd : s.iterate.Nodup := us_dense_nodup N s hs
  refine ⟨hnd, us_mem_iterate_iff N s hs, ?_, ?_⟩
  · intro i hi
    exact List.count_eq_one_of_mem hnd ((us_mem_iterate_iff N s hs i).mpr hi)
  · have hperm : s.iterate.Perm ((List.range N).filter (fun i => s.test i == some true)) := by
      apply List.perm_of_nodup_nodup_toFinset_eq hnd ((List.nodup_range N).filter _)
      ext i
      rw [List.mem_toFinset, List.mem_toFinset, List.mem_filter, List.mem_range,
        us_mem_iterate_iff N s hs i]
      constructor
      · intro hi
        refine ⟨?_, by simp [hi]⟩
        rcases (us_test_true_iff s i).mp hi with ⟨slot, hslot⟩
        have := index_lt_of_some _ _ _ hslot
        rw [hs.1] at this
        exact this
      · intro hi
        simpa using hi.2
    exact hperm.length_eq

/-- Witness for C7: the state after `insert(3)`, `insert(1)`, `insert(4)`,
`erase(3)` on a set of capacity 5. -/
theorem C7_unordered_iteration_witness :
    (unordered_sparse_set.mk [none, some 1, none, none, some 0] [4, 1] 5).iterate.Nodup ∧
    (∀ i, i ∈ (unordered_sparse_set.mk [none, some 1, none, none, some 0] [4, 1] 5).iterate
      ↔ (unordered_sparse_set.mk [none, some 1, none, none, some 0] [4, 1] 5).test i = some true) ∧
    (∀ i, (unordered_sparse_set.mk [none, some 1, none, none, some 0] [4, 1] 5).test i = some true →
      (unordered_sparse_set.mk [none, some 1, none, none, some 0] [4, 1] 5).iterate.count i = 1) ∧
    (unordered_sparse_set.mk [none, some 1, none, none, some 0] [4, 1] 5).count
      = ((List.range 5).filter (fun i =>
          (unordered_sparse_set.mk [none, some 1, none, none, some 0] [4, 1] 5).test i
            == some true)).length :=
  C7_unordered_iteration 5
    (unordered_sparse_set.mk [none, some 1, none, none, some 0] [4, 1] 5)
    (unordered_sparse_set.Reachable.erase (i := 3)
      (unordered_sparse_set.Reachable.insert (i := 4) (b := true)
        (unordered_sparse_set.Reachable.insert (i := 1) (b := true)
          (unordered_sparse_set.Reachable.insert (i := 3) (b := true)
            unordered_sparse_set.Reachable.init (by decide) rfl)
          (by decide) rfl)
        (by decide) rfl)
      (by decide) rfl)

/-! ## `bits::lsb` and `bits::count_bits` on 64 bit words -/

theorem lsb_step_spec (w x r y : Nat) (hinv : x = y * 2 ^ r) :
    x = (bits.lsb_step true (2 ^ w - 1) w (r, y)).2 * 2 ^ (bits.lsb_step true (2 ^ w - 1) w (r, y)).1 ∧
    ((bits.lsb_step true (2 ^ w - 1) w (r, y) = (r, y) ∧ y % 2 ^ w ≠ 0) ∨
     (bits.lsb_step true (2 ^ w - 1) w (r, y) = (r + w, y / 2 ^ w) ∧ y % 2 ^ w = 0)) := by
  unfold bits.lsb_step
  simp only [Bool.true_and, Nat.and_pow_two_sub_one_eq_mod, beq_iff_eq, Nat.shiftRight_eq_div_pow]
  by_cases h : y % 2 ^ w = 0
  · rw [if_pos h]
    refine ⟨?_, Or.inr ⟨rfl, h⟩⟩
    show x = y / 2 ^ w * 2 ^ (r + w)
    rw [hinv, Nat.pow_add, Nat.mul_comm (2 ^ r), ← Nat.mul_assoc,
      Nat.div_mul_cancel (Nat.dvd_of_mod_eq_zero h)]
  · rw [if_neg h]
    exact ⟨hinv, Or.inl ⟨rfl, h⟩⟩

theorem nibble_lsb : ∀ c, c < 16 → c ≠ 0 →
    bits.bval.getD c 0 < 4 ∧ c.testBit (bits.bval.getD c 0) = true ∧
    ∀ j, j < bits.bval.getD c 0 → c.testBit j = false := by
  decide

theorem nibble_count : ∀ c, c < 16 →
    ((List.range 4).filter (fun j => c.testBit j)).length = bits.bcount.getD c 0 := by
  decide

theorem lsb_pair (x : Nat) (hx : x ≠ 0) (hlt : x < 2 ^ 64) :
    ∃ r y : Nat, bits.lsb 8 x = (r : Int) + (bits.bval.getD (y % 16) 0 : Nat) ∧
      x = y * 2 ^ r ∧ y % 16 ≠ 0 ∧ r ≤ 60 := by
  have h0 : x = x * 2 ^ 0 := by simp
  have m32 : (0xFFFFFFFF : Nat) = 2 ^ 32 - 1 := by norm_num
  have m16 : (0x0000FFFF : Nat) = 2 ^ 16 - 1 := by norm_num
  have m8 : (0x000000FF : Nat) = 2 ^ 8 - 1 := by norm_num
  have m4 : (0x0000000F : Nat) = 2 ^ 4 - 1 := by norm_num
  unfold bits.lsb
  rw [if_neg hx]
  simp only [beq_self_eq_true, Bool.true_or, Bool.or_true, m32, m16, m8, m4,
    Nat.and_pow_two_sub_one_eq_mod]
  obtain ⟨e1, c1⟩ := lsb_step_spec 32 x 0 x h0
  generalize bits.lsb_step true (2 ^ 32 - 1) 32 (0, x) = p1 at e1 c1 ⊢
  obtain ⟨r1, y1⟩ := p1
  obtain ⟨e2, c2⟩ := lsb_step_spec 16 x r1 y1 e1
  generalize bits.lsb_step true (2 ^ 16 - 1) 16 (r1, y1) = p2 at e2 c2 ⊢
  obtain ⟨r2, y2⟩ := p2
  obtain ⟨e3, c3⟩ := lsb_step_spec 8 x r2 y2 e2
  generalize bits.lsb_step true (2 ^ 8 - 1) 8 (r2, y2) = p3 at e3 c3 ⊢
  obtain ⟨r3, y3⟩ := p3
  obtain ⟨e4, c4⟩ := lsb_step_spec 4 x r3 y3 e3
  generalize bits.lsb_step true (2 ^ 4 - 1) 4 (r3, y3) = p4 at e4 c4 ⊢
  obtain ⟨r4, y4⟩ := p4
  refine ⟨r4, y4, rfl, e4, ?_, ?_⟩
  · simp only [Prod.mk.injEq] at c1 c2 c3 c4
    have hx' : x ≠ 0 := hx
    norm_num at c1 c2 c3 c4 hlt
    omega
  · simp only [Prod.mk.injEq] at c1 c2 c3 c4
    omega

theorem int_to_unsigned_natCast (r : Nat) (h : r < 2 ^ 32) : int_to_unsigned (r : Int) = r := by
  unfold int_to_unsigned
  have h1 : ((r : Int) % 2 ^ 32) = (r : Int) := Int.emod_eq_of_lt (by omega) (by omega)
  rw [h1, Int.toNat_ofNat]

theorem lsb_spec (x : Nat) (hx : x ≠ 0) (hlt : x < 2 ^ 64) :
    ∃ r : Nat, bits.lsb 8 x = (r : Int) ∧ int_to_unsigned (bits.lsb 8 x) = r ∧ r < 64 ∧
      x.testBit r = true ∧ ∀ j, j < r → x.testBit j = false := by
  obtain ⟨r0, y, hl, hxy, hy, hr0⟩ := lsb_pair x hx hlt
  obtain ⟨hb4, hbt, hbl⟩ := nibble_lsb (y % 16) (Nat.mod_lt _ (by norm_num)) hy
  have hnib : ∀ j, j < 4 → (y % 16).testBit j = y.testBit j := by
    intro j hj
    have := Nat.testBit_mod_two_pow y 4 j
    simpa [hj] using this
  have hshift : ∀ j, x.testBit j = (decide (j ≥ r0) && y.testBit (j - r0)) := by
    intro j
    rw [hxy, ← Nat.shiftLeft_eq, Nat.testBit_shiftLeft]
  have hl2 : bits.lsb 8 x = ((r0 + bits.bval.getD (y % 16) 0 : Nat) : Int) := by
    rw [hl]; push_cast; rfl
  refine ⟨r0 + bits.bval.getD (y % 16) 0, hl2, ?_, by omega, ?_, ?_⟩
  · rw [hl2]
    exact int_to_unsigned_natCast _ (by omega)
  · rw [hshift, Nat.add_sub_cancel_left, ← hnib _ hb4, hbt]
    simp
  · intro j hj
    rw [hshift]
    by_cases hjr : j ≥ r0
    · have h1 : j - r0 < bits.bval.getD (y % 16) 0 := by omega
      rw [← hnib _ (by omega), hbl _ h1]
      simp
    · simp [hjr]

theorem testBit_false_of_ge_64 (x j : Nat) (hx : x < 2 ^ 64) (hj : 64 ≤ j) :
    x.testBit j = false :=
  Nat.testBit_lt_two_pow (lt_of_lt_of_le hx (Nat.pow_le_pow_right (by norm_num) hj))

/-- Number of set bits among the lowest `n` bits of `x`. -/
theorem popcount_split (n x : Nat) :
    ((List.range (4 + n)).filter (fun j => x.testBit j)).length
      = bits.bcount.getD (x % 16) 0
        + ((List.range n).filter (fun j => (x >>> 4).testBit j)).length := by
  rw [List.range_add, List.filter_append, List.length_append, List.filter_map, List.length_map]
  congr 1
  · rw [← nibble_count (x % 16) (Nat.mod_lt _ (by norm_num))]
    congr 1
    apply List.filter_congr
    intro j hj
    have hj4 : j < 4 := List.mem_range.mp hj
    have := Nat.testBit_mod_two_pow x 4 j
    simp only [hj4, decide_True, Bool.true_and] at this
    exact this.symm
  · congr 1
    apply List.filter_congr
    intro j _
    simp [Nat.testBit_shiftRight]

theorem count_bits_loop_spec (k : Nat) : ∀ fuel x c, x ≤ fuel → x < 2 ^ (4 * k) →
    c + 4 * k < 2 ^ 32 →
    bits.count_bits_loop fuel x c
      = c + ((List.range (4 * k)).filter (fun j => x.testBit j)).length := by
  induction k with
  | zero =>
    intro fuel x c _ hx _
    have hx0 : x = 0 := by simpa using hx
    subst hx0
    cases fuel <;> simp [bits.count_bits_loop]
  | succ k ih =>
    intro fuel x c hf hx hc
    cases fuel with
    | zero =>
      have hx0 : x = 0 := by omega
      subst hx0
      simp [bits.count_bits_loop]
    | succ fuel =>
      unfold bits.count_bits_loop
      by_cases hx0 : x = 0
      · subst hx0
        simp
      · rw [if_neg hx0]
        have hnib : bits.bcount.getD (x % 16) 0 ≤ 4 := by
          rw [← nibble_count (x % 16) (Nat.mod_lt _ (by norm_num))]
          exact le_trans (List.length_filter_le _ _) (by simp)
        have hand : x &&& 0xF = x % 16 := by
          have := Nat.and_pow_two_sub_one_eq_mod x 4
          simpa using this
        have hdiv : x >>> 4 = x / 16 := by simp [Nat.shiftRight_eq_div_pow]
        rw [hand, Nat.mod_eq_of_lt (by omega)]
        rw [ih fuel (x >>> 4) _ (by rw [hdiv]; omega)
          (by rw [hdiv]; rw [show 4 * (k + 1) = 4 * k + 4 by ring, Nat.pow_add] at hx; omega)
          (by omega)]
        rw [show 4 * (k + 1) = 4 + 4 * k by ring, popcount_split]
        omega

theorem count_bits_spec (x : Nat) (hx : x < 2 ^ 64) :
    bits.count_bits x = ((List.range 64).filter (fun j => x.testBit j)).length := by
  unfold bits.count_bits
  rw [count_bits_loop_spec 16 x x 0 (le_refl _) (by simpa using hx) (by norm_num)]
  simp

/-! ## The list of set bits of a bitmap -/

theorem bit_at_cons (w : Nat) (a : List Nat) (p : Nat) :
    bit_at (w :: a) p = if p < 64 then w.testBit p else bit_at a (p - 64) := by
  unfold bit_at unsigned_bits
  by_cases h : p < 64
  · rw [if_pos h, Nat.div_eq_of_lt h, Nat.mod_eq_of_lt h]
    rfl
  · rw [if_neg h]
    have h1 : p / 64 = (p - 64) / 64 + 1 := by omega
    have h2 : p % 64 = (p - 64) % 64 := by omega
    rw [h1, h2]
    rfl

theorem set_bits_cons (w : Nat) (a : List Nat) :
    set_bits (w :: a)
      = (List.range 64).filter (fun j => w.testBit j) ++ (set_bits a).map (fun p => 64 + p) := by
  unfold set_bits unsigned_bits
  rw [List.length_cons, Nat.mul_add, Nat.mul_one, Nat.add_comm, List.range_add,
    List.filter_append, List.filter_map]
  have h1 : (List.range 64).filter (bit_at (w :: a))
      = (List.range 64).filter (fun j => w.testBit j) := by
    apply List.filter_congr
    intro p hp
    rw [bit_at_cons, if_pos (List.mem_range.mp hp)]
  have h2 : (List.range (64 * a.length)).filter (bit_at (w :: a) ∘ fun x => 64 + x)
      = (List.range (64 * a.length)).filter (bit_at a) := by
    apply List.filter_congr
    intro p _
    simp only [Function.comp]
    rw [bit_at_cons, if_neg (by omega)]
    congr 1
    omega
  rw [h1, h2]

theorem filter_range_extend (P : Nat → Bool) (n k : Nat) (h : ∀ p, P p = true → p < n) :
    (List.range (n + k)).filter P = (List.range n).filter P := by
  rw [List.range_add, List.filter_append]
  have : ((List.range k).map (fun x => n + x)).filter P = [] := by
    rw [List.filter_eq_nil_iff]
    intro p hp hP
    rcases List.mem_map.mp hp with ⟨q, _, hq⟩
    have := h p hP
    omega
  rw [this, List.append_nil]

theorem filter_range_eq (P : Nat → Bool) (n m : Nat) (hn : ∀ p, P p = true → p < n)
    (hm : ∀ p, P p = true → p < m) : (List.range n).filter P = (List.range m).filter P := by
  rcases Nat.le_total n m with h | h
  · obtain ⟨k, rfl⟩ := Nat.exists_eq_add_of_le h
    exact (filter_range_extend P n k hn).symm
  · obtain ⟨k, rfl⟩ := Nat.exists_eq_add_of_le h
    exact filter_range_extend P m k hm

theorem bit_at_lt (a : List Nat) (p : Nat) (h : bit_at a p = true) : p < 64 * a.length := by
  by_contra hge
  rw [bit_at_of_ge a p (by omega)] at h
  cases h

theorem count_fold_spec (a : List Nat) (ha : ∀ w ∈ a, w < 2 ^ 64) : ∀ acc,
    acc + 64 * a.length < 2 ^ 64 →
    a.foldl (fun count x => (count + bits.count_bits x) % 2 ^ 64) acc
      = acc + (set_bits a).length := by
  induction a with
  | nil => intro acc _; simp [set_bits]
  | cons w a ih =>
    intro acc hacc
    have hw : w < 2 ^ 64 := ha w (List.mem_cons_self _ _)
    have hcb : bits.count_bits w ≤ 64 := by
      rw [count_bits_spec w hw]
      exact le_trans (List.length_filter_le _ _) (by simp)
    rw [List.length_cons] at hacc
    rw [List.foldl_cons, Nat.mod_eq_of_lt (by omega),
      ih (fun w hw => ha w (List.mem_cons_of_mem _ hw)) _ (by omega), set_bits_cons,
      List.length_append, List.length_map, count_bits_spec w hw]
    omega

theorem bs_members_eq (N : Nat) (s : bounded_set)
    (hb : ∀ p, bit_at s.m_bit_array p = true → p < N) :
    s.members N = set_bits s.m_bit_array := by
  unfold bounded_set.members set_bits unsigned_bits
  have h1 : (List.range N).filter (fun i => s.test i == some true)
      = (List.range N).filter (bit_at s.m_bit_array) := by
    apply List.filter_congr
    intro i _
    rw [bs_test_eq]
    by_cases h : i / 64 < s.m_bit_array.length
    · rw [if_pos h]
      cases bit_at s.m_bit_array i <;> rfl
    · rw [if_neg h, bit_at_of_ge _ _ (by omega)]
      rfl
  rw [h1]
  exact filter_range_eq _ _ _ hb (bit_at_lt _)

theorem bit_at_replicate_zero (n p : Nat) : bit_at (List.replicate n 0) p = false := by
  unfold bit_at
  rw [List.getD_eq_getElem?_getD, List.getElem?_replicate]
  split <;> simp

theorem bit_at_map_zero (a : List Nat) (p : Nat) : bit_at (a.map (fun _ => 0)) p = false := by
  unfold bit_at
  rw [List.getD_eq_getElem?_getD, List.getElem?_map]
  cases a[p / unsigned_bits]? <;> simp

theorem bs_insert_some (s s1 : bounded_set) (i : Nat) (b : Bool)
    (h : s.insert i = some (s1, b)) : i / 64 < s.m_bit_array.length := by
  by_contra hge
  rw [bs_insert_none s i (by omega)] at h
  cases h

theorem bs_erase_some (s s1 : bounded_set) (i : Nat)
    (h : s.erase i = some s1) : i / 64 < s.m_bit_array.length := by
  by_contra hge
  rw [bs_erase_none s i (by omega)] at h
  cases h

theorem bs_reachable_inv (N : Nat) (s : bounded_set) (h : bounded_set.Reachable N s) :
    s.HasCapacity N ∧ ∀ p, bit_at s.m_bit_array p = true → p < N := by
  induction h with
  | init =>
    refine ⟨⟨rfl, by simp [bounded_set.new], ?_⟩, ?_⟩
    · intro w hw
      simp only [bounded_set.new] at hw
      rw [(List.mem_replicate.mp hw).2]
      norm_num
    · intro p hp
      simp only [bounded_set.new, bit_at_replicate_zero] at hp
      cases hp
  | @insert s s1 i b _ hi hins ih =>
    have hlen := bs_insert_some s s1 i b hins
    rw [bs_insert_eq s i hlen] at hins
    have hs1 := (Prod.mk.inj (Option.some.inj hins)).1
    subst hs1
    refine ⟨⟨ih.1.1, by simpa using ih.1.2.1, ?_⟩, ?_⟩
    · exact words_set_lt _ _ _ ih.1.2.2 (set_bit_lt _ _ (ih.1.2.2 _ (List.getElem_mem _))
        (Nat.mod_lt _ (by norm_num)))
    · intro p hp
      simp only [bit_at_insert _ i p hlen, Bool.or_eq_true, decide_eq_true_eq] at hp
      rcases hp with hp | hp
      · rw [hp]; exact hi
      · exact ih.2 p hp
  | @erase s s1 i _ _ her ih =>
    have hlen := bs_erase_some s s1 i her
    rw [bs_erase_eq s i hlen] at her
    have hs1 := Option.some.inj her
    subst hs1
    refine ⟨⟨ih.1.1, by simpa using ih.1.2.1, ?_⟩, ?_⟩
    · exact words_set_lt _ _ _ ih.1.2.2 (clear_bit_lt _ _ (ih.1.2.2 _ (List.getElem_mem _)))
    · intro p hp
      simp only [bit_at_erase _ i p hlen, Bool.and_eq_true] at hp
      exact ih.2 p hp.2
  | clear _ ih =>
    refine ⟨⟨ih.1.1, by simpa [bounded_set.clear] using ih.1.2.1, ?_⟩, ?_⟩
    · intro w hw
      simp only [bounded_set.clear, List.mem_map] at hw
      rcases hw with ⟨_, _, rfl⟩
      norm_num
    · intro p hp
      simp only [bounded_set.clear, bit_at_map_zero] at hp
      cases hp

theorem bs_count_eq (N : Nat) (s : bounded_set) (hs : s.HasCapacity N) :
    s.count = (set_bits s.m_bit_array).length := by
  unfold bounded_set.count
  have hlen : s.m_bit_array.length < 2 ^ 26 := by rw [hs.2.1]; exact word_count_lt _
  rw [count_fold_spec _ hs.2.2 0 (by omega), Nat.zero_add]

/-- C6: in every state reachable from `bounded_set(N)` by `insert`, `erase`
and `clear` with keys below `N`, `count()` equals the number of keys
`i < N` with `test(i) == true`. -/
theorem C6_bounded_count (N : Nat) (s : bounded_set) (h : bounded_set.Reachable N s) :
    s.count = ((List.range N).filter (fun i => s.test i == some true)).length := by
  have hinv := bs_reachable_inv N s h
  rw [bs_count_eq N s hinv.1, ← bs_members_eq N s hinv.2]
  rfl

/-- Witness for C6: the state after `insert(5)`, `insert(70)`, `insert(64)`,
`erase(5)` on a set of capacity 100. -/
theorem C6_bounded_count_witness :
    (bounded_set.mk 100 [0, 65]).count
      = ((List.range 100).filter (fun i => (bounded_set.mk 100 [0, 65]).test i == some true)).length :=
  C6_bounded_count 100 (bounded_set.mk 100 [0, 65])
    (bounded_set.Reachable.erase (i := 5)
      (bounded_set.Reachable.insert (i := 64) (b := true)
        (bounded_set.Reachable.insert (i := 70) (b := true)
          (bounded_set.Reachable.insert (i := 5) (b := true)
            bounded_set.Reachable.init (by decide) rfl)
          (by decide) rfl)
        (by decide) rfl)
      (by decide) rfl)

/-! ## `create_iteration_sequence` -/

theorem testBit_lt_of_lt_two_pow (x n p : Nat) (hx : x < 2 ^ n) (hp : x.testBit p = true) :
    p < n := by
  by_contra hge
  have : x.testBit p = false :=
    Nat.testBit_lt_two_pow (lt_of_lt_of_le hx (Nat.pow_le_pow_right (by norm_num) (by omega)))
  rw [this] at hp
  cases hp

theorem filter_testBit_lsb (x p n : Nat) (hp : p < n) (hbit : x.testBit p = true)
    (hlow : ∀ j, j < p → x.testBit j = false) :
    (List.range n).filter (fun j => x.testBit j)
      = p :: ((List.range (n - p - 1)).filter (fun j => (x >>> (p + 1)).testBit j)).map
          (fun j => p + 1 + j) := by
  have hn : n = (p + 1) + (n - p - 1) := by omega
  conv_lhs => rw [hn]
  rw [List.range_add, List.filter_append, List.range_succ, List.filter_append]
  have h1 : (List.range p).filter (fun j => x.testBit j) = [] := by
    rw [List.filter_eq_nil_iff]
    intro j hj
    rw [hlow j (List.mem_range.mp hj)]
    simp
  have h2 : [p].filter (fun j => x.testBit j) = [p] := by simp [hbit]
  rw [h1, h2, List.filter_map]
  have h3 : (List.range (n - p - 1)).filter ((fun j => x.testBit j) ∘ fun x => p + 1 + x)
      = (List.range (n - p - 1)).filter (fun j => (x >>> (p + 1)).testBit j) := by
    apply List.filter_congr
    intro j _
    simp [Nat.testBit_shiftRight]
  rw [h3]
  rfl

theorem emit_word_spec : ∀ fuel x bit seq n, x ≠ 0 → x ≤ fuel → x < 2 ^ n → n ≤ 64 →
    bit + n ≤ 2 ^ 32 →
    sparse_set.emit_word fuel x bit seq
      = some (seq ++ ((List.range n).filter (fun j => x.testBit j)).map (fun j => bit + j)) := by
  intro fuel
  induction fuel with
  | zero => intro x bit seq n hx hf; omega
  | succ fuel ih =>
    intro x bit seq n hx hf hlt hn hbit
    have hx64 : x < 2 ^ 64 := lt_of_lt_of_le hlt (Nat.pow_le_pow_right (by norm_num) hn)
    obtain ⟨p, _, hpu, _, hpt, hpl⟩ := lsb_spec x hx hx64
    have hpn : p < n := testBit_lt_of_lt_two_pow x n p hlt hpt
    unfold sparse_set.emit_word
    simp only [hpu]
    rw [Nat.mod_eq_of_lt (by omega), filter_testBit_lsb x p n hpn hpt hpl]
    have hx1 : (x >>> p) % 2 = 1 := by
      have := hpt
      rw [Nat.testBit_to_div_mod] at this
      simpa [Nat.shiftRight_eq_div_pow] using this
    have hx2 : x >>> (p + 1) = (x >>> p) >>> 1 := by rw [Nat.shiftRight_add]
    by_cases h1 : x >>> p = 1
    · rw [if_pos h1]
      have hz : x >>> (p + 1) = 0 := by rw [hx2, h1]; rfl
      rw [hz]
      simp
    · rw [if_neg h1]
      have hnz : (x >>> p) >>> 1 ≠ 0 := by
        rw [Nat.shiftRight_eq_div_pow]
        omega
      have hlt2 : (x >>> p) >>> 1 < 2 ^ (n - p - 1) := by
        rw [← hx2, Nat.shiftRight_eq_div_pow]
        apply Nat.div_lt_of_lt_mul
        rw [← Nat.pow_add]
        rw [show p + 1 + (n - p - 1) = n by omega]
        exact hlt
      have hpn1 : p + 1 < n := by
        by_contra hge
        have hz : n - p - 1 = 0 := by omega
        rw [hz] at hlt2
        simp at hlt2
        exact hnz hlt2
      have hsm : (x >>> p) >>> 1 < x := by
        rw [← hx2, Nat.shiftRight_eq_div_pow]
        exact Nat.div_lt_self (Nat.pos_of_ne_zero hx) (Nat.one_lt_two_pow (by omega))
      rw [Nat.mod_eq_of_lt (by omega),
        ih ((x >>> p) >>> 1) (bit + p + 1) (seq ++ [bit + p]) (n - p - 1) hnz (by omega) hlt2
          (by omega) (by omega), hx2]
      simp only [List.map_cons, List.map_map, List.append_assoc, List.singleton_append]
      congr 3
      apply List.map_congr_left
      intro j _
      simp only [Function.comp]
      omega

theorem emit_words_spec : ∀ (a : List Nat) (k : Nat) (seq : List Nat),
    (∀ w ∈ a, w < 2 ^ 64) → k + 64 * a.length ≤ 2 ^ 32 →
    sparse_set.emit_words a k seq = some (seq ++ (set_bits a).map (fun p => k + p)) := by
  intro a
  induction a with
  | nil => intro k seq _ _; simp [sparse_set.emit_words, set_bits]
  | cons w a ih =>
    intro k seq ha hk
    have hw : w < 2 ^ 64 := ha w (List.mem_cons_self _ _)
    rw [List.length_cons] at hk
    unfold sparse_set.emit_words
    have hhere : (if w ≠ 0 then sparse_set.emit_word w w (k % 2 ^ 32) seq else some seq)
        = some (seq ++ ((List.range 64).filter (fun j => w.testBit j)).map (fun j => k + j)) := by
      by_cases hw0 : w = 0
      · subst hw0
        simp
      · rw [if_pos hw0, Nat.mod_eq_of_lt (by omega),
          emit_word_spec w w k seq 64 hw0 (le_refl _) hw (le_refl _) (by omega)]
    simp only [hhere, unsigned_bits]
    rw [Nat.mod_eq_of_lt (by omega), ih (k + 64) _ (fun w hw => ha w (List.mem_cons_of_mem _ hw))
      (by omega), set_bits_cons]
    simp only [List.map_append, List.map_map, List.append_assoc]
    congr 3
    apply List.map_congr_left
    intro j _
    simp only [Function.comp]
    omega

theorem create_iteration_sequence_spec (s : sparse_set) (ha : ∀ w ∈ s.m_bit_array, w < 2 ^ 64)
    (hlen : s.m_bit_array.length < 2 ^ 26) :
    s.create_iteration_sequence
      = some ⟨s.m_size, s.m_bit_array, s.m_sequence ++ set_bits s.m_bit_array,
          s.m_iterator_present⟩ := by
  unfold sparse_set.create_iteration_sequence
  rw [emit_words_spec s.m_bit_array 0 s.m_sequence ha (by omega)]
  simp

/-! ## The cached sequence of `sparse_set` -/

theorem ss_cache_inv_new (N : Nat) :
    (∀ w ∈ (sparse_set.new N).m_bit_array, w < 2 ^ 64) ∧
    (sparse_set.new N).m_bit_array.length = word_count (sparse_set.new N).m_size ∧
    ((sparse_set.new N).m_iterator_present = true →
      (sparse_set.new N).m_sequence = set_bits (sparse_set.new N).m_bit_array) ∧
    ((sparse_set.new N).m_iterator_present = false → (sparse_set.new N).m_sequence = []) := by
  refine ⟨?_, by simp [sparse_set.new], ?_, ?_⟩
  · intro w hw
    simp only [sparse_set.new] at hw
    rw [(List.mem_replicate.mp hw).2]
    norm_num
  · intro h; cases h
  · intro _; rfl

theorem drop_sequence_seq (s : sparse_set) (h : s.m_iterator_present = false → s.m_sequence = []) :
    (sparse_set.drop_sequence s).m_sequence = [] := by
  unfold sparse_set.drop_sequence
  split
  · rfl
  · exact h (by simpa using ‹¬ s.m_iterator_present = true›)

theorem drop_sequence_eq (s : sparse_set) (h : s.m_iterator_present = false → s.m_sequence = []) :
    sparse_set.drop_sequence s = ⟨s.m_size, s.m_bit_array, [], false⟩ := by
  have h1 := drop_sequence_bits s
  have h2 := drop_sequence_flag s
  have h3 := drop_sequence_seq s h
  cases hd : sparse_set.drop_sequence s
  rw [hd] at h1 h2 h3
  simp only at h1 h2 h3
  rw [h1.1, h1.2, h2, h3]

theorem drop_sequence_mk (m : Nat) (a q : List Nat) (f : Bool) (h : f = false → q = []) :
    sparse_set.drop_sequence ⟨m, a, q, f⟩ = ⟨m, a, [], false⟩ :=
  drop_sequence_eq ⟨m, a, q, f⟩ h

theorem vector_resize_length (v : List Nat) (n : Nat) : (vector_resize v n).length = n := by
  unfold vector_resize
  rw [List.length_append, List.length_take, List.length_replicate]
  omega

theorem vector_resize_lt (v : List Nat) (n : Nat) (hv : ∀ w ∈ v, w < 2 ^ 64) :
    ∀ w ∈ vector_resize v n, w < 2 ^ 64 := by
  intro w hw
  unfold vector_resize at hw
  rcases List.mem_append.mp hw with h | h
  · exact hv w (List.mem_of_mem_take h)
  · rw [(List.mem_replicate.mp h).2]
    norm_num

theorem ensure_sequence_spec (s : sparse_set) (ha : ∀ w ∈ s.m_bit_array, w < 2 ^ 64)
    (hlen : s.m_bit_array.length = word_count s.m_size)
    (h1 : s.m_iterator_present = true → s.m_sequence = set_bits s.m_bit_array)
    (h0 : s.m_iterator_present = false → s.m_sequence = []) :
    s.ensure_sequence = some ⟨s.m_size, s.m_bit_array, set_bits s.m_bit_array, true⟩ := by
  unfold sparse_set.ensure_sequence
  by_cases hf : s.m_iterator_present = true
  · rw [if_pos hf]
    congr 1
    cases s
    simp only at hf h1 ⊢
    rw [h1 hf, hf]
  · rw [if_neg hf, create_iteration_sequence_spec s ha (by rw [hlen]; exact word_count_lt _),
      h0 (by simpa using hf)]
    simp

/-- The facts about the cache every member function maintains. -/
theorem ss_after_inv (s s1 : sparse_set) (c : sparse_set.call) (hc : s.after c = some s1)
    (ha : ∀ w ∈ s.m_bit_array, w < 2 ^ 64)
    (hlen : s.m_bit_array.length = word_count s.m_size)
    (h1 : s.m_iterator_present = true → s.m_sequence = set_bits s.m_bit_array)
    (h0 : s.m_iterator_present = false → s.m_sequence = []) :
    (∀ w ∈ s1.m_bit_array, w < 2 ^ 64) ∧ s1.m_bit_array.length = word_count s1.m_size ∧
    (s1.m_iterator_present = true → s1.m_sequence = set_bits s1.m_bit_array) ∧
    (s1.m_iterator_present = false → s1.m_sequence = []) := by
  have hens := ensure_sequence_spec s ha hlen h1 h0
  cases c with
  | insert i =>
    simp only [sparse_set.after] at hc
    by_cases hi : i / 64 < s.m_bit_array.length
    · rw [ss_insert_eq s i hi, drop_sequence_seq s h0] at hc
      simp only [Option.map_some', Option.some.injEq] at hc
      subst hc
      refine ⟨?_, by simpa using hlen, (fun h => by cases h), fun _ => rfl⟩
      exact words_set_lt _ _ _ ha (set_bit_lt _ _ (ha _ (List.getElem_mem _))
        (Nat.mod_lt _ (by norm_num)))
    · rw [ss_insert_none s i (by omega)] at hc
      cases hc
  | erase i =>
    simp only [sparse_set.after] at hc
    by_cases hi : i / 64 < s.m_bit_array.length
    · rw [ss_erase_eq s i hi, drop_sequence_mk _ _ _ _ h0] at hc
      simp only [Option.some.injEq] at hc
      subst hc
      refine ⟨?_, by simpa using hlen, (fun h => by cases h), fun _ => rfl⟩
      exact words_set_lt _ _ _ ha (clear_bit_lt _ _ (ha _ (List.getElem_mem _)))
    · rw [ss_erase_none s i (by omega)] at hc
      cases hc
  | clear =>
    simp only [sparse_set.after, sparse_set.clear, drop_sequence_eq s h0,
      Option.some.injEq] at hc
    subst hc
    refine ⟨?_, by simpa using hlen, (fun h => by cases h), fun _ => rfl⟩
    intro w hw
    simp only [List.mem_map] at hw
    rcases hw with ⟨_, _, rfl⟩
    norm_num
  | resize size =>
    simp only [sparse_set.after, sparse_set.resize, Option.some.injEq] at hc
    rw [drop_sequence_mk _ _ _ _ h0] at hc
    subst hc
    exact ⟨vector_resize_lt _ _ ha, vector_resize_length _ _, (fun h => by cases h), fun _ => rfl⟩
  | test i =>
    simp only [sparse_set.after] at hc
    cases ht : s.test i with
    | none => rw [ht] at hc; cases hc
    | some b =>
      rw [ht] at hc
      simp only [Option.map_some', Option.some.injEq] at hc
      subst hc
      exact ⟨ha, hlen, h1, h0⟩
  | count | empty | lower_bound _ | upper_bound _ =>
    simp only [sparse_set.after, Option.some.injEq] at hc
    subst hc
    exact ⟨ha, hlen, h1, h0⟩
  | begin_ | end_ | rbegin | rend =>
    simp only [sparse_set.after, sparse_set.begin_, sparse_set.end_, sparse_set.rbegin_,
      sparse_set.rend_, hens, Option.map_some', Option.some.injEq] at hc
    subst hc
    exact ⟨ha, hlen, fun _ => rfl, (fun h => by cases h)⟩

theorem ss_reachable_any_inv (s : sparse_set) (h : sparse_set.ReachableAny s) :
    (∀ w ∈ s.m_bit_array, w < 2 ^ 64) ∧ s.m_bit_array.length = word_count s.m_size ∧
    (s.m_iterator_present = true → s.m_sequence = set_bits s.m_bit_array) ∧
    (s.m_iterator_present = false → s.m_sequence = []) := by
  induction h with
  | init N => exact ss_cache_inv_new N
  | call c _ hc ih => exact ss_after_inv _ _ c hc ih.1 ih.2.1 ih.2.2.1 ih.2.2.2
  | swap_this _ _ _ ihb => exact ihb
  | swap_other _ _ iha _ => exact iha

theorem set_bits_sorted (a : List Nat) : (set_bits a).Pairwise (fun x y => x < y) :=
  List.Pairwise.filter _ (List.pairwise_lt_range _)

theorem mem_set_bits (a : List Nat) (p : Nat) : p ∈ set_bits a ↔ bit_at a p = true := by
  unfold set_bits unsigned_bits
  rw [List.mem_filter, List.mem_range]
  constructor
  · exact fun h => h.2
  · exact fun h => ⟨bit_at_lt a p h, h⟩

/-- C10: in every state reachable from `sparse_set(N)` by any sequence of
`insert`, `erase`, `clear`, `resize`, `swap`, `test`, `count`, `empty`,
`begin`, `end`, `rbegin`, `rend`, `lower_bound` and `upper_bound` calls,
if `m_iterator_present` is `true` then `m_sequence` is the list of all set
bits of the bitmap, which is strictly ascending and holds a position exactly
when its bit is set. -/
theorem C10_cache_validity (s : sparse_set) (h : sparse_set.ReachableAny s)
    (hflag : s.m_iterator_present = true) :
    s.m_sequence = set_bits s.m_bit_array ∧
    s.m_sequence.Pairwise (fun x y => x < y) ∧
    ∀ p, p ∈ s.m_sequence ↔ bit_at s.m_bit_array p = true := by
  have hseq := (ss_reachable_any_inv s h).2.2.1 hflag
  rw [hseq]
  exact ⟨rfl, set_bits_sorted _, mem_set_bits _⟩

/-- Witness for C10: the state after `insert(70)`, `insert(5)`, `begin()` on
a set of capacity 100. -/
theorem C10_cache_validity_witness :
    (sparse_set.mk 100 [32, 64] [5, 70] true).m_sequence
      = set_bits (sparse_set.mk 100 [32, 64] [5, 70] true).m_bit_array ∧
    (sparse_set.mk 100 [32, 64] [5, 70] true).m_sequence.Pairwise (fun x y => x < y) ∧
    ∀ p, p ∈ (sparse_set.mk 100 [32, 64] [5, 70] true).m_sequence
      ↔ bit_at (sparse_set.mk 100 [32, 64] [5, 70] true).m_bit_array p = true :=
  C10_cache_validity (sparse_set.mk 100 [32, 64] [5, 70] true)
    (sparse_set.ReachableAny.call sparse_set.call.begin_
      (sparse_set.ReachableAny.call (sparse_set.call.insert 5)
        (sparse_set.ReachableAny.call (sparse_set.call.insert 70)
          (sparse_set.ReachableAny.init 100) rfl)
        rfl)
      rfl)
    rfl

theorem ss_reachable_any (N : Nat) (s : sparse_set) (h : sparse_set.Reachable N s) :
    sparse_set.ReachableAny s := by
  induction h with
  | init => exact sparse_set.ReachableAny.init N
  | @insert s s1 i b _ _ hins ih =>
    exact sparse_set.ReachableAny.call (sparse_set.call.insert i) ih
      (by simp [sparse_set.after, hins])
  | @erase s s1 i _ _ her ih =>
    exact sparse_set.ReachableAny.call (sparse_set.call.erase i) ih
      (by simp [sparse_set.after, her])
  | clear _ ih => exact sparse_set.ReachableAny.call sparse_set.call.clear ih rfl
  | begin_ _ hb ih =>
    exact sparse_set.ReachableAny.call sparse_set.call.begin_ ih
      (by simp [sparse_set.after, hb])
  | end_ _ he ih =>
    exact sparse_set.ReachableAny.call sparse_set.call.end_ ih
      (by simp [sparse_set.after, he])

theorem ss_reachable_bits (N : Nat) (s : sparse_set) (h : sparse_set.Reachable N s) :
    ∀ p, bit_at s.m_bit_array p = true → p < N := by
  induction h with
  | init =>
    intro p hp
    simp only [sparse_set.new, bit_at_replicate_zero] at hp
    cases hp
  | @insert s s1 i b _ hi hins ih =>
    by_cases hlen : i / 64 < s.m_bit_array.length
    · rw [ss_insert_eq s i hlen] at hins
      have hs1 := (Prod.mk.inj (Option.some.inj hins)).1
      subst hs1
      intro p hp
      simp only [bit_at_insert _ i p hlen, Bool.or_eq_true, decide_eq_true_eq] at hp
      rcases hp with hp | hp
      · rw [hp]; exact hi
      · exact ih p hp
    · rw [ss_insert_none s i (by omega)] at hins
      cases hins
  | @erase s s1 i _ _ her ih =>
    by_cases hlen : i / 64 < s.m_bit_array.length
    · rw [ss_erase_eq s i hlen] at her
      have hs1 := Option.some.inj her
      subst hs1
      intro p hp
      rw [(drop_sequence_bits _).1] at hp
      simp only [bit_at_erase _ i p hlen, Bool.and_eq_true] at hp
      exact ih p hp.2
    · rw [ss_erase_none s i (by omega)] at her
      cases her
  | @clear s _ ih =>
    intro p hp
    simp only [sparse_set.clear, bit_at_map_zero] at hp
    cases hp
  | @begin_ s s1 pos hr hb ih =>
    have hinv := ss_reachable_any_inv s (ss_reachable_any N s hr)
    simp only [sparse_set.begin_, ensure_sequence_spec s hinv.1 hinv.2.1 hinv.2.2.1 hinv.2.2.2,
      Option.map_some', Option.some.injEq, Prod.mk.injEq] at hb
    rw [← hb.1]
    exact ih
  | @end_ s s1 pos hr he ih =>
    have hinv := ss_reachable_any_inv s (ss_reachable_any N s hr)
    simp only [sparse_set.end_, ensure_sequence_spec s hinv.1 hinv.2.1 hinv.2.2.1 hinv.2.2.2,
      Option.map_some', Option.some.injEq, Prod.mk.injEq] at he
    rw [← he.1]
    exact ih

theorem ss_members_eq (N : Nat) (s : sparse_set)
    (hb : ∀ p, bit_at s.m_bit_array p = true → p < N) :
    s.members N = set_bits s.m_bit_array := by
  unfold sparse_set.members set_bits unsigned_bits
  have h1 : (List.range N).filter (fun i => s.test i == some true)
      = (List.range N).filter (bit_at s.m_bit_array) := by
    apply List.filter_congr
    intro i _
    rw [ss_test_eq]
    by_cases h : i / 64 < s.m_bit_array.length
    · rw [if_pos h]
      cases bit_at s.m_bit_array i <;> rfl
    · rw [if_neg h, bit_at_of_ge _ _ (by omega)]
      rfl
  rw [h1]
  exact filter_range_eq _ _ _ hb (bit_at_lt _)

/-- C9: in every state reachable from `sparse_set(N)` by `insert`, `erase`,
`clear`, `begin` and `end` with keys below `N`, `begin()` and `end()` return,
the sequence between them is the list of keys `i < N` with
`test(i) == true`, strictly ascending (so each key once), the bitmap is
untouched and `m_iterator_present` is `true` afterwards. -/
theorem C9_sparse_iteration (N : Nat) (s : sparse_set) (h : sparse_set.Reachable N s) :
    (∃ s2, s.iterate = some (s2, s.members N) ∧ s2.m_iterator_present = true ∧
      s2.m_bit_array = s.m_bit_array) ∧
    (s.members N).Pairwise (fun x y => x < y) ∧
    ∀ i, i ∈ s.members N ↔ (i < N ∧ s.test i = some true) := by
  have hinv := ss_reachable_any_inv s (ss_reachable_any N s h)
  have hens := ensure_sequence_spec s hinv.1 hinv.2.1 hinv.2.2.1 hinv.2.2.2
  have hens2 : (sparse_set.mk s.m_size s.m_bit_array (set_bits s.m_bit_array) true).ensure_sequence
      = some ⟨s.m_size, s.m_bit_array, set_bits s.m_bit_array, true⟩ := rfl
  refine ⟨⟨⟨s.m_size, s.m_bit_array, set_bits s.m_bit_array, true⟩, ?_, rfl, rfl⟩, ?_, ?_⟩
  · simp only [sparse_set.iterate, sparse_set.begin_, sparse_set.end_, hens, hens2,
      Option.map_some', sparse_set.between, List.drop_zero, Nat.sub_zero, List.take_length]
    rw [ss_members_eq N s (ss_reachable_bits N s h)]
  · exact List.Pairwise.filter _ (List.pairwise_lt_range _)
  · intro i
    unfold sparse_set.members
    rw [List.mem_filter, List.mem_range]
    simp

/-- Witness for C9: the state after `insert(70)`, `insert(5)`, `begin()`,
`insert(64)`, `erase(5)` on a set of capacity 100. -/
theorem C9_sparse_iteration_witness :
    (∃ s2, (sparse_set.mk 100 [0, 65] [] false).iterate
        = some (s2, (sparse_set.mk 100 [0, 65] [] false).members 100) ∧
      s2.m_iterator_present = true ∧
      s2.m_bit_array = (sparse_set.mk 100 [0, 65] [] false).m_bit_array) ∧
    ((sparse_set.mk 100 [0, 65] [] false).members 100).Pairwise (fun x y => x < y) ∧
    ∀ i, i ∈ (sparse_set.mk 100 [0, 65] [] false).members 100
      ↔ (i < 100 ∧ (sparse_set.mk 100 [0, 65] [] false).test i = some true) :=
  C9_sparse_iteration 100 (sparse_set.mk 100 [0, 65] [] false)
    (sparse_set.Reachable.erase (i := 5)
      (sparse_set.Reachable.insert (i := 64) (b := true)
        (@sparse_set.Reachable.begin_ 100 _ (sparse_set.mk 100 [32, 64] [5, 70] true) 0
          (sparse_set.Reachable.insert (i := 5) (b := true)
            (sparse_set.Reachable.insert (i := 70) (b := true)
              sparse_set.Reachable.init (by decide) rfl)
            (by decide) rfl)
          rfl)
        (by decide) rfl)
      (by decide) rfl)

/-! ## The scanning cursor of `bounded_set` -/

theorem next_skip_spec (a : List Nat) : ∀ (fuel : Nat) (it : bounded_set.iterator) (k : Nat),
    it.m_bit_array = some a → it.m_bit_array_size = a.length →
    it.m_slot_index + fuel = a.length → it.m_slot_index ≤ k → k ≤ a.length →
    a.length < 2 ^ 64 - 1 →
    (∀ j, it.m_slot_index ≤ j → j < k → a.getD j 0 = 0) →
    (k < a.length → a.getD k 0 ≠ 0) → it.m_current_slot = 0 →
    bounded_set.iterator.next_skip fuel it
      = some { it with m_slot_index := k, m_current_slot := a.getD k 0 } := by
  intro fuel
  induction fuel with
  | zero =>
    intro it k _ _ hf hk hkl _ _ _ hcur
    have hk2 : k = it.m_slot_index := by omega
    have hg : a.getD k 0 = 0 := by
      rw [List.getD_eq_getElem?_getD, List.getElem?_eq_none (by omega)]
      rfl
    unfold bounded_set.iterator.next_skip
    rw [hg, hk2, ← hcur]
  | succ fuel ih =>
    intro it k harr hsz hf hk hkl hlen hzero hnz hcur
    have hslot : it.m_slot_index < a.length := by omega
    unfold bounded_set.iterator.next_skip
    rw [if_pos (by rw [hsz]; exact hslot)]
    have hread : it.read it.m_slot_index = some (a.getD it.m_slot_index 0) := by
      unfold bounded_set.iterator.read
      rw [harr, List.getD_eq_getElem?_getD]
      simp [List.getElem?_eq_getElem hslot]
    rw [hread]
    simp only
    by_cases hw : a.getD it.m_slot_index 0 = 0
    · rw [if_pos hw]
      have hne : k ≠ it.m_slot_index := by
        intro he
        exact hnz (by omega) (by rw [he]; exact hw)
      rw [Nat.mod_eq_of_lt (by omega)]
      exact ih ⟨it.m_size, it.m_bit_array_size, it.m_bit_array, it.m_slot_index + 1,
        a.getD it.m_slot_index 0, it.m_bit_index, it.m_last_bit⟩ k harr hsz (by simp only; omega)
        (by simp only; omega) hkl hlen
        (fun j hj hjk => hzero j (by simp only at hj; omega) hjk) hnz hw
    · rw [if_neg hw]
      have he : k = it.m_slot_index := by
        by_contra hne
        exact hw (hzero _ (le_refl _) (by omega))
      rw [he]

theorem lsb_unique (x r : Nat) (hx : x < 2 ^ 64) (hr : x.testBit r = true)
    (hlow : ∀ j, j < r → x.testBit j = false) : int_to_unsigned (bits.lsb 8 x) = r := by
  have hx0 : x ≠ 0 := by
    intro h0
    rw [h0] at hr
    simp at hr
  obtain ⟨r1, _, hu, _, ht, hl⟩ := lsb_spec x hx0 hx
  rw [hu]
  rcases Nat.lt_trichotomy r1 r with h | h | h
  · rw [hlow r1 h] at ht; cases ht
  · exact h
  · rw [hl r h] at hr; cases hr

theorem to_lsb_spec (it : bounded_set.iterator) (r : Nat) (hx : it.m_current_slot < 2 ^ 64)
    (hr : it.m_current_slot.testBit r = true)
    (hlow : ∀ j, j < r → it.m_current_slot.testBit j = false)
    (hbit : it.m_bit_index + r < 2 ^ 32) :
    bounded_set.iterator.to_lsb it
      = { it with m_current_slot := it.m_current_slot >>> r,
                  m_bit_index := it.m_bit_index + r } := by
  unfold bounded_set.iterator.to_lsb
  simp only [lsb_unique _ r hx hr hlow, Nat.mod_eq_of_lt hbit]

theorem bit_at_word (a : List Nat) (k j : Nat) (hj : j < 64) :
    bit_at a (64 * k + j) = (a.getD k 0).testBit j := by
  unfold bit_at unsigned_bits
  have h1 : (64 * k + j) / 64 = k := by omega
  have h2 : (64 * k + j) % 64 = j := by omega
  rw [h1, h2]

theorem bit_at_split (a : List Nat) (p : Nat) :
    bit_at a p = (a.getD (p / 64) 0).testBit (p % 64) := rfl

theorem getD_lt (a : List Nat) (k : Nat) (ha : ∀ w ∈ a, w < 2 ^ 64) : a.getD k 0 < 2 ^ 64 := by
  rw [List.getD_eq_getElem?_getD]
  by_cases h : k < a.length
  · rw [List.getElem?_eq_getElem h]
    exact ha _ (List.getElem_mem _)
  · rw [List.getElem?_eq_none (by omega)]
    norm_num

theorem last_bit_eq (N : Nat) (hN1 : 1 ≤ N) (hN : N + 63 < 2 ^ 32) :
    ((N + 2 ^ 32 - 1) % 2 ^ 32) &&& unsigned_bits_log2_mask = (N - 1) % 64 := by
  rw [mask_log2]
  have : (N + 2 ^ 32 - 1) % 2 ^ 32 = N - 1 := by omega
  rw [this]

theorem shiftRight_lt (x n : Nat) (hx : x < 2 ^ 64) : x >>> n < 2 ^ 64 := by
  rw [Nat.shiftRight_eq_div_pow]
  exact lt_of_le_of_lt (Nat.div_le_self _ _) hx

/-- `next()` from position `p` when the next set bit `q` lies in the same
word. -/
theorem next_same_word (N : Nat) (a : List Nat) (p q : Nat) (hN1 : 1 ≤ N) (hN : N + 63 < 2 ^ 32)
    (hlen : a.length = (N + 63) / 64) (ha : ∀ w ∈ a, w < 2 ^ 64)
    (hb : ∀ j, bit_at a j = true → j < N)
    (hpq : p < q) (hword : q / 64 = p / 64) (hq : bit_at a q = true)
    (hbetween : ∀ j, p < j → j < q → bit_at a j = false) :
    bounded_set.iterator.next (bounded_set.iterator.on_key N a p)
      = some (bounded_set.iterator.on_key N a q, true) := by
  have hqN := hb q hq
  have hcur1 : (a.getD (p / 64) 0 >>> (p % 64)) >>> 1 = a.getD (p / 64) 0 >>> (p % 64 + 1) := by
    rw [Nat.shiftRight_add]
  have hbitq : (a.getD (p / 64) 0 >>> (p % 64 + 1)).testBit (q % 64 - p % 64 - 1) = true := by
    rw [Nat.testBit_shiftRight, show p % 64 + 1 + (q % 64 - p % 64 - 1) = q % 64 by omega,
      ← hword]
    exact hq
  have hnz : a.getD (p / 64) 0 >>> (p % 64 + 1) ≠ 0 := by
    intro h0
    rw [h0] at hbitq
    simp at hbitq
  have hlow : ∀ j, j < q % 64 - p % 64 - 1 →
      (a.getD (p / 64) 0 >>> (p % 64 + 1)).testBit j = false := by
    intro j hj
    rw [Nat.testBit_shiftRight, ← bit_at_word a (p / 64) _ (by omega)]
    exact hbetween _ (by omega) (by omega)
  unfold bounded_set.iterator.next
  simp only [bounded_set.iterator.on_key, hcur1, if_neg hnz, last_bit_eq N hN1 hN]
  rw [Nat.mod_eq_of_lt (show p % 64 + 1 < 2 ^ 32 by omega)]
  rw [if_neg (by
    intro hc
    have h1 := hc.1
    have h2 := hc.2
    rw [hlen] at h1
    omega)]
  rw [to_lsb_spec _ (q % 64 - p % 64 - 1) (shiftRight_lt _ _ (getD_lt a _ ha)) hbitq hlow
    (by simp only; omega)]
  simp only [← Nat.shiftRight_add, hword]
  rw [show p % 64 + 1 + (q % 64 - p % 64 - 1) = q % 64 by omega]

theorem shiftRight_eq_zero_of_bits (w b : Nat) (hw : w < 2 ^ 64)
    (h : ∀ i, b ≤ i → i < 64 → w.testBit i = false) : w >>> b = 0 := by
  apply Nat.eq_of_testBit_eq
  intro j
  rw [Nat.testBit_shiftRight, Nat.zero_testBit]
  by_cases hj : b + j < 64
  · exact h _ (by omega) hj
  · exact testBit_false_of_ge_64 w _ hw (by omega)

theorem word_zero_of_bits (a : List Nat) (k : Nat) (ha : ∀ w ∈ a, w < 2 ^ 64)
    (h : ∀ i, i < 64 → bit_at a (64 * k + i) = false) : a.getD k 0 = 0 := by
  have := shiftRight_eq_zero_of_bits (a.getD k 0) 0 (getD_lt a k ha)
    (fun i _ hi => by rw [← bit_at_word a k i hi]; exact h i hi)
  simpa using this

theorem rest_of_word_zero (a : List Nat) (p : Nat) (ha : ∀ w ∈ a, w < 2 ^ 64)
    (h : ∀ j, p < j → j < 64 * (p / 64 + 1) → bit_at a j = false) :
    (a.getD (p / 64) 0 >>> (p % 64)) >>> 1 = 0 := by
  rw [← Nat.shiftRight_add]
  apply shiftRight_eq_zero_of_bits _ _ (getD_lt a _ ha)
  intro i hi hi64
  rw [← bit_at_word a (p / 64) i hi64]
  exact h _ (by omega) (by omega)

/-- `next()` from position `p` when the next set bit `q` lies in a later
word. -/
theorem next_later_word (N : Nat) (a : List Nat) (p q : Nat) (hN : N + 63 < 2 ^ 32)
    (hlen : a.length = (N + 63) / 64) (ha : ∀ w ∈ a, w < 2 ^ 64)
    (hword : p / 64 < q / 64) (hq : bit_at a q = true)
    (hbetween : ∀ j, p < j → j < q → bit_at a j = false) :
    bounded_set.iterator.next (bounded_set.iterator.on_key N a p)
      = some (bounded_set.iterator.on_key N a q, true) := by
  have hqlen := bit_at_lt a q hq
  have hcur1 := rest_of_word_zero a p ha (fun j h1 h2 => hbetween j h1 (by omega))
  have hnzq : a.getD (q / 64) 0 ≠ 0 := by
    intro h0
    rw [bit_at_split, h0] at hq
    simp at hq
  unfold bounded_set.iterator.next
  simp only [bounded_set.iterator.on_key, hcur1, if_true]
  rw [Nat.mod_eq_of_lt (show p / 64 + 1 < 2 ^ 64 by omega)]
  rw [next_skip_spec a (a.length - (p / 64 + 1)) _ (q / 64) rfl rfl (by simp only; omega)
    (by simp only; omega) (by omega) (by omega)
    (fun j hj1 hj2 => word_zero_of_bits a j ha (fun i hi => hbetween _
      (by simp only at hj1; omega) (by omega)))
    (fun _ => hnzq) rfl]
  simp only [if_neg hnzq]
  rw [to_lsb_spec ⟨N, a.length, some a, q / 64, a.getD (q / 64) 0, 0,
      ((N + 2 ^ 32 - 1) % 2 ^ 32) &&& unsigned_bits_log2_mask⟩ (q % 64) (getD_lt a _ ha) hq
    (fun j hj => by
      show (a.getD (q / 64) 0).testBit j = false
      rw [← bit_at_word a (q / 64) j (by omega)]
      exact hbetween _ (by omega) (by omega))
    (by simp only; omega)]
  simp only [Nat.zero_add]

/-- `next()` from position `p` when no bit above `p` is set. -/
theorem next_none (N : Nat) (a : List Nat) (p : Nat) (hN : N + 63 < 2 ^ 32)
    (hlen : a.length = (N + 63) / 64) (ha : ∀ w ∈ a, w < 2 ^ 64) (hp : p < 64 * a.length)
    (hafter : ∀ j, p < j → bit_at a j = false) :
    bounded_set.iterator.next (bounded_set.iterator.on_key N a p)
      = some (bounded_set.iterator.past_end N a, false) := by
  have hcur1 := rest_of_word_zero a p ha (fun j h1 _ => hafter j h1)
  have hend : a.getD a.length 0 = 0 := by
    rw [List.getD_eq_getElem?_getD, List.getElem?_eq_none (le_refl _)]
    rfl
  unfold bounded_set.iterator.next
  simp only [bounded_set.iterator.on_key, hcur1, if_true]
  rw [Nat.mod_eq_of_lt (show p / 64 + 1 < 2 ^ 64 by omega)]
  rw [next_skip_spec a (a.length - (p / 64 + 1)) _ a.length rfl rfl (by simp only; omega)
    (by simp only; omega) (le_refl _) (by omega)
    (fun j hj1 _ => word_zero_of_bits a j ha (fun i _ => hafter _
      (by simp only at hj1; omega)))
    (fun h => absurd h (lt_irrefl _)) rfl]
  simp only [hend, if_true]
  rfl

theorem next_to_successor (N : Nat) (a : List Nat) (p q : Nat) (hN1 : 1 ≤ N)
    (hN : N + 63 < 2 ^ 32) (hlen : a.length = (N + 63) / 64) (ha : ∀ w ∈ a, w < 2 ^ 64)
    (hb : ∀ j, bit_at a j = true → j < N)
    (hpq : p < q) (hq : bit_at a q = true)
    (hbetween : ∀ j, p < j → j < q → bit_at a j = false) :
    bounded_set.iterator.incr (bounded_set.iterator.on_key N a p)
      = some (bounded_set.iterator.on_key N a q) := by
  unfold bounded_set.iterator.incr
  by_cases hword : q / 64 = p / 64
  · rw [next_same_word N a p q hN1 hN hlen ha hb hpq hword hq hbetween]
    rfl
  · rw [next_later_word N a p q hN hlen ha (by omega) hq hbetween]
    rfl

theorem ne_past_end (N : Nat) (a : List Nat) :
    bounded_set.iterator.ne (bounded_set.iterator.past_end N a) bounded_set.iterator.empty
      = false := by
  simp [bounded_set.iterator.ne, bounded_set.iterator.past_end, bounded_set.iterator.empty]

theorem ne_on_key (N : Nat) (a : List Nat) (q : Nat) (hq : q < 2 ^ 32) :
    bounded_set.iterator.ne (bounded_set.iterator.on_key N a q) bounded_set.iterator.empty
      = true := by
  have h : q / 64 ≠ EmptyIndex := by
    unfold EmptyIndex
    omega
  simp [bounded_set.iterator.ne, bounded_set.iterator.on_key, bounded_set.iterator.empty, h]

theorem deref_on_key (N : Nat) (a : List Nat) (q : Nat) (hq : q < 2 ^ 32) :
    (bounded_set.iterator.on_key N a q).deref = q := by
  simp only [bounded_set.iterator.deref, bounded_set.iterator.on_key, unsigned_bits_log2,
    Nat.shiftLeft_eq]
  omega

theorem visit_zero (it stop : bounded_set.iterator) :
    bounded_set.iterator.visit 0 it stop
      = if bounded_set.iterator.ne it stop then none else some [] := rfl

theorem visit_succ (n : Nat) (it stop : bounded_set.iterator) :
    bounded_set.iterator.visit (n + 1) it stop
      = if bounded_set.iterator.ne it stop then
          match bounded_set.iterator.incr it with
          | none => none
          | some it1 => (bounded_set.iterator.visit n it1 stop).map (fun l => it.deref :: l)
        else some [] := rfl

theorem incr_n_succ (n : Nat) (it : bounded_set.iterator) :
    bounded_set.iterator.incr_n (n + 1) it
      = (bounded_set.iterator.incr it).bind (bounded_set.iterator.incr_n n) := rfl

theorem visit_past_end (N : Nat) (a : List Nat) (steps : Nat) :
    bounded_set.iterator.visit steps (bounded_set.iterator.past_end N a)
      bounded_set.iterator.empty = some [] := by
  cases steps with
  | zero =>
    rw [visit_zero, ne_past_end]
    rfl
  | succ n =>
    rw [visit_succ, ne_past_end]
    rfl

theorem visit_step (N : Nat) (a : List Nat) (q : Nat) (rest : List Nat)
    (it1 : bounded_set.iterator) (hq : q < 2 ^ 32)
    (hincr : bounded_set.iterator.incr (bounded_set.iterator.on_key N a q) = some it1)
    (hrest : ∀ steps, bounded_set.iterator.visit steps it1 bounded_set.iterator.empty
      = if rest.length ≤ steps then some rest else none) :
    ∀ steps, bounded_set.iterator.visit steps (bounded_set.iterator.on_key N a q)
        bounded_set.iterator.empty
      = if rest.length + 1 ≤ steps then some (q :: rest) else none := by
  intro steps
  cases steps with
  | zero =>
    rw [visit_zero, ne_on_key N a q hq]
    simp
  | succ n =>
    rw [visit_succ, ne_on_key N a q hq, if_pos rfl, hincr]
    simp only [hrest n, deref_on_key N a q hq]
    by_cases h : rest.length ≤ n
    · simp [h]
    · simp [h]

theorem visit_after (N : Nat) (a : List Nat) (hN1 : 1 ≤ N) (hN : N + 63 < 2 ^ 32)
    (hlen : a.length = (N + 63) / 64) (ha : ∀ w ∈ a, w < 2 ^ 64)
    (hb : ∀ j, bit_at a j = true → j < N) :
    ∀ (rest pre : List Nat) (p : Nat), set_bits a = pre ++ rest → (∀ x ∈ pre, x ≤ p) →
      (∀ y ∈ rest, p < y) → p < 64 * a.length →
      ∃ it, bounded_set.iterator.incr (bounded_set.iterator.on_key N a p) = some it ∧
        ∀ steps, bounded_set.iterator.visit steps it bounded_set.iterator.empty
          = if rest.length ≤ steps then some rest else none := by
  intro rest
  induction rest with
  | nil =>
    intro pre p hL hpre _ hp
    refine ⟨bounded_set.iterator.past_end N a, ?_, ?_⟩
    · unfold bounded_set.iterator.incr
      rw [next_none N a p hN hlen ha hp]
      · rfl
      · intro j hj
        by_contra hset
        have hmem : j ∈ set_bits a := (mem_set_bits a j).mpr (by simpa using hset)
        rw [hL, List.append_nil] at hmem
        have := hpre j hmem
        omega
    · intro steps
      simp [visit_past_end]
  | cons q rest ih =>
    intro pre p hL hpre hrest hp
    have hsorted := set_bits_sorted a
    rw [hL, List.pairwise_append] at hsorted
    have hqrest : ∀ y ∈ rest, q < y := (List.pairwise_cons.mp hsorted.2.1).1
    have hqmem : q ∈ set_bits a := by rw [hL]; simp
    have hq : bit_at a q = true := (mem_set_bits a q).mp hqmem
    have hpq : p < q := hrest q (List.mem_cons_self _ _)
    have hqN : q < N := hb q hq
    have hbetween : ∀ j, p < j → j < q → bit_at a j = false := by
      intro j hj1 hj2
      by_contra hset
      have hmem : j ∈ set_bits a := (mem_set_bits a j).mpr (by simpa using hset)
      rw [hL, List.mem_append, List.mem_cons] at hmem
      rcases hmem with h | h | h
      · have := hpre j h; omega
      · omega
      · have := hqrest j h; omega
    obtain ⟨it1, hincr1, hvisit1⟩ := ih (pre ++ [q]) q (by rw [hL]; simp)
      (by
        intro x hx
        rcases List.mem_append.mp hx with h | h
        · have := hpre x h; omega
        · have : x = q := by simpa using h
          omega)
      hqrest (bit_at_lt a q hq)
    refine ⟨bounded_set.iterator.on_key N a q,
      next_to_successor N a p q hN1 hN hlen ha hb hpq hq hbetween, ?_⟩
    intro steps
    rw [visit_step N a q rest it1 (by omega) hincr1 hvisit1 steps]
    rfl

theorem first_spec (N : Nat) (a : List Nat) (hN1 : 1 ≤ N) (hN : N + 63 < 2 ^ 32)
    (hlen : a.length = (N + 63) / 64) :
    bounded_set.iterator.first N a
      = if bit_at a 0 = true then some (bounded_set.iterator.on_key N a 0)
        else bounded_set.iterator.incr (bounded_set.iterator.on_key N a 0) := by
  have hN0 : N ≠ 0 := by omega
  have hlen0 : 0 < a.length := by omega
  have hget : a.getD 0 0 = a[0] := by
    rw [List.getD_eq_getElem?_getD, List.getElem?_eq_getElem hlen0]
    rfl
  have hkey : bounded_set.iterator.on_key N a 0
      = ⟨N, a.length, some a, 0, a[0], 0,
          ((N + 2 ^ 32 - 1) % 2 ^ 32) &&& unsigned_bits_log2_mask⟩ := by
    unfold bounded_set.iterator.on_key
    rw [show (0 : Nat) / 64 = 0 from rfl, show (0 : Nat) % 64 = 0 from rfl, hget,
      Nat.shiftRight_zero]
  have hbit : bit_at a 0 = (a[0]).testBit 0 := by
    rw [bit_at_split, ← hget]
  unfold bounded_set.iterator.first
  simp only [bounded_set.iterator.init, bounded_set.iterator.read, bounded_set.iterator.test,
    hN0, ne_eq, not_false_eq_true, if_true, List.getElem?_eq_getElem hlen0, bit_read]
  rw [hkey, hbit]
  cases (a[0]).testBit 0 <;> simp [bounded_set.iterator.incr]

theorem visit_sound : ∀ (steps : Nat) (it stop : bounded_set.iterator) (l : List Nat),
    bounded_set.iterator.visit steps it stop = some l →
    (∃ itc, bounded_set.iterator.incr_n l.length it = some itc ∧
      bounded_set.iterator.ne itc stop = false) ∧
    ∀ k, k < l.length → ∃ itk, bounded_set.iterator.incr_n k it = some itk ∧
      bounded_set.iterator.ne itk stop = true ∧ l[k]? = some itk.deref := by
  intro steps
  induction steps with
  | zero =>
    intro it stop l h
    rw [visit_zero] at h
    by_cases hne : bounded_set.iterator.ne it stop = true
    · rw [if_pos hne] at h; cases h
    · rw [if_neg hne] at h
      have hl : l = [] := (Option.some.inj h).symm
      subst hl
      exact ⟨⟨it, rfl, by simpa using hne⟩, fun k hk => absurd hk (by simp)⟩
  | succ n ih =>
    intro it stop l h
    rw [visit_succ] at h
    by_cases hne : bounded_set.iterator.ne it stop = true
    · rw [if_pos hne] at h
      cases hincr : bounded_set.iterator.incr it with
      | none => rw [hincr] at h; cases h
      | some it1 =>
        rw [hincr] at h
        simp only [Option.map_eq_some'] at h
        obtain ⟨l1, hl1, rfl⟩ := h
        obtain ⟨⟨itc, hc1, hc2⟩, hk⟩ := ih it1 stop l1 hl1
        refine ⟨⟨itc, ?_, hc2⟩, ?_⟩
        · rw [List.length_cons, incr_n_succ, hincr, Option.some_bind]
          exact hc1
        · intro k hklt
          cases k with
          | zero => exact ⟨it, rfl, hne, by simp⟩
          | succ k =>
            obtain ⟨itk, h1, h2, h3⟩ := hk k (by simpa using hklt)
            refine ⟨itk, ?_, h2, ?_⟩
            · rw [incr_n_succ, hincr, Option.some_bind]
              exact h1
            · simpa using h3
    · rw [if_neg hne] at h
      have hl : l = [] := (Option.some.inj h).symm
      subst hl
      exact ⟨⟨it, rfl, by simpa using hne⟩, fun k hk => absurd hk (by simp)⟩

theorem ne_eq_not_eq (x y : bounded_set.iterator) :
    bounded_set.iterator.ne x y = !bounded_set.iterator.eq x y := by
  simp only [bounded_set.iterator.ne, bounded_set.iterator.eq, bne, Bool.not_and]

theorem set_bits_head (a : List Nat) (h : bit_at a 0 = true) :
    ∃ rest, set_bits a = 0 :: rest := by
  have hmem : 0 ∈ set_bits a := (mem_set_bits a 0).mpr h
  have hsorted := set_bits_sorted a
  cases hL : set_bits a with
  | nil => rw [hL] at hmem; cases hmem
  | cons x rest =>
    rw [hL] at hmem hsorted
    rcases List.mem_cons.mp hmem with h0 | h0
    · exact ⟨rest, by rw [← h0]⟩
    · have := (List.pairwise_cons.mp hsorted).1 0 h0
      omega

theorem first_visit (N : Nat) (a : List Nat) (hN1 : 1 ≤ N) (hN : N + 63 < 2 ^ 32)
    (hlen : a.length = (N + 63) / 64) (ha : ∀ w ∈ a, w < 2 ^ 64)
    (hb : ∀ j, bit_at a j = true → j < N) :
    ∃ it0, bounded_set.iterator.first N a = some it0 ∧
      ∀ steps, bounded_set.iterator.visit steps it0 bounded_set.iterator.empty
        = if (set_bits a).length ≤ steps then some (set_bits a) else none := by
  rw [first_spec N a hN1 hN hlen]
  by_cases h0 : bit_at a 0 = true
  · rw [if_pos h0]
    obtain ⟨rest, hrest⟩ := set_bits_head a h0
    have hsorted := set_bits_sorted a
    rw [hrest] at hsorted
    obtain ⟨it1, hincr1, hvisit1⟩ := visit_after N a hN1 hN hlen ha hb rest [0] 0
      (by rw [hrest]; rfl) (by simp) (List.pairwise_cons.mp hsorted).1 (by omega)
    refine ⟨_, rfl, ?_⟩
    intro steps
    rw [hrest, visit_step N a 0 rest it1 (by norm_num) hincr1 hvisit1 steps]
    rfl
  · rw [if_neg h0]
    obtain ⟨it1, hincr1, hvisit1⟩ := visit_after N a hN1 hN hlen ha hb (set_bits a) [] 0
      rfl (by simp)
      (by
        intro y hy
        have hy1 := (mem_set_bits a y).mp hy
        by_contra hle
        have : y = 0 := by omega
        rw [this] at hy1
        exact h0 hy1)
      (by omega)
    exact ⟨it1, hincr1, hvisit1⟩

/-- C8 (as amended): for every `bounded_set` of capacity `N` with
`1 ≤ N ≤ 2 ^ 32 - 64` in a state reachable by `insert`, `erase` and `clear`
with keys below `N`: the loop `for (it = begin(); it != end(); ++it)` visits
exactly the list of keys `i < N` with `test(i) == true`, strictly ascending,
when it is allowed `count()` increments and does not finish with fewer;
`begin()` returns, the cursor differs from `end()` and dereferences to the
`k`-th member after `k < count()` increments, and equals `end()` after
`count()` increments. -/
theorem C8_bounded_iteration (N : Nat) (hN1 : 1 ≤ N) (hN : N + 63 < 2 ^ 32) (s : bounded_set)
    (h : bounded_set.Reachable N s) :
    (∀ steps, s.iterate steps = if s.count ≤ steps then some (s.members N) else none) ∧
    (∃ it0, s.begin_ = some it0 ∧
      (∃ itc, bounded_set.iterator.incr_n s.count it0 = some itc ∧
        bounded_set.iterator.eq itc s.end_ = true) ∧
      ∀ k, k < s.count → ∃ itk, bounded_set.iterator.incr_n k it0 = some itk ∧
        bounded_set.iterator.eq itk s.end_ = false ∧ (s.members N)[k]? = some itk.deref) ∧
    (s.members N).length = s.count ∧
    (s.members N).Pairwise (fun x y => x < y) ∧
    ∀ i, i ∈ s.members N ↔ (i < N ∧ s.test i = some true) := by
  have hinv := bs_reachable_inv N s h
  have hsize : s.m_size = N := by rw [hinv.1.1]; exact Nat.mod_eq_of_lt (by omega)
  have hlen : s.m_bit_array.length = (N + 63) / 64 := by
    rw [hinv.1.2.1, hsize, word_count_eq N hN]
  have hmem := bs_members_eq N s hinv.2
  have hcount := bs_count_eq N s hinv.1
  obtain ⟨it0, hfirst, hvisit⟩ := first_visit N s.m_bit_array hN1 hN hlen hinv.1.2.2 hinv.2
  have hbegin : s.begin_ = some it0 := by
    unfold bounded_set.begin_
    rw [hsize]
    exact hfirst
  have hiter : ∀ steps, s.iterate steps
      = if s.count ≤ steps then some (s.members N) else none := by
    intro steps
    unfold bounded_set.iterate
    rw [hbegin, hmem, hcount]
    exact hvisit steps
  refine ⟨hiter, ⟨it0, hbegin, ?_⟩, by rw [hmem, hcount], ?_, ?_⟩
  · have hv := hvisit (set_bits s.m_bit_array).length
    rw [if_pos (le_refl _)] at hv
    obtain ⟨⟨itc, hc1, hc2⟩, hk⟩ := visit_sound _ _ _ _ hv
    rw [hcount, hmem]
    refine ⟨⟨itc, hc1, ?_⟩, ?_⟩
    · rw [ne_eq_not_eq] at hc2
      simpa using hc2
    · intro k hklt
      obtain ⟨itk, h1, h2, h3⟩ := hk k hklt
      refine ⟨itk, h1, ?_, h3⟩
      rw [ne_eq_not_eq] at h2
      simpa using h2
  · exact List.Pairwise.filter _ (List.pairwise_lt_range _)
  · intro i
    unfold bounded_set.members
    rw [List.mem_filter, List.mem_range]
    simp

/-- Witness for C8: the state after `insert(5)`, `insert(70)`, `insert(64)`,
`erase(5)` on a set of capacity 100. -/
theorem C8_bounded_iteration_witness :
    (∀ steps, (bounded_set.mk 100 [0, 65]).iterate steps
      = if (bounded_set.mk 100 [0, 65]).count ≤ steps
        then some ((bounded_set.mk 100 [0, 65]).members 100) else none) ∧
    (∃ it0, (bounded_set.mk 100 [0, 65]).begin_ = some it0 ∧
      (∃ itc, bounded_set.iterator.incr_n (bounded_set.mk 100 [0, 65]).count it0 = some itc ∧
        bounded_set.iterator.eq itc (bounded_set.mk 100 [0, 65]).end_ = true) ∧
      ∀ k, k < (bounded_set.mk 100 [0, 65]).count →
        ∃ itk, bounded_set.iterator.incr_n k it0 = some itk ∧
          bounded_set.iterator.eq itk (bounded_set.mk 100 [0, 65]).end_ = false ∧
          ((bounded_set.mk 100 [0, 65]).members 100)[k]? = some itk.deref) ∧
    ((bounded_set.mk 100 [0, 65]).members 100).length = (bounded_set.mk 100 [0, 65]).count ∧
    ((bounded_set.mk 100 [0, 65]).members 100).Pairwise (fun x y => x < y) ∧
    ∀ i, i ∈ (bounded_set.mk 100 [0, 65]).members 100
      ↔ (i < 100 ∧ (bounded_set.mk 100 [0, 65]).test i = some true) :=
  C8_bounded_iteration 100 (by decide) (by decide) (bounded_set.mk 100 [0, 65])
    (bounded_set.Reachable.erase (i := 5)
      (bounded_set.Reachable.insert (i := 64) (b := true)
        (bounded_set.Reachable.insert (i := 70) (b := true)
          (bounded_set.Reachable.insert (i := 5) (b := true)
            bounded_set.Reachable.init (by decide) rfl)
          (by decide) rfl)
        (by decide) rfl)
      (by decide) rfl)

/-- C8 as stated fails: the set constructed for capacity `2 ^ 32` stores
capacity `0` and has no words, no key tests `true` and `count()` is `0`, yet
`begin()` differs from `end()` and the loop visits the key `0`; for capacity
`2 ^ 32 - 1` the bitmap is empty and `begin()` reads outside of it. -/
theorem C8_iteration_beyond_32_bit :
    (bounded_set.Reachable 4294967296 (bounded_set.new 4294967296) ∧
      (bounded_set.new 4294967296).count = 0 ∧
      (∀ i, (bounded_set.new 4294967296).test i = none) ∧
      (∃ it0, (bounded_set.new 4294967296).begin_ = some it0 ∧
        bounded_set.iterator.eq it0 (bounded_set.new 4294967296).end_ = false) ∧
      (bounded_set.new 4294967296).iterate 1 = some [0]) ∧
    (bounded_set.Reachable 4294967295 (bounded_set.new 4294967295) ∧
      (bounded_set.new 4294967295).size = 4294967295 ∧
      (bounded_set.new 4294967295).begin_ = none) := by
  refine ⟨⟨bounded_set.Reachable.init, by decide, ?_, ⟨_, rfl, by decide⟩, by decide⟩,
    bounded_set.Reachable.init, by decide, by decide⟩
  intro i
  have hnew : bounded_set.new 4294967296 = ⟨0, []⟩ := by decide
  rw [hnew, bs_test_eq]
  simp

/-! ## C11, C13: the cache of `sparse_set` under mutation and `count` -/

/-- C11: from every reachable `sparse_set`, after `insert(i)` or `erase(i)`
of any key inside the bitmap (present or not), after `clear()` and after
`resize(M)`, `m_iterator_present` is `false` and `m_sequence` is empty. -/
theorem C11_mutation_drops_cache (s : sparse_set) (h : sparse_set.ReachableAny s) :
    (∀ i, i / 64 < s.m_bit_array.length →
      ∃ s1 b, s.insert i = some (s1, b) ∧ s1.m_iterator_present = false ∧ s1.m_sequence = []) ∧
    (∀ i, i / 64 < s.m_bit_array.length →
      ∃ s1, s.erase i = some s1 ∧ s1.m_iterator_present = false ∧ s1.m_sequence = []) ∧
    (s.clear.m_iterator_present = false ∧ s.clear.m_sequence = []) ∧
    (∀ M, (s.resize M).m_iterator_present = false ∧ (s.resize M).m_sequence = []) := by
  have hinv := ss_reachable_any_inv s h
  have h0 := hinv.2.2.2
  refine ⟨?_, ?_, ?_, ?_⟩
  · intro i hi
    exact ⟨_, _, ss_insert_eq s i hi, rfl, drop_sequence_seq s h0⟩
  · intro i hi
    refine ⟨_, ss_erase_eq s i hi, ?_, ?_⟩
    · exact drop_sequence_flag _
    · rw [drop_sequence_mk _ _ _ _ h0]
  · simp only [sparse_set.clear, drop_sequence_eq s h0, and_self]
  · intro M
    simp only [sparse_set.resize]
    rw [drop_sequence_mk _ _ _ _ h0]
    exact ⟨rfl, rfl⟩

/-- Witness for C11: the state after `insert(70)`, `insert(5)`, `begin()` on
a set of capacity 100, whose cache is built. -/
theorem C11_mutation_drops_cache_witness :
    (∀ i, i / 64 < (sparse_set.mk 100 [32, 64] [5, 70] true).m_bit_array.length →
      ∃ s1 b, (sparse_set.mk 100 [32, 64] [5, 70] true).insert i = some (s1, b) ∧
        s1.m_iterator_present = false ∧ s1.m_sequence = []) ∧
    (∀ i, i / 64 < (sparse_set.mk 100 [32, 64] [5, 70] true).m_bit_array.length →
      ∃ s1, (sparse_set.mk 100 [32, 64] [5, 70] true).erase i = some s1 ∧
        s1.m_iterator_present = false ∧ s1.m_sequence = []) ∧
    ((sparse_set.mk 100 [32, 64] [5, 70] true).clear.m_iterator_present = false ∧
      (sparse_set.mk 100 [32, 64] [5, 70] true).clear.m_sequence = []) ∧
    (∀ M, ((sparse_set.mk 100 [32, 64] [5, 70] true).resize M).m_iterator_present = false ∧
      ((sparse_set.mk 100 [32, 64] [5, 70] true).resize M).m_sequence = []) :=
  C11_mutation_drops_cache (sparse_set.mk 100 [32, 64] [5, 70] true)
    (sparse_set.ReachableAny.call sparse_set.call.begin_
      (sparse_set.ReachableAny.call (sparse_set.call.insert 5)
        (sparse_set.ReachableAny.call (sparse_set.call.insert 70)
          (sparse_set.ReachableAny.init 100) rfl)
        rfl)
      rfl)

theorem ss_count_eq (s : sparse_set) (h : sparse_set.ReachableAny s) :
    s.count = (set_bits s.m_bit_array).length ∧
    s.m_bit_array.foldl (fun count x => (count + bits.count_bits x) % 2 ^ 64) 0
      = (set_bits s.m_bit_array).length := by
  have hinv := ss_reachable_any_inv s h
  have hlen : s.m_bit_array.length < 2 ^ 26 := by rw [hinv.2.1]; exact word_count_lt _
  have hfold := count_fold_spec _ hinv.1 0 (by omega)
  rw [Nat.zero_add] at hfold
  refine ⟨?_, hfold⟩
  unfold sparse_set.count
  by_cases hf : s.m_iterator_present = true
  · rw [if_pos hf, hinv.2.2.1 hf]
  · rw [if_neg hf, hfold]

/-- C13: in every state reachable from `sparse_set(N)` by `insert`, `erase`,
`clear`, `begin` and `end` with keys below `N`, `count()` equals the number
of keys `i < N` with `test(i) == true`, on the cached path as on the popcount
path (the length of a valid cache equals the popcount sum), and `count()`
leaves the object as it is: with an invalid cache the flag stays `false`
and `m_sequence` stays empty. -/
theorem C13_sparse_count (N : Nat) (s : sparse_set) (h : sparse_set.Reachable N s) :
    s.count = ((List.range N).filter (fun i => s.test i == some true)).length ∧
    (s.m_iterator_present = true → s.m_sequence.length
      = s.m_bit_array.foldl (fun count x => (count + bits.count_bits x) % 2 ^ 64) 0) ∧
    (∃ s1, s.after sparse_set.call.count = some s1 ∧
      (s.m_iterator_present = false → s1.m_iterator_present = false ∧ s1.m_sequence = [])) := by
  have hany := ss_reachable_any N s h
  have hinv := ss_reachable_any_inv s hany
  have hc := ss_count_eq s hany
  refine ⟨?_, ?_, s, rfl, fun hf => ⟨hf, hinv.2.2.2 hf⟩⟩
  · rw [hc.1, ← ss_members_eq N s (ss_reachable_bits N s h)]
    rfl
  · intro hf
    rw [hc.2, hinv.2.2.1 hf]

/-- Witness for C13: the state after `insert(70)`, `insert(5)`, `begin()` on
a set of capacity 100, whose cache is valid. -/
theorem C13_sparse_count_witness :
    (sparse_set.mk 100 [32, 64] [5, 70] true).count
      = ((List.range 100).filter
          (fun i => (sparse_set.mk 100 [32, 64] [5, 70] true).test i == some true)).length ∧
    ((sparse_set.mk 100 [32, 64] [5, 70] true).m_iterator_present = true →
      (sparse_set.mk 100 [32, 64] [5, 70] true).m_sequence.length
        = (sparse_set.mk 100 [32, 64] [5, 70] true).m_bit_array.foldl
            (fun count x => (count + bits.count_bits x) % 2 ^ 64) 0) ∧
    (∃ s1, (sparse_set.mk 100 [32, 64] [5, 70] true).after sparse_set.call.count = some s1 ∧
      ((sparse_set.mk 100 [32, 64] [5, 70] true).m_iterator_present = false →
        s1.m_iterator_present = false ∧ s1.m_sequence = [])) :=
  C13_sparse_count 100 (sparse_set.mk 100 [32, 64] [5, 70] true)
    (@sparse_set.Reachable.begin_ 100 _ (sparse_set.mk 100 [32, 64] [5, 70] true) 0
      (sparse_set.Reachable.insert (i := 5) (b := true)
        (sparse_set.Reachable.insert (i := 70) (b := true)
          sparse_set.Reachable.init (by decide) rfl)
        (by decide) rfl)
      rfl)

/-! ## C19: `empty` -/

theorem all_zero_iff (a : List Nat) (ha : ∀ w ∈ a, w < 2 ^ 64) :
    a.all (fun x => x == 0) = true ↔ set_bits a = [] := by
  rw [List.all_eq_true]
  constructor
  · intro hall
    rw [List.eq_nil_iff_forall_not_mem]
    intro p hp
    have hbit := (mem_set_bits a p).mp hp
    have hlt : p / 64 < a.length := by
      have := bit_at_lt a p hbit
      omega
    rw [(bit_at_of_lt a p hlt).2] at hbit
    have hz := hall _ (List.getElem_mem hlt)
    rw [beq_iff_eq] at hz
    rw [hz] at hbit
    simp at hbit
  · intro hnil w hw
    rw [beq_iff_eq]
    by_contra hne
    obtain ⟨k, hk, hwk⟩ := List.getElem_of_mem hw
    obtain ⟨i, hi⟩ := Nat.ne_zero_implies_bit_true hne
    have hi64 : i < 64 := testBit_lt_of_lt_two_pow w 64 i (ha w hw) hi
    have hbit : bit_at a (64 * k + i) = true := by
      rw [bit_at_word a k i hi64, List.getD_eq_getElem?_getD, List.getElem?_eq_getElem hk, hwk]
      exact hi
    have := (mem_set_bits a _).mpr hbit
    rw [hnil] at this
    cases this

theorem members_nil_iff (N : Nat) (l : List Nat) (t : Nat → Option Bool)
    (hl : l = (List.range N).filter (fun i => t i == some true)) :
    l = [] ↔ ∀ i, i < N → t i ≠ some true := by
  rw [hl, List.filter_eq_nil_iff]
  constructor
  · intro h i hi
    have := h i (List.mem_range.mpr hi)
    simpa using this
  · intro h i hi
    have := h i (List.mem_range.mp hi)
    simpa using this

/-- C19: for `bounded_set`, `sparse_set` and `unordered_sparse_set` in a
state reachable from the constructor for `N` by `insert`, `erase` and
`clear` with keys below `N`, `empty()` returns `true` iff no key `i < N`
has `test(i) == true`, and iff `count() == 0`. -/
theorem C19_empty_iff (N : Nat) (s : bounded_set) (hs : bounded_set.Reachable N s)
    (t : sparse_set) (ht : sparse_set.Reachable N t)
    (u : unordered_sparse_set) (hu : unordered_sparse_set.Reachable N u) :
    ((s.empty = true ↔ ∀ i, i < N → s.test i ≠ some true) ∧ (s.empty = true ↔ s.count = 0)) ∧
    ((t.empty = true ↔ ∀ i, i < N → t.test i ≠ some true) ∧ (t.empty = true ↔ t.count = 0)) ∧
    ((u.empty = true ↔ ∀ i, i < N → u.test i ≠ some true) ∧ (u.empty = true ↔ u.count = 0)) := by
  refine ⟨?_, ?_, ?_⟩
  · have hinv := bs_reachable_inv N s hs
    have hmem := bs_members_eq N s hinv.2
    have hcount := bs_count_eq N s hinv.1
    constructor
    · unfold bounded_set.empty
      rw [all_zero_iff _ hinv.1.2.2, ← hmem]
      exact members_nil_iff N _ _ rfl
    · unfold bounded_set.empty
      rw [all_zero_iff _ hinv.1.2.2, hcount, List.length_eq_zero]
  · have hany := ss_reachable_any N t ht
    have hinv := ss_reachable_any_inv t hany
    have hmem := ss_members_eq N t (ss_reachable_bits N t ht)
    have hcount := (ss_count_eq t hany).1
    constructor
    · unfold sparse_set.empty
      rw [all_zero_iff _ hinv.1, ← hmem]
      exact members_nil_iff N _ _ rfl
    · unfold sparse_set.empty
      rw [all_zero_iff _ hinv.1, hcount, List.length_eq_zero]
  · have hc := us_reachable_consistent N u hu
    have hcnt : u.empty = true ↔ u.count = 0 := by
      unfold unordered_sparse_set.empty unordered_sparse_set.count
      rw [List.isEmpty_iff, List.length_eq_zero]
    refine ⟨?_, hcnt⟩
    rw [hcnt]
    unfold unordered_sparse_set.count
    rw [List.length_eq_zero]
    constructor
    · intro hnil i _ hti
      have := (us_mem_iterate_iff N u hc i).mpr hti
      unfold unordered_sparse_set.iterate at this
      rw [hnil] at this
      cases this
    · intro hall
      rw [List.eq_nil_iff_forall_not_mem]
      intro e he
      have hte := (us_mem_iterate_iff N u hc e).mp he
      rcases (us_test_true_iff u e).mp hte with ⟨slot, hslot⟩
      have hlt := index_lt_of_some _ _ _ hslot
      rw [hc.1] at hlt
      exact hall e hlt hte

/-- Witness for C19: capacity 100, the `bounded_set` after three inserts and an
erase, the other two sets as constructed. -/
theorem C19_empty_iff_witness :
    (((bounded_set.mk 100 [0, 65]).empty = true
        ↔ ∀ i, i < 100 → (bounded_set.mk 100 [0, 65]).test i ≠ some true) ∧
      ((bounded_set.mk 100 [0, 65]).empty = true ↔ (bounded_set.mk 100 [0, 65]).count = 0)) ∧
    (((sparse_set.new 100).empty = true
        ↔ ∀ i, i < 100 → (sparse_set.new 100).test i ≠ some true) ∧
      ((sparse_set.new 100).empty = true ↔ (sparse_set.new 100).count = 0)) ∧
    (((unordered_sparse_set.new 100).empty = true
        ↔ ∀ i, i < 100 → (unordered_sparse_set.new 100).test i ≠ some true) ∧
      ((unordered_sparse_set.new 100).empty = true
        ↔ (unordered_sparse_set.new 100).count = 0)) :=
  C19_empty_iff 100 (bounded_set.mk 100 [0, 65])
    (bounded_set.Reachable.erase (i := 5)
      (bounded_set.Reachable.insert (i := 64) (b := true)
        (bounded_set.Reachable.insert (i := 70) (b := true)
          (bounded_set.Reachable.insert (i := 5) (b := true)
            bounded_set.Reachable.init (by decide) rfl)
          (by decide) rfl)
        (by decide) rfl)
      (by decide) rfl)
    (sparse_set.new 100) sparse_set.Reachable.init
    (unordered_sparse_set.new 100) unordered_sparse_set.Reachable.init

/-! ## C12: the sequence after a mutation -/

theorem sorted_lt_ext (l1 l2 : List Nat) (h1 : l1.Pairwise (fun x y => x < y))
    (h2 : l2.Pairwise (fun x y => x < y)) (hmem : ∀ x, x ∈ l1 ↔ x ∈ l2) : l1 = l2 := by
  have hp : l1.Perm l2 :=
    (List.perm_ext_iff_of_nodup (h1.imp (fun h => Nat.ne_of_lt h))
      (h2.imp (fun h => Nat.ne_of_lt h))).mpr hmem
  exact List.eq_of_perm_of_sorted hp h1 h2

theorem sorted_insert_form (l : List Nat) (j : Nat) (h : l.Pairwise (fun x y => x < y)) :
    (l.filter (fun x => decide (x < j)) ++ j :: l.filter (fun x => decide (j < x))).Pairwise
      (fun x y => x < y) := by
  rw [List.pairwise_append]
  refine ⟨h.filter _, ?_, ?_⟩
  · rw [List.pairwise_cons]
    refine ⟨?_, h.filter _⟩
    intro y hy
    simpa using (List.mem_filter.mp hy).2
  · intro x hx y hy
    have hxj : x < j := by simpa using (List.mem_filter.mp hx).2
    rcases List.mem_cons.mp hy with hyj | hyj
    · omega
    · have : j < y := by simpa using (List.mem_filter.mp hyj).2
      omega

theorem set_bits_insert (a : List Nat) (j : Nat) (hj : j / 64 < a.length) :
    set_bits (a.set (j / 64) (a[j / 64] ||| (1 <<< (j % 64))))
      = (set_bits a).filter (fun x => decide (x < j))
        ++ j :: (set_bits a).filter (fun x => decide (j < x)) := by
  apply sorted_lt_ext _ _ (set_bits_sorted _) (sorted_insert_form _ j (set_bits_sorted a))
  intro x
  rw [mem_set_bits, bit_at_insert a j x hj, List.mem_append, List.mem_cons, List.mem_filter,
    List.mem_filter, mem_set_bits]
  simp only [Bool.or_eq_true, decide_eq_true_eq]
  constructor
  · rintro (h | h)
    · exact Or.inr (Or.inl h)
    · rcases Nat.lt_trichotomy x j with hlt | heq | hgt
      · exact Or.inl ⟨h, hlt⟩
      · exact Or.inr (Or.inl heq)
      · exact Or.inr (Or.inr ⟨h, hgt⟩)
  · rintro (h | h | h)
    · exact Or.inr h.1
    · exact Or.inl h
    · exact Or.inr h.1

theorem set_bits_erase (a : List Nat) (k : Nat) (hk : k / 64 < a.length) :
    set_bits (a.set (k / 64) (a[k / 64] &&& bit_not (1 <<< (k % 64))))
      = (set_bits a).filter (fun x => x != k) := by
  apply sorted_lt_ext _ _ (set_bits_sorted _) ((set_bits_sorted a).filter _)
  intro x
  rw [mem_set_bits, bit_at_erase a k x hk, List.mem_filter, mem_set_bits]
  simp only [Bool.and_eq_true, Bool.not_eq_true', decide_eq_false_iff_not, bne_iff_ne, ne_eq]
  exact ⟨fun h => ⟨h.2, h.1⟩, fun h => ⟨h.2, h.1⟩⟩

theorem ss_iterate_spec (s : sparse_set) (ha : ∀ w ∈ s.m_bit_array, w < 2 ^ 64)
    (hlen : s.m_bit_array.length = word_count s.m_size)
    (h1 : s.m_iterator_present = true → s.m_sequence = set_bits s.m_bit_array)
    (h0 : s.m_iterator_present = false → s.m_sequence = []) :
    s.iterate = some (⟨s.m_size, s.m_bit_array, set_bits s.m_bit_array, true⟩,
      set_bits s.m_bit_array) := by
  have hens := ensure_sequence_spec s ha hlen h1 h0
  have hens2 : (sparse_set.mk s.m_size s.m_bit_array (set_bits s.m_bit_array) true).ensure_sequence
      = some ⟨s.m_size, s.m_bit_array, set_bits s.m_bit_array, true⟩ := rfl
  simp only [sparse_set.iterate, sparse_set.begin_, sparse_set.end_, hens, hens2,
    Option.map_some', sparse_set.between, List.drop_zero, Nat.sub_zero, List.take_length]

theorem ss_erase_then_iterate (m : Nat) (a q : List Nat) (f : Bool) (k : Nat)
    (hlt : k / 64 < a.length) (ha : ∀ w ∈ a, w < 2 ^ 64) (hlen : a.length = word_count m)
    (h0 : f = false → q = []) :
    ∃ s1 s2, (sparse_set.mk m a q f).erase k = some s1 ∧
      s1.iterate = some (s2, (set_bits a).filter (fun x => x != k)) := by
  refine ⟨⟨m, a.set (k / 64) (a[k / 64] &&& bit_not (1 <<< (k % 64))), [], false⟩,
    ⟨m, a.set (k / 64) (a[k / 64] &&& bit_not (1 <<< (k % 64))),
      set_bits (a.set (k / 64) (a[k / 64] &&& bit_not (1 <<< (k % 64)))), true⟩, ?_, ?_⟩
  · rw [ss_erase_eq ⟨m, a, q, f⟩ k hlt, drop_sequence_mk _ _ _ _ h0]
  · rw [ss_iterate_spec _ (words_set_lt _ _ _ ha (clear_bit_lt _ _ (ha _ (List.getElem_mem _))))
      (by simpa using hlen) (fun hf => by cases hf) (fun _ => rfl)]
    simp only [set_bits_erase a k hlt]

theorem ss_insert_then_iterate (m : Nat) (a q : List Nat) (f : Bool) (j : Nat)
    (hlt : j / 64 < a.length) (ha : ∀ w ∈ a, w < 2 ^ 64) (hlen : a.length = word_count m)
    (h0 : f = false → q = []) (habs : bit_at a j = false) :
    ∃ s1 s2, (sparse_set.mk m a q f).insert j = some (s1, true) ∧
      s1.iterate = some (s2, (set_bits a).filter (fun x => decide (x < j))
        ++ j :: (set_bits a).filter (fun x => decide (j < x))) := by
  refine ⟨⟨m, a.set (j / 64) (a[j / 64] ||| (1 <<< (j % 64))), [], false⟩,
    ⟨m, a.set (j / 64) (a[j / 64] ||| (1 <<< (j % 64))),
      set_bits (a.set (j / 64) (a[j / 64] ||| (1 <<< (j % 64)))), true⟩, ?_, ?_⟩
  · rw [ss_insert_eq ⟨m, a, q, f⟩ j hlt, drop_sequence_seq _ h0]
    simp only [habs, Bool.not_false]
  · rw [ss_iterate_spec _ (words_set_lt _ _ _ ha (set_bit_lt _ _ (ha _ (List.getElem_mem _))
        (Nat.mod_lt _ (by norm_num)))) (by simpa using hlen) (fun hf => by cases hf)
      (fun _ => rfl)]
    simp only [set_bits_insert a j hlt]

/-- C12: for every reachable `sparse_set`, let `L` be the sequence iterated
from `begin()` to `end()` (which builds the cache). For every member `k`,
`erase(k)` returns and the sequence iterated afterwards is `L` with `k`
removed; for every absent key `j`, `insert(j)` returns `true` and the
sequence iterated afterwards is `L` with `j` inserted at its sorted
position (the elements below `j`, then `j`, then the elements above). -/
theorem C12_no_stale_member (s : sparse_set) (h : sparse_set.ReachableAny s) :
    ∃ sb L, s.iterate = some (sb, L) ∧ sb.m_iterator_present = true ∧
      (∀ k, sb.test k = some true → k ∈ L ∧ ∃ s1 s2, sb.erase k = some s1 ∧
        s1.iterate = some (s2, L.filter (fun x => x != k))) ∧
      (∀ j, sb.test j = some false → j ∉ L ∧ ∃ s1 s2, sb.insert j = some (s1, true) ∧
        s1.iterate = some (s2, L.filter (fun x => decide (x < j))
          ++ j :: L.filter (fun x => decide (j < x)))) := by
  have hinv := ss_reachable_any_inv s h
  have hiter := ss_iterate_spec s hinv.1 hinv.2.1 hinv.2.2.1 hinv.2.2.2
  refine ⟨_, _, hiter, rfl, ?_, ?_⟩
  · intro k hk
    rw [ss_test_eq] at hk
    have hlt : k / 64 < s.m_bit_array.length := by
      by_contra hge
      simp only [hge, if_false] at hk
      cases hk
    simp only [hlt, if_true, Option.some.injEq] at hk
    exact ⟨(mem_set_bits _ k).mpr hk,
      ss_erase_then_iterate _ _ _ _ k hlt hinv.1 hinv.2.1 (fun hf => by cases hf)⟩
  · intro j hj
    rw [ss_test_eq] at hj
    have hlt : j / 64 < s.m_bit_array.length := by
      by_contra hge
      simp only [hge, if_false] at hj
      cases hj
    simp only [hlt, if_true, Option.some.injEq] at hj
    exact ⟨(fun hmem => by rw [(mem_set_bits _ j).mp hmem] at hj; cases hj),
      ss_insert_then_iterate _ _ _ _ j hlt hinv.1 hinv.2.1 (fun hf => by cases hf) hj⟩

/-- Witness for C12: the state after `insert(70)`, `insert(5)` on a set of
capacity 100. -/
theorem C12_no_stale_member_witness :
    ∃ sb L, (sparse_set.mk 100 [32, 64] [] false).iterate = some (sb, L) ∧
      sb.m_iterator_present = true ∧
      (∀ k, sb.test k = some true → k ∈ L ∧ ∃ s1 s2, sb.erase k = some s1 ∧
        s1.iterate = some (s2, L.filter (fun x => x != k))) ∧
      (∀ j, sb.test j = some false → j ∉ L ∧ ∃ s1 s2, sb.insert j = some (s1, true) ∧
        s1.iterate = some (s2, L.filter (fun x => decide (x < j))
          ++ j :: L.filter (fun x => decide (j < x)))) :=
  C12_no_stale_member (sparse_set.mk 100 [32, 64] [] false)
    (sparse_set.ReachableAny.call (sparse_set.call.insert 5)
      (sparse_set.ReachableAny.call (sparse_set.call.insert 70)
        (sparse_set.ReachableAny.init 100) rfl)
      rfl)

/-! ## C18: freshly constructed and cleared sets -/

theorem set_bits_nil_of (a : List Nat) (h : ∀ p, bit_at a p = false) : set_bits a = [] := by
  rw [List.eq_nil_iff_forall_not_mem]
  intro p hp
  rw [mem_set_bits, h p] at hp
  cases hp

theorem bs_blank (N : Nat) (hN : N + 63 < 2 ^ 32) (s : bounded_set) (hs : s.HasCapacity N)
    (hz : ∀ p, bit_at s.m_bit_array p = false) :
    (∀ i, i < N → s.test i = some false) ∧ s.count = 0 ∧ s.empty = true := by
  refine ⟨?_, ?_, ?_⟩
  · intro i hi
    rw [bs_test_eq, if_pos (by rw [hs.2.1, hs.1]; exact word_index_lt N i hN hi), hz i]
  · rw [bs_count_eq N s hs, set_bits_nil_of _ hz]
    rfl
  · unfold bounded_set.empty
    rw [all_zero_iff _ hs.2.2]
    exact set_bits_nil_of _ hz

theorem ss_blank (N : Nat) (hN : N + 63 < 2 ^ 32) (s : sparse_set) (hr : sparse_set.ReachableAny s)
    (hsize : s.m_size = N % 2 ^ 32) (hz : ∀ p, bit_at s.m_bit_array p = false) :
    (∀ i, i < N → s.test i = some false) ∧ s.count = 0 ∧ s.empty = true := by
  have hinv := ss_reachable_any_inv s hr
  refine ⟨?_, ?_, ?_⟩
  · intro i hi
    rw [ss_test_eq, if_pos (by rw [hinv.2.1, hsize]; exact word_index_lt N i hN hi), hz i]
  · rw [(ss_count_eq s hr).1, set_bits_nil_of _ hz]
    rfl
  · unfold sparse_set.empty
    rw [all_zero_iff _ hinv.1]
    exact set_bits_nil_of _ hz

theorem ss_reachable_size (N : Nat) (s : sparse_set) (h : sparse_set.Reachable N s) :
    s.m_size = N % 2 ^ 32 := by
  induction h with
  | init => rfl
  | @insert s s1 i b _ _ hins ih =>
    by_cases hlen : i / 64 < s.m_bit_array.length
    · rw [ss_insert_eq s i hlen] at hins
      rw [← (Prod.mk.inj (Option.some.inj hins)).1]
      exact ih
    · rw [ss_insert_none s i (by omega)] at hins
      cases hins
  | @erase s s1 i _ _ her ih =>
    by_cases hlen : i / 64 < s.m_bit_array.length
    · rw [ss_erase_eq s i hlen] at her
      rw [← Option.some.inj her, (drop_sequence_bits _).2]
      exact ih
    · rw [ss_erase_none s i (by omega)] at her
      cases her
  | @clear s _ ih =>
    simp only [sparse_set.clear, (drop_sequence_bits s).2]
    exact ih
  | @begin_ s s1 pos hr hb ih =>
    have hinv := ss_reachable_any_inv s (ss_reachable_any N s hr)
    simp only [sparse_set.begin_, ensure_sequence_spec s hinv.1 hinv.2.1 hinv.2.2.1 hinv.2.2.2,
      Option.map_some', Option.some.injEq, Prod.mk.injEq] at hb
    rw [← hb.1]
    exact ih
  | @end_ s s1 pos hr he ih =>
    have hinv := ss_reachable_any_inv s (ss_reachable_any N s hr)
    simp only [sparse_set.end_, ensure_sequence_spec s hinv.1 hinv.2.1 hinv.2.2.1 hinv.2.2.2,
      Option.map_some', Option.some.injEq, Prod.mk.injEq] at he
    rw [← he.1]
    exact ih

theorem us_blank (N : Nat) (s : unordered_sparse_set)
    (hnull : ∀ i, i < N → s.m_sparse[i]? = some none) (hdense : s.m_dense = []) :
    (∀ i, i < N → s.test i = some false) ∧ s.count = 0 ∧ s.empty = true := by
  refine ⟨fun i hi => (us_test_false_iff s i).mpr (hnull i hi), ?_, ?_⟩
  · unfold unordered_sparse_set.count
    rw [hdense]
    rfl
  · unfold unordered_sparse_set.empty
    rw [hdense]
    rfl

/-- C18 (as amended): for `bounded_set` and `sparse_set` of every capacity
`N ≤ 2 ^ 32 - 64`, and for `unordered_sparse_set` of every capacity `M`:
right after the constructor, and right after `clear()` in any state
reachable by `insert`, `erase` and `clear` with keys below the capacity,
`test(i)` is `false` for every key below the capacity, `count()` is `0` and
`empty()` is `true`. -/
theorem C18_blank_after_new_and_clear (N : Nat) (hN : N + 63 < 2 ^ 32) :
    (((∀ i, i < N → (bounded_set.new N).test i = some false) ∧
        (bounded_set.new N).count = 0 ∧ (bounded_set.new N).empty = true) ∧
      ∀ s, bounded_set.Reachable N s →
        (∀ i, i < N → s.clear.test i = some false) ∧ s.clear.count = 0 ∧
          s.clear.empty = true) ∧
    (((∀ i, i < N → (sparse_set.new N).test i = some false) ∧
        (sparse_set.new N).count = 0 ∧ (sparse_set.new N).empty = true) ∧
      ∀ s, sparse_set.Reachable N s →
        (∀ i, i < N → s.clear.test i = some false) ∧ s.clear.count = 0 ∧
          s.clear.empty = true) ∧
    ∀ M, ((∀ i, i < M → (unordered_sparse_set.new M).test i = some false) ∧
        (unordered_sparse_set.new M).count = 0 ∧ (unordered_sparse_set.new M).empty = true) ∧
      ∀ s, unordered_sparse_set.Reachable M s →
        (∀ i, i < M → s.clear.test i = some false) ∧ s.clear.count = 0 ∧
          s.clear.empty = true := by
  refine ⟨⟨?_, ?_⟩, ⟨?_, ?_⟩, ?_⟩
  · exact bs_blank N hN _ (bs_reachable_inv N _ bounded_set.Reachable.init).1
      (fun p => bit_at_replicate_zero _ p)
  · intro s hs
    exact bs_blank N hN _ (bs_reachable_inv N _ (bounded_set.Reachable.clear hs)).1
      (fun p => bit_at_map_zero _ p)
  · exact ss_blank N hN _ (sparse_set.ReachableAny.init N) rfl
      (fun p => bit_at_replicate_zero _ p)
  · intro s hs
    have hc := sparse_set.Reachable.clear hs
    exact ss_blank N hN _ (ss_reachable_any N _ hc) (ss_reachable_size N _ hc)
      (fun p => bit_at_map_zero _ p)
  · intro M
    constructor
    · refine us_blank M _ ?_ rfl
      intro i hi
      simp [unordered_sparse_set.new, List.getElem?_replicate, hi]
    · intro s hs
      have hc := us_reachable_consistent M s hs
      refine us_blank M _ ?_ rfl
      intro i hi
      simp only [unordered_sparse_set.clear, List.getElem?_map]
      rw [List.getElem?_eq_getElem (by rw [hc.1]; exact hi)]
      rfl

/-- Witness for C18: capacity 100. -/
theorem C18_blank_after_new_and_clear_witness :
    (((∀ i, i < 100 → (bounded_set.new 100).test i = some false) ∧
        (bounded_set.new 100).count = 0 ∧ (bounded_set.new 100).empty = true) ∧
      ∀ s, bounded_set.Reachable 100 s →
        (∀ i, i < 100 → s.clear.test i = some false) ∧ s.clear.count = 0 ∧
          s.clear.empty = true) ∧
    (((∀ i, i < 100 → (sparse_set.new 100).test i = some false) ∧
        (sparse_set.new 100).count = 0 ∧ (sparse_set.new 100).empty = true) ∧
      ∀ s, sparse_set.Reachable 100 s →
        (∀ i, i < 100 → s.clear.test i = some false) ∧ s.clear.count = 0 ∧
          s.clear.empty = true) ∧
    ∀ M, ((∀ i, i < M → (unordered_sparse_set.new M).test i = some false) ∧
        (unordered_sparse_set.new M).count = 0 ∧ (unordered_sparse_set.new M).empty = true) ∧
      ∀ s, unordered_sparse_set.Reachable M s →
        (∀ i, i < M → s.clear.test i = some false) ∧ s.clear.count = 0 ∧
          s.clear.empty = true :=
  C18_blank_after_new_and_clear 100 (by decide)

/-- C18 as stated fails for the bitmap sets: the sets constructed for
capacity `2 ^ 32` (stored capacity `0`) and for capacity `2 ^ 32 - 1` have
an empty bitmap, so `test(0)` indexes outside of it and has no value. -/
theorem C18_test_outside_bitmap :
    ((bounded_set.new 4294967296).test 0 = none ∧ (sparse_set.new 4294967296).test 0 = none) ∧
    ((bounded_set.new 4294967295).size = 4294967295 ∧
      (bounded_set.new 4294967295).test 0 = none ∧
      (sparse_set.new 4294967295).test 0 = none) := by
  refine ⟨⟨by decide, by decide⟩, by decide, by decide, by decide⟩

/-! ## C20: idempotence of `insert` and `erase` -/

theorem insert_present_array (a : List Nat) (i : Nat) (hlt : i / 64 < a.length)
    (hbit : bit_at a i = true) : a.set (i / 64) (a[i / 64] ||| (1 <<< (i % 64))) = a := by
  rw [(bit_at_of_lt a i hlt).2] at hbit
  have hne := set_bit_ne_iff (a[i / 64]) (i % 64)
  rw [hbit] at hne
  have heq : a[i / 64] ||| (1 <<< (i % 64)) = a[i / 64] := by
    have : ¬ (a[i / 64] ≠ a[i / 64] ||| (1 <<< (i % 64))) := by
      intro hc
      have : (a[i / 64] != (a[i / 64] ||| (1 <<< (i % 64)))) = true := by simpa using hc
      rw [hne] at this
      cases this
    exact (not_not.mp this).symm
  rw [heq]
  exact list_set_self _ _ _

theorem erase_absent_array (a : List Nat) (i : Nat) (hlt : i / 64 < a.length)
    (ha : ∀ w ∈ a, w < 2 ^ 64) (hbit : bit_at a i = false) :
    a.set (i / 64) (a[i / 64] &&& bit_not (1 <<< (i % 64))) = a := by
  rw [(bit_at_of_lt a i hlt).2] at hbit
  rw [erase_absent_word _ _ (ha _ (List.getElem_mem _)) hbit]
  exact list_set_self _ _ _

theorem bit_at_insert_self (a : List Nat) (i : Nat) (hlt : i / 64 < a.length) :
    bit_at (a.set (i / 64) (a[i / 64] ||| (1 <<< (i % 64)))) i = true := by
  rw [bit_at_insert a i i hlt]
  simp

theorem bit_at_erase_self (a : List Nat) (i : Nat) (hlt : i / 64 < a.length) :
    bit_at (a.set (i / 64) (a[i / 64] &&& bit_not (1 <<< (i % 64)))) i = false := by
  rw [bit_at_erase a i i hlt]
  simp

/-- Idempotence on a `bounded_set` whose bitmap holds the key. -/
theorem bs_idempotent (s : bounded_set) (i : Nat) (hlt : i / 64 < s.m_bit_array.length)
    (ha : ∀ w ∈ s.m_bit_array, w < 2 ^ 64) :
    (∃ s1 b, s.insert i = some (s1, b) ∧ s1.insert i = some (s1, false)) ∧
    (s.test i = some false → s.erase i = some s) ∧
    (∃ s1, s.erase i = some s1 ∧ s1.erase i = some s1) := by
  refine ⟨?_, ?_, ?_⟩
  · refine ⟨_, _, bs_insert_eq s i hlt, ?_⟩
    have hlt1 : i / 64 < (s.m_bit_array.set (i / 64)
        (s.m_bit_array[i / 64] ||| (1 <<< (i % 64)))).length := by simpa using hlt
    rw [bs_insert_eq _ i hlt1]
    simp only [bit_at_insert_self _ i hlt, Bool.not_true,
      insert_present_array _ i hlt1 (bit_at_insert_self _ i hlt)]
  · intro habs
    rw [bs_test_eq, if_pos hlt] at habs
    rw [bs_erase_eq s i hlt]
    simp only [erase_absent_array _ i hlt ha (Option.some.inj habs)]
  · refine ⟨_, bs_erase_eq s i hlt, ?_⟩
    have hlt1 : i / 64 < (s.m_bit_array.set (i / 64)
        (s.m_bit_array[i / 64] &&& bit_not (1 <<< (i % 64)))).length := by simpa using hlt
    rw [bs_erase_eq _ i hlt1]
    simp only [erase_absent_array _ i hlt1
      (words_set_lt _ _ _ ha (clear_bit_lt _ _ (ha _ (List.getElem_mem _))))
      (bit_at_erase_self _ i hlt)]

/-- Idempotence on a `sparse_set` whose bitmap holds the key. -/
theorem ss_idempotent (s : sparse_set) (i : Nat) (hlt : i / 64 < s.m_bit_array.length)
    (ha : ∀ w ∈ s.m_bit_array, w < 2 ^ 64)
    (h0 : s.m_iterator_present = false → s.m_sequence = []) :
    (∃ s1 b, s.insert i = some (s1, b) ∧ s1.insert i = some (s1, false)) ∧
    (s.test i = some false →
      s.erase i = some ⟨s.m_size, s.m_bit_array, [], false⟩) ∧
    (∃ s1, s.erase i = some s1 ∧ s1.erase i = some s1) := by
  refine ⟨?_, ?_, ?_⟩
  · refine ⟨_, _, ss_insert_eq s i hlt, ?_⟩
    have hlt1 : i / 64 < (s.m_bit_array.set (i / 64)
        (s.m_bit_array[i / 64] ||| (1 <<< (i % 64)))).length := by simpa using hlt
    rw [drop_sequence_seq s h0]
    rw [ss_insert_eq ⟨s.m_size, _, [], false⟩ i hlt1]
    simp only [bit_at_insert_self _ i hlt, Bool.not_true,
      insert_present_array _ i hlt1 (bit_at_insert_self _ i hlt)]
    rw [drop_sequence_mk _ _ _ _ (fun _ => rfl)]
  · intro habs
    rw [ss_test_eq, if_pos hlt] at habs
    rw [ss_erase_eq s i hlt, drop_sequence_mk _ _ _ _ h0]
    simp only [erase_absent_array _ i hlt ha (Option.some.inj habs)]
  · refine ⟨_, ss_erase_eq s i hlt, ?_⟩
    have hlt1 : i / 64 < (s.m_bit_array.set (i / 64)
        (s.m_bit_array[i / 64] &&& bit_not (1 <<< (i % 64)))).length := by simpa using hlt
    rw [drop_sequence_mk _ _ _ _ h0]
    rw [ss_erase_eq ⟨s.m_size, _, [], false⟩ i hlt1]
    rw [drop_sequence_mk _ _ _ _ (fun _ => rfl)]
    simp only [erase_absent_array _ i hlt1
      (words_set_lt _ _ _ ha (clear_bit_lt _ _ (ha _ (List.getElem_mem _))))
      (bit_at_erase_self _ i hlt)]

/-- Idempotence on an `unordered_sparse_set` satisfying the back-reference
invariant. -/
theorem us_idempotent (N i : Nat) (hi : i < N) (s : unordered_sparse_set)
    (hs : s.Consistent N) :
    (∃ s1 b, s.insert i = some (s1, b) ∧ s1.insert i = some (s1, false)) ∧
    (s.test i = some false → s.erase i = some s) ∧
    (∃ s1, s.erase i = some s1 ∧ s1.erase i = some s1) := by
  have hiN : i < s.m_sparse.length := by rw [hs.1]; exact hi
  refine ⟨?_, ?_, ?_⟩
  · rcases us_sparse_cases s i hiN with habs | ⟨v, hv⟩
    · have hcap : s.m_dense.length < s.m_dense_capacity :=
        lt_of_lt_of_le (us_dense_length_lt N s hs i hi habs) hs.2.1
      refine ⟨_, _, us_insert_absent s i habs hcap, ?_⟩
      exact us_insert_present _ i s.m_dense.length (by simp [List.getElem?_set, hiN])
    · exact ⟨s, false, us_insert_present s i v hv, us_insert_present s i v hv⟩
  · intro habs
    exact us_erase_absent s i ((us_test_false_iff s i).mp habs)
  · rcases us_sparse_cases s i hiN with habs | ⟨v, hv⟩
    · exact ⟨s, us_erase_absent s i habs, us_erase_absent s i habs⟩
    · rcases us_erase_present N s hs i v hv with ⟨last, _, herase⟩
      refine ⟨_, herase, ?_⟩
      apply us_erase_absent
      by_cases hil : i = last
      · rw [if_neg (by simpa using hil)]
        simp [List.getElem?_set, hiN]
      · rw [if_pos hil]
        simp [List.getElem?_set, hiN]

/-- C20 (as amended): for `bounded_set` and `sparse_set` of capacity
`N ≤ 2 ^ 32 - 64` and for `unordered_sparse_set` of any capacity `M`, in any
state reachable by `insert`, `erase` and `clear` with keys below the
capacity, and for every key `i` below the capacity: `insert(i)` returns, a
second `insert(i)` returns `false` and leaves every `test(j)`, `j` below the
capacity, and `count()` unchanged; `erase(i)` of an absent key leaves
`count()` and every `test(j)` unchanged; and a second `erase(i)` after
`erase(i)` changes neither. -/
theorem C20_idempotence (N i : Nat) (hN : N + 63 < 2 ^ 32) (hi : i < N)
    (s : bounded_set) (hs : bounded_set.Reachable N s)
    (t : sparse_set) (ht : sparse_set.Reachable N t) :
    ((∃ s1 b s2, s.insert i = some (s1, b) ∧ s1.insert i = some (s2, false) ∧
        (∀ j, j < N → s2.test j = s1.test j) ∧ s2.count = s1.count) ∧
      (s.test i = some false → ∃ s1, s.erase i = some s1 ∧
        (∀ j, j < N → s1.test j = s.test j) ∧ s1.count = s.count) ∧
      (∃ s1 s2, s.erase i = some s1 ∧ s1.erase i = some s2 ∧
        (∀ j, j < N → s2.test j = s1.test j) ∧ s2.count = s1.count)) ∧
    ((∃ t1 b t2, t.insert i = some (t1, b) ∧ t1.insert i = some (t2, false) ∧
        (∀ j, j < N → t2.test j = t1.test j) ∧ t2.count = t1.count) ∧
      (t.test i = some false → ∃ t1, t.erase i = some t1 ∧
        (∀ j, j < N → t1.test j = t.test j) ∧ t1.count = t.count) ∧
      (∃ t1 t2, t.erase i = some t1 ∧ t1.erase i = some t2 ∧
        (∀ j, j < N → t2.test j = t1.test j) ∧ t2.count = t1.count)) ∧
    (∀ (M k : Nat), k < M → ∀ u, unordered_sparse_set.Reachable M u →
      (∃ u1 b u2, u.insert k = some (u1, b) ∧ u1.insert k = some (u2, false) ∧
        (∀ j, j < M → u2.test j = u1.test j) ∧ u2.count = u1.count) ∧
      (u.test k = some false → ∃ u1, u.erase k = some u1 ∧
        (∀ j, j < M → u1.test j = u.test j) ∧ u1.count = u.count) ∧
      (∃ u1 u2, u.erase k = some u1 ∧ u1.erase k = some u2 ∧
        (∀ j, j < M → u2.test j = u1.test j) ∧ u2.count = u1.count)) := by
  refine ⟨?_, ?_, ?_⟩
  · have hinv := bs_reachable_inv N s hs
    have hlt : i / 64 < s.m_bit_array.length := by
      rw [hinv.1.2.1, hinv.1.1]; exact word_index_lt N i hN hi
    obtain ⟨⟨s1, b, h1, h2⟩, h3, ⟨s3, h4, h5⟩⟩ := bs_idempotent s i hlt hinv.1.2.2
    exact ⟨⟨s1, b, s1, h1, h2, fun _ _ => rfl, rfl⟩,
      fun habs => ⟨s, h3 habs, fun _ _ => rfl, rfl⟩,
      ⟨s3, s3, h4, h5, fun _ _ => rfl, rfl⟩⟩
  · have hany := ss_reachable_any N t ht
    have hinv := ss_reachable_any_inv t hany
    have hlt : i / 64 < t.m_bit_array.length := by
      rw [hinv.2.1, ss_reachable_size N t ht]; exact word_index_lt N i hN hi
    obtain ⟨⟨t1, b, h1, h2⟩, h3, ⟨t3, h4, h5⟩⟩ := ss_idempotent t i hlt hinv.1 hinv.2.2.2
    refine ⟨⟨t1, b, t1, h1, h2, fun _ _ => rfl, rfl⟩, ?_, ⟨t3, t3, h4, h5, fun _ _ => rfl, rfl⟩⟩
    intro habs
    refine ⟨_, h3 habs, ?_, ?_⟩
    · intro j _
      rw [ss_test_eq, ss_test_eq]
    · rw [(ss_count_eq t hany).1, ← (ss_count_eq t hany).2]
      rfl
  · intro M k hk u hu
    have hc := us_reachable_consistent M u hu
    obtain ⟨⟨u1, b, h1, h2⟩, h3, ⟨u3, h4, h5⟩⟩ := us_idempotent M k hk u hc
    exact ⟨⟨u1, b, u1, h1, h2, fun _ _ => rfl, rfl⟩,
      fun habs => ⟨u, h3 habs, fun _ _ => rfl, rfl⟩,
      ⟨u3, u3, h4, h5, fun _ _ => rfl, rfl⟩⟩

/-- C20 as stated fails for the bitmap sets: the sets constructed for
capacity `2 ^ 32` (stored capacity `0`) and for capacity `2 ^ 32 - 1` have an
empty bitmap, so already the first `insert(0)` indexes outside of it. -/
theorem C20_first_insert_outside_bitmap :
    (bounded_set.Reachable 4294967296 (bounded_set.new 4294967296) ∧
      sparse_set.Reachable 4294967296 (sparse_set.new 4294967296) ∧
      (bounded_set.new 4294967296).insert 0 = none ∧
      (sparse_set.new 4294967296).insert 0 = none) ∧
    (bounded_set.Reachable 4294967295 (bounded_set.new 4294967295) ∧
      sparse_set.Reachable 4294967295 (sparse_set.new 4294967295) ∧
      (bounded_set.new 4294967295).insert 0 = none ∧
      (sparse_set.new 4294967295).insert 0 = none) :=
  ⟨⟨bounded_set.Reachable.init, sparse_set.Reachable.init, by decide, by decide⟩,
    bounded_set.Reachable.init, sparse_set.Reachable.init, by decide, by decide⟩

/-- Witness for C20: capacity 100, key 70; the `bounded_set` after three
inserts and an erase, the `sparse_set` with its cache built after two
inserts, and the `unordered_sparse_set` of capacity 5 holding 3, 1 and 4,
with key 1. -/
theorem C20_idempotence_witness :
    ((∃ s1 b s2, (bounded_set.mk 100 [0, 65]).insert 70 = some (s1, b) ∧ s1.insert 70 = some (s2, false) ∧
        (∀ j, j < 100 → s2.test j = s1.test j) ∧ s2.count = s1.count) ∧
      ((bounded_set.mk 100 [0, 65]).test 70 = some false → ∃ s1, (bounded_set.mk 100 [0, 65]).erase 70 = some s1 ∧
        (∀ j, j < 100 → s1.test j = (bounded_set.mk 100 [0, 65]).test j) ∧ s1.count = (bounded_set.mk 100 [0, 65]).count) ∧
      (∃ s1 s2, (bounded_set.mk 100 [0, 65]).erase 70 = some s1 ∧ s1.erase 70 = some s2 ∧
        (∀ j, j < 100 → s2.test j = s1.test j) ∧ s2.count = s1.count)) ∧
    ((∃ t1 b t2, (sparse_set.mk 100 [32, 64] [5, 70] true).insert 70 = some (t1, b) ∧ t1.insert 70 = some (t2, false) ∧
        (∀ j, j < 100 → t2.test j = t1.test j) ∧ t2.count = t1.count) ∧
      ((sparse_set.mk 100 [32, 64] [5, 70] true).test 70 = some false → ∃ t1, (sparse_set.mk 100 [32, 64] [5, 70] true).erase 70 = some t1 ∧
        (∀ j, j < 100 → t1.test j = (sparse_set.mk 100 [32, 64] [5, 70] true).test j) ∧ t1.count = (sparse_set.mk 100 [32, 64] [5, 70] true).count) ∧
      (∃ t1 t2, (sparse_set.mk 100 [32, 64] [5, 70] true).erase 70 = some t1 ∧ t1.erase 70 = some t2 ∧
        (∀ j, j < 100 → t2.test j = t1.test j) ∧ t2.count = t1.count)) ∧
    ((∃ u1 b u2,
        (unordered_sparse_set.mk [none, some 1, none, some 0, some 2] [3, 1, 4] 5).insert 1
          = some (u1, b) ∧ u1.insert 1 = some (u2, false) ∧
        (∀ j, j < 5 → u2.test j = u1.test j) ∧ u2.count = u1.count) ∧
      (∃ u1 u2,
        (unordered_sparse_set.mk [none, some 1, none, some 0, some 2] [3, 1, 4] 5).erase 1
          = some u1 ∧ u1.erase 1 = some u2 ∧
        (∀ j, j < 5 → u2.test j = u1.test j) ∧ u2.count = u1.count)) :=
  have h := C20_idempotence 100 70 (by decide) (by decide) (bounded_set.mk 100 [0, 65])
    (bounded_set.Reachable.erase (i := 5)
      (bounded_set.Reachable.insert (i := 64) (b := true)
        (bounded_set.Reachable.insert (i := 70) (b := true)
          (bounded_set.Reachable.insert (i := 5) (b := true)
            bounded_set.Reachable.init (by decide) rfl)
          (by decide) rfl)
        (by decide) rfl)
      (by decide) rfl)
    (sparse_set.mk 100 [32, 64] [5, 70] true)
    (@sparse_set.Reachable.begin_ 100 _ (sparse_set.mk 100 [32, 64] [5, 70] true) 0
      (sparse_set.Reachable.insert (i := 5) (b := true)
        (sparse_set.Reachable.insert (i := 70) (b := true)
          sparse_set.Reachable.init (by decide) rfl)
        (by decide) rfl)
      rfl)
  have hu := h.2.2 5 1 (by decide)
    (unordered_sparse_set.mk [none, some 1, none, some 0, some 2] [3, 1, 4] 5)
    (unordered_sparse_set.Reachable.insert (i := 4) (b := true)
      (unordered_sparse_set.Reachable.insert (i := 1) (b := true)
        (unordered_sparse_set.Reachable.insert (i := 3) (b := true)
          unordered_sparse_set.Reachable.init (by decide) rfl)
        (by decide) rfl)
      (by decide) rfl)
  ⟨h.1, h.2.1, hu.1, hu.2.2⟩

/-! ## Positioned cursors: `lower_bound`, `upper_bound`, `find` -/

theorem bs_test_true_iff (s : bounded_set) (m : Nat) :
    s.test m = some true ↔ bit_at s.m_bit_array m = true := by
  rw [bs_test_eq]
  by_cases h : m / 64 < s.m_bit_array.length
  · rw [if_pos h]
    simp
  · rw [if_neg h, bit_at_of_ge _ _ (by omega)]
    simp

theorem sorted_split (l : List Nat) (x : Nat) (h : l.Pairwise (fun u v => u < v)) :
    l = l.filter (fun u => decide (u < x)) ++ l.filter (fun u => decide (x ≤ u)) := by
  induction l with
  | nil => rfl
  | cons y l ih =>
    rw [List.pairwise_cons] at h
    by_cases hy : y < x
    · rw [List.filter_cons_of_pos (by simpa using hy),
        List.filter_cons_of_neg (by simpa using hy), List.cons_append, ← ih h.2]
    · have h1 : (y :: l).filter (fun u => decide (u < x)) = [] := by
        rw [List.filter_eq_nil_iff]
        intro u hu
        rcases List.mem_cons.mp hu with hu | hu
        · simp only [decide_eq_true_eq]; omega
        · have := h.1 u hu
          simp only [decide_eq_true_eq]; omega
      have h2 : (y :: l).filter (fun u => decide (x ≤ u)) = y :: l := by
        rw [List.filter_eq_self]
        intro u hu
        rcases List.mem_cons.mp hu with hu | hu
        · simp only [decide_eq_true_eq]; omega
        · have := h.1 u hu
          simp only [decide_eq_true_eq]; omega
      rw [h1, h2, List.nil_append]

theorem filter_gt_suffix (A R : List Nat) (m : Nat)
    (h : (A ++ m :: R).Pairwise (fun u v => u < v)) :
    (A ++ m :: R).filter (fun u => decide (m < u)) = R := by
  rw [List.pairwise_append] at h
  have hA : A.filter (fun u => decide (m < u)) = [] := by
    rw [List.filter_eq_nil_iff]
    intro u hu
    have := h.2.2 u hu m (List.mem_cons_self _ _)
    simp only [decide_eq_true_eq]; omega
  have hR : R.filter (fun u => decide (m < u)) = R := by
    rw [List.filter_eq_self]
    intro u hu
    have := (List.pairwise_cons.mp h.2.1).1 u hu
    simpa using this
  rw [List.filter_append, hA, List.nil_append, List.filter_cons_of_neg (by simp), hR]

theorem sorted_head_of_min (F : List Nat) (m : Nat) (hm : m ∈ F) (hmin : ∀ x ∈ F, m ≤ x)
    (hs : F.Pairwise (fun u v => u < v)) : ∃ rest, F = m :: rest := by
  cases F with
  | nil => cases hm
  | cons x rest =>
    have hx := hmin x (List.mem_cons_self _ _)
    rcases List.mem_cons.mp hm with h | h
    · exact ⟨rest, by rw [h]⟩
    · have := (List.pairwise_cons.mp hs).1 m h
      omega

/-- `operator++` from any position `p` of the bitmap moves to the first set
bit above `p`, or past the end. -/
theorem incr_on_key_spec (N : Nat) (a : List Nat) (hN1 : 1 ≤ N) (hN : N + 63 < 2 ^ 32)
    (hlen : a.length = (N + 63) / 64) (ha : ∀ w ∈ a, w < 2 ^ 64)
    (hb : ∀ j, bit_at a j = true → j < N) (p : Nat) (hp : p < 64 * a.length) :
    bounded_set.iterator.incr (bounded_set.iterator.on_key N a p)
      = some (bounded_set.iterator.at_front N a
          ((set_bits a).filter (fun x => decide (p < x)))) := by
  have hsorted : ((set_bits a).filter (fun x => decide (p < x))).Pairwise (fun u v => u < v) :=
    (set_bits_sorted a).filter _
  cases hF : (set_bits a).filter (fun x => decide (p < x)) with
  | nil =>
    unfold bounded_set.iterator.incr
    rw [next_none N a p hN hlen ha hp]
    · rfl
    · intro j hj
      by_contra hset
      have hmem : j ∈ (set_bits a).filter (fun x => decide (p < x)) :=
        List.mem_filter.mpr ⟨(mem_set_bits a j).mpr (by simpa using hset), by simpa using hj⟩
      rw [hF] at hmem
      cases hmem
  | cons q rest =>
    rw [hF] at hsorted
    have hqF : q ∈ (set_bits a).filter (fun x => decide (p < x)) := by rw [hF]; simp
    have hq := List.mem_filter.mp hqF
    have hbit : bit_at a q = true := (mem_set_bits a q).mp hq.1
    have hpq : p < q := by simpa using hq.2
    refine next_to_successor N a p q hN1 hN hlen ha hb hpq hbit ?_
    intro j hj1 hj2
    by_contra hset
    have hmem : j ∈ (set_bits a).filter (fun x => decide (p < x)) :=
      List.mem_filter.mpr ⟨(mem_set_bits a j).mpr (by simpa using hset), by simpa using hj1⟩
    rw [hF] at hmem
    rcases List.mem_cons.mp hmem with h | h
    · omega
    · have := (List.pairwise_cons.mp hsorted).1 j h
      omega

/-- The positional constructor at a position `pos` below the capacity stands
on the first set bit at or above `pos`, or past the end. -/
theorem at_pos_spec (N : Nat) (a : List Nat) (hN1 : 1 ≤ N) (hN : N + 63 < 2 ^ 32)
    (hlen : a.length = (N + 63) / 64) (ha : ∀ w ∈ a, w < 2 ^ 64)
    (hb : ∀ j, bit_at a j = true → j < N) (pos : Nat) (hpos : pos < N) :
    bounded_set.iterator.at_pos N a pos
      = some (bounded_set.iterator.at_front N a
          ((set_bits a).filter (fun x => decide (pos ≤ x)))) := by
  have hN0 : N ≠ 0 := by omega
  have hslot : pos / 64 < a.length := by omega
  have hget : a.getD (pos / 64) 0 = a[pos / 64] := by
    rw [List.getD_eq_getElem?_getD, List.getElem?_eq_getElem hslot]
    rfl
  have hkey : bounded_set.iterator.on_key N a pos
      = ⟨N, a.length, some a, pos / 64, a[pos / 64] >>> (pos % 64), pos % 64,
          ((N + 2 ^ 32 - 1) % 2 ^ 32) % 64⟩ := by
    unfold bounded_set.iterator.on_key
    rw [hget, mask_log2]
  have hbit : bit_at a pos = (a[pos / 64]).testBit (pos % 64) := (bit_at_of_lt a pos hslot).2
  unfold bounded_set.iterator.at_pos
  simp only [bounded_set.iterator.init, bounded_set.iterator.read, bounded_set.iterator.test,
    hN0, ne_eq, not_false_eq_true, if_true, hpos, shift_log2, mask_log2,
    List.getElem?_eq_getElem hslot, bit_read]
  rw [← hkey, ← hbit]
  by_cases h0 : bit_at a pos = true
  · rw [h0]
    simp only
    obtain ⟨rest, hrest⟩ := sorted_head_of_min ((set_bits a).filter (fun x => decide (pos ≤ x)))
      pos (List.mem_filter.mpr ⟨(mem_set_bits a pos).mpr h0, by simp⟩)
      (fun x hx => by simpa using (List.mem_filter.mp hx).2) ((set_bits_sorted a).filter _)
    rw [hrest]
    rfl
  · have h0' : bit_at a pos = false := by simpa using h0
    rw [h0']
    simp only
    have hfil : (set_bits a).filter (fun x => decide (pos ≤ x))
        = (set_bits a).filter (fun x => decide (pos < x)) := by
      apply List.filter_congr
      intro x hx
      have hxb := (mem_set_bits a x).mp hx
      have hne : x ≠ pos := by
        intro he
        rw [he, h0'] at hxb
        cases hxb
      simp only [decide_eq_decide]
      omega
    rw [hfil, ← incr_on_key_spec N a hN1 hN hlen ha hb pos (by omega)]
    rfl

theorem first_front (N : Nat) (a : List Nat) (hN1 : 1 ≤ N) (hN : N + 63 < 2 ^ 32)
    (hlen : a.length = (N + 63) / 64) (ha : ∀ w ∈ a, w < 2 ^ 64)
    (hb : ∀ j, bit_at a j = true → j < N) :
    bounded_set.iterator.first N a = some (bounded_set.iterator.at_front N a (set_bits a)) := by
  rw [first_spec N a hN1 hN hlen]
  by_cases h0 : bit_at a 0 = true
  · rw [if_pos h0]
    obtain ⟨rest, hrest⟩ := set_bits_head a h0
    rw [hrest]
    rfl
  · rw [if_neg h0, incr_on_key_spec N a hN1 hN hlen ha hb 0 (by omega)]
    have hfil : (set_bits a).filter (fun x => decide (0 < x)) = set_bits a := by
      rw [List.filter_eq_self]
      intro x hx
      have hxb := (mem_set_bits a x).mp hx
      have hne : x ≠ 0 := by
        intro he
        rw [he] at hxb
        exact h0 hxb
      simp only [decide_eq_true_eq]
      omega
    rw [hfil]

theorem eq_front_nil (N : Nat) (a : List Nat) :
    bounded_set.iterator.eq (bounded_set.iterator.at_front N a []) bounded_set.iterator.empty
      = true := by
  simp [bounded_set.iterator.eq, bounded_set.iterator.at_front, bounded_set.iterator.past_end,
    bounded_set.iterator.empty]

theorem eq_empty_end (s : bounded_set) :
    bounded_set.iterator.eq bounded_set.iterator.empty s.end_ = true := by
  simp [bounded_set.iterator.eq, bounded_set.end_]

theorem eq_on_key_end (N : Nat) (a : List Nat) (q : Nat) (hq : q < 2 ^ 32) :
    bounded_set.iterator.eq (bounded_set.iterator.on_key N a q) bounded_set.iterator.empty
      = false := by
  have h := ne_on_key N a q hq
  rw [ne_eq_not_eq] at h
  simpa using h

theorem at_front_min (N : Nat) (a F : List Nat) (m : Nat) (hm : m ∈ F)
    (hmin : ∀ x ∈ F, m ≤ x) (hs : F.Pairwise (fun u v => u < v)) (hm32 : m < 2 ^ 32) :
    (bounded_set.iterator.at_front N a F).deref = m ∧
    bounded_set.iterator.eq (bounded_set.iterator.at_front N a F) bounded_set.iterator.empty
      = false := by
  obtain ⟨rest, hrest⟩ := sorted_head_of_min F m hm hmin hs
  rw [hrest]
  exact ⟨deref_on_key N a m hm32, eq_on_key_end N a m hm32⟩

theorem bs_reachable_shape (N : Nat) (hN : N + 63 < 2 ^ 32) (s : bounded_set)
    (h : bounded_set.Reachable N s) :
    s.m_size = N ∧ s.m_bit_array.length = (N + 63) / 64 ∧
    (∀ w ∈ s.m_bit_array, w < 2 ^ 64) ∧ ∀ j, bit_at s.m_bit_array j = true → j < N := by
  have hinv := bs_reachable_inv N s h
  have hsize : s.m_size = N := by rw [hinv.1.1]; exact Nat.mod_eq_of_lt (by omega)
  exact ⟨hsize, by rw [hinv.1.2.1, hsize, word_count_eq N hN], hinv.1.2.2, hinv.2⟩

/-- C14 (as amended): for every `bounded_set` of capacity `N` with
`1 ≤ N ≤ 2 ^ 32 - 64` in a state reachable by `insert`, `erase` and `clear`
with keys below `N`, and every key `k < N`: `lower_bound(k)` returns a
cursor; when `m` is the smallest member with `m ≥ k` it dereferences to `m`
and differs from `end()`; when no member is `≥ k` it equals `end()`. -/
theorem C14_lower_bound (N k : Nat) (hN : N + 63 < 2 ^ 32) (hk : k < N) (s : bounded_set)
    (hs : bounded_set.Reachable N s) :
    ∃ it, s.lower_bound k = some it ∧
      (∀ m, k ≤ m → s.test m = some true → (∀ j, k ≤ j → j < m → s.test j ≠ some true) →
        it.deref = m ∧ bounded_set.iterator.eq it s.end_ = false) ∧
      ((∀ m, k ≤ m → m < N → s.test m ≠ some true) →
        bounded_set.iterator.eq it s.end_ = true) := by
  obtain ⟨hsize, hlen, ha, hb⟩ := bs_reachable_shape N hN s hs
  refine ⟨bounded_set.iterator.at_front N s.m_bit_array
    ((set_bits s.m_bit_array).filter (fun x => decide (k ≤ x))), ?_, ?_, ?_⟩
  · unfold bounded_set.lower_bound
    rw [hsize]
    exact at_pos_spec N s.m_bit_array (by omega) hN hlen ha hb k hk
  · intro m hkm hm hmin
    have hmb := (bs_test_true_iff s m).mp hm
    refine at_front_min N _ _ m (List.mem_filter.mpr ⟨(mem_set_bits _ m).mpr hmb, by simpa⟩)
      ?_ ((set_bits_sorted _).filter _) (by have := hb m hmb; omega)
    intro x hx
    have hx1 := List.mem_filter.mp hx
    by_contra hlt
    exact hmin x (by simpa using hx1.2) (by omega)
      ((bs_test_true_iff s x).mpr ((mem_set_bits _ x).mp hx1.1))
  · intro hnone
    have hnil : (set_bits s.m_bit_array).filter (fun x => decide (k ≤ x)) = [] := by
      rw [List.filter_eq_nil_iff]
      intro x hx hkx
      have hxb := (mem_set_bits _ x).mp hx
      exact hnone x (by simpa using hkx) (hb x hxb) ((bs_test_true_iff s x).mpr hxb)
    rw [hnil]
    exact eq_front_nil N _

/-- C15 (as amended): for every `bounded_set` of capacity `N` with
`1 ≤ N ≤ 2 ^ 32 - 64` in a state reachable by `insert`, `erase` and `clear`
with keys below `N`, and every key `k < N`: `upper_bound(k)` returns a
cursor; when `m` is the smallest member with `m > k` it dereferences to `m`
and differs from `end()`; when no member is `> k` it equals `end()`, in
particular whenever `k + 1 ≥ N`. -/
theorem C15_upper_bound (N k : Nat) (hN : N + 63 < 2 ^ 32) (hk : k < N) (s : bounded_set)
    (hs : bounded_set.Reachable N s) :
    ∃ it, s.upper_bound k = some it ∧
      (∀ m, k < m → s.test m = some true → (∀ j, k < j → j < m → s.test j ≠ some true) →
        it.deref = m ∧ bounded_set.iterator.eq it s.end_ = false) ∧
      ((∀ m, k < m → m < N → s.test m ≠ some true) →
        bounded_set.iterator.eq it s.end_ = true) ∧
      (N ≤ k + 1 → bounded_set.iterator.eq it s.end_ = true) := by
  obtain ⟨hsize, hlen, ha, hb⟩ := bs_reachable_shape N hN s hs
  have hmod : (k + 1) % 2 ^ 64 = k + 1 := Nat.mod_eq_of_lt (by omega)
  by_cases hlast : N ≤ k + 1
  · refine ⟨bounded_set.iterator.empty, ?_, ?_, fun _ => eq_empty_end s, fun _ => eq_empty_end s⟩
    · unfold bounded_set.upper_bound
      rw [hmod, hsize, if_pos hlast]
    · intro m hkm hm _
      have := hb m ((bs_test_true_iff s m).mp hm)
      omega
  · refine ⟨bounded_set.iterator.at_front N s.m_bit_array
      ((set_bits s.m_bit_array).filter (fun x => decide (k + 1 ≤ x))), ?_, ?_, ?_,
      fun h => absurd h hlast⟩
    · unfold bounded_set.upper_bound
      rw [hmod, hsize, if_neg hlast]
      exact at_pos_spec N s.m_bit_array (by omega) hN hlen ha hb (k + 1) (by omega)
    · intro m hkm hm hmin
      have hmb := (bs_test_true_iff s m).mp hm
      refine at_front_min N _ _ m
        (List.mem_filter.mpr ⟨(mem_set_bits _ m).mpr hmb, by simpa using hkm⟩)
        ?_ ((set_bits_sorted _).filter _) (by have := hb m hmb; omega)
      intro x hx
      have hx1 := List.mem_filter.mp hx
      have hkx : k + 1 ≤ x := by simpa using hx1.2
      by_contra hlt
      exact hmin x (by omega) (by omega)
        ((bs_test_true_iff s x).mpr ((mem_set_bits _ x).mp hx1.1))
    · intro hnone
      have hnil : (set_bits s.m_bit_array).filter (fun x => decide (k + 1 ≤ x)) = [] := by
        rw [List.filter_eq_nil_iff]
        intro x hx hkx
        have hxb := (mem_set_bits _ x).mp hx
        have hkx' : k + 1 ≤ x := by simpa using hkx
        exact hnone x (by omega) (hb x hxb) ((bs_test_true_iff s x).mpr hxb)
      rw [hnil]
      exact eq_front_nil N _

theorem bs_example_reachable :
    bounded_set.Reachable 100 (bounded_set.mk 100 [37617664032, 0]) :=
  bounded_set.Reachable.insert (i := 35) (b := true)
    (bounded_set.Reachable.insert (i := 31) (b := true)
      (bounded_set.Reachable.insert (i := 30) (b := true)
        (bounded_set.Reachable.insert (i := 25) (b := true)
          (bounded_set.Reachable.insert (i := 21) (b := true)
            (bounded_set.Reachable.insert (i := 20) (b := true)
              (bounded_set.Reachable.insert (i := 5) (b := true)
                bounded_set.Reachable.init (by decide) rfl)
              (by decide) rfl)
            (by decide) rfl)
          (by decide) rfl)
        (by decide) rfl)
      (by decide) rfl)
    (by decide) rfl

theorem bs_wrapped_reachable :
    bounded_set.Reachable 4294967297 (bounded_set.mk 1 [32]) ∧
    bounded_set.Reachable 4294967297 (bounded_set.mk 1 [33]) :=
  ⟨bounded_set.Reachable.insert (i := 5) (b := true)
      bounded_set.Reachable.init (by decide) rfl,
    bounded_set.Reachable.insert (i := 5) (b := true)
      (bounded_set.Reachable.insert (i := 0) (b := true)
        bounded_set.Reachable.init (by decide) rfl)
      (by decide) rfl⟩

/-- Witness for C14: capacity 100, members 5, 20, 21, 25, 30, 31, 35, key 22. -/
theorem C14_lower_bound_witness :
    ∃ it, (bounded_set.mk 100 [37617664032, 0]).lower_bound 22 = some it ∧
      (∀ m, 22 ≤ m → (bounded_set.mk 100 [37617664032, 0]).test m = some true →
        (∀ j, 22 ≤ j → j < m → (bounded_set.mk 100 [37617664032, 0]).test j ≠ some true) →
        it.deref = m ∧
          bounded_set.iterator.eq it (bounded_set.mk 100 [37617664032, 0]).end_ = false) ∧
      ((∀ m, 22 ≤ m → m < 100 → (bounded_set.mk 100 [37617664032, 0]).test m ≠ some true) →
        bounded_set.iterator.eq it (bounded_set.mk 100 [37617664032, 0]).end_ = true) :=
  C14_lower_bound 100 22 (by decide) (by decide) (bounded_set.mk 100 [37617664032, 0])
    bs_example_reachable

/-- C14 as stated fails: constructed for capacity `2 ^ 32 + 1` the set stores
capacity `1`; after `insert(5)` the key 5 is a member, yet `lower_bound(3)`
equals `end()`.  For capacity `2 ^ 32` (stored capacity `0`) and for
capacity `2 ^ 32 - 1` (no words) `lower_bound(0)` reads outside the bitmap. -/
theorem C14_lower_bound_beyond_32_bit :
    (bounded_set.Reachable 4294967297 (bounded_set.mk 1 [32]) ∧
      (bounded_set.mk 1 [32]).test 5 = some true ∧
      ∃ it, (bounded_set.mk 1 [32]).lower_bound 3 = some it ∧
        bounded_set.iterator.eq it (bounded_set.mk 1 [32]).end_ = true) ∧
    (bounded_set.new 4294967296).lower_bound 0 = none ∧
    (bounded_set.new 4294967295).lower_bound 0 = none :=
  ⟨⟨bs_wrapped_reachable.1, by decide, _, rfl, by decide⟩, by decide, by decide⟩

/-- Witness for C15: capacity 100, members 5, 20, 21, 25, 30, 31, 35, key 21. -/
theorem C15_upper_bound_witness :
    ∃ it, (bounded_set.mk 100 [37617664032, 0]).upper_bound 21 = some it ∧
      (∀ m, 21 < m → (bounded_set.mk 100 [37617664032, 0]).test m = some true →
        (∀ j, 21 < j → j < m → (bounded_set.mk 100 [37617664032, 0]).test j ≠ some true) →
        it.deref = m ∧
          bounded_set.iterator.eq it (bounded_set.mk 100 [37617664032, 0]).end_ = false) ∧
      ((∀ m, 21 < m → m < 100 → (bounded_set.mk 100 [37617664032, 0]).test m ≠ some true) →
        bounded_set.iterator.eq it (bounded_set.mk 100 [37617664032, 0]).end_ = true) ∧
      (100 ≤ 21 + 1 →
        bounded_set.iterator.eq it (bounded_set.mk 100 [37617664032, 0]).end_ = true) :=
  C15_upper_bound 100 21 (by decide) (by decide) (bounded_set.mk 100 [37617664032, 0])
    bs_example_reachable

/-- C15 as stated fails: constructed for capacity `2 ^ 32 + 1` the set stores
capacity `1`; after `insert(5)` the key 5 is a member above 0, yet
`upper_bound(0)` equals `end()`.  For capacity `2 ^ 32 - 1` (no words)
`upper_bound(0)` reads outside the bitmap. -/
theorem C15_upper_bound_beyond_32_bit :
    (bounded_set.Reachable 4294967297 (bounded_set.mk 1 [32]) ∧
      (bounded_set.mk 1 [32]).test 5 = some true ∧
      ∃ it, (bounded_set.mk 1 [32]).upper_bound 0 = some it ∧
        bounded_set.iterator.eq it (bounded_set.mk 1 [32]).end_ = true) ∧
    (bounded_set.new 4294967295).upper_bound 0 = none :=
  ⟨⟨bs_wrapped_reachable.1, by decide, _, rfl, by decide⟩, by decide⟩

/-! ## Range queries and `find` -/

theorem ne_front_stop (N : Nat) (a C : List Nat) (stop : bounded_set.iterator)
    (hstop : bounded_set.iterator.eq stop (bounded_set.iterator.at_front N a C) = true) :
    bounded_set.iterator.ne (bounded_set.iterator.at_front N a C) stop = false := by
  simp only [bounded_set.iterator.eq, Bool.and_eq_true, beq_iff_eq] at hstop
  simp [bounded_set.iterator.ne, hstop.1, hstop.2]

theorem ne_on_key_stop (N : Nat) (a C : List Nat) (m : Nat) (stop : bounded_set.iterator)
    (hm : m < 2 ^ 32) (hC : ∀ q ∈ C, m < q)
    (hstop : bounded_set.iterator.eq stop (bounded_set.iterator.at_front N a C) = true) :
    bounded_set.iterator.ne (bounded_set.iterator.on_key N a m) stop = true := by
  simp only [bounded_set.iterator.eq, Bool.and_eq_true, beq_iff_eq] at hstop
  cases C with
  | nil =>
    have h : m / 64 ≠ EmptyIndex := by
      unfold EmptyIndex
      omega
    simp only [bounded_set.iterator.at_front, bounded_set.iterator.past_end] at hstop
    simp [bounded_set.iterator.ne, bounded_set.iterator.on_key, hstop.1, h]
  | cons q rest =>
    have hq := hC q (List.mem_cons_self _ _)
    simp only [bounded_set.iterator.at_front, bounded_set.iterator.on_key] at hstop
    simp only [bounded_set.iterator.ne, bounded_set.iterator.on_key, hstop.1, hstop.2,
      Bool.or_eq_true, bne_iff_ne, ne_eq]
    omega

theorem visit_range (N : Nat) (a : List Nat) (hN1 : 1 ≤ N) (hN : N + 63 < 2 ^ 32)
    (hlen : a.length = (N + 63) / 64) (ha : ∀ w ∈ a, w < 2 ^ 64)
    (hb : ∀ j, bit_at a j = true → j < N) (C : List Nat) (stop : bounded_set.iterator)
    (hstop : bounded_set.iterator.eq stop (bounded_set.iterator.at_front N a C) = true) :
    ∀ (B A : List Nat), set_bits a = A ++ (B ++ C) →
      ∀ steps, bounded_set.iterator.visit steps (bounded_set.iterator.at_front N a (B ++ C)) stop
        = if B.length ≤ steps then some B else none := by
  intro B
  induction B with
  | nil =>
    intro A _ steps
    have hne := ne_front_stop N a C stop hstop
    cases steps with
    | zero =>
      rw [visit_zero, List.nil_append, hne]
      rfl
    | succ n =>
      rw [visit_succ, List.nil_append, hne]
      rfl
  | cons m B ih =>
    intro A hL steps
    have hsorted := set_bits_sorted a
    rw [hL] at hsorted
    have hmL : m ∈ set_bits a := by rw [hL]; simp
    have hm32 : m < 2 ^ 32 := by
      have := hb m ((mem_set_bits a m).mp hmL)
      omega
    have htail : ∀ q ∈ B ++ C, m < q :=
      (List.pairwise_cons.mp (List.pairwise_append.mp hsorted).2.1).1
    have hne := ne_on_key_stop N a C m stop hm32
      (fun q hq => htail q (List.mem_append_right _ hq)) hstop
    have hincr : bounded_set.iterator.incr (bounded_set.iterator.on_key N a m)
        = some (bounded_set.iterator.at_front N a (B ++ C)) := by
      rw [incr_on_key_spec N a hN1 hN hlen ha hb m (bit_at_lt a m ((mem_set_bits a m).mp hmL)),
        hL]
      exact congrArg (fun l => some (bounded_set.iterator.at_front N a l))
        (filter_gt_suffix A (B ++ C) m hsorted)
    have hrec := ih (A ++ [m]) (by rw [hL]; simp)
    show bounded_set.iterator.visit steps (bounded_set.iterator.on_key N a m) stop = _
    cases steps with
    | zero =>
      rw [visit_zero, hne]
      simp
    | succ n =>
      rw [visit_succ, hne, if_pos rfl, hincr]
      simp only [hrec n, deref_on_key N a m hm32]
      by_cases h : B.length ≤ n
      · simp [h]
      · simp [h]

theorem range_split (l : List Nat) (lo hi : Nat) (h : l.Pairwise (fun u v => u < v))
    (hle : lo ≤ hi) :
    l = l.filter (fun u => decide (u < lo))
      ++ (l.filter (fun u => decide (lo ≤ u) && decide (u ≤ hi))
        ++ l.filter (fun u => decide (hi + 1 ≤ u))) ∧
    l.filter (fun u => decide (lo ≤ u))
      = l.filter (fun u => decide (lo ≤ u) && decide (u ≤ hi))
        ++ l.filter (fun u => decide (hi + 1 ≤ u)) := by
  have h1 := sorted_split l lo h
  have h2 := sorted_split (l.filter (fun u => decide (lo ≤ u))) (hi + 1) (h.filter _)
  rw [List.filter_filter, List.filter_filter] at h2
  have e1 : l.filter (fun u => decide (u < hi + 1) && decide (lo ≤ u))
      = l.filter (fun u => decide (lo ≤ u) && decide (u ≤ hi)) := by
    apply List.filter_congr
    intro u _
    rw [Bool.and_comm]
    congr 1
    simp only [decide_eq_decide]
    omega
  have e2 : l.filter (fun u => decide (hi + 1 ≤ u) && decide (lo ≤ u))
      = l.filter (fun u => decide (hi + 1 ≤ u)) := by
    apply List.filter_congr
    intro u _
    by_cases hu : hi + 1 ≤ u
    · have : lo ≤ u := by omega
      simp [hu, this]
    · simp [hu]
  rw [e1, e2] at h2
  refine ⟨?_, h2⟩
  rw [← h2]
  exact h1

theorem cursor_eq_self (it : bounded_set.iterator) : bounded_set.iterator.eq it it = true := by
  simp [bounded_set.iterator.eq]

theorem eq_empty_front_nil (N : Nat) (a : List Nat) :
    bounded_set.iterator.eq bounded_set.iterator.empty (bounded_set.iterator.at_front N a [])
      = true := by
  simp [bounded_set.iterator.eq, bounded_set.iterator.at_front, bounded_set.iterator.past_end,
    bounded_set.iterator.empty]

theorem bs_range_query (N a b : Nat) (hN : N + 63 < 2 ^ 32) (hab : a ≤ b) (hbN : b < N)
    (s : bounded_set) (hs : bounded_set.Reachable N s) :
    ∃ lo hi, s.lower_bound a = some lo ∧ s.upper_bound b = some hi ∧
      ∀ steps, bounded_set.iterator.visit steps lo hi
        = if ((s.members N).filter (fun m => decide (a ≤ m) && decide (m ≤ b))).length ≤ steps
          then some ((s.members N).filter (fun m => decide (a ≤ m) && decide (m ≤ b)))
          else none := by
  obtain ⟨hsize, hlen, ha, hb⟩ := bs_reachable_shape N hN s hs
  have hmem := bs_members_eq N s hb
  have hsplit := range_split (set_bits s.m_bit_array) a b (set_bits_sorted _) hab
  have hmod : (b + 1) % 2 ^ 64 = b + 1 := Nat.mod_eq_of_lt (by omega)
  have hlo : s.lower_bound a = some (bounded_set.iterator.at_front N s.m_bit_array
      ((set_bits s.m_bit_array).filter (fun u => decide (a ≤ u) && decide (u ≤ b))
        ++ (set_bits s.m_bit_array).filter (fun u => decide (b + 1 ≤ u)))) := by
    unfold bounded_set.lower_bound
    rw [hsize, ← hsplit.2]
    exact at_pos_spec N s.m_bit_array (by omega) hN hlen ha hb a (by omega)
  have hhi : ∃ hi, s.upper_bound b = some hi ∧
      bounded_set.iterator.eq hi (bounded_set.iterator.at_front N s.m_bit_array
        ((set_bits s.m_bit_array).filter (fun u => decide (b + 1 ≤ u)))) = true := by
    by_cases hlast : N ≤ b + 1
    · refine ⟨bounded_set.iterator.empty, ?_, ?_⟩
      · unfold bounded_set.upper_bound
        rw [hmod, hsize, if_pos hlast]
      · have hnil : (set_bits s.m_bit_array).filter (fun u => decide (b + 1 ≤ u)) = [] := by
          rw [List.filter_eq_nil_iff]
          intro x hx hbx
          have hxN := hb x ((mem_set_bits _ x).mp hx)
          have hbx1 : b + 1 ≤ x := by simpa using hbx
          omega
        rw [hnil]
        exact eq_empty_front_nil N _
    · refine ⟨bounded_set.iterator.at_front N s.m_bit_array
        ((set_bits s.m_bit_array).filter (fun u => decide (b + 1 ≤ u))), ?_, cursor_eq_self _⟩
      unfold bounded_set.upper_bound
      rw [hmod, hsize, if_neg hlast]
      exact at_pos_spec N s.m_bit_array (by omega) hN hlen ha hb (b + 1) (by omega)
  obtain ⟨hi, hhi1, hhi2⟩ := hhi
  refine ⟨_, hi, hlo, hhi1, ?_⟩
  intro steps
  rw [hmem]
  exact visit_range N s.m_bit_array (by omega) hN hlen ha hb _ hi hhi2 _ _ hsplit.1 steps

/-- C16 (as amended): for every `bounded_set` of capacity `N` with
`1 ≤ N ≤ 2 ^ 32 - 64` in a state reachable by `insert`, `erase` and `clear`
with keys below `N`, and all keys `a ≤ b < N`: `lower_bound(a)` and
`upper_bound(b)` return cursors, and the loop that starts at the first and
increments until the cursor compares equal to the second terminates after as
many increments as there are members `m` with `a ≤ m ≤ b` and yields exactly
those members in ascending order; with `N = 100`, members
`5, 20, 21, 25, 30, 31, 35`, `a = 21` and `b = 30` it yields `21, 25, 30`. -/
theorem C16_range_query (N a b : Nat) (hN : N + 63 < 2 ^ 32) (hab : a ≤ b) (hbN : b < N)
    (s : bounded_set) (hs : bounded_set.Reachable N s) :
    (∃ lo hi, s.lower_bound a = some lo ∧ s.upper_bound b = some hi ∧
      ∀ steps, bounded_set.iterator.visit steps lo hi
        = if ((s.members N).filter (fun m => decide (a ≤ m) && decide (m ≤ b))).length ≤ steps
          then some ((s.members N).filter (fun m => decide (a ≤ m) && decide (m ≤ b)))
          else none) ∧
    ((s.members N).filter (fun m => decide (a ≤ m) && decide (m ≤ b))).Pairwise
      (fun x y => x < y) ∧
    (∀ m, m ∈ (s.members N).filter (fun m => decide (a ≤ m) && decide (m ≤ b))
      ↔ (s.test m = some true ∧ a ≤ m ∧ m ≤ b)) ∧
    ∀ t, bounded_set.Reachable 100 t → t.members 100 = [5, 20, 21, 25, 30, 31, 35] →
      ∃ lo hi, t.lower_bound 21 = some lo ∧ t.upper_bound 30 = some hi ∧
        ∀ steps, bounded_set.iterator.visit steps lo hi
          = if 3 ≤ steps then some [21, 25, 30] else none := by
  refine ⟨bs_range_query N a b hN hab hbN s hs, ?_, ?_, ?_⟩
  · exact List.Pairwise.filter _ (List.Pairwise.filter _ (List.pairwise_lt_range _))
  · intro m
    unfold bounded_set.members
    rw [List.mem_filter, List.mem_filter, List.mem_range]
    simp only [Bool.and_eq_true, decide_eq_true_eq, beq_iff_eq]
    constructor
    · rintro ⟨⟨_, h1⟩, h2⟩
      exact ⟨h1, h2⟩
    · rintro ⟨h1, h2⟩
      exact ⟨⟨by omega, h1⟩, h2⟩
  · intro t ht hmem
    have h := bs_range_query 100 21 30 (by decide) (by decide) (by decide) t ht
    rw [hmem] at h
    exact h

/-- Witness for C16: capacity 100, members 5, 20, 21, 25, 30, 31, 35, the
range from 21 to 30. -/
theorem C16_range_query_witness :
    bounded_set.Reachable 100 (bounded_set.mk 100 [37617664032, 0]) ∧
    (bounded_set.mk 100 [37617664032, 0]).members 100 = [5, 20, 21, 25, 30, 31, 35] ∧
    ∃ lo hi, (bounded_set.mk 100 [37617664032, 0]).lower_bound 21 = some lo ∧
      (bounded_set.mk 100 [37617664032, 0]).upper_bound 30 = some hi ∧
      ∀ steps, bounded_set.iterator.visit steps lo hi
        = if 3 ≤ steps then some [21, 25, 30] else none :=
  ⟨bs_example_reachable, by decide,
    (C16_range_query 100 21 30 (by decide) (by decide) (by decide)
      (bounded_set.mk 100 [37617664032, 0]) bs_example_reachable).2.2.2
      (bounded_set.mk 100 [37617664032, 0]) bs_example_reachable (by decide)⟩

/-- C16 as stated fails: for capacity `2 ^ 32 + 1` the set stores capacity
`1`; after `insert(5)` the key `5` is a member, yet the loop from
`lower_bound(0)` to `upper_bound(5)` ends at once and yields nothing.  For
capacity `2 ^ 32` and `2 ^ 32 - 1` the bitmap is empty and `lower_bound(0)`
reads outside of it. -/
theorem C16_range_query_beyond_32_bit :
    (bounded_set.Reachable 4294967297 (bounded_set.mk 1 [32]) ∧
      (bounded_set.mk 1 [32]).test 5 = some true ∧
      ∃ lo hi, (bounded_set.mk 1 [32]).lower_bound 0 = some lo ∧
        (bounded_set.mk 1 [32]).upper_bound 5 = some hi ∧
        ∀ steps, bounded_set.iterator.visit steps lo hi = some []) ∧
    (bounded_set.new 4294967296).lower_bound 0 = none ∧
    (bounded_set.new 4294967295).lower_bound 0 = none := by
  refine ⟨⟨bs_wrapped_reachable.1, by decide, _, _, rfl, rfl, ?_⟩, by decide, by decide⟩
  intro steps
  cases steps with
  | zero => rw [visit_zero]; rfl
  | succ n => rw [visit_succ]; rfl

theorem incr_n_front (N : Nat) (a : List Nat) (hN1 : 1 ≤ N) (hN : N + 63 < 2 ^ 32)
    (hlen : a.length = (N + 63) / 64) (ha : ∀ w ∈ a, w < 2 ^ 64)
    (hb : ∀ j, bit_at a j = true → j < N) :
    ∀ (R A : List Nat), set_bits a = A ++ R → ∀ n, n ≤ R.length →
      bounded_set.iterator.incr_n n (bounded_set.iterator.at_front N a R)
        = some (bounded_set.iterator.at_front N a (R.drop n)) := by
  intro R
  induction R with
  | nil =>
    intro A _ n hn
    have h0 : n = 0 := by simpa using hn
    subst h0
    rfl
  | cons m R ih =>
    intro A hL n hn
    cases n with
    | zero => rfl
    | succ n =>
      have hsorted := set_bits_sorted a
      rw [hL] at hsorted
      have hmL : m ∈ set_bits a := by rw [hL]; simp
      have hincr : bounded_set.iterator.incr (bounded_set.iterator.on_key N a m)
          = some (bounded_set.iterator.at_front N a R) := by
        rw [incr_on_key_spec N a hN1 hN hlen ha hb m
          (bit_at_lt a m ((mem_set_bits a m).mp hmL)), hL]
        exact congrArg (fun l => some (bounded_set.iterator.at_front N a l))
          (filter_gt_suffix A R m hsorted)
      have hrec := ih (A ++ [m]) (by rw [hL]; simp) n (by simpa using hn)
      show bounded_set.iterator.incr_n (n + 1) (bounded_set.iterator.on_key N a m) = _
      rw [incr_n_succ, hincr]
      exact hrec

theorem wrapped_cycle (n : Nat) :
    (bounded_set.iterator.incr_n n (bounded_set.iterator.mk 1 1 (some [33]) 0 33 0 0)
        = some (bounded_set.iterator.mk 1 1 (some [33]) 0 33 0 0) ∨
      bounded_set.iterator.incr_n n (bounded_set.iterator.mk 1 1 (some [33]) 0 33 0 0)
        = some (bounded_set.iterator.mk 1 1 (some [33]) EmptyIndex 0 0 0)) ∧
    (bounded_set.iterator.incr_n n (bounded_set.iterator.mk 1 1 (some [33]) EmptyIndex 0 0 0)
        = some (bounded_set.iterator.mk 1 1 (some [33]) 0 33 0 0) ∨
      bounded_set.iterator.incr_n n (bounded_set.iterator.mk 1 1 (some [33]) EmptyIndex 0 0 0)
        = some (bounded_set.iterator.mk 1 1 (some [33]) EmptyIndex 0 0 0)) := by
  induction n with
  | zero => exact ⟨Or.inl rfl, Or.inr rfl⟩
  | succ n ih =>
    have h1 : bounded_set.iterator.incr (bounded_set.iterator.mk 1 1 (some [33]) 0 33 0 0)
        = some (bounded_set.iterator.mk 1 1 (some [33]) EmptyIndex 0 0 0) := by decide
    have h2 : bounded_set.iterator.incr
        (bounded_set.iterator.mk 1 1 (some [33]) EmptyIndex 0 0 0)
        = some (bounded_set.iterator.mk 1 1 (some [33]) 0 33 0 0) := by decide
    rw [incr_n_succ, incr_n_succ, h1, h2]
    exact ⟨ih.2, ih.1⟩

/-- C17 (as amended): for every `bounded_set` of capacity `N` with
`1 ≤ N ≤ 2 ^ 32 - 64` in a state reachable by `insert`, `erase` and `clear`
with keys below `N`, and every key `k < N`: `test(k)` answers; if it answers
`true`, `find(k)` returns a cursor that dereferences to `k`, differs from
`end()` and compares equal to the cursor reached from `begin()` by the first
number `n` of increments after which the cursor dereferences to `k` (every
earlier cursor differs from `end()` and dereferences to another key); if it
answers `false`, `find(k)` equals `end()`. -/
theorem C17_find (N k : Nat) (hN : N + 63 < 2 ^ 32) (hk : k < N) (s : bounded_set)
    (hs : bounded_set.Reachable N s) :
    (∃ t, s.test k = some t) ∧
    (s.test k = some true →
      ∃ f it0 n itn, s.find k = some f ∧ f.deref = k ∧
        bounded_set.iterator.eq f s.end_ = false ∧
        s.begin_ = some it0 ∧ bounded_set.iterator.incr_n n it0 = some itn ∧
        itn.deref = k ∧
        (∀ j, j < n → ∃ itj, bounded_set.iterator.incr_n j it0 = some itj ∧
          itj.deref ≠ k ∧ bounded_set.iterator.eq itj s.end_ = false) ∧
        bounded_set.iterator.eq f itn = true) ∧
    (s.test k = some false →
      ∃ f, s.find k = some f ∧ bounded_set.iterator.eq f s.end_ = true) := by
  obtain ⟨hsize, hlen, ha, hb⟩ := bs_reachable_shape N hN s hs
  have hN1 : 1 ≤ N := by omega
  have hkmod : k % 2 ^ 32 = k := Nat.mod_eq_of_lt (by omega)
  have hslot : k / 64 < s.m_bit_array.length := by omega
  refine ⟨⟨bit_at s.m_bit_array k, by rw [bs_test_eq, if_pos hslot]⟩, ?_, ?_⟩
  · intro ht
    have hbit := (bs_test_true_iff s k).mp ht
    have hkL : k ∈ set_bits s.m_bit_array := (mem_set_bits _ k).mpr hbit
    have hsorted := set_bits_sorted s.m_bit_array
    have hsplit := sorted_split (set_bits s.m_bit_array) k hsorted
    obtain ⟨R, hF⟩ := sorted_head_of_min
      ((set_bits s.m_bit_array).filter (fun u => decide (k ≤ u))) k
      (List.mem_filter.mpr ⟨hkL, by simp⟩)
      (fun x hx => by simpa using (List.mem_filter.mp hx).2) (hsorted.filter _)
    rw [hF] at hsplit
    have hAk : ∀ x ∈ (set_bits s.m_bit_array).filter (fun u => decide (u < k)), x < k :=
      fun x hx => by simpa using (List.mem_filter.mp hx).2
    generalize (set_bits s.m_bit_array).filter (fun u => decide (u < k)) = A at hsplit hAk
    have hfind : s.find k = some (bounded_set.iterator.on_key N s.m_bit_array k) := by
      unfold bounded_set.find
      simp only [hkmod, ht, hsize]
      rw [at_pos_spec N s.m_bit_array hN1 hN hlen ha hb k hk, hF]
      rfl
    have hbegin : s.begin_
        = some (bounded_set.iterator.at_front N s.m_bit_array (set_bits s.m_bit_array)) := by
      unfold bounded_set.begin_
      rw [hsize]
      exact first_front N s.m_bit_array hN1 hN hlen ha hb
    have hwalk := incr_n_front N s.m_bit_array hN1 hN hlen ha hb (set_bits s.m_bit_array) []
      (by simp)
    have hk32 : k < 2 ^ 32 := by omega
    have hAlen : A.length ≤ (set_bits s.m_bit_array).length := by
      rw [hsplit, List.length_append]
      omega
    refine ⟨_, _, A.length, bounded_set.iterator.on_key N s.m_bit_array k, hfind,
      deref_on_key N _ k hk32, eq_on_key_end N _ k hk32, hbegin, ?_,
      deref_on_key N _ k hk32, ?_, cursor_eq_self _⟩
    · rw [hwalk _ hAlen, hsplit, List.drop_left]
      rfl
    · intro j hj
      obtain ⟨x, rest, hx⟩ : ∃ x rest, A.drop j = x :: rest := by
        cases hd : A.drop j with
        | nil =>
          have := List.drop_eq_nil_iff.mp hd
          omega
        | cons x rest => exact ⟨x, rest, rfl⟩
      have hxk : x < k := hAk x (List.mem_of_mem_drop (by rw [hx]; exact List.mem_cons_self _ _))
      have hx32 : x < 2 ^ 32 := by omega
      refine ⟨bounded_set.iterator.on_key N s.m_bit_array x, ?_, ?_,
        eq_on_key_end N _ x hx32⟩
      · rw [hwalk j (by omega), hsplit, List.drop_append_of_le_length (le_of_lt hj), hx]
        rfl
      · rw [deref_on_key N _ x hx32]
        omega
  · intro hf
    refine ⟨bounded_set.iterator.empty, ?_, eq_empty_end s⟩
    unfold bounded_set.find
    simp only [hkmod, hf]

/-- Witness for C17: capacity 100, members 5, 20, 21, 25, 30, 31, 35, the
member 25. -/
theorem C17_find_witness :
    (∃ t, (bounded_set.mk 100 [37617664032, 0]).test 25 = some t) ∧
    ((bounded_set.mk 100 [37617664032, 0]).test 25 = some true →
      ∃ f it0 n itn, (bounded_set.mk 100 [37617664032, 0]).find 25 = some f ∧ f.deref = 25 ∧
        bounded_set.iterator.eq f (bounded_set.mk 100 [37617664032, 0]).end_ = false ∧
        (bounded_set.mk 100 [37617664032, 0]).begin_ = some it0 ∧
        bounded_set.iterator.incr_n n it0 = some itn ∧
        itn.deref = 25 ∧
        (∀ j, j < n → ∃ itj, bounded_set.iterator.incr_n j it0 = some itj ∧
          itj.deref ≠ 25 ∧
          bounded_set.iterator.eq itj (bounded_set.mk 100 [37617664032, 0]).end_ = false) ∧
        bounded_set.iterator.eq f itn = true) ∧
    ((bounded_set.mk 100 [37617664032, 0]).test 25 = some false →
      ∃ f, (bounded_set.mk 100 [37617664032, 0]).find 25 = some f ∧
        bounded_set.iterator.eq f (bounded_set.mk 100 [37617664032, 0]).end_ = true) :=
  C17_find 100 25 (by decide) (by decide) (bounded_set.mk 100 [37617664032, 0])
    bs_example_reachable

/-- C17 as stated fails: for capacity `2 ^ 32 + 1` the set stores capacity
`1`; after `insert(0)` and `insert(5)` the key `5` tests `true` and
`find(5)` dereferences to `5`, yet the cursor incremented from `begin()`
alternates between the key `0` and the end position and never dereferences
to `5` nor compares equal to `find(5)`. -/
theorem C17_find_beyond_32_bit :
    bounded_set.Reachable 4294967297 (bounded_set.mk 1 [33]) ∧
    (bounded_set.mk 1 [33]).test 5 = some true ∧
    ∃ f it0, (bounded_set.mk 1 [33]).find 5 = some f ∧ f.deref = 5 ∧
      (bounded_set.mk 1 [33]).begin_ = some it0 ∧
      ∀ n, ∃ itn, bounded_set.iterator.incr_n n it0 = some itn ∧ itn.deref ≠ 5 ∧
        bounded_set.iterator.eq f itn = false := by
  refine ⟨bs_wrapped_reachable.2, by decide, bounded_set.iterator.mk 1 1 (some [33]) 0 0 5 0,
    bounded_set.iterator.mk 1 1 (some [33]) 0 33 0 0, by decide, by decide, by decide, ?_⟩
  intro n
  rcases (wrapped_cycle n).1 with h | h
  · exact ⟨_, h, by decide, by decide⟩
  · exact ⟨_, h, by decide, by decide⟩

/-! ## The bit primitives against their naive references -/

theorem lsb_step_id (act : Bool) (mask w x : Nat) (h : act = false ∨ x &&& mask ≠ 0) :
    bits.lsb_step act mask w (0, x) = (0, x) := by
  unfold bits.lsb_step
  rcases h with h | h
  · subst h
    rfl
  · have hne : ((x &&& mask) == 0) = false := by simpa using h
    show (if (act && ((x &&& mask) == 0)) = true then _ else _) = _
    rw [hne, Bool.and_false]
    rfl

theorem lsb_narrow (sz : Nat) (hsz : sz = 8 ∨ sz = 4 ∨ sz = 2) (x : Nat)
    (hx : x < 2 ^ (8 * sz)) : bits.lsb sz x = bits.lsb 8 x := by
  have m32 : (4294967295 : Nat) = 2 ^ 32 - 1 := by norm_num
  have m16 : (65535 : Nat) = 2 ^ 16 - 1 := by norm_num
  rcases hsz with h | h | h
  · rw [h]
  · subst h
    by_cases h0 : x = 0
    · subst h0
      rfl
    · have hmod : x &&& 4294967295 ≠ 0 := by
        rw [m32, Nat.and_pow_two_sub_one_eq_mod, Nat.mod_eq_of_lt (by simpa using hx)]
        exact h0
      have e1 : bits.lsb_step (4 == 8) 4294967295 32 (0, x) = (0, x) :=
        lsb_step_id _ _ _ _ (Or.inl rfl)
      have e2 : bits.lsb_step (8 == 8) 4294967295 32 (0, x) = (0, x) :=
        lsb_step_id _ _ _ _ (Or.inr hmod)
      unfold bits.lsb
      rw [if_neg h0, if_neg h0]
      simp only [e1, e2]
      rfl
  · subst h
    by_cases h0 : x = 0
    · subst h0
      rfl
    · have hx16 : x < 2 ^ 16 := by simpa using hx
      have hmod : x &&& 4294967295 ≠ 0 := by
        rw [m32, Nat.and_pow_two_sub_one_eq_mod, Nat.mod_eq_of_lt (by omega)]
        exact h0
      have hmod16 : x &&& 65535 ≠ 0 := by
        rw [m16, Nat.and_pow_two_sub_one_eq_mod, Nat.mod_eq_of_lt hx16]
        exact h0
      have e1 : bits.lsb_step (2 == 8) 4294967295 32 (0, x) = (0, x) :=
        lsb_step_id _ _ _ _ (Or.inl rfl)
      have e2 : bits.lsb_step (8 == 8) 4294967295 32 (0, x) = (0, x) :=
        lsb_step_id _ _ _ _ (Or.inr hmod)
      have e3 : bits.lsb_step (2 == 8 || 2 == 4) 65535 16 (0, x) = (0, x) :=
        lsb_step_id _ _ _ _ (Or.inl rfl)
      have e4 : bits.lsb_step (8 == 8 || 8 == 4) 65535 16 (0, x) = (0, x) :=
        lsb_step_id _ _ _ _ (Or.inr hmod16)
      unfold bits.lsb
      rw [if_neg h0, if_neg h0]
      simp only [e1, e2, e3, e4]
      rfl

theorem naive_lsb_from_found (x r : Nat) (hr : x.testBit r = true) :
    ∀ k i, i ≤ r → r < i + k → (∀ j, i ≤ j → j < r → x.testBit j = false) →
      naive_lsb_from k i x = (r : Int) := by
  intro k
  induction k with
  | zero =>
    intro i h1 h2 _
    omega
  | succ k ih =>
    intro i h1 h2 hlow
    unfold naive_lsb_from
    by_cases hir : i = r
    · subst hir
      rw [if_pos hr]
    · have hi : x.testBit i = false := hlow i (le_refl _) (by omega)
      rw [hi]
      simp only [Bool.false_eq_true, if_false]
      exact ih (i + 1) (by omega) (by omega) (fun j hj hjr => hlow j (by omega) hjr)

theorem naive_lsb_from_zero : ∀ k i, naive_lsb_from k i 0 = -1 := by
  intro k
  induction k with
  | zero => intro i; rfl
  | succ k ih =>
    intro i
    unfold naive_lsb_from
    simp [ih]

/-- C21: `bits::lsb` on 64-bit, 32-bit and 16-bit words (`sizeof` 8, 4, 2):
`lsb(0)` is `-1`; for a non-zero word `x` of that width `lsb(x)` is the one
index `r` below the width with bit `r` of `x` set and every lower bit clear;
on every word of that width it agrees with the naive bit-by-bit scan. -/
theorem C21_lsb_correct (sz x : Nat) (hsz : sz = 8 ∨ sz = 4 ∨ sz = 2)
    (hx : x < 2 ^ (8 * sz)) :
    bits.lsb sz 0 = -1 ∧
    bits.lsb sz x = naive_lsb (8 * sz) x ∧
    (x ≠ 0 → ∃ r : Nat, bits.lsb sz x = (r : Int) ∧ r < 8 * sz ∧ x.testBit r = true ∧
      (∀ j, j < r → x.testBit j = false) ∧
      ∀ q, x.testBit q = true → (∀ j, j < q → x.testBit j = false) → q = r) := by
  have hx64 : x < 2 ^ 64 := by
    rcases hsz with h | h | h <;> subst h <;> norm_num at hx ⊢ <;> omega
  have hspec : x ≠ 0 → ∃ r : Nat, bits.lsb sz x = (r : Int) ∧ r < 8 * sz ∧
      x.testBit r = true ∧ (∀ j, j < r → x.testBit j = false) := by
    intro h0
    obtain ⟨r, hr, _, _, hbit, hlow⟩ := lsb_spec x h0 hx64
    refine ⟨r, by rw [lsb_narrow sz hsz x hx, hr], ?_, hbit, hlow⟩
    by_contra hge
    have hle : 2 ^ (8 * sz) ≤ 2 ^ r := Nat.pow_le_pow_right (by norm_num) (by omega)
    have := Nat.testBit_lt_two_pow (lt_of_lt_of_le hx hle)
    rw [hbit] at this
    cases this
  refine ⟨by unfold bits.lsb; rfl, ?_, ?_⟩
  · by_cases h0 : x = 0
    · subst h0
      unfold naive_lsb
      rw [naive_lsb_from_zero]
      unfold bits.lsb
      rfl
    · obtain ⟨r, hr, hlt, hbit, hlow⟩ := hspec h0
      unfold naive_lsb
      rw [hr, naive_lsb_from_found x r hbit (8 * sz) 0 (Nat.zero_le _) (by omega)
        (fun j _ hj => hlow j hj)]
  · intro h0
    obtain ⟨r, hr, hlt, hbit, hlow⟩ := hspec h0
    refine ⟨r, hr, hlt, hbit, hlow, ?_⟩
    intro q hq hqlow
    rcases Nat.lt_trichotomy q r with h | h | h
    · rw [hlow q h] at hq
      cases hq
    · exact h
    · rw [hqlow r h] at hbit
      cases hbit

/-- Witness for C21: the 32-bit word `0x00A00000`, whose lowest set bit is
bit 21. -/
theorem C21_lsb_correct_witness :
    bits.lsb 4 0 = -1 ∧
    bits.lsb 4 10485760 = naive_lsb (8 * 4) 10485760 ∧
    ((10485760 : Nat) ≠ 0 → ∃ r : Nat, bits.lsb 4 10485760 = (r : Int) ∧ r < 8 * 4 ∧
      (10485760 : Nat).testBit r = true ∧
      (∀ j, j < r → (10485760 : Nat).testBit j = false) ∧
      ∀ q, (10485760 : Nat).testBit q = true →
        (∀ j, j < q → (10485760 : Nat).testBit j = false) → q = r) :=
  C21_lsb_correct 4 10485760 (Or.inr (Or.inl rfl)) (by decide)

theorem count_bits_loop_rounds (k : Nat) : ∀ fuel x c, k ≤ fuel → x < 2 ^ (4 * k) →
    c + 4 * k < 2 ^ 32 →
    bits.count_bits_loop fuel x c
      = c + ((List.range (4 * k)).filter (fun j => x.testBit j)).length := by
  induction k with
  | zero =>
    intro fuel x c _ hx _
    have hx0 : x = 0 := by simpa using hx
    subst hx0
    cases fuel <;> simp [bits.count_bits_loop]
  | succ k ih =>
    intro fuel x c hf hx hc
    cases fuel with
    | zero => omega
    | succ fuel =>
      unfold bits.count_bits_loop
      by_cases hx0 : x = 0
      · subst hx0
        simp
      · rw [if_neg hx0]
        have hnib : bits.bcount.getD (x % 16) 0 ≤ 4 := by
          rw [← nibble_count (x % 16) (Nat.mod_lt _ (by norm_num))]
          exact le_trans (List.length_filter_le _ _) (by simp)
        have hand : x &&& 0xF = x % 16 := by
          have := Nat.and_pow_two_sub_one_eq_mod x 4
          simpa using this
        have hdiv : x >>> 4 = x / 16 := by simp [Nat.shiftRight_eq_div_pow]
        rw [hand, Nat.mod_eq_of_lt (by omega)]
        rw [ih fuel (x >>> 4) _ (by omega)
          (by rw [hdiv]; rw [show 4 * (k + 1) = 4 * k + 4 by ring, Nat.pow_add] at hx; omega)
          (by omega)]
        rw [show 4 * (k + 1) = 4 + 4 * k by ring, popcount_split]
        omega

theorem naive_count_bits_spec : ∀ width x,
    naive_count_bits width x = ((List.range width).filter (fun j => x.testBit j)).length := by
  intro width
  induction width with
  | zero => intro x; rfl
  | succ w ih =>
    intro x
    unfold naive_count_bits
    rw [ih, List.range_succ_eq_map, List.filter_cons, List.filter_map, Nat.testBit_zero]
    have hcongr : (List.range w).filter (fun j => (x / 2).testBit j)
        = (List.range w).filter ((fun j => x.testBit j) ∘ Nat.succ) := by
      apply List.filter_congr
      intro j _
      simp [Nat.testBit_succ]
    rw [hcongr]
    rcases Nat.mod_two_eq_zero_or_one x with h | h
    · simp [h]
    · simp [h]
      omega

/-- C22: for every 64-bit word `x`, `bits::count_bits(x)` is the number of
one bits of `x` as the naive bit-by-bit reference counts them; the result
is `0` for `0` and `64` for the all-ones word; the nibble loop is over after
at most 16 rounds, whatever larger bound it is given. -/
theorem C22_count_bits_correct (x : Nat) (hx : x < 2 ^ 64) :
    bits.count_bits x = naive_count_bits 64 x ∧
    bits.count_bits 0 = 0 ∧
    bits.count_bits (2 ^ 64 - 1) = 64 ∧
    naive_count_bits 64 (2 ^ 64 - 1) = 64 ∧
    ∀ fuel, 16 ≤ fuel → bits.count_bits_loop fuel x 0 = bits.count_bits x := by
  have hones : naive_count_bits 64 (2 ^ 64 - 1) = 64 := by decide
  refine ⟨?_, by decide, ?_, hones, ?_⟩
  · rw [count_bits_spec x hx, naive_count_bits_spec]
  · rw [count_bits_spec _ (by norm_num), ← naive_count_bits_spec, hones]
  · intro fuel hf
    rw [count_bits_spec x hx]
    have h := count_bits_loop_rounds 16 fuel x 0 hf (by simpa using hx) (by norm_num)
    simpa using h

/-- Witness for C22: the word `0xF0F0` with eight one bits. -/
theorem C22_count_bits_correct_witness :
    bits.count_bits 61680 = naive_count_bits 64 61680 ∧
    bits.count_bits 0 = 0 ∧
    bits.count_bits (2 ^ 64 - 1) = 64 ∧
    naive_count_bits 64 (2 ^ 64 - 1) = 64 ∧
    ∀ fuel, 16 ≤ fuel → bits.count_bits_loop fuel 61680 0 = bits.count_bits 61680 :=
  C22_count_bits_correct 61680 (by decide)

/-! ## `resize` -/

theorem vector_resize_getD (v : List Nat) (n k : Nat) :
    (vector_resize v n).getD k 0 = if k < n then v.getD k 0 else 0 := by
  unfold vector_resize
  rw [List.getD_eq_getElem?_getD, List.getD_eq_getElem?_getD]
  by_cases hk : k < n
  · rw [if_pos hk]
    by_cases hv : k < v.length
    · rw [List.getElem?_append_left (by rw [List.length_take]; omega), List.getElem?_take_of_lt hk]
    · rw [List.getElem?_append_right (by rw [List.length_take]; omega),
        List.getElem?_eq_none (l := v) (by omega)]
      rw [List.getElem?_replicate]
      split <;> rfl
  · rw [if_neg hk, List.getElem?_eq_none]
    · rfl
    · rw [List.length_append, List.length_take, List.length_replicate]
      omega

theorem bit_at_resize (v : List Nat) (n p : Nat) :
    bit_at (vector_resize v n) p = (decide (p / 64 < n) && bit_at v p) := by
  unfold bit_at unsigned_bits
  rw [vector_resize_getD]
  by_cases h : p / 64 < n
  · simp [h]
  · simp [h]

theorem bs_resize_spec (N M : Nat) (hN : N + 63 < 2 ^ 32) (hM : M + 63 < 2 ^ 32)
    (s : bounded_set) (hs : s.HasCapacity N) :
    (s.resize M).size = M ∧ (s.resize M).HasCapacity M ∧
    ∀ i, i < min N M → s.test i = some (bit_at s.m_bit_array i) ∧
      (s.resize M).test i = some (bit_at s.m_bit_array i) := by
  have hMmod : M % 2 ^ 32 = M := Nat.mod_eq_of_lt (by omega)
  have hNmod : N % 2 ^ 32 = N := Nat.mod_eq_of_lt (by omega)
  have hlen : s.m_bit_array.length = (N + 63) / 64 := by
    rw [hs.2.1, hs.1, hNmod, word_count_eq N hN]
  have hlen1 : (s.resize M).m_bit_array.length = (M + 63) / 64 := by
    show (vector_resize _ _).length = _
    rw [vector_resize_length, hMmod, word_count_eq M hM]
  refine ⟨hMmod, ⟨rfl, ?_, ?_⟩, ?_⟩
  · show (vector_resize _ _).length = _
    rw [vector_resize_length]
    rfl
  · exact vector_resize_lt _ _ hs.2.2
  · intro i hi
    have hiN : i < N := lt_of_lt_of_le hi (min_le_left _ _)
    have hiM : i < M := lt_of_lt_of_le hi (min_le_right _ _)
    rw [bs_test_eq, bs_test_eq, if_pos (by omega), if_pos (by omega)]
    refine ⟨rfl, ?_⟩
    show some (bit_at (vector_resize _ _) i) = _
    rw [bit_at_resize, hMmod, word_count_eq M hM]
    have : i / 64 < (M + 63) / 64 := by omega
    simp [this]

/-- C23 (as amended): for every `bounded_set` of capacity `N ≤ 2 ^ 32 - 64`
and every new capacity `M ≤ 2 ^ 32 - 64`: after `resize(M)`, `size()` is `M`,
the set has the shape of a set of capacity `M`, and for every key
`i < min(N, M)` `test(i)` answers what it answered before the resize. -/
theorem C23_bounded_resize (N M : Nat) (hN : N + 63 < 2 ^ 32) (hM : M + 63 < 2 ^ 32)
    (s : bounded_set) (hs : s.HasCapacity N) :
    (s.resize M).size = M ∧ (s.resize M).HasCapacity M ∧
    ∀ i, i < min N M → ∃ b, s.test i = some b ∧ (s.resize M).test i = some b := by
  obtain ⟨h1, h2, h3⟩ := bs_resize_spec N M hN hM s hs
  exact ⟨h1, h2, fun i hi => ⟨_, (h3 i hi).1, (h3 i hi).2⟩⟩

/-- Witness for C23: the set of capacity 100 with members 5, 20, 21, 25, 30,
31, 35 resized to capacity 30. -/
theorem C23_bounded_resize_witness :
    ((bounded_set.mk 100 [37617664032, 0]).resize 30).size = 30 ∧
    ((bounded_set.mk 100 [37617664032, 0]).resize 30).HasCapacity 30 ∧
    ∀ i, i < min 100 30 → ∃ b, (bounded_set.mk 100 [37617664032, 0]).test i = some b ∧
      ((bounded_set.mk 100 [37617664032, 0]).resize 30).test i = some b :=
  C23_bounded_resize 100 30 (by decide) (by decide) (bounded_set.mk 100 [37617664032, 0])
    ⟨by decide, by decide, by decide⟩

/-- C23 as stated fails: `resize(2 ^ 32)` on a set of capacity 100 with
member 5 stores capacity `0`, so `size()` is `0`, and leaves no word, so
`test(5)`, which answered `true`, reads outside the bitmap; `resize(2 ^ 32 -
1)` keeps the size but also leaves no word. -/
theorem C23_resize_beyond_32_bit :
    bounded_set.Reachable 100 (bounded_set.mk 100 [32, 0]) ∧
    (bounded_set.mk 100 [32, 0]).test 5 = some true ∧
    ((bounded_set.mk 100 [32, 0]).resize 4294967296).size = 0 ∧
    ((bounded_set.mk 100 [32, 0]).resize 4294967296).test 5 = none ∧
    ((bounded_set.mk 100 [32, 0]).resize 4294967295).size = 4294967295 ∧
    ((bounded_set.mk 100 [32, 0]).resize 4294967295).test 5 = none :=
  ⟨bounded_set.Reachable.insert (i := 5) (b := true) bounded_set.Reachable.init (by decide) rfl,
    by decide, by decide, by decide, by decide, by decide⟩

theorem ss_resize_spec (N M : Nat) (hN : N + 63 < 2 ^ 32) (hM : M + 63 < 2 ^ 32)
    (s : sparse_set) (hs : s.HasCapacity N)
    (h0 : s.m_iterator_present = false → s.m_sequence = []) :
    s.resize M = ⟨M, vector_resize s.m_bit_array ((M + 63) / 64), [], false⟩ ∧
    ∀ i, i < min N M → s.test i = some (bit_at s.m_bit_array i) ∧
      (s.resize M).test i = some (bit_at s.m_bit_array i) := by
  have hMmod : M % 2 ^ 32 = M := Nat.mod_eq_of_lt (by omega)
  have hNmod : N % 2 ^ 32 = N := Nat.mod_eq_of_lt (by omega)
  have hlen : s.m_bit_array.length = (N + 63) / 64 := by
    rw [hs.2.1, hs.1, hNmod, word_count_eq N hN]
  have hres : s.resize M = ⟨M, vector_resize s.m_bit_array ((M + 63) / 64), [], false⟩ := by
    simp only [sparse_set.resize]
    rw [drop_sequence_mk _ _ _ _ h0, hMmod, word_count_eq M hM]
  refine ⟨hres, ?_⟩
  intro i hi
  have hiN : i < N := lt_of_lt_of_le hi (min_le_left _ _)
  have hiM : i < M := lt_of_lt_of_le hi (min_le_right _ _)
  rw [hres, ss_test_eq, ss_test_eq, if_pos (by omega),
    if_pos (by rw [vector_resize_length]; omega)]
  refine ⟨rfl, ?_⟩
  show some (bit_at (vector_resize _ _) i) = _
  rw [bit_at_resize]
  have : i / 64 < (M + 63) / 64 := by omega
  simp [this]

/-- C27 (as amended): `sparse_set::resize(M)` leaves the size and the bitmap
that `bounded_set::resize(M)` leaves on the same size and bitmap, for every
`M`; for every reachable `sparse_set` of capacity `N ≤ 2 ^ 32 - 64` and every
`M ≤ 2 ^ 32 - 64`, after `resize(M)` `size()` is `M`, `test(i)` answers what
it answered before for every key `i < min(N, M)`, `m_iterator_present` is
`false` and `m_sequence` is empty. -/
theorem C27_sparse_resize (N M : Nat) (hN : N + 63 < 2 ^ 32) (hM : M + 63 < 2 ^ 32)
    (s : sparse_set) (hr : sparse_set.ReachableAny s) (hs : s.HasCapacity N) :
    (∀ M1, (s.resize M1).m_size = ((bounded_set.mk s.m_size s.m_bit_array).resize M1).m_size ∧
      (s.resize M1).m_bit_array
        = ((bounded_set.mk s.m_size s.m_bit_array).resize M1).m_bit_array) ∧
    (s.resize M).size = M ∧
    (∀ i, i < min N M → ∃ b, s.test i = some b ∧ (s.resize M).test i = some b ∧
      (bounded_set.mk s.m_size s.m_bit_array).test i = some b ∧
      ((bounded_set.mk s.m_size s.m_bit_array).resize M).test i = some b) ∧
    (s.resize M).m_iterator_present = false ∧ (s.resize M).m_sequence = [] := by
  have h0 := (ss_reachable_any_inv s hr).2.2.2
  obtain ⟨hres, htest⟩ := ss_resize_spec N M hN hM s hs h0
  have hb := bs_resize_spec N M hN hM (bounded_set.mk s.m_size s.m_bit_array) hs
  refine ⟨?_, ?_, ?_, ?_, ?_⟩
  · intro M1
    simp only [sparse_set.resize, bounded_set.resize]
    exact ⟨(drop_sequence_bits _).2, (drop_sequence_bits _).1⟩
  · rw [hres]
    rfl
  · intro i hi
    exact ⟨_, (htest i hi).1, (htest i hi).2, (hb.2.2 i hi).1, (hb.2.2 i hi).2⟩
  · rw [hres]
  · rw [hres]

theorem ss_example_reachable :
    sparse_set.Reachable 100 (sparse_set.mk 100 [32, 64] [5, 70] true) :=
  @sparse_set.Reachable.begin_ 100 _ (sparse_set.mk 100 [32, 64] [5, 70] true) 0
    (sparse_set.Reachable.insert (i := 5) (b := true)
      (sparse_set.Reachable.insert (i := 70) (b := true)
        sparse_set.Reachable.init (by decide) rfl)
      (by decide) rfl)
    rfl

/-- Witness for C27: the state after `insert(70)`, `insert(5)`, `begin()` on
a set of capacity 100, resized to capacity 200. -/
theorem C27_sparse_resize_witness :
    ((sparse_set.mk 100 [32, 64] [5, 70] true).resize 200).size = 200 ∧
    (∃ b, (sparse_set.mk 100 [32, 64] [5, 70] true).test 70 = some b ∧
      ((sparse_set.mk 100 [32, 64] [5, 70] true).resize 200).test 70 = some b) ∧
    ((sparse_set.mk 100 [32, 64] [5, 70] true).resize 200).m_iterator_present = false ∧
    ((sparse_set.mk 100 [32, 64] [5, 70] true).resize 200).m_sequence = [] :=
  have h := C27_sparse_resize 100 200 (by decide) (by decide)
    (sparse_set.mk 100 [32, 64] [5, 70] true)
    (ss_reachable_any 100 _ ss_example_reachable) ⟨by decide, by decide, by decide⟩
  ⟨h.2.1,
    (h.2.2.1 70 (by decide)).elim (fun b hb => ⟨b, hb.1, hb.2.1⟩),
    h.2.2.2.1, h.2.2.2.2⟩

/-- C27 as stated fails: `resize(2 ^ 32)` on a `sparse_set` of capacity 100
with member 5 stores capacity `0`, so `size()` is `0`, and leaves no word, so
`test(5)`, which answered `true`, reads outside the bitmap; `resize(2 ^ 32 -
1)` keeps the size but also leaves no word. -/
theorem C27_resize_beyond_32_bit :
    sparse_set.Reachable 100 (sparse_set.mk 100 [32, 0] [] false) ∧
    (sparse_set.mk 100 [32, 0] [] false).test 5 = some true ∧
    ((sparse_set.mk 100 [32, 0] [] false).resize 4294967296).size = 0 ∧
    ((sparse_set.mk 100 [32, 0] [] false).resize 4294967296).test 5 = none ∧
    ((sparse_set.mk 100 [32, 0] [] false).resize 4294967295).size = 4294967295 ∧
    ((sparse_set.mk 100 [32, 0] [] false).resize 4294967295).test 5 = none :=
  ⟨sparse_set.Reachable.insert (i := 5) (b := true) sparse_set.Reachable.init (by decide) rfl,
    by decide, by decide, by decide, by decide, by decide⟩

/-- C24 fails on the code: on a `bounded_set` of capacity 100, `insert(70)`
then `resize(65)` keeps both words, so bit 70 stays set although the
capacity is 65: `count()` is `1` while no key below 65 tests `true`, and
after the later `resize(100)` the key 70 tests `true` again. -/
theorem C24_shrink_keeps_high_bit :
    (bounded_set.new 100).insert 70 = some (bounded_set.mk 100 [0, 64], true) ∧
    (bounded_set.mk 100 [0, 64]).resize 65 = bounded_set.mk 65 [0, 64] ∧
    ((bounded_set.mk 100 [0, 64]).resize 65).size = 65 ∧
    bit_at ((bounded_set.mk 100 [0, 64]).resize 65).m_bit_array 70 = true ∧
    ((bounded_set.mk 100 [0, 64]).resize 65).count = 1 ∧
    ((bounded_set.mk 100 [0, 64]).resize 65).members 65 = [] ∧
    (((bounded_set.mk 100 [0, 64]).resize 65).resize 100).size = 100 ∧
    (((bounded_set.mk 100 [0, 64]).resize 65).resize 100).test 70 = some true := by
  decide

/-- C25 fails on the code: on an `unordered_sparse_set` of capacity 10,
`insert(3)` then `resize(20)` empties `m_dense` but keeps the entry
`m_sparse[3]`: `count()` is `0` and yet `test(3)` is `true`, `insert(3)`
returns `false`, and the back-reference invariant is broken. -/
theorem C25_resize_keeps_sparse_entry :
    ∃ u, (unordered_sparse_set.new 10).insert 3 = some (u, true) ∧
      unordered_sparse_set.Reachable 10 u ∧
      (u.resize 20).size = 20 ∧
      (u.resize 20).m_dense = [] ∧
      (u.resize 20).count = 0 ∧
      (u.resize 20).m_sparse[3]? = some (some 0) ∧
      (u.resize 20).test 3 = some true ∧
      (u.resize 20).insert 3 = some (u.resize 20, false) ∧
      ¬ (u.resize 20).Consistent 20 := by
  refine ⟨_, rfl, unordered_sparse_set.Reachable.insert (i := 3) (b := true)
    unordered_sparse_set.Reachable.init (by decide) rfl,
    by decide, by decide, by decide, by decide, by decide, by decide, ?_⟩
  intro hc
  have h := hc.2.2.1 3 0 (by decide)
  revert h
  decide

theorem set_bits_resize_grow (a : List Nat) (n : Nat) (h : a.length ≤ n) :
    set_bits (vector_resize a n) = set_bits a := by
  have hbit : ∀ p, bit_at (vector_resize a n) p = bit_at a p := by
    intro p
    rw [bit_at_resize]
    by_cases hp : bit_at a p = true
    · have := bit_at_lt a p hp
      have hlt : p / 64 < n := by omega
      simp [hlt]
    · have hf : bit_at a p = false := by simpa using hp
      simp [hf]
  unfold set_bits unsigned_bits
  rw [vector_resize_length]
  have hfun : bit_at (vector_resize a n) = bit_at a := funext hbit
  rw [hfun]
  exact filter_range_eq _ _ _ (fun p hp => by have := bit_at_lt a p hp; omega)
    (fun p hp => bit_at_lt a p hp)

/-- C26 (as amended): `resize(M1)` on any `unordered_sparse_set`, for any
`M1`, leaves `count() == 0`, whatever the set held.  A `sparse_set` keeps its
members: in every state reachable from `sparse_set(N)` by `insert`, `erase`,
`clear`, `begin` and `end` with keys below `N`, after `resize(M)` with
`N < M ≤ 2 ^ 32 - 64`, `count()` is what it was before, the number of keys
`i < N` with `test(i) == true`, and so not `0` when the set held a member. -/
theorem C26_resize_count (N M : Nat) (hNM : N < M) (hM : M + 63 < 2 ^ 32)
    (s : sparse_set) (hs : sparse_set.Reachable N s) :
    (∀ (u : unordered_sparse_set) (M1 : Nat), (u.resize M1).count = 0) ∧
    (s.resize M).count = s.count ∧
    (s.resize M).count = (s.members N).length ∧
    ((∃ i, i < N ∧ s.test i = some true) → (s.resize M).count ≠ 0) := by
  have hany := ss_reachable_any N s hs
  have hinv := ss_reachable_any_inv s hany
  have hres : sparse_set.ReachableAny (s.resize M) :=
    sparse_set.ReachableAny.call (sparse_set.call.resize M) hany rfl
  have hsize := ss_reachable_size N s hs
  have hNmod : N % 2 ^ 32 = N := Nat.mod_eq_of_lt (by omega)
  have hMmod : M % 2 ^ 32 = M := Nat.mod_eq_of_lt (by omega)
  have hlen : s.m_bit_array.length = (N + 63) / 64 := by
    rw [hinv.2.1, hsize, hNmod, word_count_eq N (by omega)]
  have hbits : (s.resize M).m_bit_array = vector_resize s.m_bit_array ((M + 63) / 64) := by
    simp only [sparse_set.resize]
    rw [(drop_sequence_bits _).1, hMmod, word_count_eq M hM]
  have hcount : (s.resize M).count = s.count := by
    rw [(ss_count_eq _ hres).1, (ss_count_eq s hany).1, hbits,
      set_bits_resize_grow _ _ (by omega)]
  have hmem : s.count = (s.members N).length := by
    rw [(ss_count_eq s hany).1, ss_members_eq N s (ss_reachable_bits N s hs)]
  refine ⟨fun _ _ => rfl, hcount, by rw [hcount, hmem], ?_⟩
  rintro ⟨i, hi, ht⟩
  rw [hcount, hmem]
  have hin : i ∈ s.members N := by
    unfold sparse_set.members
    rw [List.mem_filter, List.mem_range]
    exact ⟨hi, by simp [ht]⟩
  intro h0
  rw [List.length_eq_zero] at h0
  rw [h0] at hin
  cases hin

/-- Witness for C26: the `sparse_set` of capacity 100 with members 5 and 70
and a built cache, resized to 200, and an `unordered_sparse_set` holding 3,
resized to 200 and to `2 ^ 32`. -/
theorem C26_resize_count_witness :
    ((unordered_sparse_set.mk [none, none, none, some 0] [3] 4).resize 200).count = 0 ∧
    ((unordered_sparse_set.mk [none, none, none, some 0] [3] 4).resize 4294967296).count
      = 0 ∧
    ((sparse_set.mk 100 [32, 64] [5, 70] true).resize 200).count = 2 :=
  have h := C26_resize_count 100 200 (by decide) (by decide)
    (sparse_set.mk 100 [32, 64] [5, 70] true) ss_example_reachable
  ⟨h.1 (unordered_sparse_set.mk [none, none, none, some 0] [3] 4) 200,
    h.1 (unordered_sparse_set.mk [none, none, none, some 0] [3] 4) 4294967296,
    h.2.1.trans (by decide)⟩

/-- C26 as stated fails for `sparse_set`: on a set of capacity 100 holding
the member 5, `resize(200)` keeps the bitmap and `count()` stays `1`. -/
theorem C26_sparse_resize_keeps_members :
    sparse_set.Reachable 100 (sparse_set.mk 100 [32, 0] [] false) ∧
    (sparse_set.mk 100 [32, 0] [] false).test 5 = some true ∧
    ((sparse_set.mk 100 [32, 0] [] false).resize 200).size = 200 ∧
    ((sparse_set.mk 100 [32, 0] [] false).resize 200).count = 1 ∧
    ((sparse_set.mk 100 [32, 0] [] false).resize 200).test 5 = some true :=
  ⟨sparse_set.Reachable.insert (i := 5) (b := true) sparse_set.Reachable.init (by decide) rfl,
    by decide, by decide, by decide, by decide⟩

/-! ## Range queries on the cached sequence of `sparse_set` -/

theorem sorted_getElem?_lt (v : List Nat) (hs : v.Pairwise (fun x y => x < y)) (i j x y : Nat)
    (hij : i < j) (hi : v[i]? = some x) (hj : v[j]? = some y) : x < y := by
  have hjl := index_lt_of_some v j y hj
  have hil : i < v.length := by omega
  rw [List.getElem?_eq_getElem hil] at hi
  rw [List.getElem?_eq_getElem hjl] at hj
  have h := List.pairwise_iff_getElem.mp hs i j hil hjl hij
  have e1 : v[i] = x := Option.some.inj hi
  have e2 : v[j] = y := Option.some.inj hj
  rw [e1, e2] at h
  exact h

theorem std_lower_bound_loop_spec (v : List Nat) (hs : v.Pairwise (fun x y => x < y))
    (val : Nat) : ∀ fuel first len, len ≤ fuel → first + len ≤ v.length →
      (∀ j x, j < first → v[j]? = some x → x < val) →
      (∀ j x, first + len ≤ j → v[j]? = some x → ¬ x < val) →
      ∃ r, std_lower_bound_loop fuel v first len val = some r ∧ r ≤ v.length ∧
        (∀ j x, j < r → v[j]? = some x → x < val) ∧
        (∀ j x, r ≤ j → v[j]? = some x → ¬ x < val) := by
  intro fuel
  induction fuel with
  | zero =>
    intro first len hf hlen hlo hhi
    have h0 : len = 0 := by omega
    subst h0
    exact ⟨first, rfl, by omega, hlo, hhi⟩
  | succ fuel ih =>
    intro first len hf hlen hlo hhi
    unfold std_lower_bound_loop
    by_cases h0 : len = 0
    · subst h0
      exact ⟨first, by simp, by omega, hlo, hhi⟩
    · rw [if_neg h0]
      have hhalf : len >>> 1 = len / 2 := by simp [Nat.shiftRight_eq_div_pow]
      have hmid : first + len / 2 < v.length := by omega
      simp only [hhalf, List.getElem?_eq_getElem hmid]
      by_cases hx : v[first + len / 2] < val
      · rw [if_pos hx]
        apply ih (first + len / 2 + 1) (len - len / 2 - 1) (by omega) (by omega)
        · intro j x hj hjx
          by_cases hjm : j = first + len / 2
          · subst hjm
            rw [List.getElem?_eq_getElem hmid] at hjx
            rw [← Option.some.inj hjx]
            exact hx
          · have := sorted_getElem?_lt v hs j (first + len / 2) x _ (by omega) hjx
              (List.getElem?_eq_getElem hmid)
            omega
        · intro j x hj hjx
          exact hhi j x (by omega) hjx
      · rw [if_neg hx]
        apply ih first (len / 2) (by omega) (by omega) hlo
        intro j x hj hjx
        by_cases hjm : j = first + len / 2
        · subst hjm
          rw [List.getElem?_eq_getElem hmid] at hjx
          rw [← Option.some.inj hjx]
          exact hx
        · have := sorted_getElem?_lt v hs (first + len / 2) j _ x (by omega)
            (List.getElem?_eq_getElem hmid) hjx
          omega

theorem std_upper_bound_loop_spec (v : List Nat) (hs : v.Pairwise (fun x y => x < y))
    (val : Nat) : ∀ fuel first len, len ≤ fuel → first + len ≤ v.length →
      (∀ j x, j < first → v[j]? = some x → x ≤ val) →
      (∀ j x, first + len ≤ j → v[j]? = some x → ¬ x ≤ val) →
      ∃ r, std_upper_bound_loop fuel v first len val = some r ∧ r ≤ v.length ∧
        (∀ j x, j < r → v[j]? = some x → x ≤ val) ∧
        (∀ j x, r ≤ j → v[j]? = some x → ¬ x ≤ val) := by
  intro fuel
  induction fuel with
  | zero =>
    intro first len hf hlen hlo hhi
    have h0 : len = 0 := by omega
    subst h0
    exact ⟨first, rfl, by omega, hlo, hhi⟩
  | succ fuel ih =>
    intro first len hf hlen hlo hhi
    unfold std_upper_bound_loop
    by_cases h0 : len = 0
    · subst h0
      exact ⟨first, by simp, by omega, hlo, hhi⟩
    · rw [if_neg h0]
      have hhalf : len >>> 1 = len / 2 := by simp [Nat.shiftRight_eq_div_pow]
      have hmid : first + len / 2 < v.length := by omega
      simp only [hhalf, List.getElem?_eq_getElem hmid]
      by_cases hx : val < v[first + len / 2]
      · rw [if_pos hx]
        apply ih first (len / 2) (by omega) (by omega) hlo
        intro j x hj hjx
        by_cases hjm : j = first + len / 2
        · subst hjm
          rw [List.getElem?_eq_getElem hmid] at hjx
          rw [← Option.some.inj hjx]
          omega
        · have := sorted_getElem?_lt v hs (first + len / 2) j _ x (by omega)
            (List.getElem?_eq_getElem hmid) hjx
          omega
      · rw [if_neg hx]
        apply ih (first + len / 2 + 1) (len - len / 2 - 1) (by omega) (by omega)
        · intro j x hj hjx
          by_cases hjm : j = first + len / 2
          · subst hjm
            rw [List.getElem?_eq_getElem hmid] at hjx
            rw [← Option.some.inj hjx]
            omega
          · have := sorted_getElem?_lt v hs j (first + len / 2) x _ (by omega) hjx
              (List.getElem?_eq_getElem hmid)
            omega
        · intro j x hj hjx
          exact hhi j x (by omega) hjx

theorem partition_take (v : List Nat) (P : Nat → Bool) (r : Nat)
    (h1 : ∀ j x, j < r → v[j]? = some x → P x = true)
    (h2 : ∀ j x, r ≤ j → v[j]? = some x → P x = false) :
    v.take r = v.filter P ∧ v.drop r = v.filter (fun x => !P x) := by
  have hsplit : v.take r ++ v.drop r = v := List.take_append_drop r v
  have ht : ∀ x ∈ v.take r, P x = true := by
    intro x hx
    obtain ⟨j, hj, hjx⟩ := List.getElem_of_mem hx
    rw [List.length_take] at hj
    have hget : v[j]? = some x := by
      rw [← hjx, List.getElem_take]
      exact List.getElem?_eq_getElem (by omega)
    exact h1 j x (by omega) hget
  have hd : ∀ x ∈ v.drop r, P x = false := by
    intro x hx
    obtain ⟨j, hj, hjx⟩ := List.getElem_of_mem hx
    have hget : v[r + j]? = some x := by
      rw [← hjx, List.getElem_drop]
      rw [List.length_drop] at hj
      exact List.getElem?_eq_getElem (by omega)
    exact h2 (r + j) x (by omega) hget
  have e1 : (v.take r).filter P = v.take r := List.filter_eq_self.mpr ht
  have e2 : (v.drop r).filter P = [] :=
    List.filter_eq_nil_iff.mpr (fun x hx => by rw [hd x hx]; simp)
  have e3 : (v.take r).filter (fun x => !P x) = [] :=
    List.filter_eq_nil_iff.mpr (fun x hx => by rw [ht x hx]; simp)
  have e4 : (v.drop r).filter (fun x => !P x) = v.drop r :=
    List.filter_eq_self.mpr (fun x hx => by rw [hd x hx]; rfl)
  constructor
  · nth_rewrite 2 [← hsplit]
    rw [List.filter_append, e1, e2, List.append_nil]
  · nth_rewrite 2 [← hsplit]
    rw [List.filter_append, e3, e4, List.nil_append]

theorem lower_bound_position (v : List Nat) (hs : v.Pairwise (fun x y => x < y)) (k : Nat) :
    ∃ lo, std_lower_bound_loop v.length v 0 v.length k = some lo ∧ lo ≤ v.length ∧
      v.take lo = v.filter (fun x => decide (x < k)) ∧
      v.drop lo = v.filter (fun x => decide (k ≤ x)) := by
  obtain ⟨r, hr, hle, h1, h2⟩ := std_lower_bound_loop_spec v hs k v.length 0 v.length
    (le_refl _) (by omega) (fun j x hj _ => absurd hj (Nat.not_lt_zero _))
    (fun j x hj hjx => by have := index_lt_of_some v j x hjx; omega)
  obtain ⟨e1, e2⟩ := partition_take v (fun x => decide (x < k)) r
    (fun j x hj hjx => by simpa using h1 j x hj hjx)
    (fun j x hj hjx => by simpa using h2 j x hj hjx)
  refine ⟨r, hr, hle, e1, ?_⟩
  rw [e2]
  apply List.filter_congr
  intro x _
  by_cases hx : x < k
  · have : ¬ k ≤ x := by omega
    simp [hx, this]
  · have : k ≤ x := by omega
    simp [hx, this]

theorem upper_bound_position (v : List Nat) (hs : v.Pairwise (fun x y => x < y)) (k : Nat) :
    ∃ hi, std_upper_bound_loop v.length v 0 v.length k = some hi ∧ hi ≤ v.length ∧
      v.take hi = v.filter (fun x => decide (x ≤ k)) ∧
      v.drop hi = v.filter (fun x => decide (k < x)) := by
  obtain ⟨r, hr, hle, h1, h2⟩ := std_upper_bound_loop_spec v hs k v.length 0 v.length
    (le_refl _) (by omega) (fun j x hj _ => absurd hj (Nat.not_lt_zero _))
    (fun j x hj hjx => by have := index_lt_of_some v j x hjx; omega)
  obtain ⟨e1, e2⟩ := partition_take v (fun x => decide (x ≤ k)) r
    (fun j x hj hjx => by simpa using h1 j x hj hjx)
    (fun j x hj hjx => by simpa using h2 j x hj hjx)
  refine ⟨r, hr, hle, e1, ?_⟩
  rw [e2]
  apply List.filter_congr
  intro x _
  by_cases hx : x ≤ k
  · have : ¬ k < x := by omega
    simp [hx, this]
  · have : k < x := by omega
    simp [hx, this]

theorem drop_head_min (v F : List Nat) (r m : Nat) (hd : v.drop r = F) (hm : m ∈ F)
    (hmin : ∀ x ∈ F, m ≤ x) (hs : F.Pairwise (fun x y => x < y)) : v[r]? = some m := by
  obtain ⟨rest, hF⟩ := sorted_head_of_min F m hm hmin hs
  have h0 : (v.drop r)[0]? = some m := by rw [hd, hF]; simp
  rw [List.getElem?_drop] at h0
  simpa using h0

theorem range_between (v : List Nat) (hs : v.Pairwise (fun x y => x < y)) (a b lo hi : Nat)
    (hab : a ≤ b) (hlo : v.take lo = v.filter (fun x => decide (x < a))) (hlo1 : lo ≤ v.length)
    (hhi : v.take hi = v.filter (fun x => decide (x ≤ b))) (hhi1 : hi ≤ v.length) :
    lo ≤ hi ∧ (v.drop lo).take (hi - lo)
      = v.filter (fun x => decide (a ≤ x) && decide (x ≤ b)) := by
  obtain ⟨hsplit, _⟩ := range_split v a b hs hab
  generalize hA : v.filter (fun u => decide (u < a)) = A at hsplit hlo
  generalize hB : v.filter (fun u => decide (a ≤ u) && decide (u ≤ b)) = B at hsplit
  have hAmem : ∀ x ∈ A, x < a := fun x hx => by
    rw [← hA] at hx
    simpa using (List.mem_filter.mp hx).2
  have hBmem : ∀ x ∈ B, a ≤ x ∧ x ≤ b := fun x hx => by
    rw [← hB] at hx
    simpa using (List.mem_filter.mp hx).2
  have hCmem : ∀ x ∈ v.filter (fun u => decide (b + 1 ≤ u)), b + 1 ≤ x := fun x hx => by
    simpa using (List.mem_filter.mp hx).2
  generalize v.filter (fun u => decide (b + 1 ≤ u)) = C at hsplit hCmem
  have hlen_lo : lo = A.length := by
    have := congrArg List.length hlo
    rw [List.length_take] at this
    omega
  have hfil : v.filter (fun x => decide (x ≤ b)) = A ++ B := by
    rw [hsplit, List.filter_append, List.filter_append,
      List.filter_eq_self.mpr (fun x hx => by have := hAmem x hx; simp; omega),
      List.filter_eq_self.mpr (fun x hx => by have := hBmem x hx; simp; omega),
      List.filter_eq_nil_iff.mpr (fun x hx => by have := hCmem x hx; simp; omega),
      List.append_nil]
  have hlen_hi : hi = A.length + B.length := by
    have := congrArg List.length hhi
    rw [List.length_take, hfil, List.length_append] at this
    omega
  refine ⟨by omega, ?_⟩
  rw [hsplit, hlen_lo, hlen_hi, List.drop_left, Nat.add_sub_cancel_left, List.take_left]

theorem ss_test_true_iff (s : sparse_set) (m : Nat) :
    s.test m = some true ↔ bit_at s.m_bit_array m = true := by
  rw [ss_test_eq]
  by_cases h : m / 64 < s.m_bit_array.length
  · rw [if_pos h]
    simp
  · rw [if_neg h, bit_at_of_ge _ _ (by omega)]
    simp

theorem ss_cached_members (s : sparse_set) (hr : sparse_set.ReachableAny s)
    (hflag : s.m_iterator_present = true) :
    s.m_sequence.Pairwise (fun x y => x < y) ∧
    ∀ m, m ∈ s.m_sequence ↔ s.test m = some true := by
  have hseq := (ss_reachable_any_inv s hr).2.2.1 hflag
  rw [hseq]
  exact ⟨set_bits_sorted _, fun m => by rw [mem_set_bits, ss_test_true_iff]⟩

/-- C28: for every reachable `sparse_set` whose cache is built
(`m_iterator_present` is `true`: `begin()` or `end()` was called since the
last mutation) and every key `k`: `lower_bound(k)` returns the position in
`m_sequence` of the smallest member `≥ k` and `upper_bound(k)` that of the
smallest member `> k`, each the end position `end()` returns when there is
no such member; for `a ≤ b` the elements from `lower_bound(a)` up to
`upper_bound(b)` are exactly the members `m` with `a ≤ m ≤ b`, ascending. -/
theorem C28_sparse_range_query (s : sparse_set) (hr : sparse_set.ReachableAny s)
    (hflag : s.m_iterator_present = true) (k a b : Nat) (hab : a ≤ b) :
    s.end_ = some (s, s.m_sequence.length) ∧
    (∃ lo, s.lower_bound k = some lo ∧ lo ≤ s.m_sequence.length ∧
      (∀ m, k ≤ m → s.test m = some true →
        (∀ j, k ≤ j → j < m → s.test j ≠ some true) → s.m_sequence[lo]? = some m) ∧
      ((∀ m, k ≤ m → s.test m ≠ some true) → lo = s.m_sequence.length)) ∧
    (∃ hi, s.upper_bound k = some hi ∧ hi ≤ s.m_sequence.length ∧
      (∀ m, k < m → s.test m = some true →
        (∀ j, k < j → j < m → s.test j ≠ some true) → s.m_sequence[hi]? = some m) ∧
      ((∀ m, k < m → s.test m ≠ some true) → hi = s.m_sequence.length)) ∧
    (∃ lo hi, s.lower_bound a = some lo ∧ s.upper_bound b = some hi ∧ lo ≤ hi ∧
      (s.between lo hi).Pairwise (fun x y => x < y) ∧
      ∀ m, m ∈ s.between lo hi ↔ (s.test m = some true ∧ a ≤ m ∧ m ≤ b)) := by
  obtain ⟨hsorted, hmem⟩ := ss_cached_members s hr hflag
  refine ⟨?_, ?_, ?_, ?_⟩
  · simp [sparse_set.end_, sparse_set.ensure_sequence, hflag]
  · obtain ⟨lo, hlo, hle, _, hdrop⟩ := lower_bound_position s.m_sequence hsorted k
    refine ⟨lo, hlo, hle, ?_, ?_⟩
    · intro m hkm hm hmin
      refine drop_head_min s.m_sequence _ lo m hdrop
        (List.mem_filter.mpr ⟨(hmem m).mpr hm, by simpa using hkm⟩) ?_ (hsorted.filter _)
      intro x hx
      have hx1 := List.mem_filter.mp hx
      have hkx : k ≤ x := by simpa using hx1.2
      by_contra hlt
      exact hmin x hkx (by omega) ((hmem x).mp hx1.1)
    · intro hnone
      have hnil : s.m_sequence.filter (fun x => decide (k ≤ x)) = [] := by
        rw [List.filter_eq_nil_iff]
        intro x hx hkx
        exact hnone x (by simpa using hkx) ((hmem x).mp hx)
      rw [hnil, List.drop_eq_nil_iff] at hdrop
      omega
  · obtain ⟨hi, hhi, hle, _, hdrop⟩ := upper_bound_position s.m_sequence hsorted k
    refine ⟨hi, hhi, hle, ?_, ?_⟩
    · intro m hkm hm hmin
      refine drop_head_min s.m_sequence _ hi m hdrop
        (List.mem_filter.mpr ⟨(hmem m).mpr hm, by simpa using hkm⟩) ?_ (hsorted.filter _)
      intro x hx
      have hx1 := List.mem_filter.mp hx
      have hkx : k < x := by simpa using hx1.2
      by_contra hlt
      exact hmin x hkx (by omega) ((hmem x).mp hx1.1)
    · intro hnone
      have hnil : s.m_sequence.filter (fun x => decide (k < x)) = [] := by
        rw [List.filter_eq_nil_iff]
        intro x hx hkx
        exact hnone x (by simpa using hkx) ((hmem x).mp hx)
      rw [hnil, List.drop_eq_nil_iff] at hdrop
      omega
  · obtain ⟨lo, hlo, hle1, htake1, _⟩ := lower_bound_position s.m_sequence hsorted a
    obtain ⟨hi, hhi, hle2, htake2, _⟩ := upper_bound_position s.m_sequence hsorted b
    obtain ⟨hlohi, hbetween⟩ := range_between s.m_sequence hsorted a b lo hi hab htake1 hle1
      htake2 hle2
    refine ⟨lo, hi, hlo, hhi, hlohi, ?_, ?_⟩
    · unfold sparse_set.between
      rw [hbetween]
      exact hsorted.filter _
    · intro m
      unfold sparse_set.between
      rw [hbetween, List.mem_filter, hmem m]
      simp

/-- Witness for C28: the state after `insert(70)`, `insert(5)`, `begin()` on
a set of capacity 100, with `k = 6` and the range from 5 to 70. -/
theorem C28_sparse_range_query_witness :
    (sparse_set.mk 100 [32, 64] [5, 70] true).lower_bound 6 = some 1 ∧
    (sparse_set.mk 100 [32, 64] [5, 70] true).upper_bound 70 = some 2 ∧
    (sparse_set.mk 100 [32, 64] [5, 70] true).between 0 2 = [5, 70] ∧
    ∃ lo hi, (sparse_set.mk 100 [32, 64] [5, 70] true).lower_bound 5 = some lo ∧
      (sparse_set.mk 100 [32, 64] [5, 70] true).upper_bound 70 = some hi ∧ lo ≤ hi ∧
      ((sparse_set.mk 100 [32, 64] [5, 70] true).between lo hi).Pairwise (fun x y => x < y) ∧
      ∀ m, m ∈ (sparse_set.mk 100 [32, 64] [5, 70] true).between lo hi
        ↔ ((sparse_set.mk 100 [32, 64] [5, 70] true).test m = some true ∧ 5 ≤ m ∧ m ≤ 70) :=
  ⟨by decide, by decide, by decide,
    (C28_sparse_range_query (sparse_set.mk 100 [32, 64] [5, 70] true)
      (ss_reachable_any 100 _ ss_example_reachable) rfl 6 5 70 (by decide)).2.2.2⟩

/-! ## The three classes behind the common calls -/

theorem bs_ops_sound (N : Nat) (hN : N + 63 < 2 ^ 32) :
    bounded_set.ops.Sound N (bounded_set.Reachable N) := by
  have hshape := fun s hs => bs_reachable_shape N hN s hs
  refine ⟨bounded_set.Reachable.init, ?_, ?_, ?_, ?_, ?_, ?_, ?_⟩
  · intro i hi
    obtain ⟨_, hlen, _, _⟩ := hshape _ bounded_set.Reachable.init
    show (bounded_set.new N).test i = _
    rw [bs_test_eq, if_pos (by omega)]
    show some (bit_at (List.replicate _ 0) i) = _
    rw [bit_at_replicate_zero]
  · intro s i hs hi
    obtain ⟨_, hlen, _, _⟩ := hshape s hs
    exact ⟨_, by show s.test i = _; rw [bs_test_eq, if_pos (by omega)]⟩
  · intro s i hs hi
    obtain ⟨_, hlen, _, _⟩ := hshape s hs
    have hslot : i / 64 < s.m_bit_array.length := by omega
    have hins := bs_insert_eq s i hslot
    refine ⟨_, _, hins, bounded_set.Reachable.insert hs hi hins, ?_, ?_, ?_⟩
    · show s.test i = _
      rw [bs_test_eq, if_pos hslot, Bool.not_not]
    · show bounded_set.test _ i = _
      rw [bs_test_eq, if_pos (by simpa using hslot)]
      show some (bit_at (s.m_bit_array.set _ _) i) = _
      rw [bit_at_insert _ _ _ hslot]
      simp
    · intro j hj hji
      show bounded_set.test _ j = s.test j
      rw [bs_test_eq, bs_test_eq, if_pos (by simp; omega), if_pos (by omega)]
      show some (bit_at (s.m_bit_array.set _ _) j) = _
      rw [bit_at_insert _ _ _ hslot]
      simp [hji]
  · intro s i hs hi
    obtain ⟨_, hlen, _, _⟩ := hshape s hs
    have hslot : i / 64 < s.m_bit_array.length := by omega
    have her := bs_erase_eq s i hslot
    refine ⟨_, her, bounded_set.Reachable.erase hs hi her, ?_, ?_⟩
    · show bounded_set.test _ i = _
      rw [bs_test_eq, if_pos (by simpa using hslot)]
      show some (bit_at (s.m_bit_array.set _ _) i) = _
      rw [bit_at_erase _ _ _ hslot]
      simp
    · intro j hj hji
      show bounded_set.test _ j = s.test j
      rw [bs_test_eq, bs_test_eq, if_pos (by simp; omega), if_pos (by omega)]
      show some (bit_at (s.m_bit_array.set _ _) j) = _
      rw [bit_at_erase _ _ _ hslot]
      simp [hji]
  · intro s hs
    obtain ⟨_, hlen, _, _⟩ := hshape s hs
    refine ⟨bounded_set.Reachable.clear hs, ?_⟩
    intro i hi
    show (bounded_set.clear s).test i = _
    rw [bs_test_eq, if_pos (by show i / 64 < (s.m_bit_array.map _).length; simp; omega)]
    show some (bit_at (s.m_bit_array.map _) i) = _
    rw [bit_at_map_zero]
  · intro s hs
    have hinv := bs_reachable_inv N s hs
    show s.count = _
    rw [bs_count_eq N s hinv.1, ← bs_members_eq N s hinv.2]
    rfl
  · intro s hs
    have hinv := bs_reachable_inv N s hs
    show s.empty = true ↔ ∀ i, i < N → s.test i ≠ some true
    unfold bounded_set.empty
    rw [all_zero_iff _ hinv.1.2.2, ← bs_members_eq N s hinv.2]
    exact members_nil_iff N _ _ rfl

theorem ss_reachable_length (N : Nat) (hN : N + 63 < 2 ^ 32) (s : sparse_set)
    (hs : sparse_set.Reachable N s) : s.m_bit_array.length = (N + 63) / 64 := by
  have hinv := ss_reachable_any_inv s (ss_reachable_any N s hs)
  rw [hinv.2.1, ss_reachable_size N s hs, Nat.mod_eq_of_lt (by omega), word_count_eq N hN]

theorem ss_ops_sound (N : Nat) (hN : N + 63 < 2 ^ 32) :
    sparse_set.ops.Sound N (sparse_set.Reachable N) := by
  have hshape := fun s hs => ss_reachable_length N hN s hs
  refine ⟨sparse_set.Reachable.init, ?_, ?_, ?_, ?_, ?_, ?_, ?_⟩
  · intro i hi
    have hlen := hshape _ sparse_set.Reachable.init
    show (sparse_set.new N).test i = _
    rw [ss_test_eq, if_pos (by omega)]
    show some (bit_at (List.replicate _ 0) i) = _
    rw [bit_at_replicate_zero]
  · intro s i hs hi
    have hlen := hshape s hs
    exact ⟨_, by show s.test i = _; rw [ss_test_eq, if_pos (by omega)]⟩
  · intro s i hs hi
    have hlen := hshape s hs
    have hslot : i / 64 < s.m_bit_array.length := by omega
    have hins := ss_insert_eq s i hslot
    refine ⟨_, _, hins, sparse_set.Reachable.insert hs hi hins, ?_, ?_, ?_⟩
    · show s.test i = _
      rw [ss_test_eq, if_pos hslot, Bool.not_not]
    · show sparse_set.test _ i = _
      rw [ss_test_eq, if_pos (by simpa using hslot)]
      show some (bit_at (s.m_bit_array.set _ _) i) = _
      rw [bit_at_insert _ _ _ hslot]
      simp
    · intro j hj hji
      show sparse_set.test _ j = s.test j
      rw [ss_test_eq, ss_test_eq, if_pos (by simp; omega), if_pos (by omega)]
      show some (bit_at (s.m_bit_array.set _ _) j) = _
      rw [bit_at_insert _ _ _ hslot]
      simp [hji]
  · intro s i hs hi
    have hlen := hshape s hs
    have hslot : i / 64 < s.m_bit_array.length := by omega
    have her := ss_erase_eq s i hslot
    refine ⟨_, her, sparse_set.Reachable.erase hs hi her, ?_, ?_⟩
    · show sparse_set.test _ i = _
      rw [ss_test_eq, (drop_sequence_bits _).1, if_pos (by simpa using hslot)]
      show some (bit_at (s.m_bit_array.set _ _) i) = _
      rw [bit_at_erase _ _ _ hslot]
      simp
    · intro j hj hji
      show sparse_set.test _ j = s.test j
      rw [ss_test_eq, ss_test_eq, (drop_sequence_bits _).1, if_pos (by simp; omega),
        if_pos (by omega)]
      show some (bit_at (s.m_bit_array.set _ _) j) = _
      rw [bit_at_erase _ _ _ hslot]
      simp [hji]
  · intro s hs
    have hlen := hshape s hs
    refine ⟨sparse_set.Reachable.clear hs, ?_⟩
    intro i hi
    have hbits : (sparse_set.clear s).m_bit_array = s.m_bit_array.map (fun _ => 0) := by
      show (List.map _ (sparse_set.drop_sequence s).m_bit_array) = _
      rw [(drop_sequence_bits s).1]
    show (sparse_set.clear s).test i = _
    rw [ss_test_eq, hbits, if_pos (by simp; omega), bit_at_map_zero]
  · intro s hs
    have hany := ss_reachable_any N s hs
    show s.count = _
    rw [(ss_count_eq s hany).1, ← ss_members_eq N s (ss_reachable_bits N s hs)]
    rfl
  · intro s hs
    have hany := ss_reachable_any N s hs
    have hinv := ss_reachable_any_inv s hany
    show s.empty = true ↔ ∀ i, i < N → s.test i ≠ some true
    unfold sparse_set.empty
    rw [all_zero_iff _ hinv.1, ← ss_members_eq N s (ss_reachable_bits N s hs)]
    exact members_nil_iff N _ _ rfl

theorem us_count_members (N : Nat) (s : unordered_sparse_set) (hs : s.Consistent N) :
    s.m_dense.Perm ((List.range N).filter (fun i => s.test i == some true)) := by
  apply List.perm_of_nodup_nodup_toFinset_eq (us_dense_nodup N s hs)
    ((List.nodup_range N).filter _)
  ext i
  rw [List.mem_toFinset, List.mem_toFinset, List.mem_filter, List.mem_range]
  have hmem := us_mem_iterate_iff N s hs i
  unfold unordered_sparse_set.iterate at hmem
  rw [hmem]
  constructor
  · intro hi
    refine ⟨?_, by simp [hi]⟩
    rcases (us_test_true_iff s i).mp hi with ⟨slot, hslot⟩
    have := index_lt_of_some _ _ _ hslot
    rw [hs.1] at this
    exact this
  · intro hi
    simpa using hi.2

theorem us_erase_spec (N i : Nat) (hi : i < N) (s : unordered_sparse_set)
    (hs : s.Consistent N) :
    ∃ s1, s.erase i = some s1 ∧ s1.Consistent N ∧ s1.test i = some false ∧
      ∀ j, j ≠ i → s1.test j = s.test j := by
  have hiN : i < s.m_sparse.length := by rw [hs.1]; exact hi
  rcases us_sparse_cases s i hiN with habs | ⟨v, hv⟩
  · exact ⟨s, us_erase_absent s i habs, hs, (us_test_false_iff s i).mpr habs, fun _ _ => rfl⟩
  · rcases us_last_slot N s hs i v hv with ⟨_, hvL, last, _, hlast2, hSlast, hlastN, _⟩
    rcases us_erase_present N s hs i v hv with ⟨last1, hl1, herase⟩
    have hll : last1 = last := by rw [hlast2] at hl1; exact (Option.some.inj hl1).symm
    subst hll
    refine ⟨_, herase, us_erase_consistent N s hs i v hv _ herase, ?_, ?_⟩
    · rw [us_test_false_iff]
      by_cases hil : i = last1
      · rw [if_neg (by simpa using hil)]
        simp [List.getElem?_set, hiN]
      · rw [if_pos hil]
        simp [List.getElem?_set, hiN]
    · intro j hj
      rw [us_test_eq, us_test_eq]
      by_cases hil : i = last1
      · rw [if_neg (by simpa using hil)]
        simp [List.getElem?_set, Ne.symm hj]
      · rw [if_pos hil]
        show Option.map _ ((s.m_sparse.set last1 (some v)).set i none)[j]? = _
        rw [List.getElem?_set, if_neg (Ne.symm hj), List.getElem?_set]
        by_cases hlj : last1 = j
        · rw [if_pos hlj, if_pos hlastN, ← hlj, hSlast]
          rfl
        · rw [if_neg hlj]

theorem us_insert_spec (N i : Nat) (hi : i < N) (s : unordered_sparse_set)
    (hs : s.Consistent N) :
    ∃ s1 b, s.insert i = some (s1, b) ∧ s1.Consistent N ∧ s.test i = some (!b) ∧
      s1.test i = some true ∧ ∀ j, j ≠ i → s1.test j = s.test j := by
  have hiN : i < s.m_sparse.length := by rw [hs.1]; exact hi
  rcases us_sparse_cases s i hiN with habs | ⟨v, hv⟩
  · have hcap : s.m_dense.length < s.m_dense_capacity :=
      lt_of_lt_of_le (us_dense_length_lt N s hs i hi habs) hs.2.1
    refine ⟨_, true, us_insert_absent s i habs hcap, us_insert_consistent N s hs i habs,
      (us_test_false_iff s i).mpr habs, ?_, ?_⟩
    · rw [us_test_true_iff]
      exact ⟨s.m_dense.length, by simp [List.getElem?_set, hiN]⟩
    · intro j hj
      rw [us_test_eq, us_test_eq]
      simp [List.getElem?_set, Ne.symm hj]
  · have ht : s.test i = some true := (us_test_true_iff s i).mpr ⟨v, hv⟩
    exact ⟨s, false, us_insert_present s i v hv, hs, ht, ht, fun _ _ => rfl⟩

theorem us_ops_sound (N : Nat) :
    unordered_sparse_set.ops.Sound N (fun u => u.Consistent N) := by
  refine ⟨us_new_consistent N, ?_, ?_, ?_, ?_, ?_, ?_, ?_⟩
  · intro i hi
    show (unordered_sparse_set.new N).test i = _
    rw [us_test_false_iff]
    show (List.replicate N none)[i]? = _
    rw [List.getElem?_replicate, if_pos hi]
  · intro s i hs hi
    have hiN : i < s.m_sparse.length := by rw [hs.1]; exact hi
    refine ⟨s.m_sparse[i] != none, ?_⟩
    show s.test i = _
    rw [us_test_eq, List.getElem?_eq_getElem hiN]
    rfl
  · intro s i hs hi
    obtain ⟨s1, b, h1, h2, h3, h4, h5⟩ := us_insert_spec N i hi s hs
    exact ⟨s1, b, h1, h2, h3, h4, fun j _ hj => h5 j hj⟩
  · intro s i hs hi
    obtain ⟨s1, h1, h2, h3, h4⟩ := us_erase_spec N i hi s hs
    exact ⟨s1, h1, h2, h3, fun j _ hj => h4 j hj⟩
  · intro s hs
    refine ⟨us_clear_consistent N s hs, ?_⟩
    intro i hi
    show (unordered_sparse_set.clear s).test i = _
    rw [us_test_false_iff]
    show (s.m_sparse.map (fun _ => none))[i]? = _
    rw [List.getElem?_map, List.getElem?_eq_getElem (by rw [hs.1]; exact hi)]
    rfl
  · intro s hs
    exact (us_count_members N s hs).length_eq
  · intro s hs
    show s.empty = true ↔ ∀ i, i < N → s.test i ≠ some true
    unfold unordered_sparse_set.empty
    rw [List.isEmpty_iff]
    constructor
    · intro hnil i _ hti
      have := (us_mem_iterate_iff N s hs i).mpr hti
      unfold unordered_sparse_set.iterate at this
      rw [hnil] at this
      cases this
    · intro hall
      rw [List.eq_nil_iff_forall_not_mem]
      intro e he
      have hte := (us_mem_iterate_iff N s hs e).mp he
      rcases (us_test_true_iff s e).mp hte with ⟨slot, hslot⟩
      have hlt := index_lt_of_some _ _ _ hslot
      rw [hs.1] at hlt
      exact hall e hlt hte

theorem sound_apply_agree {σ τ : Type} (A : set_ops σ) (B : set_ops τ) (N : Nat)
    (IA : σ → Prop) (IB : τ → Prop) (hA : A.Sound N IA) (hB : B.Sound N IB)
    (s : σ) (t : τ) (hs : IA s) (ht : IB t)
    (hrel : ∀ i, i < N → A.test s i = B.test t i) (c : set_call) (hc : c.InRange N) :
    ∃ s1 t1 r, A.apply s c = some (s1, r) ∧ B.apply t c = some (t1, r) ∧ IA s1 ∧ IB t1 ∧
      ∀ i, i < N → A.test s1 i = B.test t1 i := by
  cases c with
  | insert i =>
    have hi : i < N := hc
    obtain ⟨s1, b, h1, h2, h3, h4, h5⟩ := hA.insert_spec s i hs hi
    obtain ⟨t1, b1, k1, k2, k3, k4, k5⟩ := hB.insert_spec t i ht hi
    have hb : b = b1 := by
      have := hrel i hi
      rw [h3, k3] at this
      have h := Option.some.inj this
      cases b <;> cases b1 <;> simp_all
    subst hb
    refine ⟨s1, t1, set_result.flag b, ?_, ?_, h2, k2, ?_⟩
    · simp [set_ops.apply, h1]
    · simp [set_ops.apply, k1]
    · intro j hj
      by_cases hji : j = i
      · rw [hji, h4, k4]
      · rw [h5 j hj hji, k5 j hj hji, hrel j hj]
  | erase i =>
    have hi : i < N := hc
    obtain ⟨s1, h1, h2, h4, h5⟩ := hA.erase_spec s i hs hi
    obtain ⟨t1, k1, k2, k4, k5⟩ := hB.erase_spec t i ht hi
    refine ⟨s1, t1, set_result.nothing, ?_, ?_, h2, k2, ?_⟩
    · simp [set_ops.apply, h1]
    · simp [set_ops.apply, k1]
    · intro j hj
      by_cases hji : j = i
      · rw [hji, h4, k4]
      · rw [h5 j hj hji, k5 j hj hji, hrel j hj]
  | clear =>
    obtain ⟨h1, h2⟩ := hA.clear_spec s hs
    obtain ⟨k1, k2⟩ := hB.clear_spec t ht
    exact ⟨A.clear s, B.clear t, set_result.nothing, rfl, rfl, h1, k1,
      fun i hi => by rw [h2 i hi, k2 i hi]⟩
  | test i =>
    have hi : i < N := hc
    obtain ⟨b, hb⟩ := hA.test_some s i hs hi
    have hb1 : B.test t i = some b := by rw [← hrel i hi, hb]
    refine ⟨s, t, set_result.flag b, ?_, ?_, hs, ht, hrel⟩
    · simp [set_ops.apply, hb]
    · simp [set_ops.apply, hb1]
  | count =>
    have hcount : A.count s = B.count t := by
      rw [hA.count_spec s hs, hB.count_spec t ht]
      congr 1
      apply List.filter_congr
      intro i hi
      rw [hrel i (List.mem_range.mp hi)]
    refine ⟨s, t, set_result.number (A.count s), rfl, ?_, hs, ht, hrel⟩
    simp [set_ops.apply, hcount]
  | empty =>
    have hempty : A.empty s = B.empty t := by
      rw [Bool.eq_iff_iff, hA.empty_spec s hs, hB.empty_spec t ht]
      constructor
      · intro h i hi
        rw [← hrel i hi]
        exact h i hi
      · intro h i hi
        rw [hrel i hi]
        exact h i hi
    refine ⟨s, t, set_result.flag (A.empty s), rfl, ?_, hs, ht, hrel⟩
    simp [set_ops.apply, hempty]

theorem sound_run_agree {σ τ : Type} (A : set_ops σ) (B : set_ops τ) (N : Nat)
    (IA : σ → Prop) (IB : τ → Prop) (hA : A.Sound N IA) (hB : B.Sound N IB) :
    ∀ (calls : List set_call) (s : σ) (t : τ), IA s → IB t →
      (∀ i, i < N → A.test s i = B.test t i) → (∀ c ∈ calls, c.InRange N) →
      ∃ s1 t1 rs, A.run s calls = some (s1, rs) ∧ B.run t calls = some (t1, rs) ∧
        IA s1 ∧ IB t1 ∧ ∀ i, i < N → A.test s1 i = B.test t1 i := by
  intro calls
  induction calls with
  | nil =>
    intro s t hs ht hrel _
    exact ⟨s, t, [], rfl, rfl, hs, ht, hrel⟩
  | cons c cs ih =>
    intro s t hs ht hrel hc
    obtain ⟨s1, t1, r, h1, h2, h3, h4, h5⟩ := sound_apply_agree A B N IA IB hA hB s t hs ht hrel c
      (hc c (List.mem_cons_self _ _))
    obtain ⟨s2, t2, rs, k1, k2, k3, k4, k5⟩ := ih s1 t1 h3 h4 h5
      (fun c1 hc1 => hc c1 (List.mem_cons_of_mem _ hc1))
    refine ⟨s2, t2, r :: rs, ?_, ?_, k3, k4, k5⟩
    · simp [set_ops.run, h1, k1]
    · simp [set_ops.run, h2, k2]

theorem bs_iterate_spec (N : Nat) (hN1 : 1 ≤ N) (hN : N + 63 < 2 ^ 32) (s : bounded_set)
    (hs : bounded_set.Reachable N s) :
    ∀ steps, s.iterate steps
      = if (s.members N).length ≤ steps then some (s.members N) else none := by
  obtain ⟨hsize, hlen, ha, hb⟩ := bs_reachable_shape N hN s hs
  obtain ⟨it0, hfirst, hvisit⟩ := first_visit N s.m_bit_array hN1 hN hlen ha hb
  intro steps
  unfold bounded_set.iterate bounded_set.begin_
  rw [hsize, hfirst, bs_members_eq N s hb]
  exact hvisit steps

theorem sorted_of_perm_members (l L : List Nat) (hp : l.Perm L)
    (hL : L.Pairwise (fun x y => x < y)) : l.insertionSort (fun x y => x ≤ y) = L := by
  apply List.eq_of_perm_of_sorted ((List.perm_insertionSort _ l).trans hp)
    (List.sorted_insertionSort _ l)
  exact hL.imp (fun h => le_of_lt h)

/-- C30 (as amended): for every capacity `N` with `1 ≤ N ≤ 2 ^ 32 - 64` and
every finite sequence of `insert`, `erase`, `clear`, `test`, `count` and
`empty` calls with keys below `N`, applied in the same order to a
`bounded_set`, a `sparse_set` and an `unordered_sparse_set` each constructed
for `N`: every call returns, with the same value on all three, and at the
end the iteration of the `bounded_set` and that of the `sparse_set` are the
same ascending list, which is the iteration of the `unordered_sparse_set`
sorted ascending. -/
theorem C30_observational_equivalence (N : Nat) (hN1 : 1 ≤ N) (hN : N + 63 < 2 ^ 32)
    (calls : List set_call) (hc : ∀ c ∈ calls, c.InRange N) :
    ∃ b s u rs, bounded_set.ops.run (bounded_set.new N) calls = some (b, rs) ∧
      sparse_set.ops.run (sparse_set.new N) calls = some (s, rs) ∧
      unordered_sparse_set.ops.run (unordered_sparse_set.new N) calls = some (u, rs) ∧
      ∃ L s2, (∀ steps, b.iterate steps = if L.length ≤ steps then some L else none) ∧
        s.iterate = some (s2, L) ∧
        u.iterate.insertionSort (fun x y => x ≤ y) = L ∧
        L.Pairwise (fun x y => x < y) := by
  have hB := bs_ops_sound N hN
  have hS := ss_ops_sound N hN
  have hU := us_ops_sound N
  obtain ⟨b, s, rs, hb1, hs1, hbI, hsI, hbs⟩ := sound_run_agree bounded_set.ops sparse_set.ops N
    _ _ hB hS calls (bounded_set.new N) (sparse_set.new N) hB.new_inv hS.new_inv
    (fun i hi => (hB.new_test i hi).trans (hS.new_test i hi).symm) hc
  obtain ⟨b1, u, rs1, hb2, hu1, _, huI, hbu⟩ := sound_run_agree bounded_set.ops
    unordered_sparse_set.ops N _ _ hB hU calls (bounded_set.new N) (unordered_sparse_set.new N)
    hB.new_inv hU.new_inv
    (fun i hi => (hB.new_test i hi).trans (hU.new_test i hi).symm) hc
  have hsame : (b1, rs1) = (b, rs) := by
    rw [hb1] at hb2
    exact (Option.some.inj hb2).symm
  have hb1b : b1 = b := congrArg Prod.fst hsame
  have hrs : rs1 = rs := congrArg Prod.snd hsame
  subst hb1b
  subst hrs
  have hmemS : s.members N = b1.members N := by
    unfold sparse_set.members bounded_set.members
    apply List.filter_congr
    intro i hi
    have := hbs i (List.mem_range.mp hi)
    show (s.test i == some true) = (b1.test i == some true)
    rw [show s.test i = b1.test i from this.symm]
  have hmemU : (List.range N).filter (fun i => u.test i == some true) = b1.members N := by
    unfold bounded_set.members
    apply List.filter_congr
    intro i hi
    have := hbu i (List.mem_range.mp hi)
    show (u.test i == some true) = (b1.test i == some true)
    rw [show u.test i = b1.test i from this.symm]
  have hsorted : (b1.members N).Pairwise (fun x y => x < y) :=
    List.Pairwise.filter _ (List.pairwise_lt_range _)
  have hinvS := ss_reachable_any_inv s (ss_reachable_any N s hsI)
  have hiterS := ss_iterate_spec s hinvS.1 hinvS.2.1 hinvS.2.2.1 hinvS.2.2.2
  rw [← ss_members_eq N s (ss_reachable_bits N s hsI), hmemS] at hiterS
  refine ⟨b1, s, u, rs1, hb1, hs1, hu1, b1.members N, _, bs_iterate_spec N hN1 hN b1 hbI,
    hiterS, ?_, hsorted⟩
  apply sorted_of_perm_members _ _ _ hsorted
  rw [← hmemU]
  exact us_count_members N u huI

/-- Witness for C30: capacity 100 and the calls `insert(70)`, `insert(5)`,
`test(5)`, `insert(5)`, `count()`, `erase(70)`, `empty()`, `clear()`,
`insert(3)`, `test(70)`. -/
theorem C30_observational_equivalence_witness :
    ∃ b s u rs,
      bounded_set.ops.run (bounded_set.new 100)
        [set_call.insert 70, set_call.insert 5, set_call.test 5, set_call.insert 5,
          set_call.count, set_call.erase 70, set_call.empty, set_call.clear,
          set_call.insert 3, set_call.test 70] = some (b, rs) ∧
      sparse_set.ops.run (sparse_set.new 100)
        [set_call.insert 70, set_call.insert 5, set_call.test 5, set_call.insert 5,
          set_call.count, set_call.erase 70, set_call.empty, set_call.clear,
          set_call.insert 3, set_call.test 70] = some (s, rs) ∧
      unordered_sparse_set.ops.run (unordered_sparse_set.new 100)
        [set_call.insert 70, set_call.insert 5, set_call.test 5, set_call.insert 5,
          set_call.count, set_call.erase 70, set_call.empty, set_call.clear,
          set_call.insert 3, set_call.test 70] = some (u, rs) ∧
      ∃ L s2, (∀ steps, b.iterate steps = if L.length ≤ steps then some L else none) ∧
        s.iterate = some (s2, L) ∧
        u.iterate.insertionSort (fun x y => x ≤ y) = L ∧
        L.Pairwise (fun x y => x < y) :=
  C30_observational_equivalence 100 (by decide) (by decide) _
    (by
      intro c hc
      simp only [List.mem_cons, List.mem_singleton, List.not_mem_nil, or_false] at hc
      rcases hc with h | h | h | h | h | h | h | h | h | h <;> subst h <;>
        simp [set_call.InRange])

theorem run_single_insert {σ : Type} (ops : set_ops σ) (N : Nat) (Inv : σ → Prop)
    (h : ops.Sound N Inv) (i : Nat) (hi : i < N) :
    ∃ u, ops.run (ops.new N) [set_call.insert i] = some (u, [set_result.flag true]) := by
  obtain ⟨u, b, h1, _, h3, _, _⟩ := h.insert_spec _ i h.new_inv hi
  rw [h.new_test i hi] at h3
  have hb : b = true := by
    cases b
    · exact absurd (Option.some.inj h3) (by decide)
    · rfl
  subst hb
  exact ⟨u, by simp [set_ops.run, set_ops.apply, h1]⟩

/-- C30 as stated fails.  For capacity `0` and no call at all, the loop over
the `bounded_set` visits the key `0` while the `unordered_sparse_set` has
nothing to iterate.  For capacity `2 ^ 32` the call `insert(0)` reads
outside the empty bitmap of the `bounded_set` while it returns `true` on
the `unordered_sparse_set`. -/
theorem C30_differs_at_capacity_0_and_beyond_32_bit :
    (bounded_set.ops.run (bounded_set.new 0) [] = some (bounded_set.new 0, []) ∧
      unordered_sparse_set.ops.run (unordered_sparse_set.new 0) []
        = some (unordered_sparse_set.new 0, []) ∧
      (bounded_set.new 0).iterate 1 = some [0] ∧
      (unordered_sparse_set.new 0).iterate.insertionSort (fun x y => x ≤ y) = []) ∧
    (set_call.InRange 4294967296 (set_call.insert 0) ∧
      bounded_set.ops.run (bounded_set.new 4294967296) [set_call.insert 0] = none ∧
      ∃ u, unordered_sparse_set.ops.run (unordered_sparse_set.new 4294967296)
        [set_call.insert 0] = some (u, [set_result.flag true])) :=
  ⟨⟨rfl, rfl, by decide, by decide⟩,
    show (0 : Nat) < 4294967296 by norm_num, by decide,
    run_single_insert unordered_sparse_set.ops 4294967296 _ (us_ops_sound 4294967296) 0
      (by norm_num)⟩

/-! ## The sieve of Eratosthenes of the test driver -/

theorem survivor_three (m : Nat) :
    sieve_survivor 3 m ↔ (m = 2 ∨ (3 ≤ m ∧ (m - 3) % 2 = 0)) := by
  unfold sieve_survivor
  constructor
  · rintro ⟨h2, hpar, _⟩
    omega
  · intro h
    refine ⟨by omega, by omega, ?_⟩
    intro d h3 hlt _
    omega

theorem multiple_gap (i j m : Nat) (hij : i ∣ j) (him : i ∣ m) (hjm : j < m) : j + i ≤ m := by
  have hd : i ∣ m - j := Nat.dvd_sub' him hij
  have := Nat.le_of_dvd (by omega) hd
  omega

theorem survivor_step_erased (i m : Nat) (hi3 : 3 ≤ i) (hodd : i % 2 = 1) :
    (sieve_survivor i m ∧ ¬ (i + i ≤ m ∧ i ∣ m)) ↔ sieve_survivor (i + 2) m := by
  unfold sieve_survivor
  constructor
  · rintro ⟨⟨h2, hpar, hdiv⟩, hno⟩
    refine ⟨h2, hpar, ?_⟩
    intro d hd3 hdlt hdm
    by_cases hdi : d < i
    · exact hdiv d hd3 hdi hdm
    · by_cases hde : d = i
      · subst hde
        by_contra hne
        apply hno
        refine ⟨?_, hdm⟩
        have hlt : d < m := lt_of_le_of_ne (Nat.le_of_dvd (by omega) hdm) hne
        exact multiple_gap d d m (dvd_refl d) hdm hlt
      · have hd1 : d = i + 1 := by omega
        have h2d : 2 ∣ d := by omega
        have h2m : 2 ∣ m := dvd_trans h2d hdm
        have hm2 : m = 2 := by omega
        have := Nat.le_of_dvd (by omega) hdm
        omega
  · rintro ⟨h2, hpar, hdiv⟩
    refine ⟨⟨h2, hpar, fun d hd3 hdlt hdm => hdiv d hd3 (by omega) hdm⟩, ?_⟩
    rintro ⟨hle, hdm⟩
    have := hdiv i hi3 (by omega) hdm
    omega

theorem survivor_step_skipped (i m : Nat) (hi3 : 3 ≤ i) (hodd : i % 2 = 1)
    (hi : ¬ sieve_survivor i i) : sieve_survivor i m ↔ sieve_survivor (i + 2) m := by
  rw [← survivor_step_erased i m hi3 hodd]
  constructor
  · intro hm
    refine ⟨hm, ?_⟩
    rintro ⟨_, hdm⟩
    apply hi
    refine ⟨by omega, Or.inr hodd, ?_⟩
    intro d hd3 hdlt hdi
    have hdm1 := hm.2.2 d hd3 hdlt (dvd_trans hdi hdm)
    have := Nat.le_of_dvd (by have := hm.1; omega) hdm
    omega
  · exact fun h => h.1

theorem survivor_final (i m n : Nat) (hmn : m ≤ n) (hin : n < i * i) :
    sieve_survivor i m ↔ Nat.Prime m := by
  constructor
  · rintro ⟨h2, hpar, hdiv⟩
    by_contra hnp
    have hsq := Nat.minFac_sq_le_self (by omega) hnp
    have hpr := Nat.minFac_prime (n := m) (by omega)
    have hdvd := Nat.minFac_dvd m
    have hlt : m.minFac < i := by
      by_contra hge
      have hge1 : i ≤ m.minFac := by omega
      have := Nat.mul_le_mul hge1 hge1
      rw [sq] at hsq
      omega
    have hne : m.minFac ≠ m := fun h => hnp (h ▸ hpr)
    have h2le := hpr.two_le
    by_cases h3 : 3 ≤ m.minFac
    · exact hne (hdiv _ h3 hlt hdvd)
    · have he : m.minFac = 2 := by omega
      rw [he] at hdvd hne
      omega
  · intro hp
    refine ⟨hp.two_le, ?_, ?_⟩
    · rcases hp.eq_two_or_odd with h | h
      · exact Or.inl h
      · exact Or.inr h
    · intro d hd3 _ hdm
      rcases (Nat.dvd_prime hp).mp hdm with h | h
      · omega
      · exact h

theorem insert_odds_spec {σ : Type} (ops : set_ops σ) (Inv : σ → Prop) (n : Nat)
    (hS : ops.Sound (n + 1) Inv) (hn : n + 2 < 2 ^ 32) :
    ∀ fuel i s, Inv s → i ≤ n + 2 → n + 2 ≤ i + 2 * fuel →
      ∃ s1, insert_odds ops fuel n i s = some s1 ∧ Inv s1 ∧
        ∀ m, m ≤ n → (ops.test s1 m = some true ↔
          (ops.test s m = some true ∨ (i ≤ m ∧ (m - i) % 2 = 0))) := by
  intro fuel
  induction fuel with
  | zero =>
    intro i s hs hi hf
    refine ⟨s, ?_, hs, ?_⟩
    · unfold insert_odds
      rw [if_neg (by omega)]
    · intro m hm
      constructor
      · exact fun h => Or.inl h
      · rintro (h | h)
        · exact h
        · omega
  | succ fuel ih =>
    intro i s hs hi hf
    unfold insert_odds
    by_cases hin : i ≤ n
    · rw [if_pos hin]
      obtain ⟨s1, b, h1, h2, _, h4, h5⟩ := hS.insert_spec s i hs (by omega)
      rw [h1]
      have hmod : (i + 2) % 2 ^ 32 = i + 2 := Nat.mod_eq_of_lt (by omega)
      obtain ⟨s2, k1, k2, k3⟩ := ih (i + 2) s1 h2 (by omega) (by omega)
      refine ⟨s2, by simp only [hmod]; exact k1, k2, ?_⟩
      intro m hm
      rw [k3 m hm]
      by_cases hmi : m = i
      · subst hmi
        constructor
        · intro _
          exact Or.inr ⟨le_refl _, by simp⟩
        · intro _
          exact Or.inl h4
      · rw [h5 m (by omega) hmi]
        constructor
        · rintro (h | h)
          · exact Or.inl h
          · exact Or.inr (by omega)
        · rintro (h | h)
          · exact Or.inl h
          · exact Or.inr (by omega)
    · rw [if_neg hin]
      refine ⟨s, rfl, hs, ?_⟩
      intro m hm
      constructor
      · exact fun h => Or.inl h
      · rintro (h | h)
        · exact h
        · omega

theorem erase_multiples_spec {σ : Type} (ops : set_ops σ) (Inv : σ → Prop) (n i : Nat)
    (hS : ops.Sound (n + 1) Inv) (hi : 1 ≤ i) (hn : n + i < 2 ^ 32) :
    ∀ fuel j s, Inv s → i ∣ j → n + i ≤ j + i * fuel →
      ∃ s1, erase_multiples ops fuel n i j s = some s1 ∧ Inv s1 ∧
        ∀ m, m ≤ n → (ops.test s1 m = some true ↔
          (ops.test s m = some true ∧ ¬ (j ≤ m ∧ i ∣ m))) := by
  intro fuel
  induction fuel with
  | zero =>
    intro j s hs hj hf
    refine ⟨s, ?_, hs, ?_⟩
    · unfold erase_multiples
      rw [if_neg (by omega)]
    · intro m hm
      constructor
      · exact fun h => ⟨h, fun hc => by omega⟩
      · exact fun h => h.1
  | succ fuel ih =>
    intro j s hs hj hf
    unfold erase_multiples
    by_cases hjn : j ≤ n
    · rw [if_pos hjn]
      obtain ⟨s1, h1, h2, h4, h5⟩ := hS.erase_spec s j hs (by omega)
      rw [h1]
      have hmod : (j + i) % 2 ^ 32 = j + i := Nat.mod_eq_of_lt (by omega)
      obtain ⟨s2, k1, k2, k3⟩ := ih (j + i) s1 h2 (Dvd.dvd.add hj (dvd_refl i))
        (by rw [Nat.mul_succ] at hf; omega)
      refine ⟨s2, by simp only [hmod]; exact k1, k2, ?_⟩
      intro m hm
      rw [k3 m hm]
      by_cases hmj : m = j
      · subst hmj
        rw [h4]
        constructor
        · rintro ⟨h, _⟩
          cases h
        · rintro ⟨_, h⟩
          exact absurd ⟨le_refl _, hj⟩ h
      · rw [h5 m (by omega) hmj]
        constructor
        · rintro ⟨h, hno⟩
          refine ⟨h, ?_⟩
          rintro ⟨hle, hdm⟩
          exact hno ⟨multiple_gap i j m hj hdm (by omega), hdm⟩
        · rintro ⟨h, hno⟩
          exact ⟨h, fun hc => hno ⟨by omega, hc.2⟩⟩
    · rw [if_neg hjn]
      refine ⟨s, rfl, hs, ?_⟩
      intro m hm
      constructor
      · exact fun h => ⟨h, fun hc => by omega⟩
      · exact fun h => h.1

theorem sieve_loop_spec {σ : Type} (ops : set_ops σ) (Inv : σ → Prop) (n : Nat)
    (hS : ops.Sound (n + 1) Inv) (hn : n < 4294836225) :
    ∀ fuel i s, Inv s → 3 ≤ i → i % 2 = 1 → i ≤ 65535 → n + 2 ≤ i + 2 * fuel →
      (∀ m, m ≤ n → (ops.test s m = some true ↔ sieve_survivor i m)) →
      ∃ s1, sieve_loop ops fuel n i s = some s1 ∧ Inv s1 ∧
        ∀ m, m ≤ n → (ops.test s1 m = some true ↔ Nat.Prime m) := by
  have hsq : ∀ i, i ≤ 65535 → (i * i) % 2 ^ 32 = i * i := by
    intro i hi
    have := Nat.mul_le_mul hi hi
    exact Nat.mod_eq_of_lt (by omega)
  have hfinal : ∀ i s, Inv s → n < i * i →
      (∀ m, m ≤ n → (ops.test s m = some true ↔ sieve_survivor i m)) →
      ∀ m, m ≤ n → (ops.test s m = some true ↔ Nat.Prime m) := by
    intro i s _ hlt hinv m hm
    rw [hinv m hm]
    exact survivor_final i m n hm hlt
  intro fuel
  induction fuel with
  | zero =>
    intro i s hs hi3 hodd hi hf hinv
    have hle := Nat.le_mul_self i
    have hlt : n < i * i := by omega
    refine ⟨s, ?_, hs, hfinal i s hs hlt hinv⟩
    unfold sieve_loop
    rw [hsq i hi, if_neg (by omega)]
  | succ fuel ih =>
    intro i s hs hi3 hodd hi hf hinv
    unfold sieve_loop
    rw [hsq i hi]
    by_cases hin : i * i ≤ n
    · rw [if_pos hin]
      have hle := Nat.le_mul_self i
      have hilt : i < 65535 := by
        by_contra hge
        have hge1 : 65535 ≤ i := by omega
        have := Nat.mul_le_mul hge1 hge1
        omega
      have hmod2 : (i + 2) % 2 ^ 32 = i + 2 := Nat.mod_eq_of_lt (by omega)
      have hmodii : (i + i) % 2 ^ 32 = i + i := Nat.mod_eq_of_lt (by omega)
      obtain ⟨b, hb⟩ := hS.test_some s i hs (by omega)
      rw [hb, hmod2, hmodii]
      cases b with
      | true =>
        have hmul : n ≤ i * n := Nat.le_mul_of_pos_left n (by omega)
        obtain ⟨s1, h1, h2, h3⟩ := erase_multiples_spec ops Inv n i hS (by omega) (by omega)
          n (i + i) s hs (Dvd.dvd.add (dvd_refl i) (dvd_refl i)) (by omega)
        obtain ⟨s2, k1, k2, k3⟩ := ih (i + 2) s1 h2 (by omega) (by omega) (by omega) (by omega)
          (fun m hm => by
            rw [h3 m hm, hinv m hm]
            exact survivor_step_erased i m hi3 hodd)
        refine ⟨s2, ?_, k2, k3⟩
        simp only [h1]
        exact k1
      | false =>
        have hnot : ¬ sieve_survivor i i := by
          rw [← hinv i (by omega), hb]
          simp
        obtain ⟨s2, k1, k2, k3⟩ := ih (i + 2) s hs (by omega) (by omega) (by omega) (by omega)
          (fun m hm => by
            rw [hinv m hm]
            exact survivor_step_skipped i m hi3 hodd hnot)
        exact ⟨s2, k1, k2, k3⟩
    · rw [if_neg hin]
      exact ⟨s, rfl, hs, hfinal i s hs (by omega) hinv⟩

theorem count_eq_filter_length (p : Nat → Prop) [DecidablePred p] : ∀ N,
    Nat.count p N = ((List.range N).filter (fun m => decide (p m))).length := by
  intro N
  induction N with
  | zero => rfl
  | succ N ih =>
    rw [Nat.count_succ, ih, List.range_succ, List.filter_append, List.length_append]
    by_cases h : p N
    · simp [h]
    · simp [h]

theorem odd_or_two_count : ∀ N,
    ((List.range N).filter (fun m => decide (m = 2 ∨ m % 2 = 1))).length
      = N / 2 + (if 3 ≤ N then 1 else 0) := by
  intro N
  induction N with
  | zero => rfl
  | succ N ih =>
    have hs : ([N].filter (fun m => decide (m = 2 ∨ m % 2 = 1))).length
        = if N = 2 ∨ N % 2 = 1 then 1 else 0 := by
      by_cases h : N = 2 ∨ N % 2 = 1
      · simp [h]
      · simp [h]
    rw [List.range_succ, List.filter_append, List.length_append, ih, hs]
    split_ifs <;> omega

theorem prime_count_le (N : Nat) :
    ((List.range N).filter (fun m => decide (Nat.Prime m))).length ≤ N / 2 + 1 := by
  have h1 : ((List.range N).filter (fun m => decide (Nat.Prime m))).length
      ≤ ((List.range N).filter (fun m => decide (m = 2 ∨ m % 2 = 1))).length := by
    rw [← List.countP_eq_length_filter, ← List.countP_eq_length_filter]
    apply List.countP_mono_left
    intro m _ hm
    have hp : Nat.Prime m := by simpa using hm
    rcases hp.eq_two_or_odd with h | h
    · simp [h]
    · simp [h]
  rw [odd_or_two_count] at h1
  split at h1 <;> omega

theorem size_t_to_int_small (c : Nat) (h : c < 2 ^ 31) : size_t_to_int c = (c : Int) := by
  unfold size_t_to_int
  rw [Nat.mod_eq_of_lt (by omega)]
  push_cast
  ring

theorem sieve_correct {σ : Type} (ops : set_ops σ) (Inv : σ → Prop) (n : Nat) (h2 : 2 ≤ n)
    (hn : n < 4294836225) (hS : ops.Sound (n + 1) Inv) :
    Eratosthenes ops n = some ((Nat.primeCounting n : Nat) : Int) := by
  have hmod1 : n % 2 ^ 32 = n := Nat.mod_eq_of_lt (by omega)
  have hmod2 : (n + 1) % 2 ^ 32 = n + 1 := Nat.mod_eq_of_lt (by omega)
  obtain ⟨s1, b, h1, inv1, _, t1, o1⟩ := hS.insert_spec (ops.new (n + 1)) 2 hS.new_inv (by omega)
  have hs1 : ∀ m, m ≤ n → (ops.test s1 m = some true ↔ m = 2) := by
    intro m hm
    by_cases hm2 : m = 2
    · subst hm2
      simp [t1]
    · rw [o1 m (by omega) hm2, hS.new_test m (by omega)]
      simp [hm2]
  obtain ⟨s2, h2a, inv2, t2⟩ := insert_odds_spec ops Inv n hS (by omega) n 3 s1 inv1 (by omega)
    (by omega)
  have hs2 : ∀ m, m ≤ n → (ops.test s2 m = some true ↔ sieve_survivor 3 m) := by
    intro m hm
    rw [t2 m hm, hs1 m hm, survivor_three]
  obtain ⟨s3, h3a, inv3, t3⟩ := sieve_loop_spec ops Inv n hS hn n 3 s2 inv2 (le_refl _) (by decide)
    (by decide) (by omega) hs2
  have hcount : ops.count s3
      = ((List.range (n + 1)).filter (fun m => decide (Nat.Prime m))).length := by
    rw [hS.count_spec s3 inv3]
    congr 1
    apply List.filter_congr
    intro m hm
    have hmn : m ≤ n := by have := List.mem_range.mp hm; omega
    rw [Bool.eq_iff_iff, beq_iff_eq, decide_eq_true_eq]
    exact t3 m hmn
  have hpc : Nat.primeCounting n
      = ((List.range (n + 1)).filter (fun m => decide (Nat.Prime m))).length :=
    count_eq_filter_length Nat.Prime (n + 1)
  have hbound := prime_count_le (n + 1)
  unfold Eratosthenes
  simp only [hmod1, hmod2, h1, h2a, h3a]
  rw [hcount, size_t_to_int_small _ (by omega), hpc]

/-- C29: for every `n` with `2 ≤ n < 65535 ^ 2` (no `i*i` of the outer loop
leaves 32 bits), `Eratosthenes_Bounded_Set(n)`,
`Eratosthenes_Sparse_Set(n)` and `Eratosthenes_Unordered_Sparse_Set(n)`
return, and return the number of primes `≤ n`; for `n = 100` each returns
`25`. -/
theorem C29_sieve_counts_primes (n : Nat) (h2 : 2 ≤ n) (hn : n < 65535 ^ 2) :
    (Eratosthenes_Bounded_Set n = some ((Nat.primeCounting n : Nat) : Int) ∧
      Eratosthenes_Sparse_Set n = some ((Nat.primeCounting n : Nat) : Int) ∧
      Eratosthenes_Unordered_Sparse_Set n = some ((Nat.primeCounting n : Nat) : Int)) ∧
    (Eratosthenes_Bounded_Set 100 = some 25 ∧ Eratosthenes_Sparse_Set 100 = some 25 ∧
      Eratosthenes_Unordered_Sparse_Set 100 = some 25) := by
  have hn1 : n < 4294836225 := by norm_num at hn; exact hn
  refine ⟨⟨?_, ?_, ?_⟩, ?_, ?_, ?_⟩
  · exact sieve_correct bounded_set.ops _ n h2 hn1 (bs_ops_sound (n + 1) (by omega))
  · exact sieve_correct sparse_set.ops _ n h2 hn1 (ss_ops_sound (n + 1) (by omega))
  · exact sieve_correct unordered_sparse_set.ops _ n h2 hn1 (us_ops_sound (n + 1))
  · decide!
  · decide!
  · decide!

/-- Witness for C29: `n = 30`, with the ten primes up to 30. -/
theorem C29_sieve_counts_primes_witness :
    Eratosthenes_Bounded_Set 30 = some 10 ∧ Eratosthenes_Sparse_Set 30 = some 10 ∧
    Eratosthenes_Unordered_Sparse_Set 30 = some 10 ∧
    Nat.primeCounting 30 = 10 := by
  have h := (C29_sieve_counts_primes 30 (by decide) (by decide)).1
  have hb : Eratosthenes_Bounded_Set 30 = some 10 := by decide!
  have hpc : Nat.primeCounting 30 = 10 := by
    have := h.1
    rw [hb] at this
    exact_mod_cast (Option.some.inj this).symm
  exact ⟨by rw [h.1, hpc]; rfl, by rw [h.2.1, hpc]; rfl, by rw [h.2.2, hpc]; rfl, hpc⟩

/-! ## Bitmap sizing and accesses -/

/-- C38: for `bounded_set` and `sparse_set` constructed for a capacity `N`
with `1 ≤ N ≤ 2 ^ 32 - 64` (and in every state reached from there by
`insert`, `erase`, `clear`, and `begin`, `end` for `sparse_set`, with keys
below `N`) and every key `i < N`: the word index `i >> 6` is below the number
of bitmap words, the bit offset `i & 63` is below 64, and `insert(i)`,
`erase(i)` and `test(i)` all return, none of them reading outside the
bitmap. -/
theorem C38_bitmap_access_in_bounds (N i : Nat) (hN : N + 63 < 2 ^ 32) (hi : i < N)
    (s : bounded_set) (hs : bounded_set.Reachable N s)
    (t : sparse_set) (ht : sparse_set.Reachable N t) :
    (i >>> unsigned_bits_log2 < (bounded_set.new N).m_bit_array.length ∧
      i >>> unsigned_bits_log2 < (sparse_set.new N).m_bit_array.length ∧
      i &&& unsigned_bits_log2_mask < 64) ∧
    (i >>> unsigned_bits_log2 < s.m_bit_array.length ∧
      (∃ r, s.insert i = some r) ∧ (∃ r, s.erase i = some r) ∧ (∃ b, s.test i = some b)) ∧
    (i >>> unsigned_bits_log2 < t.m_bit_array.length ∧
      (∃ r, t.insert i = some r) ∧ (∃ r, t.erase i = some r) ∧ (∃ b, t.test i = some b)) := by
  have hb : ∀ s1, bounded_set.Reachable N s1 → i / 64 < s1.m_bit_array.length := by
    intro s1 h1
    have := (bs_reachable_shape N hN s1 h1).2.1
    omega
  have hq : ∀ t1, sparse_set.Reachable N t1 → i / 64 < t1.m_bit_array.length := by
    intro t1 h1
    have := ss_reachable_length N hN t1 h1
    omega
  rw [shift_log2, mask_log2]
  refine ⟨⟨hb _ bounded_set.Reachable.init, hq _ sparse_set.Reachable.init,
    Nat.mod_lt _ (by norm_num)⟩, ⟨hb s hs, ?_, ?_, ?_⟩, ⟨hq t ht, ?_, ?_, ?_⟩⟩
  · exact ⟨_, bs_insert_eq s i (hb s hs)⟩
  · exact ⟨_, bs_erase_eq s i (hb s hs)⟩
  · exact ⟨_, by rw [bs_test_eq, if_pos (hb s hs)]⟩
  · exact ⟨_, ss_insert_eq t i (hq t ht)⟩
  · exact ⟨_, ss_erase_eq t i (hq t ht)⟩
  · exact ⟨_, by rw [ss_test_eq, if_pos (hq t ht)]⟩

/-- Witness for C38: capacity 100, key 70, on the `bounded_set` holding 5,
20, 21, 25, 30, 31, 35 and the `sparse_set` holding 5 and 70. -/
theorem C38_bitmap_access_in_bounds_witness :
    (70 >>> unsigned_bits_log2 < (bounded_set.mk 100 [37617664032, 0]).m_bit_array.length ∧
      (∃ r, (bounded_set.mk 100 [37617664032, 0]).insert 70 = some r) ∧
      (∃ r, (bounded_set.mk 100 [37617664032, 0]).erase 70 = some r) ∧
      (∃ b, (bounded_set.mk 100 [37617664032, 0]).test 70 = some b)) ∧
    (70 >>> unsigned_bits_log2 < (sparse_set.mk 100 [32, 64] [5, 70] true).m_bit_array.length ∧
      (∃ r, (sparse_set.mk 100 [32, 64] [5, 70] true).insert 70 = some r) ∧
      (∃ r, (sparse_set.mk 100 [32, 64] [5, 70] true).erase 70 = some r) ∧
      (∃ b, (sparse_set.mk 100 [32, 64] [5, 70] true).test 70 = some b)) :=
  (C38_bitmap_access_in_bounds 100 70 (by decide) (by decide)
    (bounded_set.mk 100 [37617664032, 0]) bs_example_reachable
    (sparse_set.mk 100 [32, 64] [5, 70] true) ss_example_reachable).2

/-- C37 fails on the code: for the capacity `2 ^ 32 - 1`, which fits the
32-bit field, `(m_size + 64 - 1) / 64` wraps in `unsigned` arithmetic to
`62 / 64 = 0`, so the constructors and `resize` leave a bitmap of no words
where `ceil(N / 64)` is `2 ^ 26`; the same happens from `2 ^ 32 - 63` on,
the first capacity whose sum wraps. -/
theorem C37_word_count_wraps :
    word_count 4294967295 = 0 ∧ (4294967295 + 63) / 64 = 67108864 ∧
    (bounded_set.new 4294967295).size = 4294967295 ∧
    (bounded_set.new 4294967295).m_bit_array.length = 0 ∧
    (sparse_set.new 4294967295).m_bit_array.length = 0 ∧
    ((bounded_set.new 100).resize 4294967295).m_bit_array.length = 0 ∧
    ((sparse_set.new 100).resize 4294967295).m_bit_array.length = 0 ∧
    word_count 4294967233 = 0 ∧ (4294967233 + 63) / 64 = 67108864 ∧
    word_count 4294967232 = 67108863 ∧ (4294967232 + 63) / 64 = 67108863 := by
  decide

/-! ## `unordered_sparse_set`: capacity, swap-on-erase, bounds -/

theorem us_reachable_capacity (N : Nat) (s : unordered_sparse_set)
    (h : unordered_sparse_set.Reachable N s) : s.m_dense_capacity = N := by
  induction h with
  | init => rfl
  | @insert s s1 i b hs hi hins ih =>
    have hc := us_reachable_consistent N s hs
    rcases us_sparse_cases s i (by rw [hc.1]; exact hi) with habs | ⟨v, hv⟩
    · have hcap : s.m_dense.length < s.m_dense_capacity :=
        lt_of_lt_of_le (us_dense_length_lt N s hc i hi habs) hc.2.1
      rw [us_insert_absent s i habs hcap] at hins
      simp only [Option.some.injEq, Prod.mk.injEq] at hins
      rw [← hins.1]
      exact ih
    · rw [us_insert_present s i v hv] at hins
      simp only [Option.some.injEq, Prod.mk.injEq] at hins
      rw [← hins.1]
      exact ih
  | @erase s s1 i hs hi her ih =>
    have hc := us_reachable_consistent N s hs
    rcases us_sparse_cases s i (by rw [hc.1]; exact hi) with habs | ⟨v, hv⟩
    · rw [us_erase_absent s i habs] at her
      rw [← Option.some.inj her]
      exact ih
    · obtain ⟨last, _, herase⟩ := us_erase_present N s hc i v hv
      rw [herase] at her
      rw [← Option.some.inj her]
      split <;> exact ih
  | clear _ ih => exact ih

theorem us_dense_lt (N : Nat) (s : unordered_sparse_set) (hs : s.Consistent N) :
    ∀ e ∈ s.m_dense, e < N := by
  intro e he
  obtain ⟨slot, hslot⟩ := (us_mem_dense_iff N s hs e).mp he
  have := index_lt_of_some _ _ _ hslot
  rw [hs.1] at this
  exact this

theorem us_count_le (N : Nat) (s : unordered_sparse_set) (hs : s.Consistent N) :
    s.m_dense.length ≤ N := by
  rw [(us_count_members N s hs).length_eq]
  exact le_trans (List.length_filter_le _ _) (by rw [List.length_range])

/-- C35: in every state reachable from `unordered_sparse_set(N)` by `insert`,
`erase` and `clear` with keys below `N`: every element of `m_dense` is below
`N`, `m_dense` has no duplicates, `count() ≤ N`, the reserved storage is
still the `N` of the constructor, and `insert(i)` of any key `i < N`
returns with `m_dense` still within that storage: when it appends, there
was room for the new element, so nothing is reallocated. -/
theorem C35_dense_within_capacity (N : Nat) (s : unordered_sparse_set)
    (h : unordered_sparse_set.Reachable N s) :
    (∀ e ∈ s.m_dense, e < N) ∧ s.m_dense.Nodup ∧ s.count ≤ N ∧
    s.m_dense_capacity = N ∧
    ∀ i, i < N → ∃ s1 b, s.insert i = some (s1, b) ∧ s1.m_dense_capacity = N ∧
      s1.count ≤ N ∧ (b = true → s.m_dense.length < s.m_dense_capacity ∧
        s1.m_dense = s.m_dense ++ [i]) := by
  have hc := us_reachable_consistent N s h
  refine ⟨us_dense_lt N s hc, us_dense_nodup N s hc, us_count_le N s hc,
    us_reachable_capacity N s h, ?_⟩
  intro i hi
  obtain ⟨s1, b, hins, _, _, _, _⟩ := us_insert_spec N i hi s hc
  have hr1 : unordered_sparse_set.Reachable N s1 :=
    unordered_sparse_set.Reachable.insert h hi hins
  refine ⟨s1, b, hins, us_reachable_capacity N s1 hr1,
    us_count_le N s1 (us_reachable_consistent N s1 hr1), ?_⟩
  intro hb
  subst hb
  rcases us_sparse_cases s i (by rw [hc.1]; exact hi) with habs | ⟨v, hv⟩
  · have hcap : s.m_dense.length < s.m_dense_capacity :=
      lt_of_lt_of_le (us_dense_length_lt N s hc i hi habs) hc.2.1
    refine ⟨hcap, ?_⟩
    rw [us_insert_absent s i habs hcap] at hins
    simp only [Option.some.injEq, Prod.mk.injEq] at hins
    rw [← hins.1]
  · rw [us_insert_present s i v hv] at hins
    simp at hins

/-- Witness for C35: the state after `insert(3)`, `insert(1)`, `insert(4)`,
`erase(3)` on a set of capacity 5. -/
theorem C35_dense_within_capacity_witness :
    (∀ e ∈ (unordered_sparse_set.mk [none, some 1, none, none, some 0] [4, 1] 5).m_dense,
      e < 5) ∧
    (unordered_sparse_set.mk [none, some 1, none, none, some 0] [4, 1] 5).m_dense.Nodup ∧
    (unordered_sparse_set.mk [none, some 1, none, none, some 0] [4, 1] 5).count ≤ 5 ∧
    (unordered_sparse_set.mk [none, some 1, none, none, some 0] [4, 1] 5).m_dense_capacity
      = 5 :=
  have h := C35_dense_within_capacity 5
    (unordered_sparse_set.mk [none, some 1, none, none, some 0] [4, 1] 5)
    (unordered_sparse_set.Reachable.erase (i := 3)
      (unordered_sparse_set.Reachable.insert (i := 4) (b := true)
        (unordered_sparse_set.Reachable.insert (i := 1) (b := true)
          (unordered_sparse_set.Reachable.insert (i := 3) (b := true)
            unordered_sparse_set.Reachable.init (by decide) rfl)
          (by decide) rfl)
        (by decide) rfl)
      (by decide) rfl)
  ⟨h.1, h.2.1, h.2.2.1, h.2.2.2.1⟩

/-- C34: in an `unordered_sparse_set` whose back-reference invariant holds,
if key `i` is present at slot `p` of `m_dense` and `last` is
`m_dense.back()`, then `erase(i)` returns, `m_dense` has one element fewer
and `m_sparse[i]` is `nullptr`; when `i ≠ last`, `m_dense[p]` is `last` and
`m_sparse[last]` is the address of slot `p`, every other slot of `m_dense`
below the new length and every entry of `m_sparse` other than those of `i`
and `last` is unchanged; when `i = last`, `m_dense` only loses its last slot
and every entry of `m_sparse` other than that of `i` is unchanged.  The
invariant holds afterwards. -/
theorem C34_swap_on_erase (N i p : Nat) (s : unordered_sparse_set) (hs : s.Consistent N)
    (hp : s.m_sparse[i]? = some (some p)) :
    ∃ last s1, s.m_dense.getLast? = some last ∧ s.m_dense[p]? = some i ∧
      s.erase i = some s1 ∧ s1.m_dense.length + 1 = s.m_dense.length ∧
      s1.m_sparse[i]? = some none ∧ s1.Consistent N ∧
      (i ≠ last → s1.m_dense[p]? = some last ∧ s1.m_sparse[last]? = some (some p) ∧
        (∀ q, q < s1.m_dense.length → q ≠ p → s1.m_dense[q]? = s.m_dense[q]?) ∧
        (∀ e, e ≠ i → e ≠ last → s1.m_sparse[e]? = s.m_sparse[e]?)) ∧
      (i = last → s1.m_dense = s.m_dense.dropLast ∧
        ∀ e, e ≠ i → s1.m_sparse[e]? = s.m_sparse[e]?) := by
  have hiN : i < s.m_sparse.length := index_lt_of_some _ _ _ hp
  obtain ⟨hpi, hpL, last, hlast1, hlast2, _, hlastN, hiff⟩ := us_last_slot N s hs i p hp
  obtain ⟨last1, hl1, herase⟩ := us_erase_present N s hs i p hp
  have hll : last1 = last := by rw [hlast2] at hl1; exact (Option.some.inj hl1).symm
  subst hll
  refine ⟨last1, _, hlast1, hpi, herase, ?_, ?_, us_erase_consistent N s hs i p hp _ herase,
    ?_, ?_⟩
  · by_cases hil : i = last1
    · rw [if_neg (by simpa using hil)]
      simp only [List.length_dropLast]
      omega
    · rw [if_pos hil]
      simp only [List.length_dropLast, List.length_set]
      omega
  · by_cases hil : i = last1
    · rw [if_neg (by simpa using hil)]
      simp [List.getElem?_set, hiN]
    · rw [if_pos hil]
      simp [List.getElem?_set, hiN]
  · intro hil
    have hpne : p ≠ s.m_dense.length - 1 := fun h => hil (hiff.mpr h)
    rw [if_pos hil]
    refine ⟨?_, ?_, ?_, ?_⟩
    · show ((s.m_dense.set p last1).dropLast)[p]? = _
      rw [List.getElem?_dropLast, if_pos (by rw [List.length_set]; omega), List.getElem?_set,
        if_pos rfl, if_pos hpL]
    · show ((s.m_sparse.set last1 (some p)).set i none)[last1]? = _
      rw [List.getElem?_set, if_neg hil, List.getElem?_set, if_pos rfl, if_pos hlastN]
    · intro q hq hqp
      show ((s.m_dense.set p last1).dropLast)[q]? = _
      have hq1 : q < (s.m_dense.set p last1).length - 1 := by
        simpa [List.length_dropLast] using hq
      rw [List.getElem?_dropLast, if_pos hq1, List.getElem?_set, if_neg (Ne.symm hqp)]
    · intro e hei hel
      show ((s.m_sparse.set last1 (some p)).set i none)[e]? = _
      rw [List.getElem?_set, if_neg (Ne.symm hei), List.getElem?_set, if_neg (Ne.symm hel)]
  · intro hil
    rw [if_neg (by simpa using hil)]
    refine ⟨rfl, ?_⟩
    intro e hei
    show (s.m_sparse.set i none)[e]? = _
    rw [List.getElem?_set, if_neg (Ne.symm hei)]

theorem us_example_reachable :
    unordered_sparse_set.Reachable 5
      (unordered_sparse_set.mk [none, some 1, none, some 0, some 2] [3, 1, 4] 5) :=
  unordered_sparse_set.Reachable.insert (i := 4) (b := true)
    (unordered_sparse_set.Reachable.insert (i := 1) (b := true)
      (unordered_sparse_set.Reachable.insert (i := 3) (b := true)
        unordered_sparse_set.Reachable.init (by decide) rfl)
      (by decide) rfl)
    (by decide) rfl

/-- Witness for C34: capacity 5, the set holding 3, 1 and 4 in that order,
key 3 at slot 0, `last = 4`. -/
theorem C34_swap_on_erase_witness :
    ∃ last s1,
      (unordered_sparse_set.mk [none, some 1, none, some 0, some 2] [3, 1, 4] 5).m_dense.getLast?
        = some last ∧
      (unordered_sparse_set.mk [none, some 1, none, some 0, some 2] [3, 1, 4] 5).erase 3
        = some s1 ∧
      s1.m_dense = [4, 1] ∧ s1.m_sparse = [none, some 1, none, none, some 0] ∧ last = 4 := by
  obtain ⟨last, s1, h1, _, h3, _⟩ := C34_swap_on_erase 5 3 0
    (unordered_sparse_set.mk [none, some 1, none, some 0, some 2] [3, 1, 4] 5)
    (us_reachable_consistent 5 _ us_example_reachable) rfl
  have hl : last = 4 := by
    have : (some 4 : Option Nat) = some last := h1
    exact (Option.some.inj this).symm
  have hs1 : s1 = unordered_sparse_set.mk [none, some 1, none, none, some 0] [4, 1] 5 := by
    have : some (unordered_sparse_set.mk [none, some 1, none, none, some 0] [4, 1] 5)
        = some s1 := h3
    exact (Option.some.inj this).symm
  subst hs1
  exact ⟨last, _, h1, h3, rfl, rfl, hl⟩

/-! ## `sparse_set` bounds without a cache -/

/-- C32: in every reachable `sparse_set` state with `m_iterator_present`
`false`, `m_sequence` is empty, and for every key `k` `lower_bound(k)` and
`upper_bound(k)` return position `0`, the end of that empty sequence,
whatever the bitmap holds; the calls leave the object as it is, the flag
`false` and the sequence empty. -/
theorem C32_bounds_without_cache (s : sparse_set) (hr : sparse_set.ReachableAny s)
    (hflag : s.m_iterator_present = false) (k : Nat) :
    s.m_sequence = [] ∧
    s.lower_bound k = some 0 ∧ s.upper_bound k = some 0 ∧
    s.lower_bound k = some s.m_sequence.length ∧ s.upper_bound k = some s.m_sequence.length ∧
    (∀ s1, s.after (sparse_set.call.lower_bound k) = some s1 →
      s1.m_iterator_present = false ∧ s1.m_sequence = [] ∧ s1 = s) ∧
    (∀ s1, s.after (sparse_set.call.upper_bound k) = some s1 →
      s1.m_iterator_present = false ∧ s1.m_sequence = [] ∧ s1 = s) ∧
    s.after (sparse_set.call.lower_bound k) = some s ∧
    s.after (sparse_set.call.upper_bound k) = some s := by
  have hseq := (ss_reachable_any_inv s hr).2.2.2 hflag
  have hlo : s.lower_bound k = some 0 := by
    unfold sparse_set.lower_bound
    rw [hseq]
    rfl
  have hhi : s.upper_bound k = some 0 := by
    unfold sparse_set.upper_bound
    rw [hseq]
    rfl
  refine ⟨hseq, hlo, hhi, by rw [hlo, hseq]; rfl, by rw [hhi, hseq]; rfl, ?_, ?_, rfl, rfl⟩
  · intro s1 h1
    have : s = s1 := Option.some.inj h1
    subst this
    exact ⟨hflag, hseq, rfl⟩
  · intro s1 h1
    have : s = s1 := Option.some.inj h1
    subst this
    exact ⟨hflag, hseq, rfl⟩

/-- Witness for C32: the state after `insert(70)`, `insert(5)` on a set of
capacity 100, with no cache built: 70 is a member `≥ 6`, yet
`lower_bound(6)` and `upper_bound(6)` are position `0`. -/
theorem C32_bounds_without_cache_witness :
    (sparse_set.mk 100 [32, 64] [] false).test 70 = some true ∧
    (sparse_set.mk 100 [32, 64] [] false).m_sequence = [] ∧
    (sparse_set.mk 100 [32, 64] [] false).lower_bound 6 = some 0 ∧
    (sparse_set.mk 100 [32, 64] [] false).upper_bound 6 = some 0 :=
  have h := C32_bounds_without_cache (sparse_set.mk 100 [32, 64] [] false)
    (sparse_set.ReachableAny.call (sparse_set.call.insert 5)
      (sparse_set.ReachableAny.call (sparse_set.call.insert 70)
        (sparse_set.ReachableAny.init 100) rfl)
      rfl)
    rfl 6
  ⟨by decide, h.1, h.2.1, h.2.2.1⟩

/-! ## `unordered_sparse_set` bounds after ascending inserts -/

theorem us_insert_increasing (N : Nat) : ∀ (keys : List Nat) (s : unordered_sparse_set),
    s.Consistent N → (∀ x ∈ keys, x < N) → keys.Pairwise (fun x y => x < y) →
    (∀ e ∈ s.m_dense, ∀ x ∈ keys, e < x) →
    ∃ s1, unordered_sparse_set.ops.run s (keys.map set_call.insert)
        = some (s1, keys.map (fun _ => set_result.flag true)) ∧
      s1.m_dense = s.m_dense ++ keys ∧ s1.Consistent N := by
  intro keys
  induction keys with
  | nil =>
    intro s hs _ _ _
    exact ⟨s, rfl, by simp, hs⟩
  | cons x rest ih =>
    intro s hs hlt hsorted hbelow
    have hxN : x < N := hlt x (List.mem_cons_self _ _)
    have habs : s.m_sparse[x]? = some none := by
      rcases us_sparse_cases s x (by rw [hs.1]; exact hxN) with h | ⟨v, hv⟩
      · exact h
      · have hmem := (us_mem_dense_iff N s hs x).mpr ⟨v, hv⟩
        have := hbelow x hmem x (List.mem_cons_self _ _)
        omega
    have hcap : s.m_dense.length < s.m_dense_capacity :=
      lt_of_lt_of_le (us_dense_length_lt N s hs x hxN habs) hs.2.1
    have hins := us_insert_absent s x habs hcap
    have hcons := us_insert_consistent N s hs x habs
    have hp := List.pairwise_cons.mp hsorted
    obtain ⟨s1, h1, h2, h3⟩ := ih _ hcons (fun y hy => hlt y (List.mem_cons_of_mem _ hy)) hp.2
      (fun e he y hy => by
        rcases List.mem_append.mp he with h | h
        · exact hbelow e h y (List.mem_cons_of_mem _ hy)
        · rw [List.mem_singleton.mp h]
          exact hp.1 y hy)
    refine ⟨s1, ?_, by rw [h2]; simp, h3⟩
    have hins1 : unordered_sparse_set.ops.insert s x = _ := hins
    simp only [List.map_cons, set_ops.run, set_ops.apply, hins1, Option.map_some', h1]

/-- C36: for every strictly increasing list of keys below `N`, inserted in
that order into an `unordered_sparse_set` constructed for `N`: every
`insert` returns `true`, `m_dense` is that list, and for every key `k`
`lower_bound(k)` is the position of the first element `≥ k` and
`upper_bound(k)` the position of the first element `> k`, each the end
position `m_dense.size()` when there is no such element. -/
theorem C36_unordered_bounds (N : Nat) (keys : List Nat)
    (hsorted : keys.Pairwise (fun x y => x < y)) (hlt : ∀ x ∈ keys, x < N) (k : Nat) :
    ∃ s, unordered_sparse_set.ops.run (unordered_sparse_set.new N) (keys.map set_call.insert)
        = some (s, keys.map (fun _ => set_result.flag true)) ∧
      s.m_dense = keys ∧
      (∃ lo, s.lower_bound k = some lo ∧ lo ≤ s.m_dense.length ∧
        (∀ j x, j < lo → s.m_dense[j]? = some x → x < k) ∧
        (∀ x, s.m_dense[lo]? = some x → k ≤ x) ∧
        ((∀ x ∈ keys, x < k) → lo = s.m_dense.length)) ∧
      (∃ hi, s.upper_bound k = some hi ∧ hi ≤ s.m_dense.length ∧
        (∀ j x, j < hi → s.m_dense[j]? = some x → x ≤ k) ∧
        (∀ x, s.m_dense[hi]? = some x → k < x) ∧
        ((∀ x ∈ keys, x ≤ k) → hi = s.m_dense.length)) := by
  obtain ⟨s, hrun, hdense, _⟩ := us_insert_increasing N keys (unordered_sparse_set.new N)
    (us_new_consistent N) hlt hsorted (fun e he => by cases he)
  have hd : s.m_dense = keys := by rw [hdense]; rfl
  have hs : s.m_dense.Pairwise (fun x y => x < y) := by rw [hd]; exact hsorted
  refine ⟨s, hrun, hd, ?_, ?_⟩
  · obtain ⟨lo, h1, h2, h3, h4⟩ := std_lower_bound_loop_spec s.m_dense hs k s.m_dense.length 0
      s.m_dense.length (le_refl _) (by omega) (fun j x hj _ => absurd hj (Nat.not_lt_zero _))
      (fun j x hj hjx => by have := index_lt_of_some _ j x hjx; omega)
    refine ⟨lo, h1, h2, h3, fun x hx => by have := h4 lo x (le_refl _) hx; omega, ?_⟩
    intro hall
    by_contra hne
    have hlt1 : lo < s.m_dense.length := by omega
    have hx := h4 lo _ (le_refl _) (List.getElem?_eq_getElem hlt1)
    exact hx (hall _ (by rw [← hd]; exact List.getElem_mem hlt1))
  · obtain ⟨hi, h1, h2, h3, h4⟩ := std_upper_bound_loop_spec s.m_dense hs k s.m_dense.length 0
      s.m_dense.length (le_refl _) (by omega) (fun j x hj _ => absurd hj (Nat.not_lt_zero _))
      (fun j x hj hjx => by have := index_lt_of_some _ j x hjx; omega)
    refine ⟨hi, h1, h2, h3, fun x hx => by have := h4 hi x (le_refl _) hx; omega, ?_⟩
    intro hall
    by_contra hne
    have hlt1 : hi < s.m_dense.length := by omega
    have hx := h4 hi _ (le_refl _) (List.getElem?_eq_getElem hlt1)
    exact hx (hall _ (by rw [← hd]; exact List.getElem_mem hlt1))

/-- Witness for C36: capacity 10, the keys 2, 5, 7 inserted in that order,
`k = 5`: `lower_bound(5)` is position 1 and `upper_bound(5)` position 2. -/
theorem C36_unordered_bounds_witness :
    ∃ s, unordered_sparse_set.ops.run (unordered_sparse_set.new 10)
        ([2, 5, 7].map set_call.insert)
        = some (s, [2, 5, 7].map (fun _ => set_result.flag true)) ∧
      s.m_dense = [2, 5, 7] ∧ s.lower_bound 5 = some 1 ∧ s.upper_bound 5 = some 2 := by
  obtain ⟨s, h1, h2, _⟩ := C36_unordered_bounds 10 [2, 5, 7] (by decide) (by decide) 5
  refine ⟨s, h1, h2, ?_, ?_⟩
  · unfold unordered_sparse_set.lower_bound
    rw [h2]
    rfl
  · unfold unordered_sparse_set.upper_bound
    rw [h2]
    rfl

/-! ## `begin()` against `end()` on `bounded_set` -/

theorem bs_begin_eq_end_iff (N : Nat) (hN1 : 1 ≤ N) (hN : N + 63 < 2 ^ 32) (s : bounded_set)
    (hs : bounded_set.Reachable N s) :
    ∃ it0, s.begin_ = some it0 ∧
      (bounded_set.iterator.eq it0 s.end_ = true ↔ s.members N = []) ∧
      ∀ m, s.test m = some true →
        bounded_set.iterator.eq (bounded_set.iterator.on_key N s.m_bit_array m) s.end_
          = false := by
  obtain ⟨hsize, hlen, ha, hb⟩ := bs_reachable_shape N hN s hs
  have hbegin : s.begin_
      = some (bounded_set.iterator.at_front N s.m_bit_array (set_bits s.m_bit_array)) := by
    unfold bounded_set.begin_
    rw [hsize]
    exact first_front N s.m_bit_array hN1 hN hlen ha hb
  refine ⟨_, hbegin, ?_, ?_⟩
  · rw [bs_members_eq N s hb]
    cases hL : set_bits s.m_bit_array with
    | nil =>
      constructor
      · exact fun _ => rfl
      · exact fun _ => eq_front_nil N _
    | cons q rest =>
      have hq : q ∈ set_bits s.m_bit_array := by rw [hL]; exact List.mem_cons_self _ _
      have hqN := hb q ((mem_set_bits _ q).mp hq)
      have hne := eq_on_key_end N s.m_bit_array q (by omega)
      constructor
      · intro h
        have h1 : bounded_set.iterator.eq (bounded_set.iterator.on_key N s.m_bit_array q)
            bounded_set.iterator.empty = true := h
        rw [hne] at h1
        cases h1
      · intro h
        cases h
  · intro m hm
    have hmN := hb m ((bs_test_true_iff s m).mp hm)
    exact eq_on_key_end N s.m_bit_array m (by omega)

/-- C33 fails on the code: the `bounded_set` of capacity `0`, which is also
what the default constructor builds, has no word and no member (`count()` is
`0`, `empty()` is `true`, no key tests `true`), yet `begin()` is the cursor
at slot `0`, bit `0`, which differs from `end()`, and the loop from `begin()`
to `end()` visits the key `0`. -/
theorem C33_begin_differs_from_end_at_capacity_zero :
    bounded_set.new 0 = bounded_set.new_default ∧
    bounded_set.Reachable 0 (bounded_set.new 0) ∧
    (bounded_set.new 0).count = 0 ∧ (bounded_set.new 0).empty = true ∧
    (∀ i, (bounded_set.new 0).test i ≠ some true) ∧
    (∃ it0, (bounded_set.new 0).begin_ = some it0 ∧
      bounded_set.iterator.eq it0 (bounded_set.new 0).end_ = false ∧
      bounded_set.iterator.ne it0 (bounded_set.new 0).end_ = true ∧ it0.deref = 0) ∧
    (bounded_set.new 0).iterate 1 = some [0] ∧
    (bounded_set.new 0).iterate 2 = some [0] := by
  refine ⟨rfl, bounded_set.Reachable.init, by decide, by decide, ?_,
    ⟨_, rfl, by decide, by decide, by decide⟩, by decide, by decide⟩
  intro i
  rw [bs_test_eq, if_neg (by show ¬ i / 64 < 0; omega)]
  simp

/-! ## Build, iterate, tear down -/

theorem sound_run_inserts {σ : Type} (ops : set_ops σ) (N : Nat) (Inv : σ → Prop)
    (hS : ops.Sound N Inv) : ∀ (keys : List Nat) (s : σ), Inv s → (∀ x ∈ keys, x < N) →
    ∃ s1 rs, ops.run s (keys.map set_call.insert) = some (s1, rs) ∧ Inv s1 ∧
      ∀ j, j < N → (ops.test s1 j = some true ↔ (ops.test s j = some true ∨ j ∈ keys)) := by
  intro keys
  induction keys with
  | nil =>
    intro s hs _
    exact ⟨s, [], rfl, hs, fun j _ => by simp⟩
  | cons x rest ih =>
    intro s hs hlt
    obtain ⟨s1, b, h1, h2, _, h4, h5⟩ := hS.insert_spec s x hs (hlt x (List.mem_cons_self _ _))
    obtain ⟨s2, rs, k1, k2, k3⟩ := ih s1 h2 (fun y hy => hlt y (List.mem_cons_of_mem _ hy))
    refine ⟨s2, set_result.flag b :: rs, ?_, k2, ?_⟩
    · simp only [List.map_cons, set_ops.run, set_ops.apply, h1, Option.map_some', k1]
    · intro j hj
      rw [k3 j hj]
      by_cases hjx : j = x
      · subst hjx
        simp [h4]
      · rw [h5 j hj hjx]
        simp [hjx]

theorem sound_run_erases {σ : Type} (ops : set_ops σ) (N : Nat) (Inv : σ → Prop)
    (hS : ops.Sound N Inv) : ∀ (keys : List Nat) (s : σ), Inv s → (∀ x ∈ keys, x < N) →
    ∃ s1 rs, ops.run s (keys.map set_call.erase) = some (s1, rs) ∧ Inv s1 ∧
      ∀ j, j < N → (ops.test s1 j = some true ↔ (ops.test s j = some true ∧ j ∉ keys)) := by
  intro keys
  induction keys with
  | nil =>
    intro s hs _
    exact ⟨s, [], rfl, hs, fun j _ => by simp⟩
  | cons x rest ih =>
    intro s hs hlt
    obtain ⟨s1, h1, h2, h4, h5⟩ := hS.erase_spec s x hs (hlt x (List.mem_cons_self _ _))
    obtain ⟨s2, rs, k1, k2, k3⟩ := ih s1 h2 (fun y hy => hlt y (List.mem_cons_of_mem _ hy))
    refine ⟨s2, set_result.nothing :: rs, ?_, k2, ?_⟩
    · simp only [List.map_cons, set_ops.run, set_ops.apply, h1, Option.map_some', k1]
    · intro j hj
      rw [k3 j hj]
      by_cases hjx : j = x
      · subst hjx
        simp [h4]
      · rw [h5 j hj hjx]
        simp [hjx]

theorem members_perm_keys (N : Nat) (keys : List Nat) (hnd : keys.Nodup)
    (hlt : ∀ x ∈ keys, x < N) (t : Nat → Option Bool)
    (ht : ∀ j, j < N → (t j = some true ↔ j ∈ keys)) :
    ((List.range N).filter (fun i => t i == some true)).Perm keys := by
  apply List.perm_of_nodup_nodup_toFinset_eq ((List.nodup_range N).filter _) hnd
  ext j
  rw [List.mem_toFinset, List.mem_toFinset, List.mem_filter, List.mem_range]
  constructor
  · rintro ⟨hj, h⟩
    exact (ht j hj).mp (by simpa using h)
  · intro hj
    exact ⟨hlt j hj, by simpa using (ht j (hlt j hj)).mpr hj⟩

theorem sound_build_tear_down {σ : Type} (ops : set_ops σ) (N : Nat) (Inv : σ → Prop)
    (hS : ops.Sound N Inv) (keys : List Nat) (hnd : keys.Nodup) (hlt : ∀ x ∈ keys, x < N) :
    ∃ s1 rs, ops.run (ops.new N) (keys.map set_call.insert) = some (s1, rs) ∧ Inv s1 ∧
      (∀ j, j < N → (ops.test s1 j = some true ↔ j ∈ keys)) ∧
      ((List.range N).filter (fun i => ops.test s1 i == some true)).Perm keys ∧
      ops.count s1 = keys.length ∧
      ∀ s2, Inv s2 → (∀ j, j < N → ops.test s2 j = ops.test s1 j) →
        ∃ s3 rs3, ops.run s2 (keys.map set_call.erase) = some (s3, rs3) ∧ Inv s3 ∧
          ops.count s3 = 0 ∧ ops.empty s3 = true := by
  obtain ⟨s1, rs, h1, h2, h3⟩ := sound_run_inserts ops N Inv hS keys (ops.new N) hS.new_inv hlt
  have hmem : ∀ j, j < N → (ops.test s1 j = some true ↔ j ∈ keys) := by
    intro j hj
    rw [h3 j hj, hS.new_test j hj]
    simp
  have hperm := members_perm_keys N keys hnd hlt (ops.test s1) hmem
  refine ⟨s1, rs, h1, h2, hmem, hperm, by rw [hS.count_spec s1 h2]; exact hperm.length_eq, ?_⟩
  intro s2 hs2 hsame
  obtain ⟨s3, rs3, k1, k2, k3⟩ := sound_run_erases ops N Inv hS keys s2 hs2 hlt
  have hnone : ∀ j, j < N → ops.test s3 j ≠ some true := by
    intro j hj h
    have := (k3 j hj).mp h
    rw [hsame j hj, hmem j hj] at this
    exact this.2 this.1
  refine ⟨s3, rs3, k1, k2, ?_, (hS.empty_spec s3 k2).mpr hnone⟩
  rw [hS.count_spec s3 k2, List.length_eq_zero, List.filter_eq_nil_iff]
  intro j hj
  have := hnone j (List.mem_range.mp hj)
  simpa using this

/-- C31 (as amended): for every duplicate-free list of keys below `N`.  On a
`bounded_set` and on a `sparse_set` constructed for `N` with
`1 ≤ N ≤ 2 ^ 32 - 64`, and on an `unordered_sparse_set` constructed for any
`N`: inserting every key of the list returns; then `count()` is the length
of the list and the loop from `begin()` to `end()` ends and visits that many
elements, a rearrangement of the list; erasing every key of the list then
returns and leaves `count() == 0` and `empty()` `true`. -/
theorem C31_build_then_tear_down (N : Nat) (keys : List Nat) (hnd : keys.Nodup)
    (hlt : ∀ x ∈ keys, x < N) :
    (1 ≤ N → N + 63 < 2 ^ 32 →
      (∃ b rs, bounded_set.ops.run (bounded_set.new N) (keys.map set_call.insert)
          = some (b, rs) ∧ b.count = keys.length ∧
        (∃ L, (∀ steps, b.iterate steps = if L.length ≤ steps then some L else none) ∧
          L.length = keys.length ∧ L.Perm keys) ∧
        ∃ b2 rs2, bounded_set.ops.run b (keys.map set_call.erase) = some (b2, rs2) ∧
          b2.count = 0 ∧ b2.empty = true) ∧
      (∃ s rs, sparse_set.ops.run (sparse_set.new N) (keys.map set_call.insert)
          = some (s, rs) ∧ s.count = keys.length ∧
        ∃ s1 L, s.iterate = some (s1, L) ∧ L.length = keys.length ∧ L.Perm keys ∧
          s1.count = keys.length ∧
          ∃ s2 rs2, sparse_set.ops.run s1 (keys.map set_call.erase) = some (s2, rs2) ∧
            s2.count = 0 ∧ s2.empty = true)) ∧
    (∃ u rs, unordered_sparse_set.ops.run (unordered_sparse_set.new N)
        (keys.map set_call.insert) = some (u, rs) ∧ u.count = keys.length ∧
      u.iterate.length = keys.length ∧ u.iterate.Perm keys ∧
      ∃ u2 rs2, unordered_sparse_set.ops.run u (keys.map set_call.erase) = some (u2, rs2) ∧
        u2.count = 0 ∧ u2.empty = true) := by
  refine ⟨fun hN1 hN => ⟨?_, ?_⟩, ?_⟩
  · obtain ⟨b, rs, h1, h2, _, hperm, hcount, herase⟩ := sound_build_tear_down bounded_set.ops N _
      (bs_ops_sound N hN) keys hnd hlt
    obtain ⟨b2, rs2, k1, _, k3, k4⟩ := herase b h2 (fun _ _ => rfl)
    exact ⟨b, rs, h1, hcount, ⟨b.members N, bs_iterate_spec N hN1 hN b h2, hperm.length_eq,
      hperm⟩, b2, rs2, k1, k3, k4⟩
  · obtain ⟨s, rs, h1, h2, _, hperm, hcount, herase⟩ := sound_build_tear_down sparse_set.ops N _
      (ss_ops_sound N hN) keys hnd hlt
    have hinv := ss_reachable_any_inv s (ss_reachable_any N s h2)
    have hiter := ss_iterate_spec s hinv.1 hinv.2.1 hinv.2.2.1 hinv.2.2.2
    have hens := ensure_sequence_spec s hinv.1 hinv.2.1 hinv.2.2.1 hinv.2.2.2
    have hmem := ss_members_eq N s (ss_reachable_bits N s h2)
    have hreach : sparse_set.Reachable N
        ⟨s.m_size, s.m_bit_array, set_bits s.m_bit_array, true⟩ :=
      @sparse_set.Reachable.begin_ N s _ 0 h2 (by
        unfold sparse_set.begin_
        rw [hens]
        rfl)
    obtain ⟨s2, rs2, k1, _, k3, k4⟩ := herase _ hreach (fun _ _ => rfl)
    have hpermL : (set_bits s.m_bit_array).Perm keys := by
      rw [← hmem]
      exact hperm
    refine ⟨s, rs, h1, hcount, _, _, hiter, hpermL.length_eq, hpermL, ?_, s2, rs2, k1, k3, k4⟩
    show (set_bits s.m_bit_array).length = keys.length
    exact hpermL.length_eq
  · obtain ⟨u, rs, h1, h2, _, hperm, hcount, herase⟩ := sound_build_tear_down
      unordered_sparse_set.ops N _ (us_ops_sound N) keys hnd hlt
    obtain ⟨u2, rs2, k1, _, k3, k4⟩ := herase u h2 (fun _ _ => rfl)
    exact ⟨u, rs, h1, hcount, hcount, (us_count_members N u h2).trans hperm, u2, rs2, k1, k3,
      k4⟩

/-- Witness for C31: capacity 100 and the keys 70, 5, 3. -/
theorem C31_build_then_tear_down_witness :
    (∃ b rs, bounded_set.ops.run (bounded_set.new 100) ([70, 5, 3].map set_call.insert)
        = some (b, rs) ∧ b.count = 3 ∧
      (∃ L, (∀ steps, b.iterate steps = if L.length ≤ steps then some L else none) ∧
        L.length = 3 ∧ L.Perm [70, 5, 3]) ∧
      ∃ b2 rs2, bounded_set.ops.run b ([70, 5, 3].map set_call.erase) = some (b2, rs2) ∧
        b2.count = 0 ∧ b2.empty = true) ∧
    (∃ u rs, unordered_sparse_set.ops.run (unordered_sparse_set.new 100)
        ([70, 5, 3].map set_call.insert) = some (u, rs) ∧ u.count = 3 ∧
      u.iterate.length = 3 ∧ u.iterate.Perm [70, 5, 3] ∧
      ∃ u2 rs2, unordered_sparse_set.ops.run u ([70, 5, 3].map set_call.erase)
          = some (u2, rs2) ∧ u2.count = 0 ∧ u2.empty = true) :=
  have h := C31_build_then_tear_down 100 [70, 5, 3] (by decide) (by decide)
  ⟨(h.1 (by decide) (by decide)).1, h.2⟩

/-- C31 as stated fails.  For capacity `0` and the empty list, `count()` is
`0` but the loop over the `bounded_set` visits one element, the key `0`.
For capacity `2 ^ 32` and the list holding the key `0`, `insert(0)` reads
outside the empty bitmap of the `bounded_set` and of the `sparse_set`. -/
theorem C31_fails_at_capacity_0_and_beyond_32_bit :
    (bounded_set.ops.run (bounded_set.new 0) (([] : List Nat).map set_call.insert)
        = some (bounded_set.new 0, []) ∧
      (bounded_set.new 0).count = ([] : List Nat).length ∧
      (bounded_set.new 0).iterate 1 = some [0]) ∧
    (([0] : List Nat).Nodup ∧ (∀ x ∈ ([0] : List Nat), x < 4294967296) ∧
      bounded_set.ops.run (bounded_set.new 4294967296) ([0].map set_call.insert) = none ∧
      sparse_set.ops.run (sparse_set.new 4294967296) ([0].map set_call.insert) = none) :=
  ⟨⟨rfl, by decide, by decide⟩, by decide, by decide, by decide, by decide⟩
